import Mathlib

/-!
# Hypergraph transforms: weight pushing, start-state isolation, span sub-union

A shallow embedding of `sdl/Hypergraph/PushWeights.hpp`,
`sdl/Hypergraph/IsolateStartState.hpp`, `sdl/Hypergraph/Transform.hpp` and
`sdl/Hypergraph/SubUnion.hpp`.

Conventions of the embedding:

* a hypergraph is a record of its state labels, its arc list (in `forArcs`
  order), its start and final state, its property bitset and a flag telling
  whether the object is an `IMutableHypergraph`;
* `SdlFloat` is modelled with exact rational arithmetic plus the three special
  values of IEEE arithmetic (`+inf`, `-inf`, `NaN`); the rounding of its
  operations is modelled for `PushCostsToStart`, in the section on rounded
  arithmetic, where the exact definitions are the case of a rounding that
  changes nothing;
* a C++ procedure that mutates its hypergraph and may throw is a function to
  `Outcome`: the hypergraph as it is when the procedure returns or throws, and
  the exception if one was thrown;
* a recursive C++ procedure is a function to `Res` whose first argument bounds
  the depth of the recursion: it ends with a value, with an exception, with an
  operation whose behaviour is undefined, or with the budget exhausted.
-/

namespace Hyp

/-! ## Data model -/

/-- State identifiers are dense machine integers. -/
abbrev StateId := Nat

/-- Modelled from the spec: the sentinel "no state" (`kNoState`), the largest
32-bit state id; its declaration is in a header that is not part of the
sources at hand. -/
def kNoState : StateId := 4294967295

/-- Exact-arithmetic model of `SdlFloat`: a rational, or one of the IEEE special
values. The values of a floating-point format are among the rationals; the
operations below do not round, `FloatFormat.round` rounds their result. -/
inductive SdlFloat where
  | fin (q : ℚ)
  | posInf
  | negInf
  | nan
deriving DecidableEq

namespace SdlFloat

/-- IEEE addition without rounding. -/
def add : SdlFloat → SdlFloat → SdlFloat
  | fin a, fin b => fin (a + b)
  | nan, _ => nan
  | _, nan => nan
  | posInf, negInf => nan
  | negInf, posInf => nan
  | posInf, _ => posInf
  | _, posInf => posInf
  | negInf, _ => negInf
  | _, negInf => negInf

/-- IEEE negation. -/
def neg : SdlFloat → SdlFloat
  | fin a => fin (-a)
  | posInf => negInf
  | negInf => posInf
  | nan => nan

/-- IEEE subtraction without rounding. -/
def sub (a b : SdlFloat) : SdlFloat := add a (neg b)

/-- IEEE `<`: false as soon as one side is `NaN`. -/
def lt : SdlFloat → SdlFloat → Bool
  | fin a, fin b => decide (a < b)
  | fin _, posInf => true
  | negInf, fin _ => true
  | negInf, posInf => true
  | _, _ => false

/-- The C++ `std::min(a, b)`, that is `(b < a) ? b : a`. -/
def min (a b : SdlFloat) : SdlFloat := if lt b a then b else a

instance : Add SdlFloat := ⟨add⟩
instance : Sub SdlFloat := ⟨sub⟩
instance : Zero SdlFloat := ⟨fin 0⟩

/-- The constant `HUGE_VAL`. -/
def HUGE_VAL : SdlFloat := posInf

/-- Modelled from the spec: `graehl::is_inf`, true of both infinities (the header
`graehl/shared/nan.hpp` is not part of the sources at hand). -/
def is_inf : SdlFloat → Bool
  | posInf => true
  | negInf => true
  | _ => false

/-- A finite value. -/
def isFinite : SdlFloat → Bool
  | fin _ => true
  | _ => false

/-- The rational value of a finite cost (`0` for the special values). -/
def finVal : SdlFloat → ℚ
  | fin q => q
  | _ => 0

/-- A cost that is a number or `+inf`. -/
def Valid (x : SdlFloat) : Prop := x ≠ nan ∧ x ≠ negInf

end SdlFloat

/-- Symbols: interned (type, text) pairs. The vocabulary is a bijection between
symbols and such pairs, so a symbol is represented by the pair itself. -/
inductive Sym where
  | noSymbol
  | terminal (text : String)
  | nonterminal (text : String)
deriving DecidableEq

/-- The structural property bitset. -/
abbrev Properties := Nat

/-- Modelled from the spec: the property bit "has in-arc index by head". -/
def kStoreInArcs : Properties := 1

/-- Modelled from the spec: the property bit "has out-arc index keyed by
first tail". -/
def kStoreFirstTailOutArcs : Properties := 2

/-- A hyperarc: one head, an ordered sequence of tails, a weight. -/
structure Arc (W : Type) where
  head_ : StateId
  tails_ : List StateId
  weight_ : W
deriving DecidableEq

/-- A vocabulary handle `IVocabularyPtr`: the identity of the vocabulary object
it points to, or `none` for the null pointer. -/
abbrev IVocabularyPtr := Option Nat

/-- A hypergraph object. `labels_` holds the input label of each state, so the
states are `0 .. labels_.length - 1`; `arcs_` is the arc store in `forArcs`
order; `mutable_` is `isMutable()`; `vocab_` is the vocabulary handle, null on
a new object. -/
structure IHypergraph (W : Type) where
  mutable_ : Bool
  properties_ : Properties
  labels_ : List Sym
  arcs_ : List (Arc W)
  start_ : StateId
  final_ : StateId
  vocab_ : IVocabularyPtr := none
deriving DecidableEq

/-- The exceptions raised by the transforms. -/
inductive Exception where
  | ConfigException
  | SelfModifyException
  | ImmutableHypergraphException
  | ProgrammerMistakeException
  | InvalidInputException
deriving DecidableEq

/-- The state of the hypergraph when a procedure returns or throws, and the
exception thrown, if any. -/
structure Outcome (W : Type) where
  hg : IHypergraph W
  error : Option Exception
deriving DecidableEq

namespace IHypergraph

variable {W : Type}

/-- `size()`: the number of states. -/
def size (hg : IHypergraph W) : Nat := hg.labels_.length

/-- `sizeForHeads()`: the size of an array indexed by the states that can be
heads. -/
def sizeForHeads (hg : IHypergraph W) : Nat := hg.labels_.length

/-- `isMutable()`. -/
def isMutable (hg : IHypergraph W) : Bool := hg.mutable_

/-- `start()`. -/
def start (hg : IHypergraph W) : StateId := hg.start_

/-- `final()`. -/
def final (hg : IHypergraph W) : StateId := hg.final_

/-- Modelled from the spec: `isGraph()`, "true iff every arc has exactly one
tail". -/
def isGraph (hg : IHypergraph W) : Bool := hg.arcs_.all (fun a => a.tails_.length == 1)

/-- Modelled from the spec: `setEmpty()` "collapses the graph to the canonical
empty-language representation": no states, no arcs, no start, no final. -/
def setEmpty (hg : IHypergraph W) : IHypergraph W :=
  { hg with labels_ := [], arcs_ := [], start_ := kNoState, final_ := kNoState }

/-- Modelled from the spec: `prunedEmpty()`, true when the graph is known to be
empty, which is the state `setEmpty` leaves: there is no final state. -/
def prunedEmpty (hg : IHypergraph W) : Bool := hg.final_ == kNoState

/-- `forceFirstTailOutArcs()`: materialise the first-tail out-arc index. -/
def forceFirstTailOutArcs (hg : IHypergraph W) : IHypergraph W :=
  { hg with properties_ := hg.properties_ ||| kStoreFirstTailOutArcs }

/-- `inArcIds(s)` / `inArc(s, id)`: the arcs whose head is `s`, in store order. -/
def inArcs (hg : IHypergraph W) (s : StateId) : List (Arc W) :=
  hg.arcs_.filter (fun a => a.head_ == s)

/-- `inputLabel(s)`; a state without a label has `NoSymbol`. -/
def inputLabel (hg : IHypergraph W) (s : StateId) : Sym := hg.labels_.getD s Sym.noSymbol

/-- `hasLexicalLabel(s)`. -/
def hasLexicalLabel (hg : IHypergraph W) (s : StateId) : Bool :=
  match hg.inputLabel s with
  | Sym.terminal _ => true
  | _ => false

/-- `addState(label)`: the new state gets the next free id. -/
def addState (hg : IHypergraph W) (label : Sym) : IHypergraph W × StateId :=
  ({ hg with labels_ := hg.labels_ ++ [label] }, hg.labels_.length)

/-- `addArc(arc)`: the arc is appended to the arc store. -/
def addArc (hg : IHypergraph W) (a : Arc W) : IHypergraph W :=
  { hg with arcs_ := hg.arcs_ ++ [a] }

/-- `setStart(s)`. -/
def setStart (hg : IHypergraph W) (s : StateId) : IHypergraph W := { hg with start_ := s }

/-- `forArcs(f)` for a visitor that rewrites each arc in place. -/
def forArcs (hg : IHypergraph W) (f : Arc W → Arc W) : IHypergraph W :=
  { hg with arcs_ := hg.arcs_.map f }

end IHypergraph

/-- The first tail `arc.tails_[0]`; on an arc without tails the C++ read is out
of bounds, here it yields `kNoState`. -/
def Arc.firstTail {W : Type} (a : Arc W) : StateId := a.tails_.headD kNoState

/-! ## PushCostsToStart -/

/-- One relaxation round of the inside costs: the start state costs `0`, any
other state the least `cost + inside[tail]` over its in-arcs. -/
def insideStep (hg : IHypergraph SdlFloat) (prev : StateId → SdlFloat) (s : StateId) : SdlFloat :=
  if s = hg.start_ then 0
  else (hg.inArcs s).foldl (fun acc a => SdlFloat.min acc (a.weight_ + prev a.firstTail))
    SdlFloat.HUGE_VAL

/-- Inside costs after `k` rounds. -/
def insideCostsAux (hg : IHypergraph SdlFloat) : Nat → StateId → SdlFloat
  | 0 => fun s => if s = hg.start_ then 0 else SdlFloat.HUGE_VAL
  | k + 1 => insideStep hg (insideCostsAux hg k)

/-- Modelled from the spec: `insideCosts(hg, inside, N)`, "`inside[s]` for every
state `s` — the min-cost of all paths from any axiom to `s` — via a single
forward dynamic-programming pass in topological order". The axiom of a graph is
its start state. The pass is run as `N` relaxation rounds, which on an acyclic
graph of `N` states reach the same values as one pass in topological order.
`InsideCosts.hpp` is not part of the sources at hand. -/
def insideCosts (hg : IHypergraph SdlFloat) (N : Nat) : StateId → SdlFloat :=
  insideCostsAux hg N

/-- The out-arcs of `s` in a graph: the arcs whose first tail is `s`. -/
def outArcs {W : Type} (hg : IHypergraph W) (s : StateId) : List (Arc W) :=
  hg.arcs_.filter (fun a => a.firstTail == s)

/-- One relaxation round of the outside costs: the final state costs `0`, any
other state the least `cost + outside[head]` over its out-arcs. -/
def outsideStep (hg : IHypergraph SdlFloat) (prev : StateId → SdlFloat) (s : StateId) : SdlFloat :=
  if s = hg.final_ then 0
  else (outArcs hg s).foldl (fun acc a => SdlFloat.min acc (a.weight_ + prev a.head_))
    SdlFloat.HUGE_VAL

/-- Outside costs after `k` rounds. -/
def outsideCostsAux (hg : IHypergraph SdlFloat) : Nat → StateId → SdlFloat
  | 0 => fun s => if s = hg.final_ then 0 else SdlFloat.HUGE_VAL
  | k + 1 => outsideStep hg (outsideCostsAux hg k)

/-- Modelled from the spec: `outsideCosts(hg, outside, inside, N, HUGE_VAL, false)`,
"`outside[s]` for every state — cost of the best completion from `s` to `final` —
via a backward pass; `outside[final] = 0` is an invariant". Run as `N`
relaxation rounds, like `insideCosts`. `OutsideCosts.hpp` is not part of the
sources at hand. -/
def outsideCosts (hg : IHypergraph SdlFloat) (N : Nat) : StateId → SdlFloat :=
  outsideCostsAux hg N

/-- The array `outside0` as `PushCostsToStart` uses it: the outside costs with
`outside0[start] = inside[final]`. -/
def outside0 (hg : IHypergraph SdlFloat) (s : StateId) : SdlFloat :=
  if s = hg.start_ then insideCosts hg hg.sizeForHeads hg.final_
  else outsideCosts hg hg.sizeForHeads s

/-- `PushCostsToStart::operator()(Arc*)`:
`cost += outside0[head] - (tail != start ? outside0[tail] : 0)`. -/
def pushCostsArc (start : StateId) (out0 : StateId → SdlFloat) (a : Arc SdlFloat) : Arc SdlFloat :=
  { a with weight_ := a.weight_ +
      (out0 a.head_ - (if a.firstTail ≠ start then out0 a.firstTail else 0)) }

/-- The constructor `PushCostsToStart(hg, config)`, which does all the work. -/
def PushCostsToStart (hg : IHypergraph SdlFloat) : Outcome SdlFloat :=
  if hg.prunedEmpty then ⟨hg, none⟩
  else if !hg.isGraph || hg.start == kNoState then ⟨hg, some Exception.ConfigException⟩
  else
    let hg1 := hg.forceFirstTailOutArcs
    let N := hg.sizeForHeads
    if N = 0 ∨ SdlFloat.is_inf (insideCosts hg1 N hg.final) then
      if hg.isMutable then ⟨hg1.setEmpty, none⟩
      else ⟨hg1, some Exception.ConfigException⟩
    else
      ⟨hg1.forArcs (pushCostsArc hg.start (outside0 hg1)), none⟩

/-! ## Graph notions used to state the properties -/

/-- Every id the graph mentions is the id of one of its states, and the states
fit the id type. -/
structure WellFormed {W : Type} (hg : IHypergraph W) : Prop where
  size_le : hg.size ≤ kNoState
  start_ok : hg.start_ = kNoState ∨ hg.start_ < hg.size
  final_ok : hg.final_ = kNoState ∨ hg.final_ < hg.size
  heads_ok : ∀ a ∈ hg.arcs_, a.head_ < hg.size
  tails_ok : ∀ a ∈ hg.arcs_, ∀ t ∈ a.tails_, t < hg.size

/-- The graph is acyclic: its states can be numbered below the number of
states so that every arc goes from lower tails to a higher head. -/
def Acyclic {W : Type} (hg : IHypergraph W) : Prop :=
  ∃ rank : StateId → Nat, ∀ a ∈ hg.arcs_,
    rank a.head_ < hg.size ∧ ∀ t ∈ a.tails_, rank t < rank a.head_

/-- No arc carries the cost `-inf`: costs are numbers, `+inf` for an unusable
arc, or `NaN`. -/
def ValidCosts (hg : IHypergraph SdlFloat) : Prop :=
  ∀ a ∈ hg.arcs_, a.weight_ ≠ SdlFloat.negInf

/-- The arcs `p` form a path of `hg` from `s` to `t`: each is an arc of `hg`
leaving, by its first tail, the state the previous one entered. -/
def IsPath {W : Type} (hg : IHypergraph W) : StateId → List (Arc W) → StateId → Prop
  | s, [], t => s = t
  | s, a :: p, t => a ∈ hg.arcs_ ∧ a.firstTail = s ∧ IsPath hg a.head_ p t

/-- The cost of a path: the arc costs summed in path order. -/
def pathCost (p : List (Arc SdlFloat)) : SdlFloat :=
  (p.map (fun a => a.weight_)).foldl (fun acc c => acc + c) 0

/-- The arc that `PushCostsToStart` makes of `a` when it reweights `hg`. -/
def pushedArc (hg : IHypergraph SdlFloat) (a : Arc SdlFloat) : Arc SdlFloat :=
  pushCostsArc hg.start (outside0 hg.forceFirstTailOutArcs) a

/-- The example automaton of the specification: `start -0.7-> s1 -0.4-> final`
and `start -0.9-> final`, with `start = 0`, `s1 = 1`, `final = 2`. -/
def exampleAutomaton : IHypergraph SdlFloat :=
  { mutable_ := true, properties_ := 0,
    labels_ := [Sym.noSymbol, Sym.noSymbol, Sym.noSymbol],
    arcs_ := [⟨1, [0], SdlFloat.fin (7/10)⟩, ⟨2, [1], SdlFloat.fin (4/10)⟩,
      ⟨2, [0], SdlFloat.fin (9/10)⟩],
    start_ := 0, final_ := 2 }

/-- The graph `PushCostsToStart` leaves when it reaches the reweighting step. -/
def pushedGraph (hg : IHypergraph SdlFloat) : IHypergraph SdlFloat :=
  hg.forceFirstTailOutArcs.forArcs (pushedArc hg)

/-- The outside costs of the reweighted graph, in closed form: the start state
keeps its outside cost, any other state that can reach the final state gets
`0`, and a state that cannot keeps `+inf`. -/
def pushedOutside (hg : IHypergraph SdlFloat) (s : StateId) : SdlFloat :=
  if s = hg.start_ then outsideCostsAux hg hg.size s
  else if SdlFloat.isFinite (outsideCostsAux hg hg.size s) then 0
  else SdlFloat.posInf

/-- An acyclic automaton whose start state has an in-arc: `start = 0`,
`final = 1`, a third state `2`, and the arcs `0 -5-> 1`, `2 -1-> 0`,
`2 -2-> 1`. -/
def startInArcAutomaton : IHypergraph SdlFloat :=
  { mutable_ := true, properties_ := 0,
    labels_ := [Sym.noSymbol, Sym.noSymbol, Sym.noSymbol],
    arcs_ := [⟨1, [0], SdlFloat.fin 5⟩, ⟨0, [2], SdlFloat.fin 1⟩, ⟨1, [2], SdlFloat.fin 2⟩],
    start_ := 0, final_ := 1 }

/-! ## PushWeightsToFinal -/

/-- Modelled from the spec: `isAxiom(state)`, a leaf, the base case of
derivations: the start state or a state with a lexical label. This is the
reading under which the inside weight of the final state vanishes exactly when
no derivation reaches it from the start state (`IHypergraph.hpp` is not part of
the sources at hand). -/
def IHypergraph.isAxiom {W : Type} (hg : IHypergraph W) (s : StateId) : Bool :=
  s == hg.start_ || hg.hasLexicalLabel s

/-- One round of the inside computation: an axiom weighs one, any other state
the sum over its in-arcs of the arc weight times the inside weights of the
tails. -/
def insideWeightStep {W : Type} [Semifield W] (hg : IHypergraph W) (prev : StateId → W)
    (s : StateId) : W :=
  if hg.isAxiom s then 1
  else ((hg.inArcs s).map (fun a => a.weight_ * (a.tails_.map prev).prod)).sum

/-- Inside weights after `k` rounds. -/
def insideAlgorithmAux {W : Type} [Semifield W] (hg : IHypergraph W) : Nat → StateId → W
  | 0 => fun s => if hg.isAxiom s then 1 else 0
  | k + 1 => insideWeightStep hg (insideAlgorithmAux hg k)

/-- Modelled from the spec: `insideAlgorithm(hg, &inside, false)`, "compute
`inside[s]` for all states via the forward dynamic program (using the actual
semiring inside computation)", axioms having "inside 1 by definition". Run as
`N` rounds, which on an acyclic hypergraph of `N` states reach the values of one
pass in topological order. `InsideAlgorithm.hpp` is not part of the sources at
hand. -/
def insideAlgorithm {W : Type} [Semifield W] (hg : IHypergraph W) (N : Nat) : StateId → W :=
  insideAlgorithmAux hg N

/-- `PushWeightsToFinal::operator()(ArcBase*)`. `inside` is the inside array,
`ninside` its size, `final` the final state read by the constructor, `hg` the
hypergraph as it is when the arcs are visited. -/
def pushWeightsArc {W : Type} [Semifield W] [DecidableEq W] (hg : IHypergraph W)
    (inside : StateId → W) (ninside : Nat) (final : StateId) (a : Arc W) : Arc W :=
  if a.head_ < ninside then
    if a.head_ ≠ final ∧ inside a.head_ = 0 then { a with weight_ := 0 }
    else
      let w := if a.head_ ≠ final then a.weight_ / inside a.head_ else a.weight_
      { a with weight_ :=
          a.tails_.foldl (fun w t => if !hg.isAxiom t then w * inside t else w) w }
  else { a with weight_ := 0 }

/-- The constructor `PushWeightsToFinal(hg, config)`, which does all the work. -/
def PushWeightsToFinal {W : Type} [Semifield W] [DecidableEq W] (hg : IHypergraph W) :
    Outcome W :=
  let N := hg.sizeForHeads
  let inside := insideAlgorithm hg N
  if inside hg.final = 0 then
    if hg.isMutable then
      ⟨hg.setEmpty.forArcs (pushWeightsArc hg.setEmpty inside N hg.final), none⟩
    else ⟨hg, some Exception.ConfigException⟩
  else ⟨hg.forArcs (pushWeightsArc hg inside N hg.final), none⟩

/-- The arc that `PushWeightsToFinal` makes of `a` when it reweights `hg`. -/
def finalPushedArc {W : Type} [Semifield W] [DecidableEq W] (hg : IHypergraph W)
    (a : Arc W) : Arc W :=
  pushWeightsArc hg (insideAlgorithm hg hg.sizeForHeads) hg.sizeForHeads hg.final a

/-- Derivations of a sequence of states: `DerivesAll hg ts used` says that the
states `ts` are derived, in order, by trees whose arcs, listed in pre-order,
are `used`. A leaf is a state that is an axiom; a state is derived by one of its
in-arcs above derivations of the tails of that arc. -/
inductive DerivesAll {W : Type} (hg : IHypergraph W) : List StateId → List (Arc W) → Prop
  | nil : DerivesAll hg [] []
  | leaf (s : StateId) (ts : List StateId) (us : List (Arc W)) :
      s < hg.size → hg.isAxiom s = true → DerivesAll hg ts us → DerivesAll hg (s :: ts) us
  | node (a : Arc W) (ts : List StateId) (us vs : List (Arc W)) :
      a ∈ hg.arcs_ → DerivesAll hg a.tails_ us →
      DerivesAll hg ts vs → DerivesAll hg (a.head_ :: ts) (a :: us ++ vs)

/-- A derivation tree rooted at `s` with the arcs `used`. -/
def Derives {W : Type} (hg : IHypergraph W) (s : StateId) (used : List (Arc W)) : Prop :=
  DerivesAll hg [s] used

/-- The weight of a derivation: the product of the weights of its arcs. -/
def derivationWeight {W : Type} [Semifield W] (used : List (Arc W)) : W :=
  (used.map (fun a => a.weight_)).prod

/-- A hypergraph over the rationals in which the inside weight of state `1`
cancels to zero: state `0` is the start state, state `2` the final state, and
the arcs are `1 ← (0)` with weights `1` and `-1`, `2 ← (1)` and `2 ← (0)` with
weight `1`. -/
def cancellingHypergraph : IHypergraph ℚ :=
  { mutable_ := true, properties_ := 0,
    labels_ := [Sym.noSymbol, Sym.noSymbol, Sym.noSymbol],
    arcs_ := [⟨1, [0], 1⟩, ⟨1, [0], -1⟩, ⟨2, [1], 1⟩, ⟨2, [0], 1⟩],
    start_ := 0, final_ := 2 }

/-- A small hypergraph over the non-negative rationals: state `0` is the start
state, states `1` and `2` carry the lexical labels `a` and `b`, and the arcs are
`3 ← (1 2)` with weight `2`, `3 ← (1)` with weight `3` and `4 ← (3 0)` with
weight `5`; the final state is `4`. -/
def smallHypergraph : IHypergraph NNRat :=
  { mutable_ := true, properties_ := 0,
    labels_ := [Sym.noSymbol, Sym.terminal "a", Sym.terminal "b", Sym.noSymbol, Sym.noSymbol],
    arcs_ := [⟨3, [1, 2], 2⟩, ⟨3, [1], 3⟩, ⟨4, [3, 0], 5⟩],
    start_ := 0, final_ := 4 }

/-- The weight of a path over a semiring: the product of its arc weights. -/
def pathWeight {W : Type} [Semifield W] (p : List (Arc W)) : W :=
  (p.map (fun a => a.weight_)).prod

/-- A mutable automaton without a path from start to final: start `0`,
final `1`, a third state `2` and the single arc `2 -1-> 1`. -/
def disconnectedAutomaton : IHypergraph SdlFloat :=
  { mutable_ := true, properties_ := 0,
    labels_ := [Sym.noSymbol, Sym.noSymbol, Sym.noSymbol],
    arcs_ := [⟨1, [2], SdlFloat.fin 1⟩],
    start_ := 0, final_ := 1 }

/-- The automaton `disconnectedAutomaton` with weights in the non-negative
rationals. -/
def disconnectedWeighted : IHypergraph NNRat :=
  { mutable_ := true, properties_ := 0,
    labels_ := [Sym.noSymbol, Sym.noSymbol, Sym.noSymbol],
    arcs_ := [⟨1, [2], 1⟩],
    start_ := 0, final_ := 1 }

/-! ## The transform protocol -/

namespace IHypergraph

variable {W : Type}

/-- `storesInArcs()`: the in-arc index is materialised. -/
def storesInArcs (hg : IHypergraph W) : Bool := hg.properties_ &&& kStoreInArcs != 0

/-- `numInArcs(head)`. -/
def numInArcs (hg : IHypergraph W) (head : StateId) : Nat := (hg.inArcs head).length

/-- `forArcsInSearch(head, AlwaysTrue(), false)`: visit the arcs until one with
the given head is found; the result tells whether the visit was stopped. -/
def forArcsInSearch (hg : IHypergraph W) (head : StateId) : Bool :=
  hg.arcs_.any (fun a => a.head_ == head)

/-- Modelled from the spec: `forArcsOutSearch(s, CollectArcPointers)`, which
collects "every out-arc" of `s`: each arc that has `s` among its tails, once,
in store order. -/
def forArcsOutSearch (hg : IHypergraph W) (s : StateId) : List (Arc W) :=
  hg.arcs_.filter (fun a => a.tails_.contains s)

/-- Modelled from the spec: `forceProperties(props)`, "build/rebuild an index on
demand". -/
def forceProperties (hg : IHypergraph W) (props : Properties) : IHypergraph W :=
  { hg with properties_ := hg.properties_ ||| props }

/-- Modelled from the spec: `forcePropertiesOnOff(on, off)`: the properties
`addProps` are materialised and the properties `subProps` are discarded. -/
def forcePropertiesOnOff (hg : IHypergraph W) (addProps subProps : Properties) :
    IHypergraph W :=
  { hg with properties_ :=
      (hg.properties_ ||| addProps) ^^^ ((hg.properties_ ||| addProps) &&& subProps) }

end IHypergraph

/-- Modelled from the spec: `copyHypergraph(src, &dst)`, an exact copy of the
states, arcs, start and final state of `src` into `dst`, which keeps its own
properties and mutability. -/
def copyHypergraph {W : Type} (src dst : IHypergraph W) : IHypergraph W :=
  { dst with
    labels_ := src.labels_, arcs_ := src.arcs_, start_ := src.start_, final_ := src.final_ }

/-- The capabilities a transform offers to the dispatch functions. `inplace` and
`inout` are the transform's own algorithms; `inout` takes the input and the
output hypergraph and gives the new output. `pVoc` is the vocabulary the
transform is configured with, null when none is set. -/
structure Transform (W : Type) where
  Inplace : Bool
  OptionalInplace : Bool
  needs : IHypergraph W → Bool
  needsCopy : IHypergraph W → Bool
  inAddProps : Properties
  outAddProps : Properties
  outSubProps : Properties
  newOutAddProps : Properties
  inplace : IHypergraph W → Outcome W
  inout : IHypergraph W → IHypergraph W → Outcome W
  pVoc : IVocabularyPtr := none

/-- The constants `Transform::NoProperties`, `OutAddProps`, `OutSubProps`. -/
def NoProperties : Properties := 0

/-- The constant `NewOutAddProps = kStoreInArcs`. -/
def NewOutAddProps : Properties := kStoreInArcs

/-- A fresh `MutableHypergraph<A>(props)`. -/
def newMutableHypergraph (W : Type) (props : Properties) : IHypergraph W :=
  { mutable_ := true, properties_ := props, labels_ := [], arcs_ := [],
    start_ := kNoState, final_ := kNoState }

/-- `inplace_always(m, t)`: `m <- t(m)` whether or not the transform supports
in-place execution; `t.needs(m)` is not checked. -/
def inplace_always {W : Type} (m : IHypergraph W) (t : Transform W) : Outcome W :=
  let cpProp := t.inAddProps ||| t.newOutAddProps
  if t.Inplace && t.needsCopy m && !t.OptionalInplace then
    ⟨m, some Exception.SelfModifyException⟩
  else if t.Inplace && !t.needsCopy m then
    let r := t.inplace (m.forceProperties t.inAddProps)
    match r.error with
    | some e => ⟨r.hg, some e⟩
    | none => ⟨r.hg.forcePropertiesOnOff t.outAddProps t.outSubProps, none⟩
  else
    let newInplaceProps := cpProp ^^^ (cpProp &&& t.outSubProps)
    let i := copyHypergraph m (newMutableHypergraph W newInplaceProps)
    let r := t.inout i m
    match r.error with
    | some e => ⟨r.hg, some e⟩
    | none => ⟨r.hg.forcePropertiesOnOff t.outAddProps t.outSubProps, none⟩

/-- `inplace(m, t)`: run the transform if it is needed; the output properties
are forced either way. The Boolean is the C++ return value. -/
def inplace {W : Type} (m : IHypergraph W) (t : Transform W) : Outcome W × Bool :=
  if t.needs m then (inplace_always m t, true)
  else (⟨m.forcePropertiesOnOff t.outAddProps t.outSubProps, none⟩, false)

/-! ## IsolateStartState -/

/-- `hasInArcs(hg, head)`. -/
def hasInArcs {W : Type} (hg : IHypergraph W) (head : StateId) : Bool :=
  if hg.storesInArcs then hg.numInArcs head != 0
  else hg.forArcsInSearch head

/-- `IsolateStartState::needs(hg)`. -/
def IsolateStartState.needs {W : Type} (hg : IHypergraph W) : Bool :=
  if hg.start == kNoState then false else hasInArcs hg hg.start

/-- The copy constructor `Arc(arc, oldStart, newStart)`: "clone replacing in
tails: old -> new start state". -/
def Arc.cloneReplacing {W : Type} (a : Arc W) (old new : StateId) : Arc W :=
  { a with tails_ := a.tails_.map (fun t => if t = old then new else t) }

/-- `IsolateStartState::inplace(hg)`. -/
def IsolateStartState.inplace {W : Type} (hg : IHypergraph W) : Outcome W :=
  let oldStart := hg.start
  let (hg1, newStart) := hg.addState Sym.noSymbol
  let hg2 := hg1.setStart newStart
  let arcPointers := hg2.forArcsOutSearch oldStart
  ⟨arcPointers.foldl (fun g a => g.addArc (a.cloneReplacing oldStart newStart)) hg2, none⟩

/-- The transform object `IsolateStartState`, a `TransformBase<Transform::Inplace>`
with the defaults of `TransformBase` for everything but `needs` and `inplace`. -/
def IsolateStartState (W : Type) : Transform W :=
  { Inplace := true, OptionalInplace := false,
    needs := IsolateStartState.needs,
    needsCopy := fun _ => false,
    inAddProps := NoProperties, outAddProps := NoProperties, outSubProps := NoProperties,
    newOutAddProps := NewOutAddProps ||| NoProperties,
    inplace := IsolateStartState.inplace,
    inout := fun _ o => ⟨o, some Exception.InvalidInputException⟩ }

/-- A two-state graph whose start state is also its final state and has an
in-arc: states `0` and `1`, start and final `0`, and the arc `1 -> 0`. -/
def startIsFinalGraph : IHypergraph ℚ :=
  { mutable_ := true, properties_ := 0,
    labels_ := [Sym.noSymbol, Sym.noSymbol],
    arcs_ := [⟨0, [1], 1⟩],
    start_ := 0, final_ := 0 }

/-! ## Results of recursive procedures -/

/-- The ways a recursive procedure of the embedding can end: with a value, with
an exception, with a C++ operation whose behaviour is undefined (reading through
an `end()` iterator), or by exhausting the recursion budget of the model. -/
inductive Res (α : Type) where
  | ok (a : α)
  | throw (e : Exception)
  | undefined
  | outOfFuel
deriving DecidableEq

namespace Res

/-- Sequencing: the first outcome that is not a value ends the procedure. -/
def bind {α β : Type} : Res α → (α → Res β) → Res β
  | ok a, f => f a
  | throw e, _ => throw e
  | undefined, _ => undefined
  | outOfFuel, _ => outOfFuel

instance : Monad Res where
  pure := Res.ok
  bind := Res.bind

end Res

/-! ## Spans -/

/-- Modelled from the spec: the undefined span bound, the value `(Position)-1`
that `Util::defined` tests for (`Span.hpp` and `Constants.hpp` are not part of the
sources at hand). -/
def kNullPosition : Nat := 4294967295

/-- Modelled from the spec: a span, "a half-open `[left, right)` integer interval
denoting a source-token range". -/
structure Span where
  left : Nat
  right : Nat
deriving DecidableEq

/-- Modelled from the spec: "`kNullSpan` denotes no span known". -/
def kNullSpan : Span := ⟨kNullPosition, kNullPosition⟩

/-- `Util::defined(x)`. -/
def defined (x : Nat) : Bool := x != kNullPosition

/-- `Util::setUnlessDefined(x, v)`: the new value of `x`. -/
def setUnlessDefined (x v : Nat) : Nat := if defined x then x else v

/-- `isNull(span)`. -/
def isNull (s : Span) : Bool := s == kNullSpan

/-- Modelled from the spec: `cover.growIfDefined(sp)`, the covering span grown
to include the defined bounds of `sp`. -/
def Span.growIfDefined (cover sp : Span) : Span :=
  { left := if defined sp.left then
        (if defined cover.left then Nat.min cover.left sp.left else sp.left)
      else cover.left,
    right := if defined sp.right then
        (if defined cover.right then Nat.max cover.right sp.right else sp.right)
      else cover.right }

/-- Modelled from the spec: `span.smaller(parent)`, "a state's inferred span must
be a (non-strict) sub-span of its parent's"; a null parent span, as passed for
the final state, constrains nothing. -/
def Span.smaller (s parent : Span) : Bool :=
  isNull parent || (decide (parent.left ≤ s.left) && decide (s.right ≤ parent.right))

/-- The value of a decimal digit. -/
def digitValue (c : Char) : Option Nat :=
  if c.toNat < 48 then none else if 57 < c.toNat then none else some (c.toNat - 48)

/-- Reading a decimal number, most significant digit first. -/
def parseDigits : List Char → Nat → Option Nat
  | [], acc => some acc
  | c :: cs, acc =>
    match digitValue c with
    | some d => parseDigits cs (10 * acc + d)
    | none => none

/-- Reading a non-empty decimal number. -/
def parseNat (cs : List Char) : Option Nat :=
  match cs with
  | [] => none
  | _ => parseDigits cs 0

/-- Modelled from the spec: `Span::set(text)`, reading the format
`"<left>-<right>"`; a text of another format leaves the span null. -/
def Span.set (cs : List Char) : Span :=
  match parseNat (cs.takeWhile (fun c => c != '-')),
      parseNat ((cs.dropWhile (fun c => c != '-')).drop 1) with
  | some l, some r => ⟨l, r⟩
  | _, _ => kNullSpan

/-- The decimal digits of a number below `10 ^ fuel`, least significant
first. -/
def digitsRev : Nat → Nat → List Char
  | 0, _ => []
  | fuel + 1, n =>
    if n < 10 then [Char.ofNat (48 + n)]
    else Char.ofNat (48 + n % 10) :: digitsRev fuel (n / 10)

/-- The decimal form of a number. -/
def natStr (n : Nat) : List Char := (digitsRev (n + 1) n).reverse

/-- Modelled from the spec: `span.str()`, "the span's textual form",
`"<left>-<right>"`. -/
def Span.str (s : Span) : String := String.mk (natStr s.left ++ ['-'] ++ natStr s.right)

/-- The text of a symbol. -/
def Sym.text : Sym → String
  | Sym.noSymbol => ""
  | Sym.terminal t => t
  | Sym.nonterminal t => t

/-- `inferSpanFromLabel(hg, symId)`: the span written in the label, with the
part from the first `.` on removed. -/
def inferSpanFromLabel (symId : Sym) : Span :=
  if symId = Sym.noSymbol then kNullSpan
  else Span.set (symId.text.data.takeWhile (fun c => c != '.'))

/-! ## Ordered maps keyed by numbers -/

/-- An ordered map with numeric keys (`std::map<StateId, T>`), as the list of
its entries in key order. -/
abbrev NatMap (α : Type) := List (Nat × α)

/-- `m.find(k)`. -/
def NatMap.find {α : Type} (m : NatMap α) (k : Nat) : Option α :=
  match m with
  | [] => none
  | (k', v) :: rest => if k' = k then some v else NatMap.find rest k

/-- `m[k] = v`. -/
def NatMap.insert {α : Type} (m : NatMap α) (k : Nat) (v : α) : NatMap α :=
  match m with
  | [] => [(k, v)]
  | (k', v') :: rest =>
    if k < k' then (k, v) :: (k', v') :: rest
    else if k' = k then (k, v) :: rest
    else (k', v') :: NatMap.insert rest k v

/-- `m.erase(k)`. -/
def NatMap.erase {α : Type} (m : NatMap α) (k : Nat) : NatMap α :=
  m.filter (fun e => e.1 != k)

/-- `++votes[k]`. -/
def incrementVote (votes : NatMap Nat) (k : Nat) : NatMap Nat :=
  votes.insert k ((votes.find k).getD 0 + 1)

/-- The loop of `getMaxValueIter` after its first element: keep the best entry
so far, replace it only by an entry with a strictly greater count. -/
def getMaxValueLoop (best : Nat × Nat) : List (Nat × Nat) → Nat × Nat
  | [] => best
  | e :: rest => getMaxValueLoop (if best.2 < e.2 then e else best) rest

/-- `getMaxValueIter(aMap)`: the entry of the greatest count, the first one in
key order among equals. On an empty map the C++ code steps past `end()`. -/
def getMaxValueIter (aMap : NatMap Nat) : Res (Nat × Nat) :=
  match aMap with
  | [] => Res.undefined
  | e :: rest => Res.ok (getMaxValueLoop e rest)

/-- The map from states to spans, `StateIdToSpan`. -/
abbrev StateIdToSpan := NatMap Span

/-! ## SubUnion: span inference -/

/-- The inner loop of `getSourceSpansBubbleUp` over the tails of one in-arc:
the span of the tail is computed by the recursive call `recurse` and the
covering span grows by it. -/
def bubbleUpTailStep (recurse : StateId → StateIdToSpan → Res (Span × StateIdToSpan))
    (st : Span × StateIdToSpan) (t : StateId) : Res (Span × StateIdToSpan) := do
  let (sp, m') ← recurse t st.2
  pure (st.1.growIfDefined sp, m')

/-- The loop of `getSourceSpansBubbleUp` over the in-arcs: the covering span of
the tails of the arc votes for its defined bounds. -/
def bubbleUpArcStep {W : Type}
    (recurse : StateId → StateIdToSpan → Res (Span × StateIdToSpan))
    (acc : NatMap Nat × NatMap Nat × StateIdToSpan) (arc : Arc W) :
    Res (NatMap Nat × NatMap Nat × StateIdToSpan) := do
  let (coverSpan, m') ← arc.tails_.foldlM (bubbleUpTailStep recurse) (kNullSpan, acc.2.2)
  pure (if defined coverSpan.left then incrementVote acc.1 coverSpan.left else acc.1,
    if defined coverSpan.right then incrementVote acc.2.1 coverSpan.right else acc.2.1,
    m')

/-- The end of `getSourceSpansBubbleUp`: the own label votes when the children
are unreliable, and the most voted bounds are stored as the span of `s`. -/
def bubbleUpFinish {W : Type} (hg : IHypergraph W) (s : StateId)
    (acc : NatMap Nat × NatMap Nat × StateIdToSpan) : Res (Span × StateIdToSpan) := do
  let sSpan := inferSpanFromLabel (hg.inputLabel s)
  let unreliable := acc.1.length != 1 || acc.2.1.length != 1
  let votesForLeft := if unreliable then incrementVote acc.1 sSpan.left else acc.1
  let votesForRight := if unreliable then incrementVote acc.2.1 sSpan.right else acc.2.1
  let bestLeft ← getMaxValueIter votesForLeft
  let bestRight ← getMaxValueIter votesForRight
  let resultingSpan : Span := ⟨bestLeft.1, bestRight.1⟩
  pure (resultingSpan, acc.2.2.insert s resultingSpan)

/-- `getSourceSpansBubbleUp(hg, s, stateIdToSpan)`: post-order traversal from
`s` along the in-arcs, memoised in the map. The first argument bounds the depth
of the recursion. The result is the span of `s` and the updated map. -/
def getSourceSpansBubbleUp {W : Type} (hg : IHypergraph W) :
    Nat → StateId → StateIdToSpan → Res (Span × StateIdToSpan)
  | 0, _, _ => Res.outOfFuel
  | fuel + 1, s, m =>
    match m.find s with
    | some sp => Res.ok (sp, m)
    | none =>
      if hg.hasLexicalLabel s then Res.ok (kNullSpan, m.insert s kNullSpan)
      else do
        let acc ← (hg.inArcs s).foldlM
          (bubbleUpArcStep (fun t m' => getSourceSpansBubbleUp hg fuel t m')) ([], [], m)
        bubbleUpFinish hg s acc

/-- The inner loop of `getSourceSpansBubbleDown` over the tails of one in-arc
with `end` tails: `it` is the position and the tail. -/
def bubbleDownTailStep (recurse : StateId → Span → StateIdToSpan → Res StateIdToSpan)
    (sSpan : Span) (numTails : Nat) (m : StateIdToSpan) (it : Nat × StateId) :
    Res StateIdToSpan :=
  match m.find it.2 with
  | none => Res.throw Exception.ProgrammerMistakeException
  | some found =>
    let found1 : Span :=
      if it.1 == 0 then { found with left := setUnlessDefined found.left sSpan.left }
      else found
    let found2 : Span :=
      if it.1 == numTails - 1 then
        { found1 with right := setUnlessDefined found1.right sSpan.right }
      else found1
    recurse it.2 found2 (m.insert it.2 found2)

/-- The loop of `getSourceSpansBubbleDown` over the in-arcs. -/
def bubbleDownArcStep {W : Type}
    (recurse : StateId → Span → StateIdToSpan → Res StateIdToSpan) (sSpan : Span)
    (m : StateIdToSpan) (arc : Arc W) : Res StateIdToSpan :=
  ((List.range arc.tails_.length).zip arc.tails_).foldlM
    (bubbleDownTailStep recurse sSpan arc.tails_.length) m

/-- `getSourceSpansBubbleDown(hg, s, sSpan, stateIdToSpan)`: the span of `s` is
handed down to the first and last tail of each in-arc where their bounds are
still undefined. The first argument bounds the depth of the recursion. -/
def getSourceSpansBubbleDown {W : Type} (hg : IHypergraph W) :
    Nat → StateId → Span → StateIdToSpan → Res StateIdToSpan
  | 0, _, _, _ => Res.outOfFuel
  | fuel + 1, s, sSpan, m =>
    (hg.inArcs s).foldlM
      (bubbleDownArcStep (fun t sp m' => getSourceSpansBubbleDown hg fuel t sp m') sSpan) m

/-- `InvalidArcSpansRemover::operator()(arc)`: the span of a tail that is not
lexical is removed when it equals the span of the head. Reading the span of a
tail that has no entry, or of a head whose entry was just erased, goes through
an `end()` or dangling iterator. The `assert(!hg.storesAllOutArcs())` of the
constructor is a debug check and reads no data of the model. -/
def invalidArcSpansRemover {W : Type} (hg : IHypergraph W) (m : StateIdToSpan)
    (arc : Arc W) : Res StateIdToSpan :=
  match m.find arc.head_ with
  | none => Res.ok m
  | some _ =>
    arc.tails_.foldlM (fun (m : StateIdToSpan) t =>
      if hg.hasLexicalLabel t then Res.ok m
      else
        match m.find t, m.find arc.head_ with
        | some tailSpan, some headSpan =>
          if tailSpan = headSpan then Res.ok (m.erase t) else Res.ok m
        | _, _ => Res.undefined) m

/-- `removeInvalidSpans(hg, stateIdToSpan)`. -/
def removeInvalidSpans {W : Type} (hg : IHypergraph W) (m : StateIdToSpan) :
    Res StateIdToSpan := do
  let m1 ← hg.arcs_.foldlM (invalidArcSpansRemover hg) m
  pure ((List.range hg.size).foldl (fun (m : StateIdToSpan) s =>
    match m.find s with
    | some sp => if isNull sp then m.erase s else m
    | none => m) m1)

/-- `getSourceSpans(hg, stateIdToSpan)` on an empty map. The recursion budget is
one more than the number of states, which is enough on an acyclic
hypergraph. -/
def getSourceSpans {W : Type} (hg : IHypergraph W) : Res StateIdToSpan := do
  let (finalSpan, m1) ← getSourceSpansBubbleUp hg (hg.size + 1) hg.final []
  let m2 ← getSourceSpansBubbleDown hg (hg.size + 1) hg.final finalSpan m1
  removeInvalidSpans hg m2

/-! ## SubUnion: state matching and synthesis -/

/-- The options of `subUnion`. -/
structure SubUnionOptions where
  requirePathOverlap : Bool := false
  addStandardUnion : Bool := true

/-- `SpanToStateIds::find(span)`: the states of the first graph recorded for a
span, in the order of their ids; empty when the span has no entry. -/
def spanToStateIds (m : StateIdToSpan) (sp : Span) : List StateId :=
  (m.filter (fun e => e.2 == sp)).map (fun e => e.1)

/-- Modelled from the spec: `Util::cartesianProduct(lists, &result)`, one tuple
for each choice of one element per list; "missing tails prune the whole
cartesian branch" (`CartesianProduct.hpp` is not part of the sources at
hand). -/
def cartesianProduct : List (List StateId) → List (List StateId)
  | [] => [[]]
  | l :: ls => (l.map (fun x => (cartesianProduct ls).map (fun tl => x :: tl))).flatten

/-- `NewStateInfo`: whether the state is part of a union, and its states in the
result. -/
abbrev NewStateInfo := Bool × List StateId

/-- What `addStatesRecurse` updates: the result graph, the set `resultArcs` of
arc tuples `(tails…, head)`, and the memo table `newStateInfos`. -/
structure AddStatesState (W : Type) where
  result : IHypergraph W
  resultArcs : List (List StateId)
  newStateInfos : NatMap NewStateInfo

/-- The last loop of `addStatesRecurse`: for every new head, every in-arc and
every tuple of the cartesian product of the new states of its tails, add the arc
unless its tuple is in `resultArcs`. The new arc has the default weight. -/
def addResultingArcs {W : Type} [One W] (newStates : List StateId)
    (newStatesForTailsPerArc : List (List (List StateId))) (st : AddStatesState W) :
    AddStatesState W :=
  newStates.foldl (fun st newHead =>
    newStatesForTailsPerArc.foldl (fun st newStatesForTails =>
      (cartesianProduct newStatesForTails).foldl (fun (st : AddStatesState W) tuple =>
        let arcStates := tuple ++ [newHead]
        if st.resultArcs.contains arcStates then st
        else { st with
          result := st.result.addArc ⟨newHead, tuple, 1⟩,
          resultArcs := arcStates :: st.resultArcs }) st) st) st

/-- The states of the result that correspond to `head`: the states recorded for
its span that are lexical with the same input label, or not lexical like
`head`. The Boolean is `isUnion`. -/
def correspondingStates {W : Type} (hg result : IHypergraph W) (head : StateId)
    (statesVec : List StateId) (isUnion : Bool) : Bool × List StateId :=
  statesVec.foldl (fun (acc : Bool × List StateId) s =>
    if result.hasLexicalLabel s then
      (if result.inputLabel s = hg.inputLabel head then (true, acc.2 ++ [s]) else acc)
    else if !hg.hasLexicalLabel head then (acc.1, acc.2 ++ [s])
    else acc) (isUnion, [])

/-- The span `headSpan` that `addStatesRecurse` works with: the stored span of
`head`, or the null span when none is stored or when the stored span of a state
that is not lexical is not within the span of the parent. -/
def headSpanOf {W : Type} (hg : IHypergraph W) (hgStateIdToSpan : StateIdToSpan)
    (head : StateId) (parentSpan : Span) : Span :=
  let foundSpan := hgStateIdToSpan.find head
  let storedSpan := foundSpan.getD kNullSpan
  if foundSpan.isSome && !storedSpan.smaller parentSpan && !hg.hasLexicalLabel head then
    kNullSpan
  else storedSpan

/-- The inner loop of `addStatesRecurse` over the tails of one in-arc. -/
def addStatesTailStep {W : Type}
    (recurse : StateId → AddStatesState W → Res (NewStateInfo × AddStatesState W))
    (tacc : Bool × List (List StateId) × AddStatesState W) (tailId : StateId) :
    Res (Bool × List (List StateId) × AddStatesState W) := do
  let (p, st') ← recurse tailId tacc.2.2
  pure (tacc.1 && p.1, tacc.2.1 ++ [p.2], st')

/-- The loop of `addStatesRecurse` over the in-arcs of `head`. -/
def addStatesArcStep {W : Type}
    (recurse : StateId → AddStatesState W → Res (NewStateInfo × AddStatesState W))
    (acc : Bool × List (List (List StateId)) × AddStatesState W) (arc : Arc W) :
    Res (Bool × List (List (List StateId)) × AddStatesState W) := do
  let (allTailsAreUnion, newStatesForTails, st') ←
    arc.tails_.foldlM (addStatesTailStep recurse) (true, [], acc.2.2)
  pure (acc.1 || allTailsAreUnion, acc.2.1 ++ [newStatesForTails], st')

/-- The part of `addStatesRecurse` after the loop over the in-arcs: find or make
the states of the result for `head`, add the resulting arcs, memoise. -/
def addStatesFinish {W : Type} [One W] (hg : IHypergraph W)
    (hgStateIdToSpan : StateIdToSpan) (resultSpanToStateIds : Span → List StateId)
    (opts : SubUnionOptions) (head : StateId) (parentSpan : Span)
    (acc : Bool × List (List (List StateId)) × AddStatesState W) :
    NewStateInfo × AddStatesState W :=
  let hasLexicalLabel := hg.hasLexicalLabel head
  let didFindHeadSpan := (hgStateIdToSpan.find head).isSome
  let storedSpan := (hgStateIdToSpan.find head).getD kNullSpan
  let headSpan := headSpanOf hg hgStateIdToSpan head parentSpan
  let st1 := acc.2.2
  if didFindHeadSpan && headSpan != kNullSpan then
    let found := correspondingStates hg st1.result head
      (resultSpanToStateIds storedSpan) acc.1
    let fresh := found.2.isEmpty || (opts.requirePathOverlap && !found.1)
    let label := if hasLexicalLabel then hg.inputLabel head
      else Sym.nonterminal storedSpan.str
    let st2 : AddStatesState W :=
      if fresh then { st1 with result := (st1.result.addState label).1 } else st1
    let newStates := if fresh then [(st1.result.addState label).2] else found.2
    let st3 := addResultingArcs newStates acc.2.1 st2
    ((found.1, newStates),
      { st3 with newStateInfos := st3.newStateInfos.insert head (found.1, newStates) })
  else
    ((false, []), { st1 with newStateInfos := st1.newStateInfos.insert head (false, []) })

/-- `addStatesRecurse(hg, head, parentSpan, hgStateIdToSpan, result,
resultSpanToStateIds, resultArcs, newStateInfos, opts)`. The first argument
bounds the depth of the recursion. -/
def addStatesRecurse {W : Type} [One W] (hg : IHypergraph W)
    (hgStateIdToSpan : StateIdToSpan) (resultSpanToStateIds : Span → List StateId)
    (opts : SubUnionOptions) :
    Nat → StateId → Span → AddStatesState W → Res (NewStateInfo × AddStatesState W)
  | 0, _, _, _ => Res.outOfFuel
  | fuel + 1, head, parentSpan, st =>
    match st.newStateInfos.find head with
    | some info => Res.ok (info, st)
    | none => do
      let acc ← (hg.inArcs head).foldlM
        (addStatesArcStep (fun tailId st' =>
          addStatesRecurse hg hgStateIdToSpan resultSpanToStateIds opts fuel tailId
            (headSpanOf hg hgStateIdToSpan head parentSpan) st')) (false, [], st)
      pure (addStatesFinish hg hgStateIdToSpan resultSpanToStateIds opts head parentSpan acc)

/-- `hg.getStateIds()`: the states of the hypergraph. -/
def IHypergraph.getStateIds {W : Type} (hg : IHypergraph W) : List StateId :=
  List.range hg.size

/-- `addStates(hg, hgStateIdToSpan, result, resultSpanToStateIds, opts)`: the set
`resultArcs` starts with the tuples of the arcs of `hg`. The result is the
updated result graph. -/
def addStates {W : Type} [One W] (hg : IHypergraph W) (hgStateIdToSpan : StateIdToSpan)
    (result : IHypergraph W) (resultSpanToStateIds : Span → List StateId)
    (opts : SubUnionOptions) : Res (IHypergraph W) := do
  let resultArcs := (hg.getStateIds.map (fun s =>
    (hg.inArcs s).map (fun arc => arc.tails_ ++ [arc.head_]))).flatten
  let (_, st) ← addStatesRecurse hg hgStateIdToSpan resultSpanToStateIds opts (hg.size + 1)
    hg.final kNullSpan ⟨result, resultArcs, []⟩
  pure st.result

/-- Modelled from the spec: `hgUnion(source, &target)`, "a conventional top-level
union": the states and arcs of `source` are copied next to those of `target`,
the copy of the start state of `source` is derived by an arc without tails, and
a new final state is the single top-level choice point, with one arc from the
final state of each graph (`Union.hpp` is not part of the sources at hand). -/
def hgUnion {W : Type} [One W] (source target : IHypergraph W) : IHypergraph W :=
  let offset := target.size
  let newFinal := target.size + source.size
  { target with
    labels_ := target.labels_ ++ source.labels_ ++ [Sym.noSymbol],
    arcs_ := target.arcs_ ++
      source.arcs_.map (fun a =>
        ⟨a.head_ + offset, a.tails_.map (fun t => t + offset), a.weight_⟩) ++
      (if decide (source.start_ < source.size) && !source.hasLexicalLabel source.start_ then
        [⟨source.start_ + offset, [], 1⟩] else []) ++
      [⟨newFinal, [target.final_], 1⟩, ⟨newFinal, [source.final_ + offset], 1⟩],
    final_ := newFinal }

/-- `subUnion(hg1, hg2, result, opts)`; `result` is the (empty, mutable)
hypergraph the caller provides. -/
def subUnion {W : Type} [One W] (hg1 hg2 result : IHypergraph W) (opts : SubUnionOptions) :
    Res (IHypergraph W) := do
  let stateIdToSpan1 ← getSourceSpans hg1
  let stateIdToSpan2 ← getSourceSpans hg2
  let result1 := copyHypergraph hg1 result
  let result2 ← addStates hg2 stateIdToSpan2 result1 (spanToStateIds stateIdToSpan1) opts
  pure (if opts.addStandardUnion then hgUnion hg2 result2 else result2)

/-! ## Languages -/

/-- What an axiom contributes to the yield of a derivation: its label when it
is lexical, nothing otherwise. -/
def leafYield {W : Type} (hg : IHypergraph W) (s : StateId) : List Sym :=
  if hg.hasLexicalLabel s then [hg.inputLabel s] else []

/-- Derivations with their yields: `YieldsAll hg ts y` says that the states
`ts` are derived, in order, by trees whose leaves spell `y`. A leaf is a state
that is an axiom; a state is derived by one of its in-arcs above derivations of
the tails of that arc. -/
inductive YieldsAll {W : Type} (hg : IHypergraph W) : List StateId → List Sym → Prop
  | nil : YieldsAll hg [] []
  | leaf (s : StateId) (ts : List StateId) (y : List Sym) :
      s < hg.size → hg.isAxiom s = true → YieldsAll hg ts y →
      YieldsAll hg (s :: ts) (leafYield hg s ++ y)
  | node (a : Arc W) (ts : List StateId) (y1 y2 : List Sym) :
      a ∈ hg.arcs_ → YieldsAll hg a.tails_ y1 → YieldsAll hg ts y2 →
      YieldsAll hg (a.head_ :: ts) (y1 ++ y2)

/-- The language of a hypergraph: the yields of the derivations of its final
state. -/
def Language {W : Type} (hg : IHypergraph W) (y : List Sym) : Prop :=
  YieldsAll hg [hg.final_] y

/-! ## Extension of a hypergraph -/

/-- The hypergraph `g'` extends `g`: same start state, the arcs of `g` are arcs of
`g'`, and the states of `g` keep their labels. -/
structure Extends {W : Type} (g g' : IHypergraph W) : Prop where
  start_eq : g'.start_ = g.start_
  arcs_sub : ∀ a ∈ g.arcs_, a ∈ g'.arcs_
  labels_ext : ∃ extra, g'.labels_ = g.labels_ ++ extra

/-- The hypergraph `g'` extends `g` and has the same final state. -/
def Grows {W : Type} (g g' : IHypergraph W) : Prop := Extends g g' ∧ g'.final_ = g.final_

/-! ## The example trees of the sub-union -/

/-- The tree `A = (0-2 (0-1 a)(1-2 b))`: the states 0 and 1 are the words, the
states 2, 3 and 4 carry the spans; state 4 is final. -/
def treeA : IHypergraph ℚ :=
  { mutable_ := true, properties_ := kStoreInArcs,
    labels_ := [Sym.terminal "a", Sym.terminal "b", Sym.nonterminal "0-1",
      Sym.nonterminal "1-2", Sym.nonterminal "0-2"],
    arcs_ := [⟨2, [0], 1⟩, ⟨3, [1], 1⟩, ⟨4, [2, 3], 1⟩],
    start_ := kNoState, final_ := 4 }

/-- The tree `B = (0-2 (0-1 a)(1-2 c))`. -/
def treeB : IHypergraph ℚ :=
  { mutable_ := true, properties_ := kStoreInArcs,
    labels_ := [Sym.terminal "a", Sym.terminal "c", Sym.nonterminal "0-1",
      Sym.nonterminal "1-2", Sym.nonterminal "0-2"],
    arcs_ := [⟨2, [0], 1⟩, ⟨3, [1], 1⟩, ⟨4, [2, 3], 1⟩],
    start_ := kNoState, final_ := 4 }

/-- The tree `(0-1 a)` of the one-word sentence `a`; state 1 is final. -/
def treeWord : IHypergraph ℚ :=
  { mutable_ := true, properties_ := kStoreInArcs,
    labels_ := [Sym.terminal "a", Sym.nonterminal "0-1"],
    arcs_ := [⟨1, [0], 1⟩],
    start_ := kNoState, final_ := 1 }

/-- The states of `hg` for a span: the states that are not lexical and whose
label reads as the span. -/
def statesForSpan {W : Type} (hg : IHypergraph W) (sp : Span) : List StateId :=
  (List.range hg.size).filter (fun s =>
    !hg.hasLexicalLabel s && decide (inferSpanFromLabel (hg.inputLabel s) = sp))

/-! ## The transform protocol: input to output, handles, vocabulary -/

namespace IHypergraph

variable {W : Type}

/-- `setVocabulary(voc)`. -/
def setVocabulary (hg : IHypergraph W) (voc : IVocabularyPtr) : IHypergraph W :=
  { hg with vocab_ := voc }

/-- `getVocabulary()`. -/
def getVocabulary (hg : IHypergraph W) : IVocabularyPtr := hg.vocab_

end IHypergraph

/-- `TransformBase::getVocab(defaultVoc)`: the vocabulary the transform is
configured with, or `defaultVoc` when none is set. The C++ member also stores
the vocabulary it returns in the per-thread slot `pVoc`, where later calls find
it; the model is of one call. -/
def Transform.getVocab {W : Type} (t : Transform W) (defaultVoc : IVocabularyPtr) :
    IVocabularyPtr :=
  match t.pVoc with
  | some voc => some voc
  | none => defaultVoc

/-- The constant `maybeClearProps = 0`. -/
def maybeClearProps : Properties := 0

/-- Modelled from the spec: `copyEnsuringProperties(from, to, on, off)`, "copies
`H_in` into `H_out` first, ensuring required properties": the states, arcs, start
and final state of `from` replace those of `to`, with the properties of `from`,
`on` forced on and `off` forced off; it "sets vocab", to the vocabulary of `from`
(`HypergraphCopyBasic.hpp` is not part of the sources at hand). -/
def copyEnsuringProperties {W : Type} (src dst : IHypergraph W)
    (addProps subProps : Properties) : IHypergraph W :=
  { dst with
    properties_ :=
      (src.properties_ ||| addProps) ^^^ ((src.properties_ ||| addProps) &&& subProps),
    labels_ := src.labels_, arcs_ := src.arcs_, start_ := src.start_, final_ := src.final_,
    vocab_ := src.vocab_ }

/-- Modelled from the spec: `ensureProperties(hg, on, maybeClear, off)`, a handle
to a hypergraph with the contents of `hg` that has the properties `on` and lacks
the properties `off`: `hg` itself, "returned unchanged (same identity) rather
than copied", when it qualifies, a mutable copy otherwise. The argument
`maybeClear` is 0 at every call and has no effect in the model
(`HypergraphCopyBasic.hpp` is not part of the sources at hand). -/
def ensureProperties {W : Type} (hg : IHypergraph W) (addProps _maybeClear
    subProps : Properties) : IHypergraph W :=
  if hg.properties_ &&& addProps == addProps && hg.properties_ &&& subProps == 0 then hg
  else copyEnsuringProperties hg (newMutableHypergraph W 0) addProps subProps

/-- `inout_impl(i, o, t)`: "without checking t.needs(i), copy if needed for
required input props, then o <- t(i)". The result is the state of `o`. -/
def inout_impl {W : Type} (i o : IHypergraph W) (t : Transform W) : Outcome W :=
  let o1 := o.setVocabulary (t.getVocab i.getVocabulary)
  let pi := ensureProperties i t.inAddProps maybeClearProps 0
  let o2 := o1.forcePropertiesOnOff t.outAddProps t.outSubProps
  let r := t.inout pi o2
  match r.error with
  | some e => ⟨r.hg, some e⟩
  | none => ⟨r.hg.forcePropertiesOnOff t.outAddProps t.outSubProps, none⟩

/-- `inout_by_inplace(i, o, t)`; the `assert(t.Inplace)` is a debug check. -/
def inout_by_inplace {W : Type} (i o : IHypergraph W) (t : Transform W) : Outcome W :=
  inplace_always (copyEnsuringProperties i o t.inAddProps 0) t

/-- `inoutNeeds(i, o, t)`, with the "precondition: t.needs(i) (or you don't care
that the transformation gets performed needlessly)". -/
def inoutNeeds {W : Type} (i o : IHypergraph W) (t : Transform W) : Outcome W :=
  if t.Inplace && !t.OptionalInplace then inout_by_inplace i o t
  else inout_impl i o t

/-- `inout(i, o, t)`. The result is the state of `o`; `i` is passed by reference
to a constant. -/
def inout {W : Type} (i o : IHypergraph W) (t : Transform W) : Outcome W :=
  if !t.needs i then ⟨copyEnsuringProperties i o t.outAddProps t.outSubProps, none⟩
  else inoutNeeds i o t

/-- `inplace(shared_ptr<IHypergraph<A> const>& cpi, t)`: the hypergraph the
handle points to after the call, and the return value. -/
def inplaceConstPtr {W : Type} (cpi : IHypergraph W) (t : Transform W) :
    Outcome W × Bool :=
  if !t.needs cpi then
    (⟨ensureProperties cpi t.outAddProps 0 t.outSubProps, none⟩, false)
  else
    let o := newMutableHypergraph W t.newOutAddProps
    if t.Inplace && !t.OptionalInplace then
      (inplace_always (copyEnsuringProperties cpi o t.inAddProps maybeClearProps) t, true)
    else
      let i2 := ensureProperties cpi t.inAddProps maybeClearProps 0
      (inout_impl i2 o t, true)

/-- `inplace(shared_ptr<IMutableHypergraph<A>>& pi, t)`. -/
def inplaceMutablePtr {W : Type} (pi : IHypergraph W) (t : Transform W) :
    Outcome W × Bool :=
  inplace pi t

/-- `inplace(shared_ptr<IHypergraph<A>>& pi, t)`, documented as "return false
iff !t.needs(*pi), modify pi": the hypergraph the handle points to after the
call, and the return value. -/
def inplacePtr {W : Type} (pi : IHypergraph W) (t : Transform W) : Outcome W × Bool :=
  if pi.isMutable then
    let r := inplaceMutablePtr pi t
    if r.2 then (r.1, true) else (r.1, false)
  else
    ((inplaceConstPtr pi t).1, false)

/-- `maybeInplace(i, t)`. The call
`inplace(static_cast<IMutableHypergraph<A>*>(&i))` in its body passes a pointer
and no transform, which none of the overloads of `inplace` in `Transform.hpp`
accepts; what the call does is the parameter `inplacePointer`. The result is the
state of `i` and the return value. -/
def maybeInplace {W : Type} (inplacePointer : IHypergraph W → Outcome W)
    (i : IHypergraph W) (_t : Transform W) : Outcome W × Bool :=
  if i.isMutable then (inplacePointer i, true) else (⟨i, none⟩, false)

/-- `tryInplace(i, t)`. -/
def tryInplace {W : Type} (inplacePointer : IHypergraph W → Outcome W)
    (i : IHypergraph W) (t : Transform W) : Outcome W :=
  let r := maybeInplace inplacePointer i t
  match r.1.error with
  | some e => ⟨r.1.hg, some e⟩
  | none =>
    if !r.2 then ⟨r.1.hg, some Exception.ImmutableHypergraphException⟩ else r.1

/-- `inplaceTransform(opt, hg)`; `optInplace` is `opt.inplace`, which
`InplaceForOptions<Options>().inplace(opt, hg)` calls. -/
def inplaceTransform {W : Type} (optInplace : IHypergraph W → Outcome W)
    (hg : IHypergraph W) : Outcome W :=
  if !hg.isMutable then ⟨hg, some Exception.ProgrammerMistakeException⟩
  else optInplace hg

/-- `transformedNewNeeds(hg, t, pVoc)`: the new hypergraph. -/
def transformedNewNeeds {W : Type} (hg : IHypergraph W) (t : Transform W)
    (pVoc : IVocabularyPtr) : Outcome W :=
  let cpProp := t.inAddProps ||| t.newOutAddProps
  let m := newMutableHypergraph W cpProp
  let m1 := m.setVocabulary (if pVoc.isSome then pVoc else t.getVocab hg.getVocabulary)
  inoutNeeds hg m1 t

/-- `transformedMaybeInplace(hg, t, pVoc)`: the hypergraph behind the handle
that is returned, which is `hg` itself when the transform is not needed or runs
in place. -/
def transformedMaybeInplace {W : Type} (hg : IHypergraph W) (t : Transform W)
    (pVoc : IVocabularyPtr) : Outcome W :=
  if !t.needs hg then ⟨hg, none⟩
  else if t.Inplace && hg.isMutable then t.inplace hg
  else transformedNewNeeds hg t pVoc

/-! ## Transforms and graphs used as test inputs -/

/-- `IsolateStartState` with a `needsCopy` that holds for every input, as for a
binary transform whose two arguments are the same object. -/
def isolateNeedsCopy : Transform ℚ :=
  { IsolateStartState ℚ with needsCopy := fun _ => true }

/-- An in-place transform that is needed while the in-arc index is missing,
requires that index on its input, and adds a state. -/
def addStateUnlessIndexed : Transform ℚ :=
  { Inplace := true, OptionalInplace := false,
    needs := fun h => !h.storesInArcs,
    needsCopy := fun _ => false,
    inAddProps := kStoreInArcs, outAddProps := NoProperties, outSubProps := NoProperties,
    newOutAddProps := NewOutAddProps ||| NoProperties,
    inplace := fun h => ⟨(h.addState Sym.noSymbol).1, none⟩,
    inout := fun _ o => ⟨o, some Exception.InvalidInputException⟩ }

/-- An in-place transform that requires the in-arc index on its input: its
algorithm reads the index and fails on a hypergraph that does not store it. -/
def requiresInArcs : Transform ℚ :=
  { Inplace := true, OptionalInplace := false,
    needs := fun _ => true,
    needsCopy := fun _ => false,
    inAddProps := kStoreInArcs, outAddProps := NoProperties, outSubProps := NoProperties,
    newOutAddProps := NewOutAddProps ||| NoProperties,
    inplace := fun h =>
      if h.storesInArcs then ⟨h, none⟩ else ⟨h, some Exception.InvalidInputException⟩,
    inout := fun _ o => ⟨o, some Exception.InvalidInputException⟩ }

/-- `IsolateStartState` configured with the vocabulary 7. -/
def isolateWithVocab : Transform ℚ :=
  { IsolateStartState ℚ with pVoc := some 7 }

/-- The tuple `(tails…, head)` of an arc, as `addStates` and `addStatesRecurse`
build it for the set `resultArcs`. -/
def Arc.arcStates {W : Type} (a : Arc W) : List StateId := a.tails_ ++ [a.head_]

/-- The canonical empty hypergraph, as `setEmpty` leaves it. -/
def emptyHypergraph : IHypergraph SdlFloat :=
  { mutable_ := true, properties_ := 0, labels_ := [], arcs_ := [],
    start_ := kNoState, final_ := kNoState }

/-- `IsolateStartState` declared to leave the first-tail out-arc index and to
drop the in-arc index. -/
def isolateReindexing : Transform ℚ :=
  { IsolateStartState ℚ with
    outAddProps := kStoreFirstTailOutArcs, outSubProps := kStoreInArcs }

/-- An input-to-output transform that requires the in-arc index on its input and
is declared to leave its output without it: its algorithm reads the index of the
input, fails when the input does not store it, and copies the input
otherwise. -/
def requiresInArcsInout : Transform ℚ :=
  { Inplace := false, OptionalInplace := false,
    needs := fun _ => true,
    needsCopy := fun _ => false,
    inAddProps := kStoreInArcs, outAddProps := NoProperties, outSubProps := kStoreInArcs,
    newOutAddProps := NewOutAddProps ||| NoProperties,
    inplace := fun h => ⟨h, some Exception.InvalidInputException⟩,
    inout := fun i o =>
      if i.storesInArcs then ⟨copyHypergraph i o, none⟩
      else ⟨o, some Exception.InvalidInputException⟩ }

/-- A hypergraph that is not a graph: the arc `2 ← (0, 1)` has two tails; state 0
is the start state and state 2 the final state. -/
def twoTailHypergraph : IHypergraph SdlFloat :=
  { mutable_ := true, properties_ := 0,
    labels_ := [Sym.noSymbol, Sym.noSymbol, Sym.noSymbol],
    arcs_ := [⟨2, [0, 1], SdlFloat.fin 1⟩],
    start_ := 0, final_ := 2 }
/-! ## Validators of the configure library (`graehl/shared/validate.hpp`) -/

/-- The exception `config_exception`, declared by
`SIMPLE_EXCEPTION_PREFIX(config_exception, "configure: ")`: its message. -/
structure config_exception where
  what : String
deriving DecidableEq

/-- `bounded_range_validate<I>`: the validator made by `bounded_range(begin, end,
desc)`. -/
structure bounded_range_validate (I : Type) where
  begin : I
  endv : I
  desc : String

/-- `bounded_range(begin, end, desc)`; `desc` defaults to
`"value out of bounds"`. -/
def bounded_range {I : Type} (begin endv : I) (desc : String := "value out of bounds") :
    bounded_range_validate I :=
  ⟨begin, endv, desc⟩

/-- `bounded_range_validate::operator()(i2)`: throws when `i2 < begin` or not
`i2 < end`. The function `to_string` is `graehl::to_string`, which is not part of
the sources at hand. -/
def bounded_range_validate.call {I : Type} [LT I] [DecidableRel (fun a b : I => a < b)]
    (to_string : I → String) (v : bounded_range_validate I) (i2 : I) :
    Except config_exception Unit :=
  if i2 < v.begin ∨ ¬ i2 < v.endv then
    Except.error ⟨"configure: " ++ (v.desc ++ " value " ++ to_string i2 ++ " - should have [" ++
      to_string v.begin ++ " <= value <  " ++ to_string v.endv ++ ")")⟩
  else Except.ok ()

/-- `bounded_range_inclusive_validate<I>`: the validator made by
`bounded_range_inclusive(begin, end, desc)`. -/
structure bounded_range_inclusive_validate (I : Type) where
  begin : I
  endv : I
  desc : String

/-- `bounded_range_inclusive(begin, end, desc)`; `desc` defaults to
`"value out of bounds"`. -/
def bounded_range_inclusive {I : Type} (begin endv : I)
    (desc : String := "value out of bounds") : bounded_range_inclusive_validate I :=
  ⟨begin, endv, desc⟩

/-- `bounded_range_inclusive_validate::operator()(i2)`: throws when `i2 < begin`
or `end < i2`. -/
def bounded_range_inclusive_validate.call {I : Type} [LT I]
    [DecidableRel (fun a b : I => a < b)] (to_string : I → String)
    (v : bounded_range_inclusive_validate I) (i2 : I) : Except config_exception Unit :=
  if i2 < v.begin ∨ v.endv < i2 then
    Except.error ⟨"configure: " ++ (v.desc ++ " value " ++ to_string i2 ++ " - should have [" ++
      to_string v.begin ++ " <= value <=  " ++ to_string v.endv ++ "]")⟩
  else Except.ok ()

/-- Whether a call threw. -/
def raises {ε α : Type} (r : Except ε α) : Bool :=
  match r with
  | Except.error _ => true
  | Except.ok _ => false
/-! ## MemoryInfo: the columns of a line (`Util/src/MemoryInfo.cpp`) -/

/-- The constant `std::string::npos`, the largest value of the 64-bit
`size_type`. -/
def npos : Nat := 2 ^ 64 - 1

/-- `s.find(c, pos)`: the position of the first `c` at or after `pos`, or `npos`
when there is none. -/
def stringFind (s : List Char) (c : Char) (pos : Nat) : Nat :=
  match (s.drop pos).findIdx? (fun d => d == c) with
  | some i => pos + i
  | none => npos

/-- `s.substr(pos, n)`: at most `n` characters from `pos` on; `none` stands for
the `std::out_of_range` thrown when `pos` is beyond the end. -/
def stringSubstr (s : List Char) (pos n : Nat) : Option (List Char) :=
  if s.length < pos then none else some ((s.drop pos).take n)

/-- The loop `while (columnNumber-- > 0) start = s.find(' ', start) + 1;` of
`getColumn`, in `size_type` arithmetic. -/
def getColumnStart (s : List Char) : Nat → Nat → Nat
  | 0, start => start
  | columnNumber + 1, start =>
    getColumnStart s columnNumber ((stringFind s ' ' start + 1) % 2 ^ 64)

/-- `MemoryInfo::getColumn(s, columnNumber)`, documented as "Returns the
specified column of a string. (columns are blank-separated, counting from
0)". -/
def getColumn (s : String) (columnNumber : Nat) : Option String :=
  let start := getColumnStart s.data columnNumber 0
  (stringSubstr s.data start
    ((stringFind s.data ' ' (start + 1) + 2 ^ 64 - start) % 2 ^ 64)).map String.mk

/-- The columns of a line, "blank-separated, counting from 0": the pieces
between the blanks. -/
def columns (s : String) : List String :=
  (s.data.splitOn ' ').map String.mk
/-! ## Graphs used as test inputs of the weight pushing -/

/-- A cyclic automaton: `start = 0`, `final = 2`, and the arcs `0 -1-> 1`,
`1 -1-> 1`, `1 -1-> 2`; the second arc is a loop at state `1`. -/
def cyclicAutomaton : IHypergraph SdlFloat :=
  { mutable_ := true, properties_ := 0,
    labels_ := [Sym.noSymbol, Sym.noSymbol, Sym.noSymbol],
    arcs_ := [⟨1, [0], SdlFloat.fin 1⟩, ⟨1, [1], SdlFloat.fin 1⟩, ⟨2, [1], SdlFloat.fin 1⟩],
    start_ := 0, final_ := 2 }

/-- A hypergraph over the rationals with a dead end: state `0` is the start
state, state `1` the final state, and the arcs are `1 ← (0)` with weight `1/2`
and `2 ← (0)` with weight `1/3`; no arc leaves state `2`. -/
def deadEndHypergraph : IHypergraph ℚ :=
  { mutable_ := true, properties_ := 0,
    labels_ := [Sym.noSymbol, Sym.noSymbol, Sym.noSymbol],
    arcs_ := [⟨1, [0], 1/2⟩, ⟨2, [0], 1/3⟩],
    start_ := 0, final_ := 1 }

/-- An automaton whose start state is its final state: states `0` and `1`,
`start = final = 0`, and the arc `0 -1-> 1`. -/
def startFinalAutomaton : IHypergraph SdlFloat :=
  { mutable_ := true, properties_ := 0,
    labels_ := [Sym.noSymbol, Sym.noSymbol],
    arcs_ := [⟨1, [0], SdlFloat.fin 1⟩],
    start_ := 0, final_ := 0 }
/-! ## A hypergraph followed by more states and arcs -/

/-- The hypergraph `g'` is `g` followed by more states and more arcs: the states
and arcs of `g` keep their places, labels and weights, and the start and final
state are the same. -/
structure AppendsTo {W : Type} (g g' : IHypergraph W) : Prop where
  labels_app : ∃ extra, g'.labels_ = g.labels_ ++ extra
  arcs_app : ∃ extra, g'.arcs_ = g.arcs_ ++ extra
  start_same : g'.start_ = g.start_
  final_same : g'.final_ = g.final_
/-! ## Vocabulary: `BasicVocabularyImpl` (`Vocabulary/BasicVocabularyImpl.hpp`) -/

namespace Vocabulary

/-- `SymInt`, an unsigned 32-bit integer; the arithmetic on it is modulo
`2 ^ 32`. -/
abbrev SymInt := Nat

/-- `Sym`: a symbol is its identifier `id_`, which holds the type and the index
of the symbol (`Sym.hpp` is not part of the sources at hand). -/
structure Sym where
  id_ : SymInt
deriving DecidableEq

/-- The constant `kNullIndex = (SymInt)-1`. -/
def kNullIndex : SymInt := 2 ^ 32 - 1

/-- Modelled from the spec: `Util::IndexedStrings`, "an array of strings and a
map from string to id", the interning table behind `add(text) -> symbol`
(`IndexedStrings.hpp` is not part of the sources at hand). -/
structure IndexedStrings where
  strings : List String
deriving DecidableEq

namespace IndexedStrings

/-- `size()`. -/
def size (s : IndexedStrings) : Nat := s.strings.length

/-- `find(word)`: the index of the word, or `kNullIndex`. -/
def find (s : IndexedStrings) (word : String) : SymInt :=
  if word ∈ s.strings then s.strings.indexOf word else kNullIndex

/-- `index(word)`: the index of the word, which is added at the end when it is
new. The result is the index and the table after the call. -/
def index (s : IndexedStrings) (word : String) : SymInt × IndexedStrings :=
  if word ∈ s.strings then (s.strings.indexOf word, s)
  else (s.strings.length, ⟨s.strings ++ [word]⟩)

/-- `operator[](i)`; reading past the end is out of bounds in C++ and gives the
empty string here. -/
def get (s : IndexedStrings) (i : Nat) : String := s.strings.getD i ""

end IndexedStrings

/-- The data members of `BasicVocabularyImpl`; `type_` is the `SymbolType` as a
number. -/
structure BasicVocabularyImpl where
  offset_ : SymInt
  maxLstSize_ : SymInt
  freezeEndIndex_ : SymInt
  type_ : SymInt
  symbols_ : IndexedStrings
  type_offset_ : SymInt
deriving DecidableEq

namespace BasicVocabularyImpl

/-- The constructor `BasicVocabularyImpl(type, offset)`, which calls
`init(type, offset)` on a new object; `freezeEndIndex_`, which `init` does not
set, is taken as 0. -/
def init (type offset : SymInt) : BasicVocabularyImpl :=
  { offset_ := offset,
    maxLstSize_ := (2 ^ 32 - 1 + 2 ^ 32 - offset) % 2 ^ 32,
    freezeEndIndex_ := 0,
    type_ := type,
    symbols_ := ⟨[]⟩,
    type_offset_ := (type + offset) % 2 ^ 32 }

/-- `size()`. -/
def size (v : BasicVocabularyImpl) : SymInt := v.symbols_.size % 2 ^ 32

/-- `symForIndex(i)`; the `assert(i < maxLstSize_)` is a debug check. -/
def symForIndex (v : BasicVocabularyImpl) (i : SymInt) : Sym :=
  ⟨(i + v.type_offset_) % 2 ^ 32⟩

/-- `add(word)`: the symbol and the vocabulary after the call. -/
def add (v : BasicVocabularyImpl) (word : String) : Sym × BasicVocabularyImpl :=
  let r := v.symbols_.index word
  (v.symForIndex (r.1 % 2 ^ 32), { v with symbols_ := r.2 })

/-- `str(sym)`; the `assert(containsSym(sym))` is a debug check. The function
`symIndex` is `Sym::index()`, which is not part of the sources at hand. -/
def str (symIndex : Sym → SymInt) (v : BasicVocabularyImpl) (sym : Sym) : String :=
  v.symbols_.get ((symIndex sym + 2 ^ 32 - v.offset_) % 2 ^ 32)

end BasicVocabularyImpl

end Vocabulary
/-! ## Equality of sets of lines (`Util/src/Equal.cpp`) -/

/-- `std::set<std::string>` (`StringsSet`): its elements in increasing order. -/
abbrev StringsSet := List String

/-- `set.insert(x)`. -/
def StringsSet.insert (s : StringsSet) (x : String) : StringsSet :=
  if x ∈ s then s else List.orderedInsert (fun a b => a ≤ b) x s

/-- `normalizeLine(line, sortWords, wordsep)`: the line after the call. The
functions `chomp` and `sortWordsLine`, which stands for
`graehl::join_to(line, Util::sorted(graehl::split(line, wordsep)), wordsep)`, are
not part of the sources at hand. -/
def normalizeLine (chomp sortWordsLine : String → String) (line : String)
    (sortWords : Bool) : String :=
  let line1 := chomp line
  if sortWords then sortWordsLine line1 else line1

/-- `normalizeLines(in, out, sortWords)`: the set `out` after the call. -/
def normalizeLines (chomp sortWordsLine : String → String) (lines : List String)
    (out : StringsSet) (sortWords : Bool) : StringsSet :=
  lines.foldl (fun out line => out.insert (normalizeLine chomp sortWordsLine line sortWords))
    out

/-- `StringsUnorderedEqual(lines1, lines2, sortWords, name1, name2, warn)`,
declared as "return whether sets of lines are the same". The names and `warn`
only shape the log message and are left out. -/
def StringsUnorderedEqual (chomp sortWordsLine : String → String)
    (lines1 lines2 : List String) (sortWords : Bool := false) : Bool :=
  let lines1Set := normalizeLines chomp sortWordsLine lines1 [] sortWords
  let lines2Set := normalizeLines chomp sortWordsLine lines2 [] sortWords
  lines1Set == lines2Set
/-! ## Notions used to state the local normalization of `PushCostsToStart` -/

/-- IEEE `<=`: false as soon as one side is `NaN`. -/
def SdlFloat.le : SdlFloat → SdlFloat → Bool
  | SdlFloat.fin a, SdlFloat.fin b => decide (a ≤ b)
  | SdlFloat.fin _, SdlFloat.posInf => true
  | SdlFloat.negInf, SdlFloat.fin _ => true
  | SdlFloat.negInf, SdlFloat.posInf => true
  | SdlFloat.negInf, SdlFloat.negInf => true
  | SdlFloat.posInf, SdlFloat.posInf => true
  | _, _ => false

/-- Every arc cost is a number that is not negative. -/
def NonNegCosts (hg : IHypergraph SdlFloat) : Prop :=
  ∀ a ∈ hg.arcs_, ∃ q : ℚ, a.weight_ = SdlFloat.fin q ∧ 0 ≤ q

/-- The sum of the costs of the arcs of a path, as a rational. -/
def pathSum (p : List (Arc SdlFloat)) : ℚ := (p.map (fun a => SdlFloat.finVal a.weight_)).sum

/-- The state `s` lies on a path from the start state to the final state. -/
def OnStartFinalPath {W : Type} (hg : IHypergraph W) (s : StateId) : Prop :=
  ∃ p1 p2, IsPath hg hg.start p1 s ∧ IsPath hg s p2 hg.final

/-- The arc `a` lies on a path from the start state to the final state. -/
def ArcOnStartFinalPath {W : Type} (hg : IHypergraph W) (a : Arc W) : Prop :=
  a ∈ hg.arcs_ ∧ ∃ p1 p2, IsPath hg hg.start p1 a.firstTail ∧ IsPath hg a.head_ p2 hg.final
/-! ## NFC normalization options (`Util/Nfc.hpp`) -/

/-- The normalizers that `Nfc.hpp` declares and does not define.
`maybeNormalizeToNfc in out warnIfNotNfc warnFalsePositiveOk nfkc` is
`maybeNormalizeToNfc(Slice in, std::string& out, bool warnIfNotNfc, bool
warnFalsePositiveOk, bool nfkc)`: the value returned and `out` after the call.
`normalizeToNfc in out warnIfNotNfc nfkc` is `normalizeToNfc(in, out,
warnIfNotNfc, nfkc)`: `out` after the call. -/
structure NfcNormalizer where
  maybeNormalizeToNfc : String → String → Bool → Bool → Bool → Bool × String
  normalizeToNfc : String → String → Bool → Bool → String

/-- The constant `kXmtDefaultNfc`. -/
def kXmtDefaultNfc : Bool := false

/-- The constant `kSilentlyNfc`. -/
def kSilentlyNfc : Bool := false

/-- The inline overload `maybeNormalizeToNfc(std::string const& in, std::string&
out, bool warnIfNotNfc = kSilentlyNfc, bool warnFalsePositiveOk = true, bool nfkc
= false)`, which passes its five arguments on. -/
def maybeNormalizeToNfc (U : NfcNormalizer) (inp out : String)
    (warnIfNotNfc : Bool := kSilentlyNfc) (warnFalsePositiveOk : Bool := true)
    (nfkc : Bool := false) : Bool × String :=
  U.maybeNormalizeToNfc inp out warnIfNotNfc warnFalsePositiveOk nfkc

/-- The constructor `NfcStringRef(utf8, warnIfNotNfc, nfkc)` followed by the
conversion to `std::string const&`: the string referred to, which is the buffer
when `maybeNormalizeToNfc(utf8, buf, warnIfNotNfc, nfkc)` returns true and `utf8`
otherwise. -/
def NfcStringRef (U : NfcNormalizer) (utf8 : String) (warnIfNotNfc : Bool := kSilentlyNfc)
    (nfkc : Bool := false) : String :=
  let r := maybeNormalizeToNfc U utf8 "" warnIfNotNfc nfkc
  if r.1 then r.2 else utf8

/-- `normalizeToNfcInplace(s, warnIfNotNfc, nfkc)`: the string `s` after the
call. -/
def normalizeToNfcInplace (U : NfcNormalizer) (s : String)
    (warnIfNotNfc : Bool := kSilentlyNfc) (nfkc : Bool := false) : String :=
  NfcStringRef U s warnIfNotNfc nfkc

/-- The data members of `NfcOptions` with their initial values. -/
structure NfcOptions where
  nfc : Bool := kXmtDefaultNfc
  nfkc : Bool := false
  warnIfNotNfc : Bool := false
  warnIfResultNotNfc : Bool := true
deriving DecidableEq

namespace NfcOptions

/-- `validate()`: the options after the call. -/
def validate (x : NfcOptions) : NfcOptions :=
  let x1 := if x.warnIfNotNfc then { x with warnIfResultNotNfc := true } else x
  if x1.nfkc then { x1 with nfc := true } else x1

/-- `normalize(std::string& in)`: the string `in` after the call. The warning of
`maybeWarn` is a log message and leaves the string as it is. -/
def normalize (o : NfcOptions) (U : NfcNormalizer) (inp : String) : String :=
  if o.nfc then normalizeToNfcInplace U inp o.warnIfNotNfc o.nfkc else inp

/-- `normalize(std::string const& in, std::string& out)`: the string `out` after
the call. -/
def normalizeTo (o : NfcOptions) (U : NfcNormalizer) (inp out : String) : String :=
  if o.nfc then U.normalizeToNfc inp out o.warnIfNotNfc o.nfkc else inp

/-- `maybeNormalize(std::string const& in, std::string& out)`: the value
returned and `out` after the call. -/
def maybeNormalize (o : NfcOptions) (U : NfcNormalizer) (inp out : String) : Bool × String :=
  if o.nfc then maybeNormalizeToNfc U inp out o.warnIfNotNfc o.nfkc else (false, out)

end NfcOptions

/-- A normalization for tests: with `nfkc` the ligature U+FB01 is replaced by
the letters `f` and `i`, as NFKC does; without, the text is left as it is, as
NFC does with this character. -/
def ligatureNormalize (nfkc : Bool) (s : String) : String :=
  if nfkc then
    String.mk ((s.data.map (fun c => if c = Char.ofNat 64257 then ['f', 'i'] else [c])).flatten)
  else s

/-- The normalizers built on `ligatureNormalize`: `maybeNormalizeToNfc` appends
the normal form and returns true when the input is not in normal form;
`normalizeToNfc` appends the normal form. -/
def ligatureNormalizer : NfcNormalizer :=
  { maybeNormalizeToNfc := fun inp out _ _ nfkc =>
      if ligatureNormalize nfkc inp = inp then (false, out)
      else (true, out ++ ligatureNormalize nfkc inp),
    normalizeToNfc := fun inp out _ nfkc => out ++ ligatureNormalize nfkc inp }
/-! ## Notions used to state the properties of the span inference -/

/-- The invariant of `std::map`: the entries are in strictly increasing key
order. -/
def NatMap.Ordered {α : Type} (m : NatMap α) : Prop :=
  List.Pairwise (fun a b => a.1 < b.1) m

/-- The covering spans of the tails of a list of in-arcs, computed as the first
loop of `getSourceSpansBubbleUp` computes them, one per arc in the order of the
arcs, with the map after the loop. -/
def bubbleUpCovers {W : Type} (recurse : StateId → StateIdToSpan → Res (Span × StateIdToSpan)) :
    List (Arc W) → StateIdToSpan → Res (List Span × StateIdToSpan)
  | [], m => Res.ok ([], m)
  | arc :: arcs, m =>
    (arc.tails_.foldlM (bubbleUpTailStep recurse) (kNullSpan, m)).bind (fun r =>
      (bubbleUpCovers recurse arcs r.2).bind (fun rs => Res.ok (r.1 :: rs.1, rs.2)))

/-- The bound `b` is a most frequent one in the list `votes`, and the smallest
of the most frequent ones. -/
def MostVoted (votes : List Nat) (b : Nat) : Prop :=
  b ∈ votes ∧ ∀ k ∈ votes, votes.count k ≤ votes.count b ∧
    (votes.count k = votes.count b → b ≤ k)

/-- The defined left bounds of a list of covering spans. -/
def definedLefts (covers : List Span) : List Nat :=
  (covers.map (fun c => c.left)).filter defined

/-- The defined right bounds of a list of covering spans. -/
def definedRights (covers : List Span) : List Nat :=
  (covers.map (fun c => c.right)).filter defined

/-- The in-arcs are reliable: their covering spans yield exactly one distinct
defined left bound and exactly one distinct defined right bound. -/
def reliableCovers (covers : List Span) : Bool :=
  decide ((definedLefts covers).dedup.length = 1 ∧ (definedRights covers).dedup.length = 1)

/-- The votes for the left bound of a state: the defined left bounds of the
covering spans of its in-arcs, and one more vote for the left bound of the span
of its label when the in-arcs are not reliable. -/
def leftVotes (covers : List Span) (label : Span) : List Nat :=
  if reliableCovers covers then definedLefts covers else definedLefts covers ++ [label.left]

/-- The votes for the right bound of a state. -/
def rightVotes (covers : List Span) (label : Span) : List Nat :=
  if reliableCovers covers then definedRights covers else definedRights covers ++ [label.right]

/-- The states that the top-down pass from `s` visits: `s`, and the tails of the
in-arcs of the states visited. -/
inductive VisitedFrom {W : Type} (hg : IHypergraph W) (s : StateId) : StateId → Prop
  | root : VisitedFrom hg s s
  | tail (h : StateId) (arc : Arc W) (t : StateId) :
      VisitedFrom hg s h → arc ∈ hg.inArcs h → t ∈ arc.tails_ → VisitedFrom hg s t

/-- What the top-down pass from `s` may do to one bound of the state `k`, the
bound being given by `side` (left or right) and the tail it is handed to by
`pos` (first or last): the new bound is the old one, or the old one was
undefined and the new one is the bound that the map `m'` has for a visited state
`h` with an in-arc of which `k` is the tail at `pos`. -/
def BoundKept {W : Type} (hg : IHypergraph W) (s : StateId) (m' : StateIdToSpan)
    (side : Span → Nat) (pos : List StateId → Option StateId) (k : StateId)
    (old new : Nat) : Prop :=
  new = old ∨
    (defined old = false ∧ defined new = true ∧
      ∃ h arc sph, VisitedFrom hg s h ∧ arc ∈ hg.inArcs h ∧ pos arc.tails_ = some k ∧
        m'.find h = some sph ∧ side sph = new)

/-- The first tail of an arc. -/
def firstOf (tails : List StateId) : Option StateId := tails[0]?

/-- The last tail of an arc. -/
def lastOf (tails : List StateId) : Option StateId := tails[tails.length - 1]?

/-- The map `m'` comes from the map `m` by handing bounds down from `s`: the
same keys, and every bound kept or filled in from a visited head. -/
structure BubbledDown {W : Type} (hg : IHypergraph W) (s : StateId)
    (m m' : StateIdToSpan) : Prop where
  keys : m'.map (fun e => e.1) = m.map (fun e => e.1)
  bounds : ∀ k sp, m.find k = some sp → ∃ sp', m'.find k = some sp' ∧
    BoundKept hg s m' (fun x => x.left) firstOf k sp.left sp'.left ∧
    BoundKept hg s m' (fun x => x.right) lastOf k sp.right sp'.right

/-- The matching rule of the specification, "a candidate matches if both are
non-lexical, or both are lexical with identical input label text": `head` is a
state of the second graph `hg`, `s` a state of the result, which holds the copy
of the first graph. -/
def statesMatch {W : Type} (hg result : IHypergraph W) (head s : StateId) : Bool :=
  (!result.hasLexicalLabel s && !hg.hasLexicalLabel head) ||
    (result.hasLexicalLabel s && hg.hasLexicalLabel head &&
      decide (result.inputLabel s = hg.inputLabel head))

/-- The innermost loop of `addStatesRecurse`, over the tuples of the cartesian
product for one new head and one in-arc: the arc is added unless its tuple is in
`resultArcs`. -/
def addArcsForTuples {W : Type} [One W] (newHead : StateId) (cartProd : List (List StateId))
    (st : AddStatesState W) : AddStatesState W :=
  cartProd.foldl (fun (st : AddStatesState W) tuple =>
    let arcStates := tuple ++ [newHead]
    if st.resultArcs.contains arcStates then st
    else { st with
      result := st.result.addArc ⟨newHead, tuple, 1⟩,
      resultArcs := arcStates :: st.resultArcs }) st

/-- The hypergraph `g'` differs from `g` in the weights of its arcs only, as far
as the sub-union reads a hypergraph: the same labels, start and final state, and
arc by arc the same head and tails. -/
structure DifferOnlyInWeights {W : Type} (g g' : IHypergraph W) : Prop where
  labels_eq : g'.labels_ = g.labels_
  start_eq : g'.start_ = g.start_
  final_eq : g'.final_ = g.final_
  arcs_eq : List.Forall₂ (fun a a' : Arc W => a'.head_ = a.head_ ∧ a'.tails_ = a.tails_)
    g.arcs_ g'.arcs_

/-- The arcs of the result are the arcs `base` followed by arcs of the default
weight. -/
def AddedDefaultWeights {W : Type} [One W] (base : List (Arc W)) (g : IHypergraph W) : Prop :=
  ∃ added, g.arcs_ = base ++ added ∧ ∀ a ∈ added, a.weight_ = 1
/-! ## Hypergraphs used as test inputs of the span inference -/

/-- A tree whose top arc has the same tail twice: state 0 is the word `a`, the
states 1 and 2 have the label `0-1`, the arcs are `1 ← (0)` and `2 ← (1 1)`, and
state 2 is final. -/
def twiceTailTree : IHypergraph ℚ :=
  { mutable_ := true, properties_ := kStoreInArcs,
    labels_ := [Sym.terminal "a", Sym.nonterminal "0-1", Sym.nonterminal "0-1"],
    arcs_ := [⟨1, [0], 1⟩, ⟨2, [1, 1], 1⟩],
    start_ := kNoState, final_ := 2 }

/-- A forest in which two arcs share a tail: state 0 is the word `a`, the
states 1 to 4 have the label `0-1`, the arcs are `1 ← (0)`, `2 ← (1)`, `3 ← (1)`,
`4 ← (2)` and `4 ← (3)`, and state 4 is final. -/
def sharedTailForest : IHypergraph ℚ :=
  { mutable_ := true, properties_ := kStoreInArcs,
    labels_ := [Sym.terminal "a", Sym.nonterminal "0-1", Sym.nonterminal "0-1",
      Sym.nonterminal "0-1", Sym.nonterminal "0-1"],
    arcs_ := [⟨1, [0], 1⟩, ⟨2, [1], 1⟩, ⟨3, [1], 1⟩, ⟨4, [2], 1⟩, ⟨4, [3], 1⟩],
    start_ := kNoState, final_ := 4 }
/-! ## Rounded arithmetic

`SdlFloat` is a binary floating-point type whose declaration is not part of the
sources at hand; every `+` and `-` on it rounds its exact result to the format.
The definitions below repeat the cost passes and `PushCostsToStart` with the
rounding of each operation as a parameter `rnd`. With `rnd` the identity they
are the definitions of the exact model. -/

/-- A binary floating-point format: `prec` significant bits, the least positive
value `2 ^ (-emin)`, and overflow to infinity from `2 ^ emax` on. -/
structure FloatFormat where
  prec : Nat
  emin : Nat
  emax : Nat

/-- IEEE 754 binary32, the C++ `float`. -/
def binary32 : FloatFormat := ⟨24, 149, 128⟩

/-- IEEE 754 binary64, the C++ `double`. -/
def binary64 : FloatFormat := ⟨53, 1074, 1024⟩

/-- The fraction `n / d` divided by `2 ^ k`, as a fraction of naturals. -/
def scaleFraction (n d : Nat) (k : Int) : Nat × Nat :=
  if 0 ≤ k then (n, d * 2 ^ k.toNat) else (n * 2 ^ (-k).toNat, d)

/-- The integer nearest to `n / d`, the even one of two that are equally near. -/
def roundHalfEven (n d : Nat) : Nat :=
  if 2 * (n % d) < d then n / d
  else if d < 2 * (n % d) then n / d + 1
  else if (n / d) % 2 = 0 then n / d
  else n / d + 1

/-- The number of binary digits of `n`, counted in at most `fuel` halvings. -/
def bitLengthAux : Nat → Nat → Nat
  | 0, _ => 0
  | fuel + 1, n => if n = 0 then 0 else bitLengthAux fuel (n / 2) + 1

/-- The number of binary digits of `n`. -/
def bitLength (n : Nat) : Nat := bitLengthAux n n

/-- The exponent `e` with `2 ^ e ≤ n / d < 2 ^ (e + 1)`, for positive `n` and
`d`: the difference of the digit counts, or one less. -/
def floorLog2 (n d : Nat) : Int :=
  if (scaleFraction n d ((bitLength n : Int) - (bitLength d : Int))).2 ≤
      (scaleFraction n d ((bitLength n : Int) - (bitLength d : Int))).1 then
    (bitLength n : Int) - (bitLength d : Int)
  else (bitLength n : Int) - (bitLength d : Int) - 1

/-- The exponent of the unit in the last place of the values near `n / d`. -/
def FloatFormat.ulpExponent (f : FloatFormat) (n d : Nat) : Int :=
  max (floorLog2 n d - ((f.prec : Int) - 1)) (-(f.emin : Int))

/-- The multiple of the unit in the last place nearest to `n / d`, ties to the
even multiple. -/
def FloatFormat.roundUnits (f : FloatFormat) (n d : Nat) : Nat :=
  roundHalfEven (scaleFraction n d (f.ulpExponent n d)).1
    (scaleFraction n d (f.ulpExponent n d)).2

/-- The magnitude `n / d` rounded to the format: `roundUnits` times the unit in
the last place. -/
def FloatFormat.roundMagnitude (f : FloatFormat) (n d : Nat) : ℚ :=
  mkRat ((f.roundUnits n d * 2 ^ (f.ulpExponent n d).toNat : Nat) : Int)
    (2 ^ (-(f.ulpExponent n d)).toNat)

/-- The rounded magnitude is `2 ^ emax` or more. -/
def FloatFormat.overflows (f : FloatFormat) (n d : Nat) : Bool :=
  decide (2 ^ f.emax * 2 ^ (-(f.ulpExponent n d)).toNat ≤
    f.roundUnits n d * 2 ^ (f.ulpExponent n d).toNat)

/-- Round to nearest, ties to even, of a rational to the format. -/
def FloatFormat.roundRat (f : FloatFormat) (q : ℚ) : SdlFloat :=
  if q.num = 0 then SdlFloat.fin 0
  else if f.overflows q.num.natAbs q.den then
    (if q.num < 0 then SdlFloat.negInf else SdlFloat.posInf)
  else if q.num < 0 then SdlFloat.fin (-(f.roundMagnitude q.num.natAbs q.den))
  else SdlFloat.fin (f.roundMagnitude q.num.natAbs q.den)

/-- The rounding of the exact result of an operation to the format; the special
values stay as they are. -/
def FloatFormat.round (f : FloatFormat) : SdlFloat → SdlFloat
  | SdlFloat.fin q => f.roundRat q
  | x => x

/-- One relaxation round of the inside costs, each sum rounded. -/
def insideStepRounded (rnd : SdlFloat → SdlFloat) (hg : IHypergraph SdlFloat)
    (prev : StateId → SdlFloat) (s : StateId) : SdlFloat :=
  if s = hg.start_ then 0
  else (hg.inArcs s).foldl
    (fun acc a => SdlFloat.min acc (rnd (a.weight_ + prev a.firstTail))) SdlFloat.HUGE_VAL

/-- Inside costs after `k` rounds, each sum rounded. -/
def insideCostsAuxRounded (rnd : SdlFloat → SdlFloat) (hg : IHypergraph SdlFloat) :
    Nat → StateId → SdlFloat
  | 0 => fun s => if s = hg.start_ then 0 else SdlFloat.HUGE_VAL
  | k + 1 => insideStepRounded rnd hg (insideCostsAuxRounded rnd hg k)

/-- Modelled from the spec: `insideCosts(hg, inside, N)` as in `insideCosts`, with
each sum `cost + inside[tail]` rounded. -/
def insideCostsRounded (rnd : SdlFloat → SdlFloat) (hg : IHypergraph SdlFloat) (N : Nat) :
    StateId → SdlFloat :=
  insideCostsAuxRounded rnd hg N

/-- One relaxation round of the outside costs, each sum rounded. -/
def outsideStepRounded (rnd : SdlFloat → SdlFloat) (hg : IHypergraph SdlFloat)
    (prev : StateId → SdlFloat) (s : StateId) : SdlFloat :=
  if s = hg.final_ then 0
  else (outArcs hg s).foldl
    (fun acc a => SdlFloat.min acc (rnd (a.weight_ + prev a.head_))) SdlFloat.HUGE_VAL

/-- Outside costs after `k` rounds, each sum rounded. -/
def outsideCostsAuxRounded (rnd : SdlFloat → SdlFloat) (hg : IHypergraph SdlFloat) :
    Nat → StateId → SdlFloat
  | 0 => fun s => if s = hg.final_ then 0 else SdlFloat.HUGE_VAL
  | k + 1 => outsideStepRounded rnd hg (outsideCostsAuxRounded rnd hg k)

/-- Modelled from the spec: `outsideCosts(hg, outside, inside, N, HUGE_VAL, false)`
as in `outsideCosts`, with each sum `cost + outside[head]` rounded. -/
def outsideCostsRounded (rnd : SdlFloat → SdlFloat) (hg : IHypergraph SdlFloat) (N : Nat) :
    StateId → SdlFloat :=
  outsideCostsAuxRounded rnd hg N

/-- The array `outside0` of the rounded run: the outside costs with
`outside0[start] = inside[final]`. -/
def outside0Rounded (rnd : SdlFloat → SdlFloat) (hg : IHypergraph SdlFloat) (s : StateId) :
    SdlFloat :=
  if s = hg.start_ then insideCostsRounded rnd hg hg.sizeForHeads hg.final_
  else outsideCostsRounded rnd hg hg.sizeForHeads s

/-- `PushCostsToStart::operator()(Arc*)` in rounded arithmetic:
`cost += outside0[head] - (tail != start ? outside0[tail] : 0)` rounds the
difference and then the sum. -/
def pushCostsArcRounded (rnd : SdlFloat → SdlFloat) (start : StateId)
    (out0 : StateId → SdlFloat) (a : Arc SdlFloat) : Arc SdlFloat :=
  { a with weight_ := rnd (a.weight_ +
      rnd (out0 a.head_ - (if a.firstTail ≠ start then out0 a.firstTail else 0))) }

/-- The constructor `PushCostsToStart(hg, config)` in rounded arithmetic. -/
def PushCostsToStartRounded (rnd : SdlFloat → SdlFloat) (hg : IHypergraph SdlFloat) :
    Outcome SdlFloat :=
  if hg.prunedEmpty then ⟨hg, none⟩
  else if !hg.isGraph || hg.start == kNoState then ⟨hg, some Exception.ConfigException⟩
  else
    let hg1 := hg.forceFirstTailOutArcs
    let N := hg.sizeForHeads
    if N = 0 ∨ SdlFloat.is_inf (insideCostsRounded rnd hg1 N hg.final) then
      if hg.isMutable then ⟨hg1.setEmpty, none⟩
      else ⟨hg1, some Exception.ConfigException⟩
    else
      ⟨hg1.forArcs (pushCostsArcRounded rnd hg.start (outside0Rounded rnd hg1)), none⟩

/-- The arc that `PushCostsToStart` in rounded arithmetic makes of `a` when it
reweights `hg`. -/
def pushedArcRounded (rnd : SdlFloat → SdlFloat) (hg : IHypergraph SdlFloat)
    (a : Arc SdlFloat) : Arc SdlFloat :=
  pushCostsArcRounded rnd hg.start (outside0Rounded rnd hg.forceFirstTailOutArcs) a

/-- The sum of the costs along a path, each addition rounded. -/
def pathCostRounded (rnd : SdlFloat → SdlFloat) (p : List (Arc SdlFloat)) : SdlFloat :=
  p.foldl (fun acc a => rnd (acc + a.weight_)) 0

/-- A value that, when finite, is a multiple `m * u` of the unit `u` with
`|m| ≤ B`. -/
def OnGrid (u : ℚ) (B : Nat) (x : SdlFloat) : Prop :=
  ∀ q, x = SdlFloat.fin q → ∃ m : ℤ, m.natAbs ≤ B ∧ q = m * u

/-- Every arc cost, when finite, is a multiple of `u` of at most `M` units. -/
def GridCosts (hg : IHypergraph SdlFloat) (u : ℚ) (M : Nat) : Prop :=
  ∀ a ∈ hg.arcs_, OnGrid u M a.weight_

/-- The rounding leaves the special values and the multiples of `u` of at most
`B` units as they are. -/
def ExactOn (rnd : SdlFloat → SdlFloat) (u : ℚ) (B : Nat) : Prop :=
  ∀ x, OnGrid u B x → rnd x = x

/-- The chain `0 -> 1 -> 2 -> 3` with start `0` and final `3` whose arc costs are
the values of the format nearest to `a`, `b` and `c`. -/
def roundedChain (f : FloatFormat) (a b c : ℚ) : IHypergraph SdlFloat :=
  { mutable_ := true, properties_ := 0,
    labels_ := [Sym.noSymbol, Sym.noSymbol, Sym.noSymbol, Sym.noSymbol],
    arcs_ := [⟨1, [0], f.roundRat a⟩, ⟨2, [1], f.roundRat b⟩, ⟨3, [2], f.roundRat c⟩],
    start_ := 0, final_ := 3 }

/-- An automaton whose costs are quarters: `0 -1/2-> 1`, `1 -1/4-> 2` and
`0 -1-> 2`, with start `0` and final `2`. -/
def quartersAutomaton : IHypergraph SdlFloat :=
  { mutable_ := true, properties_ := 0,
    labels_ := [Sym.noSymbol, Sym.noSymbol, Sym.noSymbol],
    arcs_ := [⟨1, [0], SdlFloat.fin (1/2)⟩, ⟨2, [1], SdlFloat.fin (1/4)⟩,
      ⟨2, [0], SdlFloat.fin 1⟩],
    start_ := 0, final_ := 2 }

/-! ## Hypergraphs with a lexical leaf -/

/-- A single-tail graph with no start→final path whose final state is derived
from a lexical leaf: the states 0 and 1 have no label, state 2 is the word `a`,
the only arc is `1 ← (2)`, the start state is 0 and the final state is 1. -/
def lexDisconnected : IHypergraph NNRat :=
  { mutable_ := true, properties_ := 0,
    labels_ := [Sym.noSymbol, Sym.noSymbol, Sym.terminal "a"],
    arcs_ := [⟨1, [2], 1⟩],
    start_ := 0, final_ := 1 }

/-! # Theorems -/

/-! ## Arithmetic of `SdlFloat` -/

namespace SdlFloat

@[simp] theorem add_def (a b : SdlFloat) : a + b = add a b := rfl
@[simp] theorem sub_def (a b : SdlFloat) : a - b = add a (neg b) := rfl
@[simp] theorem zero_def : (0 : SdlFloat) = fin 0 := rfl
@[simp] theorem add_fin_fin (a b : ℚ) : add (fin a) (fin b) = fin (a + b) := rfl
@[simp] theorem neg_fin (a : ℚ) : neg (fin a) = fin (-a) := rfl
@[simp] theorem lt_fin_fin (a b : ℚ) : lt (fin a) (fin b) = decide (a < b) := rfl
@[simp] theorem lt_fin_posInf (a : ℚ) : lt (fin a) posInf = true := rfl
@[simp] theorem lt_posInf_left (a : SdlFloat) : lt posInf a = false := by cases a <;> rfl
@[simp] theorem lt_nan_left (a : SdlFloat) : lt nan a = false := by cases a <;> rfl
@[simp] theorem HUGE_VAL_def : HUGE_VAL = posInf := rfl

theorem isFinite_iff (x : SdlFloat) : isFinite x = true ↔ ∃ q, x = fin q := by
  cases x <;> simp [isFinite]

theorem Valid.add {x y : SdlFloat} (hx : Valid x) (hy : Valid y) : Valid (add x y) := by
  cases x <;> cases y <;> simp_all [Valid, SdlFloat.add]

theorem add_ne_negInf {x y : SdlFloat} (hx : x ≠ negInf) (hy : Valid y) : add x y ≠ negInf := by
  cases x <;> cases y <;> simp_all [Valid, SdlFloat.add]

theorem Valid.min {x y : SdlFloat} (hx : Valid x) (hy : y ≠ negInf) : Valid (min x y) := by
  unfold SdlFloat.min
  split
  · rename_i h
    refine ⟨?_, hy⟩
    intro hn
    rw [hn] at h
    simp at h
  · exact hx

theorem valid_fin (q : ℚ) : Valid (fin q) := by simp [Valid]

theorem valid_posInf : Valid posInf := by simp [Valid]

theorem Valid.cases {x : SdlFloat} (h : Valid x) : (∃ q, x = fin q) ∨ x = posInf := by
  cases x <;> simp_all [Valid]

theorem isFinite_add {x y : SdlFloat} :
    isFinite (add x y) = true ↔ isFinite x = true ∧ isFinite y = true := by
  cases x <;> cases y <;> simp [isFinite, SdlFloat.add]

/-- The least of a list of costs, none of them `-inf`, is a number or `+inf`:
`std::min` never picks up a `NaN`. -/
theorem foldl_min_valid (cs : List SdlFloat) (init : SdlFloat) (hi : Valid init)
    (hcs : ∀ c ∈ cs, c ≠ negInf) : Valid (cs.foldl min init) := by
  induction cs generalizing init with
  | nil => simpa using hi
  | cons c cs ih =>
    simp only [List.foldl_cons]
    exact ih _ (hi.min (hcs c (by simp))) (fun c' hc' => hcs c' (by simp [hc']))

theorem min_isFinite {x y : SdlFloat} (hx : Valid x) (hy : y ≠ negInf) :
    isFinite (min x y) = true ↔ isFinite x = true ∨ isFinite y = true := by
  unfold SdlFloat.min
  rcases x with a | _ | _ | _ <;> rcases y with b | _ | _ | _ <;>
    simp_all [Valid, SdlFloat.lt, isFinite]
  by_cases hba : b < a <;> simp [hba, isFinite]

/-- The least is finite exactly when the start value or one of the candidates
is. -/
theorem foldl_min_isFinite (cs : List SdlFloat) (init : SdlFloat) (hi : Valid init)
    (hcs : ∀ c ∈ cs, c ≠ negInf) :
    isFinite (cs.foldl min init) = true ↔
      isFinite init = true ∨ ∃ c ∈ cs, isFinite c = true := by
  induction cs generalizing init with
  | nil => simp
  | cons c cs ih =>
    simp only [List.foldl_cons]
    rw [ih _ (hi.min (hcs c (by simp))) (fun c' hc' => hcs c' (by simp [hc'])),
      min_isFinite hi (hcs c (by simp))]
    simp only [List.mem_cons, exists_eq_or_imp]
    tauto

end SdlFloat

/-! ## Sums of finite costs -/

namespace SdlFloat

@[simp] theorem finVal_fin (q : ℚ) : finVal (fin q) = q := rfl

theorem eq_fin_finVal {x : SdlFloat} (h : isFinite x = true) : x = fin (finVal x) := by
  cases x <;> simp_all [isFinite, finVal]

/-- Summing finite costs from a finite start value is the rational sum. -/
theorem foldl_add_fin (l : List SdlFloat) (acc : ℚ) (h : ∀ x ∈ l, isFinite x = true) :
    l.foldl (fun a c => a + c) (fin acc) = fin (acc + (l.map finVal).sum) := by
  induction l generalizing acc with
  | nil => simp
  | cons x l ih =>
    have hx := eq_fin_finVal (h x (by simp))
    simp only [List.foldl_cons, List.map_cons, List.sum_cons]
    rw [hx, add_def, add_fin_fin, ih _ (fun y hy => h y (by simp [hy]))]
    simp [finVal, add_assoc]

/-- A sum that starts from a value that is not finite is not finite. -/
theorem foldl_add_not_finite (l : List SdlFloat) (acc : SdlFloat) (h : isFinite acc = false) :
    isFinite (l.foldl (fun a c => a + c) acc) = false := by
  induction l generalizing acc with
  | nil => simpa using h
  | cons x l ih =>
    simp only [List.foldl_cons]
    apply ih
    cases acc <;> cases x <;> simp_all [isFinite, SdlFloat.add]

/-- A finite sum has finite summands only. -/
theorem foldl_add_finite_imp (l : List SdlFloat) (acc : SdlFloat)
    (h : isFinite (l.foldl (fun a c => a + c) acc) = true) : ∀ x ∈ l, isFinite x = true := by
  induction l generalizing acc with
  | nil => simp
  | cons x l ih =>
    simp only [List.foldl_cons] at h
    intro y hy
    rcases List.mem_cons.1 hy with rfl | hy
    · by_contra hx
      have hx' : isFinite (acc + y) = false := by
        cases acc <;> cases y <;> simp_all [isFinite, SdlFloat.add]
      rw [foldl_add_not_finite l _ hx'] at h
      exact Bool.false_ne_true h
    · exact ih _ h y hy

end SdlFloat

/-! ## Inside and outside costs -/

open SdlFloat

theorem pathCost_finite {p : List (Arc SdlFloat)} {q : ℚ} (h : pathCost p = fin q) :
    ∀ a ∈ p, isFinite a.weight_ = true := by
  intro a ha
  apply foldl_add_finite_imp (p.map (fun a => a.weight_)) 0
  · unfold pathCost at h
    rw [h]; rfl
  · exact List.mem_map_of_mem _ ha

theorem pathCost_eq_sum {p : List (Arc SdlFloat)} (h : ∀ a ∈ p, isFinite a.weight_ = true) :
    pathCost p = fin ((p.map (fun a => finVal a.weight_)).sum) := by
  unfold pathCost
  rw [zero_def, foldl_add_fin]
  · simp [List.map_map, Function.comp_def]
  · intro x hx
    obtain ⟨a, ha, rfl⟩ := List.mem_map.1 hx
    exact h a ha

theorem insideStep_eq (hg : IHypergraph SdlFloat) (prev : StateId → SdlFloat) (s : StateId)
    (h : s ≠ hg.start_) :
    insideStep hg prev s =
      ((hg.inArcs s).map (fun a => a.weight_ + prev a.firstTail)).foldl SdlFloat.min posInf := by
  simp [insideStep, h, List.foldl_map]

theorem outsideStep_eq (hg : IHypergraph SdlFloat) (prev : StateId → SdlFloat) (s : StateId)
    (h : s ≠ hg.final_) :
    outsideStep hg prev s =
      ((outArcs hg s).map (fun a => a.weight_ + prev a.head_)).foldl SdlFloat.min posInf := by
  simp [outsideStep, h, List.foldl_map]

theorem outsideCostsAux_final (hg : IHypergraph SdlFloat) (k : Nat) :
    outsideCostsAux hg k hg.final_ = fin 0 := by
  cases k <;> simp [outsideCostsAux, outsideStep]

theorem insideCostsAux_start (hg : IHypergraph SdlFloat) (k : Nat) :
    insideCostsAux hg k hg.start_ = fin 0 := by
  cases k <;> simp [insideCostsAux, insideStep]

theorem mem_inArcs {W : Type} {hg : IHypergraph W} {s : StateId} {a : Arc W} :
    a ∈ hg.inArcs s ↔ a ∈ hg.arcs_ ∧ a.head_ = s := by
  simp [IHypergraph.inArcs]

theorem mem_outArcs {W : Type} {hg : IHypergraph W} {s : StateId} {a : Arc W} :
    a ∈ outArcs hg s ↔ a ∈ hg.arcs_ ∧ a.firstTail = s := by
  simp [outArcs]

theorem outsideCostsAux_valid (hg : IHypergraph SdlFloat) (hv : ValidCosts hg) (k : Nat)
    (s : StateId) : Valid (outsideCostsAux hg k s) := by
  induction k generalizing s with
  | zero =>
    simp only [outsideCostsAux]
    split
    · exact valid_fin 0
    · exact valid_posInf
  | succ k ih =>
    simp only [outsideCostsAux]
    by_cases hs : s = hg.final_
    · simp only [outsideStep, hs, if_true]; exact valid_fin 0
    · rw [outsideStep_eq _ _ _ hs]
      apply foldl_min_valid _ _ valid_posInf
      intro c hc
      obtain ⟨a, ha, rfl⟩ := List.mem_map.1 hc
      exact add_ne_negInf (hv a (mem_outArcs.1 ha).1) (ih _)

theorem insideCostsAux_valid (hg : IHypergraph SdlFloat) (hv : ValidCosts hg) (k : Nat)
    (s : StateId) : Valid (insideCostsAux hg k s) := by
  induction k generalizing s with
  | zero =>
    simp only [insideCostsAux]
    split
    · exact valid_fin 0
    · exact valid_posInf
  | succ k ih =>
    simp only [insideCostsAux]
    by_cases hs : s = hg.start_
    · simp only [insideStep, hs, if_true]; exact valid_fin 0
    · rw [insideStep_eq _ _ _ hs]
      apply foldl_min_valid _ _ valid_posInf
      intro c hc
      obtain ⟨a, ha, rfl⟩ := List.mem_map.1 hc
      exact add_ne_negInf (hv a (mem_inArcs.1 ha).1) (ih _)

/-- A path of finite cost from `s` to the final state of at most `k` arcs makes
the outside cost of `s` after `k` rounds finite. -/
theorem outsideCostsAux_finite (hg : IHypergraph SdlFloat) (hv : ValidCosts hg)
    (p : List (Arc SdlFloat)) (s : StateId) (k : Nat) (hp : IsPath hg s p hg.final_)
    (hfin : ∀ a ∈ p, isFinite a.weight_ = true) (hk : p.length ≤ k) :
    isFinite (outsideCostsAux hg k s) = true := by
  induction p generalizing s k with
  | nil =>
    have : s = hg.final_ := hp
    rw [this, outsideCostsAux_final]; rfl
  | cons a p ih =>
    obtain ⟨ha, hat, hp'⟩ := hp
    cases k with
    | zero => simp at hk
    | succ k =>
      simp only [outsideCostsAux]
      by_cases hs : s = hg.final_
      · simp only [outsideStep, hs, if_true]; rfl
      · rw [outsideStep_eq _ _ _ hs, foldl_min_isFinite _ _ valid_posInf]
        · right
          refine ⟨_, List.mem_map_of_mem _ (mem_outArcs.2 ⟨ha, hat⟩), ?_⟩
          rw [add_def, isFinite_add]
          exact ⟨hfin a (by simp), ih _ _ hp' (fun b hb => hfin b (by simp [hb]))
            (by simpa using hk)⟩
        · intro c hc
          obtain ⟨b, hb, rfl⟩ := List.mem_map.1 hc
          exact add_ne_negInf (hv b (mem_outArcs.1 hb).1) (outsideCostsAux_valid hg hv _ _)

/-- Following a path of finite cost keeps the inside cost finite, one more
round per arc. -/
theorem insideCostsAux_finite_path (hg : IHypergraph SdlFloat) (hv : ValidCosts hg)
    (p : List (Arc SdlFloat)) (s t : StateId) (k : Nat) (hp : IsPath hg s p t)
    (hfin : ∀ a ∈ p, isFinite a.weight_ = true)
    (hs : isFinite (insideCostsAux hg k s) = true) :
    isFinite (insideCostsAux hg (k + p.length) t) = true := by
  induction p generalizing s k with
  | nil =>
    have : s = t := hp
    simpa [this] using hs
  | cons a p ih =>
    obtain ⟨ha, hat, hp'⟩ := hp
    have h1 : isFinite (insideCostsAux hg (k + 1) a.head_) = true := by
      simp only [insideCostsAux]
      by_cases hh : a.head_ = hg.start_
      · simp only [insideStep, hh, if_true]; rfl
      · rw [insideStep_eq _ _ _ hh, foldl_min_isFinite _ _ valid_posInf]
        · right
          refine ⟨_, List.mem_map_of_mem _ (mem_inArcs.2 ⟨ha, rfl⟩), ?_⟩
          rw [add_def, isFinite_add, hat]
          exact ⟨hfin a (by simp), hs⟩
        · intro c hc
          obtain ⟨b, hb, rfl⟩ := List.mem_map.1 hc
          exact add_ne_negInf (hv b (mem_inArcs.1 hb).1) (insideCostsAux_valid hg hv _ _)
    have := ih _ (k + 1) hp' (fun b hb => hfin b (by simp [hb])) h1
    simpa [Nat.add_assoc, Nat.add_comm 1] using this

/-- A finite inside cost stays finite in the next round. -/
theorem insideCostsAux_finite_succ (hg : IHypergraph SdlFloat) (hv : ValidCosts hg) (k : Nat)
    (s : StateId) (h : isFinite (insideCostsAux hg k s) = true) :
    isFinite (insideCostsAux hg (k + 1) s) = true := by
  induction k generalizing s with
  | zero =>
    by_cases hs : s = hg.start_
    · rw [hs, insideCostsAux_start]; rfl
    · simp [insideCostsAux, hs, isFinite] at h
  | succ k ih =>
    by_cases hs : s = hg.start_
    · rw [hs, insideCostsAux_start]; rfl
    · have hval : ∀ j, ∀ c ∈ (hg.inArcs s).map (fun a => a.weight_ + insideCostsAux hg j a.firstTail),
          c ≠ negInf := by
        intro j c hc
        obtain ⟨b, hb, rfl⟩ := List.mem_map.1 hc
        exact add_ne_negInf (hv b (mem_inArcs.1 hb).1) (insideCostsAux_valid hg hv _ _)
      have e1 : insideCostsAux hg (k + 1) s = insideStep hg (insideCostsAux hg k) s := rfl
      have e2 : insideCostsAux hg (k + 1 + 1) s = insideStep hg (insideCostsAux hg (k + 1)) s :=
        rfl
      rw [e1, insideStep_eq _ _ _ hs, foldl_min_isFinite _ _ valid_posInf (hval _)] at h
      rw [e2, insideStep_eq _ _ _ hs, foldl_min_isFinite _ _ valid_posInf (hval _)]
      rcases h with h | ⟨c, hc, hcf⟩
      · simp [isFinite] at h
      · right
        obtain ⟨b, hb, rfl⟩ := List.mem_map.1 hc
        refine ⟨_, List.mem_map_of_mem _ hb, ?_⟩
        rw [add_def, isFinite_add] at hcf ⊢
        exact ⟨hcf.1, ih _ hcf.2⟩

theorem insideCostsAux_finite_mono (hg : IHypergraph SdlFloat) (hv : ValidCosts hg) (k j : Nat)
    (s : StateId) (h : isFinite (insideCostsAux hg k s) = true) (hkj : k ≤ j) :
    isFinite (insideCostsAux hg j s) = true := by
  induction j with
  | zero =>
    have : k = 0 := by omega
    simpa [this] using h
  | succ j ih =>
    rcases Nat.lt_or_ge k (j + 1) with hlt | hge
    · exact insideCostsAux_finite_succ hg hv j s (ih (by omega))
    · have : k = j + 1 := by omega
      simpa [this] using h

/-! ## PushCostsToStart: conservation of path costs -/

theorem insideCostsAux_force (hg : IHypergraph SdlFloat) (k : Nat) :
    insideCostsAux hg.forceFirstTailOutArcs k = insideCostsAux hg k := by
  induction k with
  | zero => rfl
  | succ k ih =>
    show insideStep hg.forceFirstTailOutArcs (insideCostsAux hg.forceFirstTailOutArcs k) = _
    rw [ih]; rfl

theorem outsideCostsAux_force (hg : IHypergraph SdlFloat) (k : Nat) :
    outsideCostsAux hg.forceFirstTailOutArcs k = outsideCostsAux hg k := by
  induction k with
  | zero => rfl
  | succ k ih =>
    show outsideStep hg.forceFirstTailOutArcs (outsideCostsAux hg.forceFirstTailOutArcs k) = _
    rw [ih]; rfl

theorem outside0_force (hg : IHypergraph SdlFloat) (s : StateId) :
    outside0 hg.forceFirstTailOutArcs s =
      if s = hg.start_ then insideCostsAux hg hg.size hg.final_
      else outsideCostsAux hg hg.size s := by
  simp only [outside0, insideCosts, outsideCosts, insideCostsAux_force, outsideCostsAux_force]
  rfl

theorem firstTail_mem_of_isGraph {W : Type} {hg : IHypergraph W} (hgr : hg.isGraph = true)
    {a : Arc W} (ha : a ∈ hg.arcs_) : a.firstTail ∈ a.tails_ := by
  have h := List.all_eq_true.1 hgr a ha
  have hl : a.tails_.length = 1 := by simpa using h
  match hts : a.tails_, hl with
  | [t], _ => simp [Arc.firstTail, hts]

/-- Along a path of an acyclic graph the rank grows by at least one per arc. -/
theorem IsPath.rank_le {W : Type} {hg : IHypergraph W} (hgr : hg.isGraph = true)
    (rank : StateId → Nat)
    (hr : ∀ a ∈ hg.arcs_, rank a.head_ < hg.size ∧ ∀ t ∈ a.tails_, rank t < rank a.head_)
    {s t : StateId} {p : List (Arc W)} (hp : IsPath hg s p t) :
    rank s + p.length ≤ rank t ∧ (∀ a ∈ p, rank s < rank a.head_) ∧
      (p ≠ [] → rank t < hg.size) := by
  induction p generalizing s with
  | nil =>
    have : s = t := hp
    simp [this]
  | cons a p ih =>
    obtain ⟨ha, hat, hp'⟩ := hp
    obtain ⟨h1, h2, h3⟩ := ih hp'
    have hlt : rank s < rank a.head_ := by
      rw [← hat]; exact (hr a ha).2 _ (firstTail_mem_of_isGraph hgr ha)
    refine ⟨by simp only [List.length_cons]; omega, ?_, ?_⟩
    · intro b hb
      rcases List.mem_cons.1 hb with rfl | hb
      · exact hlt
      · exact lt_trans hlt (h2 b hb)
    · intro _
      cases p with
      | nil =>
        have : a.head_ = t := hp'
        rw [← this]; exact (hr a ha).1
      | cons b p => exact h3 (by simp)

theorem IsPath.tail_path {W : Type} {hg : IHypergraph W} {s t : StateId} {a : Arc W}
    {p : List (Arc W)} (hp : IsPath hg s (a :: p) t) : IsPath hg a.head_ p t := hp.2.2

theorem IsPath.mem_arcs {W : Type} {hg : IHypergraph W} {s t : StateId} {p : List (Arc W)}
    (hp : IsPath hg s p t) : ∀ a ∈ p, a ∈ hg.arcs_ := by
  induction p generalizing s with
  | nil => simp
  | cons a p ih =>
    intro b hb
    rcases List.mem_cons.1 hb with rfl | hb
    · exact hp.1
    · exact ih hp.2.2 b hb

/-- The end of a path is its origin or the head of one of its arcs. -/
theorem IsPath.target {W : Type} {hg : IHypergraph W} {s t : StateId} {p : List (Arc W)}
    (hp : IsPath hg s p t) : (p = [] ∧ s = t) ∨ ∃ a ∈ p, a.head_ = t := by
  induction p generalizing s with
  | nil => exact Or.inl ⟨rfl, hp⟩
  | cons a p ih =>
    right
    rcases ih hp.2.2 with ⟨rfl, h⟩ | ⟨b, hb, hbt⟩
    · exact ⟨a, by simp, h⟩
    · exact ⟨b, by simp [hb], hbt⟩

/-- The suffix of a path is a path from each of its arcs' heads. -/
theorem IsPath.suffix_from {W : Type} {hg : IHypergraph W} {s t : StateId} {p : List (Arc W)}
    (hp : IsPath hg s p t) :
    ∀ a ∈ p, ∃ p', IsPath hg a.head_ p' t ∧ p'.length < p.length ∧ ∀ b ∈ p', b ∈ p := by
  induction p generalizing s with
  | nil => simp
  | cons a p ih =>
    intro b hb
    rcases List.mem_cons.1 hb with rfl | hb
    · exact ⟨p, hp.2.2, by simp, fun c hc => by simp [hc]⟩
    · obtain ⟨p', h1, h2, h3⟩ := ih hp.2.2 b hb
      exact ⟨p', h1, by simp only [List.length_cons]; omega, fun c hc => by simp [h3 c hc]⟩

/-- Telescoping: on a path that avoids the start state, the pushed costs sum to
the old costs plus the potential of the end minus the potential of the
origin. -/
theorem pushed_path_sum {hg : IHypergraph SdlFloat} (start : StateId) (o : StateId → SdlFloat)
    (p : List (Arc SdlFloat)) (s t : StateId) (hp : IsPath hg s p t)
    (hfin : ∀ a ∈ p, isFinite a.weight_ = true) (hs : s ≠ start)
    (hh : ∀ a ∈ p, a.head_ ≠ start) (hos : isFinite (o s) = true)
    (hoh : ∀ a ∈ p, isFinite (o a.head_) = true) :
    (∀ a ∈ p, isFinite (pushCostsArc start o a).weight_ = true) ∧
    (p.map (fun a => finVal (pushCostsArc start o a).weight_)).sum =
      (p.map (fun a => finVal a.weight_)).sum + finVal (o t) - finVal (o s) := by
  induction p generalizing s with
  | nil =>
    have : s = t := hp
    simp [this]
  | cons a p ih =>
    obtain ⟨-, hat, hp'⟩ := hp
    obtain ⟨ih1, ih2⟩ := ih a.head_ hp' (fun b hb => hfin b (by simp [hb])) (hh a (by simp))
      (fun b hb => hh b (by simp [hb])) (hoh a (by simp)) (fun b hb => hoh b (by simp [hb]))
    obtain ⟨x, hx⟩ := (isFinite_iff _).1 (hfin a (by simp))
    obtain ⟨y, hy⟩ := (isFinite_iff _).1 (hoh a (by simp))
    obtain ⟨z, hz⟩ := (isFinite_iff _).1 hos
    have hpw : (pushCostsArc start o a).weight_ = fin (x + (y - z)) := by
      simp only [pushCostsArc, hat, hx, hy, hz]
      simp [hs, sub_eq_add_neg]
    refine ⟨?_, ?_⟩
    · intro b hb
      rcases List.mem_cons.1 hb with rfl | hb
      · rw [hpw]; rfl
      · exact ih1 b hb
    · simp only [List.map_cons, List.sum_cons, hpw, hx, hz, finVal_fin]
      rw [ih2, hy, finVal_fin]
      ring

/-- The constructor reaches the reweighting step on a graph with a finite-cost
path from start to final. -/
theorem PushCostsToStart_of_finite {hg : IHypergraph SdlFloat} (hfinal : hg.final_ ≠ kNoState)
    (hgr : hg.isGraph = true) (hs : hg.start_ ≠ kNoState) (hN : hg.size ≠ 0)
    (hin : isFinite (insideCostsAux hg hg.size hg.final_) = true) :
    PushCostsToStart hg = ⟨hg.forceFirstTailOutArcs.forArcs (pushedArc hg), none⟩ := by
  have hinf : is_inf (insideCostsAux hg hg.size hg.final_) = false := by
    obtain ⟨q, hq⟩ := (isFinite_iff _).1 hin
    rw [hq]; rfl
  simp only [PushCostsToStart, IHypergraph.prunedEmpty, IHypergraph.start, IHypergraph.final,
    IHypergraph.sizeForHeads, insideCosts, insideCostsAux_force, hgr]
  have hN' : hg.labels_.length ≠ 0 := hN
  have hinf' : is_inf (insideCostsAux hg hg.labels_.length hg.final_) = false := hinf
  simp [hfinal, hs, hN', hinf']
  rfl
/-- Facts shared by the properties of `PushCostsToStart` on a graph with a
path of finite cost: the constructor reaches the reweighting, the heads on the
path are not the start state and have finite outside cost. -/
theorem pushCosts_path_facts (hg : IHypergraph SdlFloat) (hwf : WellFormed hg)
    (hgr : hg.isGraph = true) (hac : Acyclic hg) (hv : ValidCosts hg)
    (hs : hg.start ≠ kNoState) (p : List (Arc SdlFloat))
    (hp : IsPath hg hg.start p hg.final) (hfin : ∀ a ∈ p, isFinite a.weight_ = true) :
    PushCostsToStart hg = ⟨hg.forceFirstTailOutArcs.forArcs (pushedArc hg), none⟩ ∧
    (∀ a ∈ p, a.head_ ≠ hg.start_) ∧
    (∀ a ∈ p, isFinite (outsideCostsAux hg hg.size a.head_) = true) := by
  obtain ⟨rank, hr⟩ := hac
  simp only [IHypergraph.start, IHypergraph.final] at hp hs ⊢
  obtain ⟨h1, h2, h3⟩ := IsPath.rank_le hgr rank hr hp
  have hsz : hg.start_ < hg.size := by
    rcases hwf.start_ok with h | h
    · exact absurd h hs
    · exact h
  have hlen : p.length ≤ hg.size := by
    cases p with
    | nil => simp
    | cons a p => have := h3 (by simp); omega
  have hfinal : hg.final_ ≠ kNoState := by
    rcases hp.target with ⟨-, h⟩ | ⟨a, ha, hat⟩
    · intro hf; apply hs; rw [← hf]; exact h
    · have h4 : a.head_ < kNoState :=
        Nat.lt_of_lt_of_le (hwf.heads_ok a (hp.mem_arcs a ha)) hwf.size_le
      intro hf
      rw [hat, hf] at h4
      exact Nat.lt_irrefl _ h4
  have hin : isFinite (insideCostsAux hg hg.size hg.final_) = true := by
    have h0 : isFinite (insideCostsAux hg 0 hg.start_) = true := by
      rw [insideCostsAux_start]; rfl
    have := insideCostsAux_finite_path hg hv p _ _ 0 hp hfin h0
    exact insideCostsAux_finite_mono hg hv _ _ _ this (by omega)
  refine ⟨PushCostsToStart_of_finite hfinal hgr hs (Nat.not_eq_zero_of_lt hsz) hin, ?_, ?_⟩
  · intro a ha hst
    have := h2 a ha
    rw [hst] at this
    exact lt_irrefl _ this
  · intro a ha
    obtain ⟨p', hp', hl, hsub⟩ := hp.suffix_from a ha
    exact outsideCostsAux_finite hg hv p' _ _ hp' (fun b hb => hfin b (hsub b hb)) (by omega)

/-- The costs of the reweighted arcs along a start→final path of finite cost sum
to the cost of the path. -/
theorem pushCostsToStart_path_cost (hg : IHypergraph SdlFloat) (hwf : WellFormed hg)
    (hgr : hg.isGraph = true) (hac : Acyclic hg) (hv : ValidCosts hg)
    (hs : hg.start ≠ kNoState) (p : List (Arc SdlFloat))
    (hp : IsPath hg hg.start p hg.final) (q : ℚ) (hq : pathCost p = SdlFloat.fin q) :
    pathCost (p.map (pushedArc hg)) = SdlFloat.fin q := by
  have hfin := pathCost_finite hq
  obtain ⟨hrun, hne, hout⟩ := pushCosts_path_facts hg hwf hgr hac hv hs p hp hfin
  rw [← hq]
  simp only [IHypergraph.start, IHypergraph.final] at hp hs
  cases p with
  | nil => rfl
  | cons a p =>
    obtain ⟨ha, hat, hp'⟩ := hp
    have hah : a.head_ ≠ hg.start_ := hne a (by simp)
    have hoa : ∀ b ∈ a :: p, isFinite (outside0 hg.forceFirstTailOutArcs b.head_) = true := by
      intro b hb
      rw [outside0_force, if_neg (hne b hb)]
      exact hout b hb
    obtain ⟨t1, t2⟩ := pushed_path_sum hg.start_ (outside0 hg.forceFirstTailOutArcs) p a.head_
      hg.final_ hp' (fun b hb => hfin b (by simp [hb])) hah (fun b hb => hne b (by simp [hb]))
      (hoa a (by simp)) (fun b hb => hoa b (by simp [hb]))
    obtain ⟨x, hx⟩ := (isFinite_iff _).1 (hfin a (by simp))
    obtain ⟨y, hy⟩ := (isFinite_iff _).1 (hoa a (by simp))
    have hfs : hg.final_ ≠ hg.start_ := by
      rcases (IsPath.target hp') with ⟨-, h⟩ | ⟨b, hb, hbt⟩
      · rw [← show a.head_ = hg.final_ from h]; exact hah
      · rw [← show b.head_ = hg.final_ from hbt]; exact hne b (by simp [hb])
    have hof : outside0 hg.forceFirstTailOutArcs hg.final_ = fin 0 := by
      rw [outside0_force, if_neg hfs, outsideCostsAux_final]
    have hpw : (pushedArc hg a).weight_ = fin (x + y) := by
      simp only [pushedArc, pushCostsArc, IHypergraph.start, hat, hx, hy]
      simp
    have hall : ∀ b ∈ (a :: p).map (pushedArc hg), isFinite b.weight_ = true := by
      intro b hb
      obtain ⟨c, hc, rfl⟩ := List.mem_map.1 hb
      rcases List.mem_cons.1 hc with rfl | hc
      · rw [hpw]; rfl
      · exact t1 c hc
    rw [pathCost_eq_sum hall, pathCost_eq_sum hfin]
    congr 1
    simp only [List.map_cons, List.sum_cons, List.map_map, Function.comp_def, hpw, hx, finVal_fin]
    have t2' : (p.map (fun b => finVal (pushedArc hg b).weight_)).sum =
        (p.map (fun b => finVal b.weight_)).sum + 0 - y := by
      have := t2
      rw [hof, hy] at this
      simpa [pushedArc, IHypergraph.start] using this
    rw [t2']
    ring

/-- In exact arithmetic, on an acyclic single-tail graph with valid arc costs,
for every start→final path of finite cost `q`, `PushCostsToStart` completes,
reweights every arc by
`cost += outside0[head] - (tail == start ? 0 : outside0[tail])`, and the costs
of the reweighted arcs along the same path again sum to `q`. -/
theorem pushCostsToStart_preserves_path_cost (hg : IHypergraph SdlFloat) (hwf : WellFormed hg)
    (hgr : hg.isGraph = true) (hac : Acyclic hg) (hv : ValidCosts hg)
    (hs : hg.start ≠ kNoState) (p : List (Arc SdlFloat))
    (hp : IsPath hg hg.start p hg.final) (q : ℚ) (hq : pathCost p = SdlFloat.fin q) :
    (PushCostsToStart hg).error = none ∧
    (PushCostsToStart hg).hg.arcs_ = hg.arcs_.map (pushedArc hg) ∧
    pathCost (p.map (pushedArc hg)) = SdlFloat.fin q := by
  obtain ⟨hrun, -, -⟩ := pushCosts_path_facts hg hwf hgr hac hv hs p hp (pathCost_finite hq)
  exact ⟨by rw [hrun], by rw [hrun]; rfl,
    pushCostsToStart_path_cost hg hwf hgr hac hv hs p hp q hq⟩

theorem exampleAutomaton_wellFormed : WellFormed exampleAutomaton := by
  refine ⟨by decide, by decide, by decide, ?_, ?_⟩ <;>
    simp [exampleAutomaton, IHypergraph.size]

theorem exampleAutomaton_acyclic : Acyclic exampleAutomaton :=
  ⟨fun s => s, by simp [exampleAutomaton, IHypergraph.size]⟩

theorem exampleAutomaton_validCosts : ValidCosts exampleAutomaton := by
  simp [ValidCosts, exampleAutomaton]

/-- The exact run on the path `start → s1 → final` of the example automaton. -/
theorem pushCostsToStart_preserves_path_cost_witness :
    (PushCostsToStart exampleAutomaton).error = none ∧
    (PushCostsToStart exampleAutomaton).hg.arcs_ =
      exampleAutomaton.arcs_.map (pushedArc exampleAutomaton) ∧
    pathCost ([⟨1, [0], SdlFloat.fin (7/10)⟩, ⟨2, [1], SdlFloat.fin (4/10)⟩].map
      (pushedArc exampleAutomaton)) = SdlFloat.fin (11/10) :=
  pushCostsToStart_preserves_path_cost exampleAutomaton exampleAutomaton_wellFormed
    (by decide) exampleAutomaton_acyclic exampleAutomaton_validCosts (by decide)
    [⟨1, [0], SdlFloat.fin (7/10)⟩, ⟨2, [1], SdlFloat.fin (4/10)⟩]
    (by simp [IsPath, exampleAutomaton, Arc.firstTail, IHypergraph.start, IHypergraph.final])
    (11/10) (by simp [pathCost]; norm_num)
/-! ## PushCostsToStart on the example automaton -/

/-- C6. On the example automaton (`start -0.7-> s1 -0.4-> final`,
`start -0.9-> final`) `PushCostsToStart` sets `outside0[start]` to
`0.9 = min(1.1, 0.9)`, completes, and leaves the arc costs `1.1`, `0` and `0.9`,
which sum to `1.1` along `start → s1 → final` and to `0.9` along
`start → final`. -/
theorem pushCostsToStart_exampleAutomaton :
    outside0 exampleAutomaton.forceFirstTailOutArcs exampleAutomaton.start =
      SdlFloat.fin (9/10) ∧
    SdlFloat.min (SdlFloat.fin (11/10)) (SdlFloat.fin (9/10)) = SdlFloat.fin (9/10) ∧
    (PushCostsToStart exampleAutomaton).error = none ∧
    (PushCostsToStart exampleAutomaton).hg.arcs_ =
      [⟨1, [0], SdlFloat.fin (11/10)⟩, ⟨2, [1], SdlFloat.fin 0⟩,
        ⟨2, [0], SdlFloat.fin (9/10)⟩] ∧
    IsPath (PushCostsToStart exampleAutomaton).hg 0
      [⟨1, [0], SdlFloat.fin (11/10)⟩, ⟨2, [1], SdlFloat.fin 0⟩] 2 ∧
    pathCost [⟨1, [0], SdlFloat.fin (11/10)⟩, ⟨2, [1], SdlFloat.fin 0⟩] =
      SdlFloat.fin (11/10) ∧
    IsPath (PushCostsToStart exampleAutomaton).hg 0 [⟨2, [0], SdlFloat.fin (9/10)⟩] 2 ∧
    pathCost [⟨2, [0], SdlFloat.fin (9/10)⟩] = SdlFloat.fin (9/10) := by
  have hin : insideCosts exampleAutomaton.forceFirstTailOutArcs 3 2 = fin (9/10) := by
    simp [insideCosts, insideCostsAux, insideStep, exampleAutomaton, IHypergraph.inArcs,
      IHypergraph.forceFirstTailOutArcs, Arc.firstTail, SdlFloat.min]
    norm_num
  have hout : ∀ s, outside0 exampleAutomaton.forceFirstTailOutArcs s =
      if s = 0 then fin (9/10) else if s = 2 then fin 0 else if s = 1 then fin (4/10)
      else posInf := by
    intro s
    unfold outside0
    by_cases h0 : s = 0
    · subst h0
      simpa [exampleAutomaton, IHypergraph.forceFirstTailOutArcs, IHypergraph.sizeForHeads]
        using hin
    · by_cases h2 : s = 2
      · subst h2
        simp [outsideCosts, outsideCostsAux, outsideStep, exampleAutomaton,
          IHypergraph.forceFirstTailOutArcs, IHypergraph.sizeForHeads]
      · by_cases h1 : s = 1
        · subst h1
          simp [outsideCosts, outsideCostsAux, outsideStep, exampleAutomaton, outArcs,
            IHypergraph.forceFirstTailOutArcs, IHypergraph.sizeForHeads, Arc.firstTail,
            SdlFloat.min]
        · have e0 : (0 : Nat) ≠ s := fun h => h0 h.symm
          have e1 : (1 : Nat) ≠ s := fun h => h1 h.symm
          simp [outsideCosts, outsideCostsAux, outsideStep, exampleAutomaton, outArcs,
            IHypergraph.forceFirstTailOutArcs, IHypergraph.sizeForHeads, Arc.firstTail,
            h0, h1, h2, e0, e1]
  have hrun : PushCostsToStart exampleAutomaton =
      ⟨exampleAutomaton.forceFirstTailOutArcs.forArcs (pushedArc exampleAutomaton), none⟩ := by
    apply PushCostsToStart_of_finite (by decide) (by decide) (by decide) (by decide)
    have := hin
    simp only [insideCosts, insideCostsAux_force] at this
    show isFinite (insideCostsAux exampleAutomaton 3 2) = true
    rw [this]; rfl
  have harcs : (PushCostsToStart exampleAutomaton).hg.arcs_ =
      [⟨1, [0], SdlFloat.fin (11/10)⟩, ⟨2, [1], SdlFloat.fin 0⟩,
        ⟨2, [0], SdlFloat.fin (9/10)⟩] := by
    rw [hrun]
    show exampleAutomaton.arcs_.map (pushedArc exampleAutomaton) = _
    have e : exampleAutomaton.arcs_ = [⟨1, [0], SdlFloat.fin (7/10)⟩,
        ⟨2, [1], SdlFloat.fin (4/10)⟩, ⟨2, [0], SdlFloat.fin (9/10)⟩] := rfl
    rw [e]
    simp only [List.map, pushedArc, pushCostsArc, hout]
    simp [Arc.firstTail, IHypergraph.start, exampleAutomaton]
    norm_num
  refine ⟨by rw [hout]; rfl, ?_, by rw [hrun], harcs, ?_, ?_, ?_, ?_⟩
  · simp [SdlFloat.min]; norm_num
  · simp [IsPath, harcs, Arc.firstTail]
  · simp [pathCost]
  · simp [IsPath, harcs, Arc.firstTail]
  · simp [pathCost]
/-! ## Outside costs as the unique fixed point of the relaxation -/

theorem outsideStep_congr (hg : IHypergraph SdlFloat) (f g : StateId → SdlFloat) (s : StateId)
    (h : ∀ a ∈ outArcs hg s, f a.head_ = g a.head_) :
    outsideStep hg f s = outsideStep hg g s := by
  by_cases hs : s = hg.final_
  · simp [outsideStep, hs]
  · rw [outsideStep_eq _ _ _ hs, outsideStep_eq _ _ _ hs]
    congr 1
    apply List.map_congr_left
    intro a ha
    rw [h a ha]

theorem rank_lt_of_mem_outArcs {W : Type} {hg : IHypergraph W} (hgr : hg.isGraph = true)
    (rank : StateId → Nat)
    (hr : ∀ a ∈ hg.arcs_, rank a.head_ < hg.size ∧ ∀ t ∈ a.tails_, rank t < rank a.head_)
    {s : StateId} {a : Arc W} (ha : a ∈ outArcs hg s) :
    rank s < rank a.head_ ∧ rank a.head_ < hg.size := by
  obtain ⟨h1, h2⟩ := mem_outArcs.1 ha
  refine ⟨?_, (hr a h1).1⟩
  rw [← h2]
  exact (hr a h1).2 _ (firstTail_mem_of_isGraph hgr h1)

/-- Once the round number exceeds the distance of a state from the top rank,
a further round no longer changes its outside cost. -/
theorem outsideCostsAux_stable (hg : IHypergraph SdlFloat) (hgr : hg.isGraph = true)
    (rank : StateId → Nat)
    (hr : ∀ a ∈ hg.arcs_, rank a.head_ < hg.size ∧ ∀ t ∈ a.tails_, rank t < rank a.head_)
    (k : Nat) (x : StateId) (hk : hg.size ≤ rank x + k) :
    outsideCostsAux hg k x = outsideCostsAux hg (k + 1) x := by
  induction k generalizing x with
  | zero =>
    have hno : outArcs hg x = [] := by
      apply List.eq_nil_iff_forall_not_mem.2
      intro a ha
      have := rank_lt_of_mem_outArcs hgr rank hr ha
      omega
    show (if x = hg.final_ then 0 else HUGE_VAL) = outsideStep hg _ x
    simp [outsideStep, hno]
  | succ k ih =>
    show outsideStep hg (outsideCostsAux hg k) x = outsideStep hg (outsideCostsAux hg (k + 1)) x
    apply outsideStep_congr
    intro a ha
    have := rank_lt_of_mem_outArcs hgr rank hr ha
    exact ih _ (by omega)

/-- On an acyclic graph the outside costs after `N` rounds are a fixed point of
the relaxation. -/
theorem outsideCostsAux_fixpoint (hg : IHypergraph SdlFloat) (hgr : hg.isGraph = true)
    (rank : StateId → Nat)
    (hr : ∀ a ∈ hg.arcs_, rank a.head_ < hg.size ∧ ∀ t ∈ a.tails_, rank t < rank a.head_)
    (x : StateId) :
    outsideCostsAux hg hg.size x = outsideStep hg (outsideCostsAux hg hg.size) x :=
  outsideCostsAux_stable hg hgr rank hr hg.size x (by omega)

/-- On an acyclic graph the relaxation has one fixed point only. -/
theorem outsideStep_fixpoint_unique (hg : IHypergraph SdlFloat) (hgr : hg.isGraph = true)
    (rank : StateId → Nat)
    (hr : ∀ a ∈ hg.arcs_, rank a.head_ < hg.size ∧ ∀ t ∈ a.tails_, rank t < rank a.head_)
    (f g : StateId → SdlFloat) (hf : ∀ x, f x = outsideStep hg f x)
    (hg' : ∀ x, g x = outsideStep hg g x) (x : StateId) : f x = g x := by
  have key : ∀ n x, hg.size ≤ rank x + n → f x = g x := by
    intro n
    induction n with
    | zero =>
      intro x hx
      rw [hf x, hg' x]
      apply outsideStep_congr
      intro a ha
      have := rank_lt_of_mem_outArcs hgr rank hr ha
      omega
    | succ n ih =>
      intro x hx
      rw [hf x, hg' x]
      apply outsideStep_congr
      intro a ha
      have := rank_lt_of_mem_outArcs hgr rank hr ha
      exact ih _ (by omega)
  exact key hg.size x (by omega)

/-! ## Shifting a minimum by a finite amount -/

namespace SdlFloat

theorem min_add_fin (a b : SdlFloat) (w : ℚ) :
    min (add a (fin w)) (add b (fin w)) = add (min a b) (fin w) := by
  unfold SdlFloat.min
  rcases a with a | _ | _ | _ <;> rcases b with b | _ | _ | _ <;>
    simp [SdlFloat.add, SdlFloat.lt]
  by_cases h : b < a <;> simp [h, SdlFloat.add]

theorem foldl_min_add_fin (cs : List SdlFloat) (init : SdlFloat) (w : ℚ) :
    (cs.map (fun c => add c (fin w))).foldl min (add init (fin w)) =
      add (cs.foldl min init) (fin w) := by
  induction cs generalizing init with
  | nil => rfl
  | cons c cs ih =>
    simp only [List.map_cons, List.foldl_cons]
    rw [min_add_fin, ih]

theorem foldl_min_nan (cs : List SdlFloat) (init : SdlFloat) (h : ∀ c ∈ cs, c = nan) :
    cs.foldl min init = init := by
  induction cs generalizing init with
  | nil => rfl
  | cons c cs ih =>
    simp only [List.foldl_cons]
    rw [h c (by simp)]
    have : min init nan = init := by simp [SdlFloat.min]
    rw [this]
    exact ih _ (fun c' hc' => h c' (by simp [hc']))

theorem add_fin_zero (x : SdlFloat) : add x (fin 0) = x := by
  cases x <;> simp [SdlFloat.add]

end SdlFloat
/-! ## The reweighted graph -/

@[simp] theorem pushedArc_head (hg : IHypergraph SdlFloat) (a : Arc SdlFloat) :
    (pushedArc hg a).head_ = a.head_ := rfl

@[simp] theorem pushedArc_tails (hg : IHypergraph SdlFloat) (a : Arc SdlFloat) :
    (pushedArc hg a).tails_ = a.tails_ := rfl

@[simp] theorem pushedArc_firstTail (hg : IHypergraph SdlFloat) (a : Arc SdlFloat) :
    (pushedArc hg a).firstTail = a.firstTail := rfl

@[simp] theorem pushedGraph_arcs (hg : IHypergraph SdlFloat) :
    (pushedGraph hg).arcs_ = hg.arcs_.map (pushedArc hg) := rfl

@[simp] theorem pushedGraph_start (hg : IHypergraph SdlFloat) :
    (pushedGraph hg).start_ = hg.start_ := rfl

@[simp] theorem pushedGraph_final (hg : IHypergraph SdlFloat) :
    (pushedGraph hg).final_ = hg.final_ := rfl

@[simp] theorem pushedGraph_size (hg : IHypergraph SdlFloat) :
    (pushedGraph hg).size = hg.size := rfl

theorem pushedGraph_outArcs (hg : IHypergraph SdlFloat) (x : StateId) :
    outArcs (pushedGraph hg) x = (outArcs hg x).map (pushedArc hg) := by
  simp only [outArcs, pushedGraph_arcs, List.filter_map]
  rfl

theorem pushedGraph_isGraph (hg : IHypergraph SdlFloat) (hgr : hg.isGraph = true) :
    (pushedGraph hg).isGraph = true := by
  simp only [IHypergraph.isGraph, pushedGraph_arcs, List.all_map]
  exact hgr

theorem pushedGraph_rank (hg : IHypergraph SdlFloat) (rank : StateId → Nat)
    (hr : ∀ a ∈ hg.arcs_, rank a.head_ < hg.size ∧ ∀ t ∈ a.tails_, rank t < rank a.head_) :
    ∀ a ∈ (pushedGraph hg).arcs_,
      rank a.head_ < (pushedGraph hg).size ∧ ∀ t ∈ a.tails_, rank t < rank a.head_ := by
  intro a' ha'
  obtain ⟨a, ha, rfl⟩ := List.mem_map.1 ha'
  exact hr a ha

theorem pushedGraph_wellFormed (hg : IHypergraph SdlFloat) (hwf : WellFormed hg) :
    WellFormed (pushedGraph hg) := by
  refine ⟨hwf.size_le, hwf.start_ok, hwf.final_ok, ?_, ?_⟩
  · intro a' ha'
    obtain ⟨a, ha, rfl⟩ := List.mem_map.1 ha'
    exact hwf.heads_ok a ha
  · intro a' ha'
    obtain ⟨a, ha, rfl⟩ := List.mem_map.1 ha'
    exact hwf.tails_ok a ha

theorem pushedGraph_isPath (hg : IHypergraph SdlFloat) {s t : StateId}
    {p : List (Arc SdlFloat)} (hp : IsPath hg s p t) :
    IsPath (pushedGraph hg) s (p.map (pushedArc hg)) t := by
  induction p generalizing s with
  | nil => exact hp
  | cons a p ih =>
    exact ⟨List.mem_map_of_mem _ hp.1, hp.2.1, ih hp.2.2⟩

/-- The weight `PushCostsToStart` gives an arc whose head is not the start
state, in terms of the outside costs. -/
theorem pushedArc_weight (hg : IHypergraph SdlFloat) (a : Arc SdlFloat)
    (hh : a.head_ ≠ hg.start_) :
    (pushedArc hg a).weight_ = add a.weight_ (add (outsideCostsAux hg hg.size a.head_)
      (neg (if a.firstTail = hg.start_ then fin 0
        else outsideCostsAux hg hg.size a.firstTail))) := by
  simp only [pushedArc, pushCostsArc, outside0_force, IHypergraph.start, if_neg hh]
  by_cases ht : a.firstTail = hg.start_ <;> simp [ht]

namespace SdlFloat

theorem push_cand_start (c o : SdlFloat) (ho : Valid o) :
    add (add c (add o (neg (fin 0)))) (if isFinite o = true then fin 0 else posInf) =
      add c o := by
  rcases c with c | _ | _ | _ <;> rcases o with o | _ | _ | _ <;>
    simp_all [Valid, SdlFloat.add, SdlFloat.neg, isFinite]

theorem push_cand_fin (c o : SdlFloat) (z : ℚ) (ho : Valid o) :
    add (add c (add o (neg (fin z)))) (if isFinite o = true then fin 0 else posInf) =
      add (add c o) (fin (-z)) := by
  rcases c with c | _ | _ | _ <;> rcases o with o | _ | _ | _ <;>
    simp_all [Valid, SdlFloat.add, SdlFloat.neg, isFinite]
  ring

theorem push_cand_inf (c o : SdlFloat) (ho : Valid o) (hc : c ≠ negInf)
    (hcand : isFinite (add c o) = false) :
    add (add c (add o (neg posInf))) (if isFinite o = true then fin 0 else posInf) = nan := by
  rcases c with c | _ | _ | _ <;> rcases o with o | _ | _ | _ <;>
    simp_all [Valid, SdlFloat.add, SdlFloat.neg, isFinite]

theorem push_twice_start (c o : SdlFloat) (ho : Valid o) :
    add (add c (add o (neg (fin 0))))
      (add (if isFinite o = true then fin 0 else posInf) (neg (fin 0))) =
      add c (add o (neg (fin 0))) := by
  rcases c with c | _ | _ | _ <;> rcases o with o | _ | _ | _ <;>
    simp_all [Valid, SdlFloat.add, SdlFloat.neg, isFinite]

theorem push_twice_other (c oh ot : SdlFloat) (hh : Valid oh) (ht : Valid ot)
    (hc : c ≠ negInf) (hcons : isFinite ot = false → isFinite (add c oh) = false) :
    add (add c (add oh (neg ot)))
      (add (if isFinite oh = true then fin 0 else posInf)
        (neg (if isFinite ot = true then fin 0 else posInf))) =
      add c (add oh (neg ot)) := by
  rcases c with c | _ | _ | _ <;> rcases oh with oh | _ | _ | _ <;>
    rcases ot with ot | _ | _ | _ <;>
    simp_all [Valid, SdlFloat.add, SdlFloat.neg, isFinite]

end SdlFloat
/-! ## PushCostsToStart twice -/

/-- When the start state has no in-arcs, the closed form `pushedOutside` is a
fixed point of the outside relaxation of the reweighted graph. -/
theorem pushedOutside_fixpoint (hg : IHypergraph SdlFloat) (hgr : hg.isGraph = true)
    (rank : StateId → Nat)
    (hr : ∀ a ∈ hg.arcs_, rank a.head_ < hg.size ∧ ∀ t ∈ a.tails_, rank t < rank a.head_)
    (hv : ValidCosts hg) (hin : hg.inArcs hg.start_ = []) (x : StateId) :
    pushedOutside hg x = outsideStep (pushedGraph hg) (pushedOutside hg) x := by
  have hfix := outsideCostsAux_fixpoint hg hgr rank hr
  have hval := outsideCostsAux_valid hg hv hg.size
  have hnostart : ∀ a ∈ hg.arcs_, a.head_ ≠ hg.start_ := by
    intro a ha hh
    have : a ∈ hg.inArcs hg.start_ := mem_inArcs.2 ⟨ha, hh⟩
    rw [hin] at this
    exact List.not_mem_nil _ this
  by_cases hxf : x = hg.final_
  · subst hxf
    have h0 : outsideCostsAux hg hg.size hg.final_ = fin 0 := outsideCostsAux_final hg _
    simp [pushedOutside, outsideStep, h0, isFinite]
  · have hxf' : x ≠ (pushedGraph hg).final_ := hxf
    rw [outsideStep_eq _ _ _ hxf', pushedGraph_outArcs, List.map_map]
    have hx := hfix x
    rw [outsideStep_eq _ _ _ hxf] at hx
    have hcandne : ∀ c ∈ (outArcs hg x).map
        (fun a => a.weight_ + outsideCostsAux hg hg.size a.head_), c ≠ negInf := by
      intro c hc
      obtain ⟨a, ha, rfl⟩ := List.mem_map.1 hc
      exact add_ne_negInf (hv a (mem_outArcs.1 ha).1) (hval _)
    by_cases hxs : x = hg.start_
    · -- the start state: every candidate is unchanged
      have hmap : (outArcs hg x).map ((fun a' => a'.weight_ + pushedOutside hg a'.head_) ∘
          pushedArc hg) =
          (outArcs hg x).map (fun a => a.weight_ + outsideCostsAux hg hg.size a.head_) := by
        apply List.map_congr_left
        intro a ha
        obtain ⟨ha1, ha2⟩ := mem_outArcs.1 ha
        have hh := hnostart a ha1
        simp only [Function.comp, pushedArc_head, pushedArc_weight hg a hh, pushedOutside,
          if_neg hh, add_def, zero_def, ha2, hxs, if_true]
        exact push_cand_start _ _ (hval _)
      rw [hmap, ← hx]
      simp [pushedOutside, hxs]
    · rcases (hval x).cases with ⟨z, hz⟩ | hinf
      · -- a state with a completion: every candidate is shifted by its outside cost
        have hmap : (outArcs hg x).map ((fun a' => a'.weight_ + pushedOutside hg a'.head_) ∘
            pushedArc hg) =
            ((outArcs hg x).map (fun a => a.weight_ + outsideCostsAux hg hg.size a.head_)).map
              (fun c => add c (fin (-z))) := by
          rw [List.map_map]
          apply List.map_congr_left
          intro a ha
          obtain ⟨ha1, ha2⟩ := mem_outArcs.1 ha
          have hh := hnostart a ha1
          simp only [Function.comp, pushedArc_head, pushedArc_weight hg a hh, pushedOutside,
            if_neg hh, add_def, zero_def, ha2, if_neg hxs, hz]
          exact push_cand_fin _ _ z (hval _)
        have hinit : (posInf : SdlFloat) = add posInf (fin (-z)) := rfl
        rw [hmap, hinit, foldl_min_add_fin, ← hx, hz]
        simp [pushedOutside, hxs, hz, isFinite]
      · -- a state without completion: every candidate becomes `NaN`
        have hnf : ∀ c ∈ (outArcs hg x).map
            (fun a => a.weight_ + outsideCostsAux hg hg.size a.head_), isFinite c = false := by
          intro c hc
          by_contra hcf
          have hcf' : isFinite c = true := by simpa using hcf
          have := (foldl_min_isFinite _ posInf valid_posInf hcandne).2 (Or.inr ⟨c, hc, hcf'⟩)
          rw [← hx, hinf] at this
          exact Bool.false_ne_true this
        have hmap : ∀ c ∈ (outArcs hg x).map
            ((fun a' => a'.weight_ + pushedOutside hg a'.head_) ∘ pushedArc hg), c = nan := by
          intro c hc
          obtain ⟨a, ha, rfl⟩ := List.mem_map.1 hc
          obtain ⟨ha1, ha2⟩ := mem_outArcs.1 ha
          have hh := hnostart a ha1
          simp only [Function.comp, pushedArc_head, pushedArc_weight hg a hh, pushedOutside,
            if_neg hh, add_def, zero_def, ha2, if_neg hxs, hinf]
          exact push_cand_inf _ _ (hval _) (hv a ha1) (hnf _ (List.mem_map_of_mem _ ha))
        rw [foldl_min_nan _ _ hmap]
        simp [pushedOutside, hxs, hinf, isFinite]

/-- The outside costs that the second application computes. -/
theorem outsideCostsAux_pushedGraph (hg : IHypergraph SdlFloat) (hgr : hg.isGraph = true)
    (rank : StateId → Nat)
    (hr : ∀ a ∈ hg.arcs_, rank a.head_ < hg.size ∧ ∀ t ∈ a.tails_, rank t < rank a.head_)
    (hv : ValidCosts hg) (hin : hg.inArcs hg.start_ = []) (x : StateId) :
    outsideCostsAux (pushedGraph hg) hg.size x = pushedOutside hg x :=
  outsideStep_fixpoint_unique (pushedGraph hg) (pushedGraph_isGraph hg hgr) rank
    (pushedGraph_rank hg rank hr) _ _
    (outsideCostsAux_fixpoint (pushedGraph hg) (pushedGraph_isGraph hg hgr) rank
      (pushedGraph_rank hg rank hr))
    (pushedOutside_fixpoint hg hgr rank hr hv hin) x

/-- A state without completion has no out-arc with a finite candidate. -/
theorem outArc_cand_not_finite (hg : IHypergraph SdlFloat) (hgr : hg.isGraph = true)
    (rank : StateId → Nat)
    (hr : ∀ a ∈ hg.arcs_, rank a.head_ < hg.size ∧ ∀ t ∈ a.tails_, rank t < rank a.head_)
    (hv : ValidCosts hg) (a : Arc SdlFloat) (ha : a ∈ hg.arcs_)
    (hinf : isFinite (outsideCostsAux hg hg.size a.firstTail) = false) :
    isFinite (add a.weight_ (outsideCostsAux hg hg.size a.head_)) = false := by
  have hval := outsideCostsAux_valid hg hv hg.size
  have htf : a.firstTail ≠ hg.final_ := by
    intro h
    rw [h, outsideCostsAux_final] at hinf
    exact Bool.noConfusion hinf
  have hx := outsideCostsAux_fixpoint hg hgr rank hr a.firstTail
  rw [outsideStep_eq _ _ _ htf] at hx
  by_contra hcf
  have hcf' : isFinite (a.weight_ + outsideCostsAux hg hg.size a.head_) = true := by
    simpa using hcf
  have := (foldl_min_isFinite ((outArcs hg a.firstTail).map
      (fun a => a.weight_ + outsideCostsAux hg hg.size a.head_)) posInf valid_posInf
    (by
      intro c hc
      obtain ⟨b, hb, rfl⟩ := List.mem_map.1 hc
      exact add_ne_negInf (hv b (mem_outArcs.1 hb).1) (hval _))).2
    (Or.inr ⟨_, List.mem_map_of_mem _ (mem_outArcs.2 ⟨ha, rfl⟩), hcf'⟩)
  rw [← hx, hinf] at this
  exact Bool.false_ne_true this

theorem pushedGraph_validCosts (hg : IHypergraph SdlFloat) (hgr : hg.isGraph = true)
    (rank : StateId → Nat)
    (hr : ∀ a ∈ hg.arcs_, rank a.head_ < hg.size ∧ ∀ t ∈ a.tails_, rank t < rank a.head_)
    (hv : ValidCosts hg) (hin : hg.inArcs hg.start_ = []) : ValidCosts (pushedGraph hg) := by
  intro a' ha'
  obtain ⟨a, ha, rfl⟩ := List.mem_map.1 ha'
  have hh : a.head_ ≠ hg.start_ := by
    intro hh
    have : a ∈ hg.inArcs hg.start_ := mem_inArcs.2 ⟨ha, hh⟩
    rw [hin] at this
    exact List.not_mem_nil _ this
  have hval := outsideCostsAux_valid hg hv hg.size
  rw [pushedArc_weight hg a hh]
  have hc := hv a ha
  have hoh := hval a.head_
  by_cases ht : a.firstTail = hg.start_
  · simp only [ht, if_true]
    revert hc hoh
    rcases a.weight_ with c | _ | _ | _ <;>
      rcases outsideCostsAux hg hg.size a.head_ with o | _ | _ | _ <;>
      simp [Valid, SdlFloat.add, SdlFloat.neg]
  · simp only [ht, if_false]
    have hot := hval a.firstTail
    have hcons := outArc_cand_not_finite hg hgr rank hr hv a ha
    revert hc hoh hot hcons
    rcases a.weight_ with c | _ | _ | _ <;>
      rcases outsideCostsAux hg hg.size a.head_ with o | _ | _ | _ <;>
      rcases outsideCostsAux hg hg.size a.firstTail with t | _ | _ | _ <;>
      simp [Valid, SdlFloat.add, SdlFloat.neg, isFinite]

/-- The second application leaves every arc of the reweighted graph as it is. -/
theorem pushedArc_pushedArc (hg : IHypergraph SdlFloat) (hgr : hg.isGraph = true)
    (rank : StateId → Nat)
    (hr : ∀ a ∈ hg.arcs_, rank a.head_ < hg.size ∧ ∀ t ∈ a.tails_, rank t < rank a.head_)
    (hv : ValidCosts hg) (hin : hg.inArcs hg.start_ = []) (a : Arc SdlFloat)
    (ha : a ∈ hg.arcs_) :
    pushedArc (pushedGraph hg) (pushedArc hg a) = pushedArc hg a := by
  have hh : a.head_ ≠ hg.start_ := by
    intro hh
    have : a ∈ hg.inArcs hg.start_ := mem_inArcs.2 ⟨ha, hh⟩
    rw [hin] at this
    exact List.not_mem_nil _ this
  have hval := outsideCostsAux_valid hg hv hg.size
  have hw : (pushedArc (pushedGraph hg) (pushedArc hg a)).weight_ = (pushedArc hg a).weight_ := by
    have hh' : (pushedArc hg a).head_ ≠ (pushedGraph hg).start_ := hh
    rw [pushedArc_weight (pushedGraph hg) (pushedArc hg a) hh', pushedArc_weight hg a hh]
    simp only [pushedArc_head, pushedArc_firstTail, pushedGraph_start, pushedGraph_size,
      outsideCostsAux_pushedGraph hg hgr rank hr hv hin, pushedOutside, if_neg hh, zero_def]
    by_cases ht : a.firstTail = hg.start_
    · simp only [ht, if_true]
      exact push_twice_start _ _ (hval _)
    · simp only [ht, if_false]
      exact push_twice_other _ _ _ (hval _) (hval _) (hv a ha)
        (fun h => outArc_cand_not_finite hg hgr rank hr hv a ha h)
  show ({ pushedArc hg a with weight_ := _ } : Arc SdlFloat) = _
  cases hpa : pushedArc hg a with
  | mk h t w =>
    have : (pushedArc (pushedGraph hg) (pushedArc hg a)).weight_ = w := by rw [hw, hpa]
    rw [hpa] at this
    simp only [pushedArc, pushCostsArc] at this ⊢
    rw [this]
/-- In exact arithmetic, on an acyclic single-tail graph without `-inf` costs
that has a start→final path of finite cost and whose start state has no
in-arcs, a second `PushCostsToStart` completes and leaves every arc with the
cost the first application gave it. -/
theorem pushCostsToStart_idempotent (hg : IHypergraph SdlFloat) (hwf : WellFormed hg)
    (hgr : hg.isGraph = true) (hac : Acyclic hg) (hv : ValidCosts hg)
    (hs : hg.start ≠ kNoState) (hin : hg.inArcs hg.start = [])
    (p : List (Arc SdlFloat)) (hp : IsPath hg hg.start p hg.final) (q : ℚ)
    (hq : pathCost p = SdlFloat.fin q) :
    (PushCostsToStart hg).error = none ∧
    (PushCostsToStart (PushCostsToStart hg).hg).error = none ∧
    (PushCostsToStart (PushCostsToStart hg).hg).hg.arcs_ = (PushCostsToStart hg).hg.arcs_ := by
  have hfin := pathCost_finite hq
  obtain ⟨hrun, -, -⟩ := pushCosts_path_facts hg hwf hgr hac hv hs p hp hfin
  have hq' : pathCost (p.map (pushedArc hg)) = fin q :=
    (pushCostsToStart_path_cost hg hwf hgr hac hv hs p hp q hq)
  obtain ⟨rank, hr⟩ := hac
  have hrun' : PushCostsToStart hg = ⟨pushedGraph hg, none⟩ := hrun
  have hv' := pushedGraph_validCosts hg hgr rank hr hv hin
  obtain ⟨hrun2, -, -⟩ := pushCosts_path_facts (pushedGraph hg) (pushedGraph_wellFormed hg hwf)
    (pushedGraph_isGraph hg hgr) ⟨rank, pushedGraph_rank hg rank hr⟩ hv' hs
    (p.map (pushedArc hg)) (pushedGraph_isPath hg hp) (pathCost_finite hq')
  have hrun2' : PushCostsToStart (pushedGraph hg) = ⟨pushedGraph (pushedGraph hg), none⟩ := hrun2
  rw [hrun', hrun2']
  refine ⟨rfl, rfl, ?_⟩
  simp only [pushedGraph_arcs, List.map_map]
  apply List.map_congr_left
  intro a ha
  exact pushedArc_pushedArc hg hgr rank hr hv hin a ha

/-- The exact runs on the example automaton, whose start state has no
in-arcs. -/
theorem pushCostsToStart_idempotent_witness :
    (PushCostsToStart exampleAutomaton).error = none ∧
    (PushCostsToStart (PushCostsToStart exampleAutomaton).hg).error = none ∧
    (PushCostsToStart (PushCostsToStart exampleAutomaton).hg).hg.arcs_ =
      (PushCostsToStart exampleAutomaton).hg.arcs_ :=
  pushCostsToStart_idempotent exampleAutomaton exampleAutomaton_wellFormed
    (by decide) exampleAutomaton_acyclic exampleAutomaton_validCosts (by decide) (by decide)
    [⟨2, [0], SdlFloat.fin (9/10)⟩]
    (by simp [IsPath, exampleAutomaton, Arc.firstTail, IHypergraph.start, IHypergraph.final])
    (9/10) (by simp [pathCost])

/-- An arc into the start state gains `inside[final]` at each application, also
in exact arithmetic: on the acyclic automaton `0 -5-> 1`, `2 -1-> 0`,
`2 -2-> 1` (start `0`, final `1`) the first application gives the arc into the
start state the cost `4`, the second one the cost `9`. -/
theorem pushCostsToStart_not_idempotent :
    WellFormed startInArcAutomaton ∧ startInArcAutomaton.isGraph = true ∧
    Acyclic startInArcAutomaton ∧ ValidCosts startInArcAutomaton ∧
    IsPath startInArcAutomaton startInArcAutomaton.start [⟨1, [0], SdlFloat.fin 5⟩]
      startInArcAutomaton.final ∧
    pathCost [⟨1, [0], SdlFloat.fin 5⟩] = SdlFloat.fin 5 ∧
    (PushCostsToStart startInArcAutomaton).hg.arcs_ =
      [⟨1, [0], SdlFloat.fin 5⟩, ⟨0, [2], SdlFloat.fin 4⟩, ⟨1, [2], SdlFloat.fin 0⟩] ∧
    (PushCostsToStart (PushCostsToStart startInArcAutomaton).hg).hg.arcs_ =
      [⟨1, [0], SdlFloat.fin 5⟩, ⟨0, [2], SdlFloat.fin 9⟩, ⟨1, [2], SdlFloat.fin 0⟩] ∧
    (PushCostsToStart (PushCostsToStart startInArcAutomaton).hg).hg.arcs_ ≠
      (PushCostsToStart startInArcAutomaton).hg.arcs_ := by
  have h1 : (PushCostsToStart startInArcAutomaton).hg =
      { mutable_ := true, properties_ := 2,
        labels_ := [Sym.noSymbol, Sym.noSymbol, Sym.noSymbol],
        arcs_ := [⟨1, [0], SdlFloat.fin 5⟩, ⟨0, [2], SdlFloat.fin 4⟩, ⟨1, [2], SdlFloat.fin 0⟩],
        start_ := 0, final_ := 1 } := by
    simp [PushCostsToStart, IHypergraph.prunedEmpty, IHypergraph.isGraph, IHypergraph.start,
      IHypergraph.final, IHypergraph.isMutable, IHypergraph.sizeForHeads, kNoState,
      IHypergraph.forceFirstTailOutArcs, IHypergraph.forArcs, pushCostsArc, outside0,
      outsideCosts, outsideCostsAux, outsideStep, outArcs, insideCosts, insideCostsAux,
      insideStep, startInArcAutomaton, IHypergraph.inArcs, Arc.firstTail, SdlFloat.min,
      is_inf, kStoreFirstTailOutArcs, SdlFloat.add, SdlFloat.neg]
    norm_num
  have h2 : (PushCostsToStart (PushCostsToStart startInArcAutomaton).hg).hg.arcs_ =
      [⟨1, [0], SdlFloat.fin 5⟩, ⟨0, [2], SdlFloat.fin 9⟩, ⟨1, [2], SdlFloat.fin 0⟩] := by
    rw [h1]
    simp [PushCostsToStart, IHypergraph.prunedEmpty, IHypergraph.isGraph, IHypergraph.start,
      IHypergraph.final, IHypergraph.isMutable, IHypergraph.sizeForHeads, kNoState,
      IHypergraph.forceFirstTailOutArcs, IHypergraph.forArcs, pushCostsArc, outside0,
      outsideCosts, outsideCostsAux, outsideStep, outArcs, insideCosts, insideCostsAux,
      insideStep, IHypergraph.inArcs, Arc.firstTail, SdlFloat.min,
      is_inf, kStoreFirstTailOutArcs, SdlFloat.add, SdlFloat.neg]
    norm_num
  refine ⟨?_, by decide, ⟨fun s => if s = 2 then 0 else if s = 0 then 1 else 2, ?_⟩, ?_, ?_, ?_,
    by rw [h1], h2, ?_⟩
  · refine ⟨by decide, by decide, by decide, ?_, ?_⟩ <;>
      simp [startInArcAutomaton, IHypergraph.size]
  · simp [startInArcAutomaton, IHypergraph.size]
  · simp [ValidCosts, startInArcAutomaton]
  · simp [IsPath, startInArcAutomaton, Arc.firstTail, IHypergraph.start, IHypergraph.final]
  · simp [pathCost]
  · rw [h2, h1]
    simp
/-! ## PushWeightsToFinal: conservation of derivation weights -/

theorem insideWeightStep_congr {W : Type} [Semifield W] (hg : IHypergraph W) (f g : StateId → W) (s : StateId)
    (h : ∀ a ∈ hg.inArcs s, ∀ t ∈ a.tails_, f t = g t) :
    insideWeightStep hg f s = insideWeightStep hg g s := by
  unfold insideWeightStep
  split
  · rfl
  · congr 1
    apply List.map_congr_left
    intro a ha
    congr 2
    apply List.map_congr_left
    intro t ht
    exact h a ha t ht

/-- Once the round number exceeds the rank of a state, a further round no
longer changes its inside weight. -/
theorem insideAlgorithmAux_stable {W : Type} [Semifield W] (hg : IHypergraph W) (rank : StateId → Nat)
    (hr : ∀ a ∈ hg.arcs_, rank a.head_ < hg.size ∧ ∀ t ∈ a.tails_, rank t < rank a.head_)
    (k : Nat) (x : StateId) (hk : rank x < k ∨ hg.inArcs x = []) :
    insideAlgorithmAux hg k x = insideAlgorithmAux hg (k + 1) x := by
  induction k generalizing x with
  | zero =>
    rcases hk with hk | hk
    · omega
    · simp [insideAlgorithmAux, insideWeightStep, hk]
  | succ k ih =>
    show insideWeightStep hg (insideAlgorithmAux hg k) x =
      insideWeightStep hg (insideAlgorithmAux hg (k + 1)) x
    apply insideWeightStep_congr
    intro a ha t ht
    apply ih
    rcases hk with hk | hk
    · left
      obtain ⟨ha1, ha2⟩ := mem_inArcs.1 ha
      have := (hr a ha1).2 t ht
      rw [ha2] at this
      omega
    · rw [hk] at ha
      exact absurd ha (List.not_mem_nil _)

/-- On an acyclic hypergraph the inside weights after `N` rounds are a fixed
point of the inside computation. -/
theorem insideAlgorithmAux_fixpoint {W : Type} [Semifield W] (hg : IHypergraph W) (rank : StateId → Nat)
    (hr : ∀ a ∈ hg.arcs_, rank a.head_ < hg.size ∧ ∀ t ∈ a.tails_, rank t < rank a.head_)
    (x : StateId) :
    insideAlgorithmAux hg hg.size x = insideWeightStep hg (insideAlgorithmAux hg hg.size) x := by
  apply insideAlgorithmAux_stable hg rank hr
  by_cases h : hg.inArcs x = []
  · exact Or.inr h
  · left
    obtain ⟨a, ha⟩ := List.exists_mem_of_ne_nil _ h
    obtain ⟨ha1, ha2⟩ := mem_inArcs.1 ha
    rw [← ha2]
    exact (hr a ha1).1

theorem DerivesAll.nil_inv {W : Type} {hg : IHypergraph W} {used : List (Arc W)}
    (h : DerivesAll hg [] used) : used = [] := by
  generalize hl : ([] : List StateId) = l at h
  cases h with
  | nil => rfl
  | leaf s ts us _ _ _ => exact absurd hl (by simp)
  | node a ts us vs _ _ _ => exact absurd hl (by simp)

theorem DerivesAll.cons_inv {W : Type} {hg : IHypergraph W} {s : StateId} {ts : List StateId}
    {used : List (Arc W)} (h : DerivesAll hg (s :: ts) used) :
    (hg.isAxiom s = true ∧ DerivesAll hg ts used) ∨
    ∃ a us vs, a ∈ hg.arcs_ ∧ a.head_ = s ∧
      DerivesAll hg a.tails_ us ∧ DerivesAll hg ts vs ∧ used = a :: us ++ vs := by
  generalize hl : s :: ts = l at h
  cases h with
  | nil => exact absurd hl (by simp)
  | leaf s' ts' us _ hax hrest =>
    obtain ⟨rfl, rfl⟩ := List.cons.inj hl
    exact Or.inl ⟨hax, hrest⟩
  | node a ts' us vs ha hus hvs =>
    obtain ⟨h1, rfl⟩ := List.cons.inj hl
    exact Or.inr ⟨a, us, vs, ha, h1.symm, hus, hvs, rfl⟩

/-- Every arc of a derivation is an arc of the hypergraph, and its head ranks
no higher than one of the derived states. -/
theorem DerivesAll.arcs_facts {W : Type} {hg : IHypergraph W} (rank : StateId → Nat)
    (hr : ∀ a ∈ hg.arcs_, rank a.head_ < hg.size ∧ ∀ t ∈ a.tails_, rank t < rank a.head_)
    {ts : List StateId} {us : List (Arc W)} (h : DerivesAll hg ts us) :
    ∀ a ∈ us, a ∈ hg.arcs_ ∧ ∃ t ∈ ts, rank a.head_ ≤ rank t := by
  induction h with
  | nil => simp
  | leaf s ts us _ _ _ ih =>
    intro a ha
    obtain ⟨h1, t, ht, hle⟩ := ih a ha
    exact ⟨h1, t, by simp [ht], hle⟩
  | node a ts us vs ha _ _ ih1 ih2 =>
    intro b hb
    rcases List.mem_cons.1 hb with rfl | hb
    · exact ⟨ha, b.head_, by simp, le_refl _⟩
    · rcases List.mem_append.1 hb with hb | hb
      · obtain ⟨h1, t, ht, hle⟩ := ih1 b hb
        exact ⟨h1, a.head_, by simp, le_of_lt (lt_of_le_of_lt hle ((hr a ha).2 t ht))⟩
      · obtain ⟨h1, t, ht, hle⟩ := ih2 b hb
        exact ⟨h1, t, by simp [ht], hle⟩

theorem list_sum_ne_zero {W : Type} [Semifield W] (hzsf : ∀ a b : W, a + b = 0 → a = 0 ∧ b = 0) (l : List W) (x : W)
    (hx : x ∈ l) (hne : x ≠ 0) : l.sum ≠ 0 := by
  induction l with
  | nil => simp at hx
  | cons y l ih =>
    intro hsum
    rw [List.sum_cons] at hsum
    obtain ⟨h1, h2⟩ := hzsf _ _ hsum
    rcases List.mem_cons.1 hx with rfl | hx
    · exact hne h1
    · exact ih hx h2

/-- In a semiring without cancellation, the states and the arc heads of a
derivation whose arc weights are non-zero have non-zero inside weight. -/
theorem DerivesAll.inside_ne_zero {W : Type} [Semifield W] (hzsf : ∀ a b : W, a + b = 0 → a = 0 ∧ b = 0)
    {hg : IHypergraph W} (rank : StateId → Nat)
    (hr : ∀ a ∈ hg.arcs_, rank a.head_ < hg.size ∧ ∀ t ∈ a.tails_, rank t < rank a.head_)
    {ts : List StateId} {us : List (Arc W)} (h : DerivesAll hg ts us)
    (hw : ∀ a ∈ us, a.weight_ ≠ 0) :
    (∀ t ∈ ts, insideAlgorithmAux hg hg.size t ≠ 0) ∧
    (∀ a ∈ us, insideAlgorithmAux hg hg.size a.head_ ≠ 0) := by
  induction h with
  | nil => simp
  | leaf s ts us _ hax _ ih =>
    obtain ⟨ih1, ih2⟩ := ih hw
    refine ⟨?_, ih2⟩
    intro t ht
    rcases List.mem_cons.1 ht with rfl | ht
    · rw [insideAlgorithmAux_fixpoint hg rank hr]
      simp [insideWeightStep, hax]
    · exact ih1 t ht
  | node a ts us vs ha _ _ ih1 ih2 =>
    obtain ⟨i1, i2⟩ := ih1 (fun b hb => hw b (by simp [hb]))
    obtain ⟨j1, j2⟩ := ih2 (fun b hb => hw b (by simp [hb]))
    have hhead : insideAlgorithmAux hg hg.size a.head_ ≠ 0 := by
      rw [insideAlgorithmAux_fixpoint hg rank hr]
      unfold insideWeightStep
      split
      · exact one_ne_zero
      apply list_sum_ne_zero hzsf _ (a.weight_ * (a.tails_.map
        (insideAlgorithmAux hg hg.size)).prod)
      · exact List.mem_map_of_mem _ (mem_inArcs.2 ⟨ha, rfl⟩)
      · apply mul_ne_zero (hw a (by simp))
        apply List.prod_ne_zero
        intro h0
        obtain ⟨t, ht, ht0⟩ := List.mem_map.1 h0
        exact i1 t ht ht0
    refine ⟨?_, ?_⟩
    · intro t ht
      rcases List.mem_cons.1 ht with rfl | ht
      · exact hhead
      · exact j1 t ht
    · intro b hb
      rcases List.mem_cons.1 hb with rfl | hb
      · exact hhead
      · rcases List.mem_append.1 hb with hb | hb
        · exact i2 b hb
        · exact j2 b hb

/-- The tail loop of `operator()` multiplies by the inside weight of every tail
that is not an axiom. -/
theorem foldl_tails_eq {W : Type} [Semifield W] (hg : IHypergraph W) (inside : StateId → W) (tails : List StateId)
    (w0 : W) :
    tails.foldl (fun w t => if !hg.isAxiom t then w * inside t else w) w0 =
      w0 * (tails.map (fun t => if hg.isAxiom t then 1 else inside t)).prod := by
  induction tails generalizing w0 with
  | nil => simp
  | cons t ts ih =>
    simp only [List.foldl_cons, List.map_cons, List.prod_cons]
    rw [ih]
    by_cases h : hg.isAxiom t = true
    · simp [h]
    · have h' : hg.isAxiom t = false := by simpa using h
      simp [h', mul_assoc]

/-- An arc of weight zero keeps weight zero. -/
theorem pushWeightsArc_zero {W : Type} [Semifield W] [DecidableEq W] (hg : IHypergraph W) (inside : StateId → W) (n : Nat)
    (final : StateId) (a : Arc W) (h : a.weight_ = 0) :
    (pushWeightsArc hg inside n final a).weight_ = 0 := by
  unfold pushWeightsArc
  split
  · split
    · rfl
    · simp only [foldl_tails_eq, h]
      split <;> simp
  · rfl

/-- Telescoping: below the final state, the new weights of a derivation times
the inside weights of the derived states give the old weights. -/
theorem DerivesAll.telescope {W : Type} [Semifield W] [DecidableEq W] {hg : IHypergraph W} (inside : StateId → W) (n : Nat)
    (final : StateId) {ts : List StateId} {us : List (Arc W)} (h : DerivesAll hg ts us)
    (hne : ∀ a ∈ us, a.head_ ≠ final) (hn : ∀ a ∈ us, a.head_ < n)
    (hI : ∀ a ∈ us, inside a.head_ ≠ 0) (hone : ∀ s, hg.isAxiom s = true → inside s = 1) :
    (us.map (fun a => (pushWeightsArc hg inside n final a).weight_)).prod *
      (ts.map (fun t => if hg.isAxiom t then 1 else inside t)).prod =
      (us.map (fun a => a.weight_)).prod := by
  induction h with
  | nil => simp
  | leaf s ts us _ hax _ ih =>
    simp only [List.map_cons, List.prod_cons, hax, if_true, one_mul]
    exact ih hne hn hI
  | node a ts us vs ha _ _ ih1 ih2 =>
    have e1 := ih1 (fun b hb => hne b (by simp [hb])) (fun b hb => hn b (by simp [hb]))
      (fun b hb => hI b (by simp [hb]))
    have e2 := ih2 (fun b hb => hne b (by simp [hb])) (fun b hb => hn b (by simp [hb]))
      (fun b hb => hI b (by simp [hb]))
    have hIa := hI a (by simp)
    have hwa : (pushWeightsArc hg inside n final a).weight_ =
        a.weight_ / inside a.head_ *
          (a.tails_.map (fun t => if hg.isAxiom t then 1 else inside t)).prod := by
      unfold pushWeightsArc
      rw [if_pos (hn a (by simp)), if_neg (fun h => hIa h.2)]
      simp only [foldl_tails_eq, if_pos (hne a (by simp))]
    have hpot : (if hg.isAxiom a.head_ = true then 1 else inside a.head_) = inside a.head_ := by
      split
      · rename_i hax; exact (hone _ hax).symm
      · rfl
    simp only [List.map_cons, List.map_append, List.prod_cons, List.prod_append, hwa, hpot]
    rw [← e1, ← e2]
    field_simp
    ring

theorem insideAlgorithm_isAxiom_eq_one {W : Type} [Semifield W] (hg : IHypergraph W) (k : Nat)
    (s : StateId) (h : hg.isAxiom s = true) : insideAlgorithm hg k s = 1 := by
  cases k <;> simp [insideAlgorithm, insideAlgorithmAux, insideWeightStep, h]

theorem PushWeightsToFinal_of_ne_zero {W : Type} [Semifield W] [DecidableEq W]
    (hg : IHypergraph W) (hfin : insideAlgorithm hg hg.sizeForHeads hg.final ≠ 0) :
    PushWeightsToFinal hg = ⟨hg.forArcs (finalPushedArc hg), none⟩ := by
  unfold PushWeightsToFinal
  simp only [hfin, if_false]
  rfl

/-- The weight of a derivation rooted at the final state is the same before and
after the reweighting, when the semiring has no cancellation. -/
theorem derivationWeight_finalPushed {W : Type} [Semifield W] [DecidableEq W]
    (hzsf : ∀ a b : W, a + b = 0 → a = 0 ∧ b = 0) (hg : IHypergraph W)
    (hwf : WellFormed hg) (hac : Acyclic hg) (used : List (Arc W))
    (hd : Derives hg hg.final used) :
    derivationWeight (used.map (finalPushedArc hg)) = derivationWeight used := by
  obtain ⟨rank, hr⟩ := hac
  unfold derivationWeight
  rw [List.map_map]
  by_cases hw : ∀ b ∈ used, b.weight_ ≠ 0
  · rcases DerivesAll.cons_inv hd with ⟨-, hrest⟩ | ⟨a, us, vs, ha, hhead, hus, hvs, rfl⟩
    · rw [DerivesAll.nil_inv hrest]; rfl
    · have hvs' := DerivesAll.nil_inv hvs
      subst hvs'
      have hfacts := DerivesAll.arcs_facts rank hr hus
      have hne : ∀ b ∈ us, b.head_ ≠ hg.final := by
        intro b hb hbf
        obtain ⟨-, t, ht, hle⟩ := hfacts b hb
        have := (hr a ha).2 t ht
        rw [hbf, ← hhead] at hle
        omega
      have hn : ∀ b ∈ us, b.head_ < hg.sizeForHeads := fun b hb =>
        hwf.heads_ok b (hfacts b hb).1
      have hI := (DerivesAll.inside_ne_zero hzsf rank hr hus
        (fun b hb => hw b (by simp [hb]))).2
      have htel : (us.map (fun a => (finalPushedArc hg a).weight_)).prod *
          (a.tails_.map (fun t => if hg.isAxiom t then 1
            else insideAlgorithm hg hg.sizeForHeads t)).prod =
          (us.map (fun a => a.weight_)).prod :=
        DerivesAll.telescope (insideAlgorithm hg hg.sizeForHeads) hg.sizeForHeads
          hg.final hus hne hn hI (insideAlgorithm_isAxiom_eq_one hg hg.sizeForHeads)
      have hwa : (finalPushedArc hg a).weight_ = a.weight_ *
          (a.tails_.map (fun t => if hg.isAxiom t then 1
            else insideAlgorithm hg hg.sizeForHeads t)).prod := by
        unfold finalPushedArc pushWeightsArc
        have hlt : a.head_ < hg.sizeForHeads := hwf.heads_ok a ha
        rw [if_pos hlt, if_neg (fun h => h.1 hhead)]
        simp only [foldl_tails_eq, if_neg (not_not.2 hhead)]
      simp only [List.append_nil, List.map_cons, List.prod_cons, Function.comp_def, hwa]
      rw [← htel]
      ring
  · have hw' : ∃ b ∈ used, b.weight_ = 0 := by
      by_contra hcon
      apply hw
      intro b hb hb0
      exact hcon ⟨b, hb, hb0⟩
    obtain ⟨b, hb, hb0⟩ := hw'
    rw [List.prod_eq_zero, List.prod_eq_zero]
    · rw [← hb0]; exact List.mem_map_of_mem _ hb
    · have := pushWeightsArc_zero hg (insideAlgorithm hg hg.sizeForHeads) hg.sizeForHeads
        hg.final b hb0
      rw [← this]
      exact List.mem_map_of_mem (fun a => (finalPushedArc hg a).weight_) hb

/-- C2 (amended). Over a commutative semiring with division in which a sum
vanishes only when both summands do, on a well-formed acyclic hypergraph whose
inside weight at the final state is non-zero, `PushWeightsToFinal` completes,
reweights every arc, and every derivation tree rooted at the final state has
the same product of arc weights after as before. -/
theorem pushWeightsToFinal_preserves_derivation_weight {W : Type} [Semifield W]
    [DecidableEq W] (hzsf : ∀ a b : W, a + b = 0 → a = 0 ∧ b = 0) (hg : IHypergraph W)
    (hwf : WellFormed hg) (hac : Acyclic hg)
    (hfin : insideAlgorithm hg hg.sizeForHeads hg.final ≠ 0) (used : List (Arc W))
    (hd : Derives hg hg.final used) :
    (PushWeightsToFinal hg).error = none ∧
    (PushWeightsToFinal hg).hg.arcs_ = hg.arcs_.map (finalPushedArc hg) ∧
    derivationWeight (used.map (finalPushedArc hg)) = derivationWeight used := by
  rw [PushWeightsToFinal_of_ne_zero hg hfin]
  exact ⟨rfl, rfl, derivationWeight_finalPushed hzsf hg hwf hac used hd⟩

theorem smallHypergraph_wellFormed : WellFormed smallHypergraph := by
  refine ⟨by decide, by decide, by decide, ?_, ?_⟩ <;>
    simp [smallHypergraph, IHypergraph.size]

theorem smallHypergraph_acyclic : Acyclic smallHypergraph :=
  ⟨fun s => s, by simp [smallHypergraph, IHypergraph.size]⟩

theorem smallHypergraph_derives :
    Derives smallHypergraph smallHypergraph.final [⟨4, [3, 0], 5⟩, ⟨3, [1, 2], 2⟩] := by
  have h12 : DerivesAll smallHypergraph [1, 2] [] :=
    DerivesAll.leaf 1 [2] [] (by decide) (by decide)
      (DerivesAll.leaf 2 [] [] (by decide) (by decide) DerivesAll.nil)
  have h0 : DerivesAll smallHypergraph [0] [] :=
    DerivesAll.leaf 0 [] [] (by decide) (by decide) DerivesAll.nil
  have h3 : DerivesAll smallHypergraph [3, 0] [⟨3, [1, 2], 2⟩] :=
    DerivesAll.node ⟨3, [1, 2], 2⟩ [0] [] [] (by simp [smallHypergraph]) h12 h0
  exact DerivesAll.node ⟨4, [3, 0], 5⟩ [] [⟨3, [1, 2], 2⟩] [] (by simp [smallHypergraph])
    h3 DerivesAll.nil

theorem nnrat_zero_sum_free : ∀ a b : NNRat, a + b = 0 → a = 0 ∧ b = 0 := by
  intro a b h
  exact add_eq_zero.1 h

/-- Witness of C2 (amended): a derivation of the small hypergraph over the
non-negative rationals. -/
theorem pushWeightsToFinal_preserves_derivation_weight_witness :
    (PushWeightsToFinal smallHypergraph).error = none ∧
    (PushWeightsToFinal smallHypergraph).hg.arcs_ =
      smallHypergraph.arcs_.map (finalPushedArc smallHypergraph) ∧
    derivationWeight (([⟨4, [3, 0], 5⟩, ⟨3, [1, 2], 2⟩] : List (Arc NNRat)).map
      (finalPushedArc smallHypergraph)) =
      derivationWeight ([⟨4, [3, 0], 5⟩, ⟨3, [1, 2], 2⟩] : List (Arc NNRat)) :=
  pushWeightsToFinal_preserves_derivation_weight nnrat_zero_sum_free smallHypergraph
    smallHypergraph_wellFormed smallHypergraph_acyclic
    ((DerivesAll.inside_ne_zero nnrat_zero_sum_free (fun s => s)
      (by simp [smallHypergraph, IHypergraph.size]) smallHypergraph_derives
      (by simp)).1 _ (by simp))
    [⟨4, [3, 0], 5⟩, ⟨3, [1, 2], 2⟩] smallHypergraph_derives

/-- Counterexample to C2 as stated: over the rationals, the inside weight of
state `1` of `cancellingHypergraph` cancels to zero, so the arcs into state `1`
get weight zero, and the derivation `2 ← (1)`, `1 ← (0)` of weight `1` has weight
`0` afterwards, although the inside weight of the final state is `1`. -/
theorem pushWeightsToFinal_changes_derivation_weight :
    WellFormed cancellingHypergraph ∧ Acyclic cancellingHypergraph ∧
    insideAlgorithm cancellingHypergraph cancellingHypergraph.sizeForHeads
      cancellingHypergraph.final = 1 ∧
    Derives cancellingHypergraph cancellingHypergraph.final [⟨2, [1], 1⟩, ⟨1, [0], 1⟩] ∧
    (PushWeightsToFinal cancellingHypergraph).error = none ∧
    (PushWeightsToFinal cancellingHypergraph).hg.arcs_ =
      cancellingHypergraph.arcs_.map (finalPushedArc cancellingHypergraph) ∧
    derivationWeight ([⟨2, [1], 1⟩, ⟨1, [0], 1⟩] : List (Arc ℚ)) = 1 ∧
    derivationWeight (([⟨2, [1], 1⟩, ⟨1, [0], 1⟩] : List (Arc ℚ)).map
      (finalPushedArc cancellingHypergraph)) = 0 := by
  have hin1 : insideAlgorithm cancellingHypergraph 3 1 = 0 := by
    simp [insideAlgorithm, insideAlgorithmAux, insideWeightStep, IHypergraph.isAxiom,
      IHypergraph.hasLexicalLabel, IHypergraph.inputLabel, IHypergraph.inArcs,
      cancellingHypergraph]
  have hfin : insideAlgorithm cancellingHypergraph cancellingHypergraph.sizeForHeads
      cancellingHypergraph.final = 1 := by
    show insideAlgorithm cancellingHypergraph 3 2 = 1
    simp [insideAlgorithm, insideAlgorithmAux, insideWeightStep, IHypergraph.isAxiom,
      IHypergraph.hasLexicalLabel, IHypergraph.inputLabel, IHypergraph.inArcs,
      cancellingHypergraph]
  have hder : Derives cancellingHypergraph cancellingHypergraph.final
      [⟨2, [1], 1⟩, ⟨1, [0], 1⟩] := by
    have h0 : DerivesAll cancellingHypergraph [0] [] :=
      DerivesAll.leaf 0 [] [] (by decide) (by decide) DerivesAll.nil
    have h1 : DerivesAll cancellingHypergraph [1] [⟨1, [0], 1⟩] :=
      DerivesAll.node ⟨1, [0], 1⟩ [] [] [] (by simp [cancellingHypergraph]) h0
        DerivesAll.nil
    exact DerivesAll.node ⟨2, [1], 1⟩ [] [⟨1, [0], 1⟩] [] (by simp [cancellingHypergraph])
      h1 DerivesAll.nil
  have hrun := PushWeightsToFinal_of_ne_zero cancellingHypergraph (by rw [hfin]; exact one_ne_zero)
  refine ⟨?_, ⟨fun s => s, by simp [cancellingHypergraph, IHypergraph.size]⟩, hfin, hder,
    by rw [hrun], by rw [hrun]; rfl, by simp [derivationWeight], ?_⟩
  · refine ⟨by decide, by decide, by decide, ?_, ?_⟩ <;>
      simp [cancellingHypergraph, IHypergraph.size]
  · have h1 : (finalPushedArc cancellingHypergraph ⟨1, [0], 1⟩).weight_ = 0 := by
      have hs : cancellingHypergraph.sizeForHeads = 3 := rfl
      unfold finalPushedArc pushWeightsArc
      rw [hs, hin1]
      simp [cancellingHypergraph, IHypergraph.final]
    simp [derivationWeight, h1]
/-! ## Graphs without a path from start to final -/

namespace SdlFloat

theorem foldl_min_ne_nan (cs : List SdlFloat) (init : SdlFloat) (hi : init ≠ nan) :
    cs.foldl min init ≠ nan := by
  induction cs generalizing init with
  | nil => simpa using hi
  | cons c cs ih =>
    simp only [List.foldl_cons]
    apply ih
    unfold SdlFloat.min
    split
    · rename_i h
      intro hc
      rw [hc] at h
      simp at h
    · exact hi

theorem foldl_min_mem (cs : List SdlFloat) (init : SdlFloat) :
    cs.foldl min init = init ∨ cs.foldl min init ∈ cs := by
  induction cs generalizing init with
  | nil => exact Or.inl rfl
  | cons c cs ih =>
    simp only [List.foldl_cons]
    rcases ih (min init c) with h | h
    · rw [h]
      unfold SdlFloat.min
      split
      · exact Or.inr (by simp)
      · exact Or.inl rfl
    · exact Or.inr (by simp [h])

theorem is_inf_of_not_finite {x : SdlFloat} (hn : x ≠ nan) (hf : isFinite x = false) :
    is_inf x = true := by
  cases x <;> simp_all [isFinite, is_inf]

end SdlFloat

theorem IsPath.snoc {W : Type} {hg : IHypergraph W} {s t : StateId} {p : List (Arc W)}
    (hp : IsPath hg s p t) (a : Arc W) (ha : a ∈ hg.arcs_) (hat : a.firstTail = t) :
    IsPath hg s (p ++ [a]) a.head_ := by
  induction p generalizing s with
  | nil =>
    have : s = t := hp
    exact ⟨ha, by rw [hat, this], rfl⟩
  | cons b p ih => exact ⟨hp.1, hp.2.1, ih hp.2.2⟩

theorem insideCostsAux_ne_nan (hg : IHypergraph SdlFloat) (k : Nat) (s : StateId) :
    insideCostsAux hg k s ≠ nan := by
  cases k with
  | zero =>
    simp only [insideCostsAux]
    split <;> simp
  | succ k =>
    simp only [insideCostsAux]
    by_cases hs : s = hg.start_
    · simp [insideStep, hs]
    · rw [insideStep_eq _ _ _ hs]
      exact foldl_min_ne_nan _ _ (by simp)

/-- A finite inside cost is the cost of a path from the start state. -/
theorem insideCostsAux_finite_imp_path (hg : IHypergraph SdlFloat) (k : Nat) (s : StateId)
    (h : isFinite (insideCostsAux hg k s) = true) :
    ∃ p, IsPath hg hg.start_ p s ∧ ∀ a ∈ p, isFinite a.weight_ = true := by
  induction k generalizing s with
  | zero =>
    by_cases hs : s = hg.start_
    · exact ⟨[], hs.symm, by simp⟩
    · simp [insideCostsAux, hs, isFinite] at h
  | succ k ih =>
    by_cases hs : s = hg.start_
    · exact ⟨[], hs.symm, by simp⟩
    · have e : insideCostsAux hg (k + 1) s = insideStep hg (insideCostsAux hg k) s := rfl
      rw [e, insideStep_eq _ _ _ hs] at h
      rcases foldl_min_mem ((hg.inArcs s).map
          (fun a => a.weight_ + insideCostsAux hg k a.firstTail)) posInf with hm | hm
      · rw [hm] at h
        exact absurd h (by simp [isFinite])
      · obtain ⟨a, ha, hae⟩ := List.mem_map.1 hm
        rw [← hae, add_def, isFinite_add] at h
        obtain ⟨p, hp, hpf⟩ := ih _ h.2
        obtain ⟨ha1, ha2⟩ := mem_inArcs.1 ha
        refine ⟨p ++ [a], ?_, ?_⟩
        · rw [← ha2]; exact hp.snoc a ha1 rfl
        · intro b hb
          rcases List.mem_append.1 hb with hb | hb
          · exact hpf b hb
          · rw [List.mem_singleton.1 hb]; exact h.1

/-- Without a path of finite cost from start to final, the inside cost of the
final state is infinite. -/
theorem insideCosts_final_is_inf (hg : IHypergraph SdlFloat)
    (hno : ∀ p, IsPath hg hg.start p hg.final → isFinite (pathCost p) = false) (k : Nat) :
    is_inf (insideCostsAux hg k hg.final_) = true := by
  apply is_inf_of_not_finite (insideCostsAux_ne_nan hg k _)
  by_contra hf
  have hf' : isFinite (insideCostsAux hg k hg.final_) = true := by simpa using hf
  obtain ⟨p, hp, hpf⟩ := insideCostsAux_finite_imp_path hg k _ hf'
  have := hno p hp
  rw [pathCost_eq_sum hpf] at this
  simp [isFinite] at this

theorem list_exists_ne_zero_of_sum {W : Type} [Semifield W] (l : List W) (h : l.sum ≠ 0) :
    ∃ x ∈ l, x ≠ 0 := by
  by_contra hcon
  apply h
  apply List.sum_eq_zero
  intro x hx
  by_contra hx0
  exact hcon ⟨x, hx, hx0⟩

/-- In an automaton whose states carry no lexical label, a non-zero inside
weight comes from a path from the start state with non-zero weight. -/
theorem insideAlgorithmAux_ne_zero_imp_path {W : Type} [Semifield W] (hg : IHypergraph W)
    (hgr : hg.isGraph = true) (hlex : ∀ s, hg.hasLexicalLabel s = false) (k : Nat)
    (s : StateId) (h : insideAlgorithmAux hg k s ≠ 0) :
    ∃ p, IsPath hg hg.start_ p s ∧ pathWeight p ≠ 0 := by
  have hax : ∀ s, hg.isAxiom s = true → s = hg.start_ := by
    intro s hs
    simpa [IHypergraph.isAxiom, hlex s] using hs
  induction k generalizing s with
  | zero =>
    by_cases hs : hg.isAxiom s = true
    · exact ⟨[], (hax s hs).symm, by simp [pathWeight]⟩
    · simp [insideAlgorithmAux, hs] at h
  | succ k ih =>
    by_cases hs : hg.isAxiom s = true
    · exact ⟨[], (hax s hs).symm, by simp [pathWeight]⟩
    · have e : insideAlgorithmAux hg (k + 1) s =
          insideWeightStep hg (insideAlgorithmAux hg k) s := rfl
      rw [e] at h
      simp only [insideWeightStep, hs, if_false] at h
      obtain ⟨x, hx, hx0⟩ := list_exists_ne_zero_of_sum _ h
      obtain ⟨a, ha, rfl⟩ := List.mem_map.1 hx
      obtain ⟨ha1, ha2⟩ := mem_inArcs.1 ha
      have hl : a.tails_.length = 1 := by
        simpa using List.all_eq_true.1 hgr a ha1
      match hts : a.tails_, hl with
      | [t], _ =>
        rw [hts] at hx0
        simp only [List.map_cons, List.map_nil, List.prod_cons, List.prod_nil, mul_one] at hx0
        obtain ⟨p, hp, hpw⟩ := ih t (right_ne_zero_of_mul hx0)
        refine ⟨p ++ [a], ?_, ?_⟩
        · rw [← ha2]
          exact hp.snoc a ha1 (by simp [Arc.firstTail, hts])
        · simp only [pathWeight, List.map_append, List.prod_append, List.map_cons, List.map_nil,
            List.prod_cons, List.prod_nil, mul_one]
          exact mul_ne_zero hpw (left_ne_zero_of_mul hx0)

theorem insideAlgorithm_final_eq_zero {W : Type} [Semifield W] (hg : IHypergraph W)
    (hgr : hg.isGraph = true) (hlex : ∀ s, hg.hasLexicalLabel s = false)
    (hno : ∀ p, IsPath hg hg.start p hg.final → pathWeight p = 0) (k : Nat) :
    insideAlgorithm hg k hg.final = 0 := by
  by_contra h
  obtain ⟨p, hp, hpw⟩ := insideAlgorithmAux_ne_zero_imp_path hg hgr hlex k _ h
  exact hpw (hno p hp)

/-- C4 (amended). On a mutable single-tail graph with start and final set and no path of
finite cost from start to final, `PushCostsToStart` completes without raising
and leaves the graph in the canonical empty state; `PushWeightsToFinal` does the
same on a mutable automaton (states without lexical label) in which no
start→final path has non-zero weight. -/
theorem push_empties_mutable_graph {W : Type} [Semifield W] [DecidableEq W]
    (hg : IHypergraph SdlFloat) (hm : hg.isMutable = true) (hgr : hg.isGraph = true)
    (hs : hg.start ≠ kNoState) (hf : hg.final ≠ kNoState)
    (hno : ∀ p, IsPath hg hg.start p hg.final → SdlFloat.isFinite (pathCost p) = false)
    (hw : IHypergraph W) (hwm : hw.isMutable = true) (hwgr : hw.isGraph = true)
    (hwlex : ∀ s, hw.hasLexicalLabel s = false)
    (hwno : ∀ p, IsPath hw hw.start p hw.final → pathWeight p = 0) :
    ((PushCostsToStart hg).error = none ∧
      (PushCostsToStart hg).hg = hg.forceFirstTailOutArcs.setEmpty ∧
      (PushCostsToStart hg).hg.prunedEmpty = true) ∧
    ((PushWeightsToFinal hw).error = none ∧
      (PushWeightsToFinal hw).hg = hw.setEmpty ∧
      (PushWeightsToFinal hw).hg.prunedEmpty = true) := by
  constructor
  · have hinf := insideCosts_final_is_inf hg hno hg.sizeForHeads
    have hrun : PushCostsToStart hg = ⟨hg.forceFirstTailOutArcs.setEmpty, none⟩ := by
      have hf' : hg.final_ ≠ kNoState := hf
      have hs' : hg.start_ ≠ kNoState := hs
      have hm' : hg.mutable_ = true := hm
      simp only [PushCostsToStart, IHypergraph.prunedEmpty, IHypergraph.start,
        IHypergraph.final, IHypergraph.isMutable, insideCosts, insideCostsAux_force, hgr]
      simp [hf', hs', hm', hinf]
    rw [hrun]
    exact ⟨rfl, rfl, by simp [IHypergraph.prunedEmpty, IHypergraph.setEmpty]⟩
  · have hz := insideAlgorithm_final_eq_zero hw hwgr hwlex hwno hw.sizeForHeads
    have hrun : PushWeightsToFinal hw = ⟨hw.setEmpty, none⟩ := by
      unfold PushWeightsToFinal
      simp only [hz, if_true, hwm]
      rfl
    rw [hrun]
    exact ⟨rfl, rfl, by simp [IHypergraph.prunedEmpty, IHypergraph.setEmpty]⟩

/-- A path of a graph that has no arc leaving its origin is empty. -/
theorem IsPath.eq_nil_of_no_outArcs {W : Type} {hg : IHypergraph W} {s t : StateId}
    {p : List (Arc W)} (hp : IsPath hg s p t) (hno : outArcs hg s = []) : p = [] := by
  cases p with
  | nil => rfl
  | cons a p =>
    have : a ∈ outArcs hg s := mem_outArcs.2 ⟨hp.1, hp.2.1⟩
    rw [hno] at this
    exact absurd this (List.not_mem_nil _)

/-- Witness of C4 (amended): the automaton with the single arc `2 -1-> 1`, start `0` and
final `1`, with costs and with weights in the non-negative rationals. -/
theorem push_empties_mutable_graph_witness :
    ((PushCostsToStart disconnectedAutomaton).error = none ∧
      (PushCostsToStart disconnectedAutomaton).hg =
        disconnectedAutomaton.forceFirstTailOutArcs.setEmpty ∧
      (PushCostsToStart disconnectedAutomaton).hg.prunedEmpty = true) ∧
    ((PushWeightsToFinal disconnectedWeighted).error = none ∧
      (PushWeightsToFinal disconnectedWeighted).hg = disconnectedWeighted.setEmpty ∧
      (PushWeightsToFinal disconnectedWeighted).hg.prunedEmpty = true) :=
  push_empties_mutable_graph disconnectedAutomaton (by decide) (by decide) (by decide)
    (by decide)
    (by
      intro p hp
      have := hp.eq_nil_of_no_outArcs (by decide)
      subst this
      exact absurd (show (0 : StateId) = 1 from hp) (by decide))
    disconnectedWeighted (by decide) (by decide)
    (by
      intro s
      unfold IHypergraph.hasLexicalLabel IHypergraph.inputLabel
      have : disconnectedWeighted.labels_.getD s Sym.noSymbol = Sym.noSymbol := by
        match s with
        | 0 => rfl
        | 1 => rfl
        | 2 => rfl
        | n + 3 => rfl
      rw [this])
    (by
      intro p hp
      have := hp.eq_nil_of_no_outArcs (by decide)
      subst this
      exact absurd (show (0 : StateId) = 1 from hp) (by decide))
/-- C5 (amended). On a non-mutable graph that is not pruned-empty and has no path of
finite cost from start to final, `PushCostsToStart` raises `ConfigException`;
on a non-mutable automaton (states without lexical label) in which no
start→final path has non-zero weight, so does `PushWeightsToFinal`; in both
cases the arcs are unchanged when the exception is raised. -/
theorem push_raises_on_immutable_graph {W : Type} [Semifield W] [DecidableEq W]
    (hg : IHypergraph SdlFloat) (hm : hg.isMutable = false) (hne : hg.prunedEmpty = false)
    (hno : ∀ p, IsPath hg hg.start p hg.final → SdlFloat.isFinite (pathCost p) = false)
    (hw : IHypergraph W) (hwm : hw.isMutable = false) (hwgr : hw.isGraph = true)
    (hwlex : ∀ s, hw.hasLexicalLabel s = false)
    (hwno : ∀ p, IsPath hw hw.start p hw.final → pathWeight p = 0) :
    ((PushCostsToStart hg).error = some Exception.ConfigException ∧
      (PushCostsToStart hg).hg.arcs_ = hg.arcs_) ∧
    ((PushWeightsToFinal hw).error = some Exception.ConfigException ∧
      (PushWeightsToFinal hw).hg.arcs_ = hw.arcs_) := by
  constructor
  · have hinf := insideCosts_final_is_inf hg hno hg.sizeForHeads
    have hm' : hg.mutable_ = false := hm
    unfold PushCostsToStart
    rw [hne]
    simp only [Bool.false_eq_true, if_false]
    split
    · exact ⟨rfl, rfl⟩
    · simp only [IHypergraph.final, IHypergraph.isMutable, insideCosts, insideCostsAux_force,
        hinf, or_true, if_true, hm', Bool.false_eq_true, if_false]
      exact ⟨trivial, rfl⟩
  · have hz := insideAlgorithm_final_eq_zero hw hwgr hwlex hwno hw.sizeForHeads
    unfold PushWeightsToFinal
    simp only [hz, if_true, hwm, Bool.false_eq_true, if_false]
    exact ⟨trivial, trivial⟩

/-- Witness of C5 (amended): the non-mutable views of the automaton with the single arc
`2 -1-> 1`, start `0` and final `1`. -/
theorem push_raises_on_immutable_graph_witness :
    ((PushCostsToStart { disconnectedAutomaton with mutable_ := false }).error =
        some Exception.ConfigException ∧
      (PushCostsToStart { disconnectedAutomaton with mutable_ := false }).hg.arcs_ =
        [⟨1, [2], SdlFloat.fin 1⟩]) ∧
    ((PushWeightsToFinal { disconnectedWeighted with mutable_ := false }).error =
        some Exception.ConfigException ∧
      (PushWeightsToFinal { disconnectedWeighted with mutable_ := false }).hg.arcs_ =
        [⟨1, [2], 1⟩]) :=
  push_raises_on_immutable_graph { disconnectedAutomaton with mutable_ := false } (by decide)
    (by decide)
    (by
      intro p hp
      have := hp.eq_nil_of_no_outArcs (by decide)
      subst this
      exact absurd (show (0 : StateId) = 1 from hp) (by decide))
    { disconnectedWeighted with mutable_ := false } (by decide) (by decide)
    (by
      intro s
      unfold IHypergraph.hasLexicalLabel IHypergraph.inputLabel
      have : ({ disconnectedWeighted with mutable_ := false } : IHypergraph NNRat).labels_.getD s
          Sym.noSymbol = Sym.noSymbol := by
        match s with
        | 0 => rfl
        | 1 => rfl
        | 2 => rfl
        | n + 3 => rfl
      rw [this])
    (by
      intro p hp
      have := hp.eq_nil_of_no_outArcs (by decide)
      subst this
      exact absurd (show (0 : StateId) = 1 from hp) (by decide))
/-! ## IsolateStartState -/

theorem hasInArcs_eq_false_iff {W : Type} (hg : IHypergraph W) (s : StateId) :
    hasInArcs hg s = false ↔ ∀ a ∈ hg.arcs_, a.head_ ≠ s := by
  unfold hasInArcs
  split
  · simp only [IHypergraph.numInArcs, IHypergraph.inArcs]
    constructor
    · intro h a ha hs
      have hl : (hg.arcs_.filter (fun a => a.head_ == s)).length = 0 := by simpa using h
      have : a ∈ hg.arcs_.filter (fun a => a.head_ == s) := by simp [ha, hs]
      rw [List.length_eq_zero.1 hl] at this
      exact List.not_mem_nil _ this
    · intro h
      have : hg.arcs_.filter (fun a => a.head_ == s) = [] := by
        apply List.filter_eq_nil_iff.2
        intro a ha
        simpa using h a ha
      simp [this]
  · simp only [IHypergraph.forArcsInSearch]
    constructor
    · intro h a ha hs
      have := List.any_eq_false.1 h a ha
      simp [hs] at this
    · intro h
      apply List.any_eq_false.2
      intro a ha
      simpa using h a ha

theorem foldl_addArc_arcs {W : Type} (f : Arc W → Arc W) (l : List (Arc W))
    (g : IHypergraph W) :
    (l.foldl (fun g a => g.addArc (f a)) g).arcs_ = g.arcs_ ++ l.map f ∧
    (l.foldl (fun g a => g.addArc (f a)) g).start_ = g.start_ ∧
    (l.foldl (fun g a => g.addArc (f a)) g).final_ = g.final_ ∧
    (l.foldl (fun g a => g.addArc (f a)) g).labels_ = g.labels_ ∧
    (l.foldl (fun g a => g.addArc (f a)) g).properties_ = g.properties_ := by
  induction l generalizing g with
  | nil => simp
  | cons a l ih =>
    simp only [List.foldl_cons]
    obtain ⟨h1, h2, h3, h4, h5⟩ := ih (g.addArc (f a))
    refine ⟨?_, ?_, ?_, ?_, ?_⟩
    · rw [h1]; simp [IHypergraph.addArc]
    · rw [h2]; rfl
    · rw [h3]; rfl
    · rw [h4]; rfl
    · rw [h5]; rfl

/-- The graph `IsolateStartState::inplace` leaves: one more state, which is the
new start state, the old arcs, and the clones of the out-arcs of the old start
state. -/
theorem IsolateStartState.inplace_hg {W : Type} (hg : IHypergraph W) :
    (IsolateStartState.inplace hg).error = none ∧
    (IsolateStartState.inplace hg).hg.arcs_ = hg.arcs_ ++
      (hg.forArcsOutSearch hg.start_).map
        (fun a => a.cloneReplacing hg.start_ hg.labels_.length) ∧
    (IsolateStartState.inplace hg).hg.start_ = hg.labels_.length ∧
    (IsolateStartState.inplace hg).hg.final_ = hg.final_ ∧
    (IsolateStartState.inplace hg).hg.labels_ = hg.labels_ ++ [Sym.noSymbol] := by
  unfold IsolateStartState.inplace
  simp only [IHypergraph.addState, IHypergraph.start, IHypergraph.setStart]
  obtain ⟨h1, h2, h3, h4, -⟩ := foldl_addArc_arcs
    (fun a : Arc W => a.cloneReplacing hg.start_ hg.labels_.length)
    (IHypergraph.forArcsOutSearch
      { hg with labels_ := hg.labels_ ++ [Sym.noSymbol], start_ := hg.labels_.length }
      hg.start_)
    { hg with labels_ := hg.labels_ ++ [Sym.noSymbol], start_ := hg.labels_.length }
  exact ⟨trivial, h1, h2, h3, h4⟩

/-- What `inplace(hg, IsolateStartState())` does when the transform is
needed. -/
theorem inplace_isolateStartState_of_needs {W : Type} (hg : IHypergraph W)
    (h : IsolateStartState.needs hg = true) :
    inplace hg (IsolateStartState W) =
      (⟨(IsolateStartState.inplace (hg.forceProperties NoProperties)).hg.forcePropertiesOnOff
        NoProperties NoProperties, none⟩, true) := by
  have hn : (IsolateStartState W).needs hg = true := h
  unfold inplace
  rw [if_pos hn]
  congr 1

/-- What `inplace(hg, IsolateStartState())` does when the transform is not
needed. -/
theorem inplace_isolateStartState_of_not_needs {W : Type} (hg : IHypergraph W)
    (h : IsolateStartState.needs hg = false) :
    inplace hg (IsolateStartState W) =
      (⟨hg.forcePropertiesOnOff NoProperties NoProperties, none⟩, false) := by
  have hn : (IsolateStartState W).needs hg = false := h
  unfold inplace
  rw [hn]
  rfl

/-- C7. On a well-formed graph, after `inplace(hg, IsolateStartState())`, which
does not raise, no arc of the result has the start state of the result as its
head: `hasInArcs(result, result.start())` is false. -/
theorem isolateStartState_start_has_no_inArcs {W : Type} (hg : IHypergraph W)
    (hwf : WellFormed hg) :
    (inplace hg (IsolateStartState W)).1.error = none ∧
    hasInArcs (inplace hg (IsolateStartState W)).1.hg
      (inplace hg (IsolateStartState W)).1.hg.start = false := by
  by_cases h : IsolateStartState.needs hg = true
  · rw [inplace_isolateStartState_of_needs hg h]
    refine ⟨rfl, ?_⟩
    rw [hasInArcs_eq_false_iff]
    obtain ⟨-, h1, h2, -, -⟩ := IsolateStartState.inplace_hg (hg.forceProperties NoProperties)
    intro a ha
    have ha' : a ∈ (IsolateStartState.inplace (hg.forceProperties NoProperties)).hg.arcs_ := ha
    rw [h1] at ha'
    have hs : (IHypergraph.forcePropertiesOnOff
        (IsolateStartState.inplace (hg.forceProperties NoProperties)).hg NoProperties
        NoProperties).start = hg.labels_.length := h2
    rw [hs]
    have hlt : a.head_ < hg.labels_.length := by
      rcases List.mem_append.1 ha' with hm | hm
      · exact hwf.heads_ok a hm
      · obtain ⟨b, hb, rfl⟩ := List.mem_map.1 hm
        exact hwf.heads_ok b (List.mem_filter.1 hb).1
    exact Nat.ne_of_lt hlt
  · have h' : IsolateStartState.needs hg = false := by simpa using h
    rw [inplace_isolateStartState_of_not_needs hg h']
    refine ⟨rfl, ?_⟩
    rw [hasInArcs_eq_false_iff]
    intro a ha
    have ha' : a ∈ hg.arcs_ := ha
    show a.head_ ≠ hg.start_
    unfold IsolateStartState.needs at h'
    by_cases hst : hg.start_ = kNoState
    · rw [hst]
      have := Nat.lt_of_lt_of_le (hwf.heads_ok a ha') hwf.size_le
      exact Nat.ne_of_lt this
    · have hst' : (hg.start == kNoState) = false := by
        simpa [IHypergraph.start] using hst
      rw [hst'] at h'
      simp only [Bool.false_eq_true, if_false] at h'
      exact (hasInArcs_eq_false_iff hg hg.start).1 h' a ha'

/-- Witness of C7: the graph whose start state is also its final state and has
an in-arc. -/
theorem isolateStartState_start_has_no_inArcs_witness :
    (inplace startIsFinalGraph (IsolateStartState ℚ)).1.error = none ∧
    hasInArcs (inplace startIsFinalGraph (IsolateStartState ℚ)).1.hg
      (inplace startIsFinalGraph (IsolateStartState ℚ)).1.hg.start = false :=
  isolateStartState_start_has_no_inArcs startIsFinalGraph
    (by
      refine ⟨by decide, by decide, by decide, ?_, ?_⟩ <;>
        simp [startIsFinalGraph, IHypergraph.size])
/-- C8 (failing input). On the graph with states `0` and `1`, start and final
state `0` and the arc `1 -> 0`, the input recognises the empty path from start
to final, the transform is needed and applied, and the result (new start
state `2`, final state `0`, no arc leaving state `2`) has no path from its start
state to its final state: the recognised paths are not preserved. -/
theorem isolateStartState_loses_empty_path :
    WellFormed startIsFinalGraph ∧
    IsolateStartState.needs startIsFinalGraph = true ∧
    IsPath startIsFinalGraph startIsFinalGraph.start [] startIsFinalGraph.final ∧
    inplace startIsFinalGraph (IsolateStartState ℚ) =
      (⟨{ mutable_ := true, properties_ := 0,
          labels_ := [Sym.noSymbol, Sym.noSymbol, Sym.noSymbol],
          arcs_ := [⟨0, [1], 1⟩], start_ := 2, final_ := 0 }, none⟩, true) ∧
    ∀ p, ¬ IsPath (inplace startIsFinalGraph (IsolateStartState ℚ)).1.hg
      (inplace startIsFinalGraph (IsolateStartState ℚ)).1.hg.start p
      (inplace startIsFinalGraph (IsolateStartState ℚ)).1.hg.final := by
  have hneeds : IsolateStartState.needs startIsFinalGraph = true := by decide
  have hrun : inplace startIsFinalGraph (IsolateStartState ℚ) =
      (⟨{ mutable_ := true, properties_ := 0,
          labels_ := [Sym.noSymbol, Sym.noSymbol, Sym.noSymbol],
          arcs_ := [⟨0, [1], 1⟩], start_ := 2, final_ := 0 }, none⟩, true) := by
    rw [inplace_isolateStartState_of_needs _ hneeds]
    simp [IsolateStartState.inplace, IHypergraph.forceProperties,
      IHypergraph.forcePropertiesOnOff, IHypergraph.addState, IHypergraph.setStart,
      IHypergraph.forArcsOutSearch, IHypergraph.start, NoProperties, startIsFinalGraph]
  refine ⟨?_, hneeds, rfl, hrun, ?_⟩
  · refine ⟨by decide, by decide, by decide, ?_, ?_⟩ <;>
      simp [startIsFinalGraph, IHypergraph.size]
  · rw [hrun]
    intro p hp
    cases p with
    | nil => exact absurd (show (2 : StateId) = 0 from hp) (by decide)
    | cons a p =>
      obtain ⟨ha, hat, -⟩ := hp
      have ha' : a = ⟨0, [1], 1⟩ := by simpa using ha
      rw [ha'] at hat
      exact absurd (show (1 : StateId) = 2 from hat) (by decide)
/-! ## Outcomes of recursive procedures -/

namespace Res

@[simp] theorem bind_def {α β : Type} (x : Res α) (f : α → Res β) : x >>= f = x.bind f := rfl

@[simp] theorem pure_def {α : Type} (a : α) : (pure a : Res α) = ok a := rfl

@[simp] theorem ok_bind {α β : Type} (a : α) (f : α → Res β) : (ok a).bind f = f a := rfl

theorem bind_eq_ok {α β : Type} {x : Res α} {f : α → Res β} {b : β}
    (h : x.bind f = ok b) : ∃ a, x = ok a ∧ f a = ok b := by
  cases x with
  | ok a => exact ⟨a, rfl, h⟩
  | throw e => cases h
  | undefined => cases h
  | outOfFuel => cases h

theorem bind_ne_outOfFuel {α β : Type} {x : Res α} {f : α → Res β}
    (hx : x ≠ outOfFuel) (hf : ∀ a, x = ok a → f a ≠ outOfFuel) : x.bind f ≠ outOfFuel := by
  cases x with
  | ok a => exact hf a rfl
  | throw e => intro h; cases h
  | undefined => intro h; cases h
  | outOfFuel => exact absurd rfl hx

/-- A loop whose steps do not exhaust the budget does not exhaust it. -/
theorem foldlM_ne_outOfFuel {α β : Type} (f : β → α → Res β) (l : List α) (init : β)
    (h : ∀ b a, a ∈ l → f b a ≠ outOfFuel) : l.foldlM f init ≠ outOfFuel := by
  induction l generalizing init with
  | nil => intro h'; cases h'
  | cons a l ih =>
    rw [List.foldlM_cons, bind_def]
    apply bind_ne_outOfFuel (h init a (by simp))
    intro b _
    exact ih b (fun b' a' ha' => h b' a' (by simp [ha']))

/-- A property that holds at the start of a loop and is kept by every step that
completes holds when the loop completes. -/
theorem foldlM_inv {α β : Type} (P : β → Prop) (f : β → α → Res β) (l : List α) (init : β)
    (hinit : P init) (hstep : ∀ b a b', a ∈ l → P b → f b a = ok b' → P b') (r : β)
    (h : l.foldlM f init = ok r) : P r := by
  induction l generalizing init with
  | nil =>
    have : init = r := by
      simp only [List.foldlM_nil, pure_def] at h
      exact ok.inj h
    rw [← this]; exact hinit
  | cons a l ih =>
    rw [List.foldlM_cons, bind_def] at h
    obtain ⟨b, hb, hrest⟩ := bind_eq_ok h
    exact ih b (hstep init a b (by simp) hinit hb)
      (fun b1 a1 b2 ha1 => hstep b1 a1 b2 (by simp [ha1])) hrest

end Res

/-! ## Languages under extension of a hypergraph -/

theorem Extends.extends_refl {W : Type} (g : IHypergraph W) : Extends g g :=
  ⟨rfl, fun _ h => h, ⟨[], by simp⟩⟩

theorem Extends.extends_trans {W : Type} {g1 g2 g3 : IHypergraph W} (h12 : Extends g1 g2)
    (h23 : Extends g2 g3) : Extends g1 g3 := by
  obtain ⟨e1, he1⟩ := h12.labels_ext
  obtain ⟨e2, he2⟩ := h23.labels_ext
  exact ⟨by rw [h23.start_eq, h12.start_eq], fun a ha => h23.arcs_sub a (h12.arcs_sub a ha),
    ⟨e1 ++ e2, by rw [he2, he1, List.append_assoc]⟩⟩

theorem hasLexicalLabel_lt {W : Type} {g : IHypergraph W} {s : StateId}
    (h : g.hasLexicalLabel s = true) : s < g.labels_.length := by
  by_contra hlt
  have hge : g.labels_.length ≤ s := Nat.le_of_not_lt hlt
  have : g.inputLabel s = Sym.noSymbol := by
    unfold IHypergraph.inputLabel
    rw [List.getD_eq_default _ _ hge]
  simp [IHypergraph.hasLexicalLabel, this] at h

theorem Extends.inputLabel_eq {W : Type} {g g' : IHypergraph W} (h : Extends g g')
    {s : StateId} (hs : s < g.labels_.length) : g'.inputLabel s = g.inputLabel s := by
  obtain ⟨e, he⟩ := h.labels_ext
  unfold IHypergraph.inputLabel
  rw [he, List.getD_append _ _ _ _ hs]

theorem Extends.hasLexicalLabel_eq {W : Type} {g g' : IHypergraph W} (h : Extends g g')
    {s : StateId} (hs : s < g.labels_.length) : g'.hasLexicalLabel s = g.hasLexicalLabel s := by
  unfold IHypergraph.hasLexicalLabel
  rw [h.inputLabel_eq hs]

theorem Extends.isAxiom_eq {W : Type} {g g' : IHypergraph W} (h : Extends g g')
    {s : StateId} (hs : s < g.labels_.length) : g'.isAxiom s = g.isAxiom s := by
  unfold IHypergraph.isAxiom
  rw [h.start_eq, h.hasLexicalLabel_eq hs]

theorem Extends.leafYield_eq {W : Type} {g g' : IHypergraph W} (h : Extends g g')
    {s : StateId} (hs : s < g.labels_.length) : leafYield g' s = leafYield g s := by
  unfold Hyp.leafYield
  rw [h.hasLexicalLabel_eq hs, h.inputLabel_eq hs]

theorem Extends.size_le {W : Type} {g g' : IHypergraph W} (h : Extends g g') :
    g.size ≤ g'.size := by
  obtain ⟨e, he⟩ := h.labels_ext
  unfold IHypergraph.size
  rw [he, List.length_append]
  exact Nat.le_add_right _ _

/-- Derivations survive the extension of a hypergraph, with their yields. -/
theorem YieldsAll.mono {W : Type} {g g' : IHypergraph W} (h : Extends g g')
    {ts : List StateId} {y : List Sym} (hy : YieldsAll g ts y) : YieldsAll g' ts y := by
  induction hy with
  | nil => exact YieldsAll.nil
  | leaf s ts y hs hax _ ih =>
    rw [← h.leafYield_eq hs]
    exact YieldsAll.leaf s ts y (Nat.lt_of_lt_of_le hs h.size_le)
      (by rw [h.isAxiom_eq hs]; exact hax) ih
  | node a ts y1 y2 ha _ _ ih1 ih2 =>
    exact YieldsAll.node a ts y1 y2 (h.arcs_sub a ha) ih1 ih2
/-! ## The standard union covers both graphs -/

theorem hgUnion_extends {W : Type} [One W] (source target : IHypergraph W) :
    Extends target (hgUnion source target) := by
  refine ⟨rfl, ?_, ⟨source.labels_ ++ [Sym.noSymbol], ?_⟩⟩
  · intro a ha
    simp only [hgUnion, List.mem_append]
    exact Or.inl (Or.inl (Or.inl ha))
  · simp [hgUnion]

theorem hgUnion_inputLabel_shift {W : Type} [One W] (source target : IHypergraph W)
    {s : StateId} (hs : s < source.size) :
    (hgUnion source target).inputLabel (s + target.size) = source.inputLabel s := by
  unfold IHypergraph.inputLabel
  have h1 : (hgUnion source target).labels_ =
      target.labels_ ++ (source.labels_ ++ [Sym.noSymbol]) := by
    simp [hgUnion]
  rw [h1, show s + target.size = target.labels_.length + s from Nat.add_comm _ _,
    List.getD_append_right _ _ _ _ (Nat.le_add_right _ _), Nat.add_sub_cancel_left,
    List.getD_append _ _ _ _ hs]

/-- A derivation of the second graph is a derivation of its copy in the
union. -/
theorem YieldsAll.hgUnion_shift {W : Type} [One W] (source target : IHypergraph W)
    {ts : List StateId} {y : List Sym} (hy : YieldsAll source ts y) :
    YieldsAll (hgUnion source target) (ts.map (fun t => t + target.size)) y := by
  induction hy with
  | nil => exact YieldsAll.nil
  | leaf s ts y hs hax _ ih =>
    have hlabel := hgUnion_inputLabel_shift source target hs
    by_cases hlex : source.hasLexicalLabel s = true
    · have hlex' : (hgUnion source target).hasLexicalLabel (s + target.size) = true := by
        unfold IHypergraph.hasLexicalLabel at hlex ⊢
        rw [hlabel]; exact hlex
      have hyield : leafYield (hgUnion source target) (s + target.size) =
          leafYield source s := by
        unfold Hyp.leafYield
        rw [hlex, hlex', hlabel]
      rw [List.map_cons, ← hyield]
      refine YieldsAll.leaf _ _ _ ?_ ?_ ih
      · have : (hgUnion source target).size = target.size + source.size + 1 := by
          simp [hgUnion, IHypergraph.size, Nat.add_assoc]
        rw [this]
        have h1 : s + target.size < source.size + target.size := Nat.add_lt_add_right hs _
        exact Nat.lt_succ_of_lt (by rw [Nat.add_comm target.size]; exact h1)
      · simp [IHypergraph.isAxiom, hlex']
    · have hlex' : source.hasLexicalLabel s = false := by simpa using hlex
      have hstart : s = source.start_ := by
        simpa [IHypergraph.isAxiom, hlex'] using hax
      have hy0 : leafYield source s = [] := by simp [Hyp.leafYield, hlex']
      rw [List.map_cons, hy0]
      have harc : (⟨s + target.size, [], 1⟩ : Arc W) ∈ (hgUnion source target).arcs_ := by
        have hs' : source.start_ < source.size := hstart ▸ hs
        have hl : source.hasLexicalLabel source.start_ = false := hstart ▸ hlex'
        simp [hgUnion, hs', hl, hstart]
      exact YieldsAll.node ⟨s + target.size, [], 1⟩ _ [] y harc YieldsAll.nil ih
  | node a ts y1 y2 ha _ _ ih1 ih2 =>
    have harc : (⟨a.head_ + target.size, a.tails_.map (fun t => t + target.size),
        a.weight_⟩ : Arc W) ∈ (hgUnion source target).arcs_ := by
      simp only [hgUnion, List.mem_append, List.mem_map]
      exact Or.inl (Or.inl (Or.inr ⟨a, ha, rfl⟩))
    rw [List.map_cons]
    exact YieldsAll.node ⟨a.head_ + target.size, a.tails_.map (fun t => t + target.size),
      a.weight_⟩ _ y1 y2 harc ih1 ih2

/-- The language of the union contains the languages of both graphs. -/
theorem hgUnion_covers {W : Type} [One W] (source target : IHypergraph W) (y : List Sym)
    (h : Language target y ∨ Language source y) : Language (hgUnion source target) y := by
  unfold Language at h ⊢
  have hfinal : (hgUnion source target).final_ = target.size + source.size := rfl
  rw [hfinal]
  rcases h with h | h
  · have h' := YieldsAll.mono (hgUnion_extends source target) h
    have harc : (⟨target.size + source.size, [target.final_], 1⟩ : Arc W) ∈
        (hgUnion source target).arcs_ := by
      simp [hgUnion]
    have := YieldsAll.node ⟨target.size + source.size, [target.final_], 1⟩ [] y [] harc h'
      YieldsAll.nil
    simpa using this
  · have h' := YieldsAll.hgUnion_shift source target h
    have harc : (⟨target.size + source.size, [source.final_ + target.size], 1⟩ : Arc W) ∈
        (hgUnion source target).arcs_ := by
      simp [hgUnion]
    have := YieldsAll.node ⟨target.size + source.size, [source.final_ + target.size], 1⟩ [] y []
      harc h' YieldsAll.nil
    simpa using this
/-! ## SubUnion: the grafting only adds states and arcs -/

theorem Grows.grows_refl {W : Type} (g : IHypergraph W) : Grows g g := ⟨Extends.extends_refl g, rfl⟩

theorem Grows.grows_trans {W : Type} {g1 g2 g3 : IHypergraph W} (h12 : Grows g1 g2)
    (h23 : Grows g2 g3) : Grows g1 g3 :=
  ⟨h12.1.extends_trans h23.1, by rw [h23.2, h12.2]⟩

theorem Grows.addArc {W : Type} (g : IHypergraph W) (a : Arc W) : Grows g (g.addArc a) :=
  ⟨⟨rfl, fun b hb => by simp [IHypergraph.addArc, hb], ⟨[], by simp [IHypergraph.addArc]⟩⟩, rfl⟩

theorem Grows.addState {W : Type} (g : IHypergraph W) (label : Sym) :
    Grows g (g.addState label).1 :=
  ⟨⟨rfl, fun _ hb => hb, ⟨[label], rfl⟩⟩, rfl⟩

theorem foldl_grows {W α : Type} (f : AddStatesState W → α → AddStatesState W) (l : List α)
    (h : ∀ st a, Grows st.result (f st a).result) (st : AddStatesState W) :
    Grows st.result (l.foldl f st).result := by
  induction l generalizing st with
  | nil => exact Grows.grows_refl _
  | cons a l ih => exact (h st a).grows_trans (ih (f st a))

theorem addResultingArcs_grows {W : Type} [One W] (newStates : List StateId)
    (perArc : List (List (List StateId))) (st : AddStatesState W) :
    Grows st.result (addResultingArcs newStates perArc st).result := by
  unfold addResultingArcs
  apply foldl_grows
  intro st newHead
  apply foldl_grows
  intro st newStatesForTails
  apply foldl_grows
  intro st tuple
  simp only
  split
  · exact Grows.grows_refl _
  · exact Grows.addArc _ _


theorem addStatesTailStep_grows {W : Type}
    (recurse : StateId → AddStatesState W → Res (NewStateInfo × AddStatesState W))
    (hrec : ∀ t st r, recurse t st = Res.ok r → Grows st.result r.2.result)
    (tacc tacc' : Bool × List (List StateId) × AddStatesState W) (t : StateId)
    (h : addStatesTailStep recurse tacc t = Res.ok tacc') :
    Grows tacc.2.2.result tacc'.2.2.result := by
  unfold addStatesTailStep at h
  simp only [Res.bind_def, Res.pure_def] at h
  obtain ⟨x, hx, hrest⟩ := Res.bind_eq_ok h
  obtain ⟨p, st'⟩ := x
  cases hrest
  exact hrec _ _ _ hx

theorem addStatesArcStep_grows {W : Type}
    (recurse : StateId → AddStatesState W → Res (NewStateInfo × AddStatesState W))
    (hrec : ∀ t st r, recurse t st = Res.ok r → Grows st.result r.2.result)
    (acc acc' : Bool × List (List (List StateId)) × AddStatesState W) (arc : Arc W)
    (h : addStatesArcStep recurse acc arc = Res.ok acc') :
    Grows acc.2.2.result acc'.2.2.result := by
  unfold addStatesArcStep at h
  simp only [Res.bind_def, Res.pure_def] at h
  obtain ⟨x, hx, hrest⟩ := Res.bind_eq_ok h
  have hinv := Res.foldlM_inv (fun tacc => Grows acc.2.2.result tacc.2.2.result)
    (addStatesTailStep recurse) arc.tails_ (true, [], acc.2.2) (Grows.grows_refl _)
    (fun b a b' _ hb hstep => hb.grows_trans (addStatesTailStep_grows recurse hrec b b' a hstep))
    x hx
  obtain ⟨u, ns, st'⟩ := x
  cases hrest
  exact hinv

theorem addStatesFinish_grows {W : Type} [One W] (hg : IHypergraph W)
    (m : StateIdToSpan) (f : Span → List StateId) (opts : SubUnionOptions)
    (head : StateId) (parentSpan : Span)
    (acc : Bool × List (List (List StateId)) × AddStatesState W) :
    Grows acc.2.2.result (addStatesFinish hg m f opts head parentSpan acc).2.result := by
  unfold addStatesFinish
  simp only
  split
  · refine Grows.grows_trans ?_ (addResultingArcs_grows _ _ _)
    split
    · exact Grows.addState _ _
    · exact Grows.grows_refl _
  · exact Grows.grows_refl _

/-- The grafting of the second graph only adds states and arcs to the result
and keeps its start and final state. -/
theorem addStatesRecurse_grows {W : Type} [One W] (hg : IHypergraph W)
    (m : StateIdToSpan) (f : Span → List StateId) (opts : SubUnionOptions) (fuel : Nat) :
    ∀ (head : StateId) (parentSpan : Span) (st : AddStatesState W)
      (r : NewStateInfo × AddStatesState W),
      addStatesRecurse hg m f opts fuel head parentSpan st = Res.ok r →
      Grows st.result r.2.result := by
  induction fuel with
  | zero =>
    intro head parentSpan st r h
    simp [addStatesRecurse] at h
  | succ fuel ih =>
    intro head parentSpan st r h
    rw [addStatesRecurse] at h
    split at h
    · cases h
      exact Grows.grows_refl _
    · simp only [Res.bind_def, Res.pure_def] at h
      obtain ⟨x, hx, hrest⟩ := Res.bind_eq_ok h
      have hinv := Res.foldlM_inv (fun acc => Grows st.result acc.2.2.result)
        _ (hg.inArcs head) (false, [], st) (Grows.grows_refl _)
        (fun b a b' _ hb hstep => hb.grows_trans (addStatesArcStep_grows _
          (fun t st' r' hr => ih t _ st' r' hr) b b' a hstep))
        x hx
      cases hrest
      exact hinv.grows_trans (addStatesFinish_grows hg m f opts head parentSpan x)

theorem addStates_grows {W : Type} [One W] (hg : IHypergraph W) (m : StateIdToSpan)
    (result : IHypergraph W) (f : Span → List StateId) (opts : SubUnionOptions)
    (r : IHypergraph W) (h : addStates hg m result f opts = Res.ok r) : Grows result r := by
  unfold addStates at h
  simp only [Res.bind_def, Res.pure_def] at h
  obtain ⟨x, hx, hrest⟩ := Res.bind_eq_ok h
  have := addStatesRecurse_grows hg m f opts _ _ _ _ _ hx
  obtain ⟨info, st⟩ := x
  cases hrest
  exact this

/-! ## SubUnion: the recursion budget is enough on acyclic hypergraphs -/

/-- A budget that is enough for a state with ranked in-arcs is, less one call,
enough for every tail of these in-arcs: at least one call, and two more than
the rank of a tail that has in-arcs itself. -/
theorem fuelOK_tail {W : Type} {hg : IHypergraph W} {rank : StateId → Nat}
    (hrank : ∀ a ∈ hg.arcs_, rank a.head_ < hg.size ∧ ∀ t ∈ a.tails_, rank t < rank a.head_)
    {fuel : Nat} {s : StateId}
    (hs : ∀ a ∈ hg.arcs_, a.head_ = s → rank s + 2 ≤ fuel + 1)
    {arc : Arc W} (harc : arc ∈ hg.inArcs s) {t : StateId} (ht : t ∈ arc.tails_) :
    1 ≤ fuel ∧ ∀ a ∈ hg.arcs_, a.head_ = t → rank t + 2 ≤ fuel := by
  have hmem : arc ∈ hg.arcs_ ∧ arc.head_ = s := by
    simpa [IHypergraph.inArcs] using harc
  have h1 := hs arc hmem.1 hmem.2
  have h2 := (hrank arc hmem.1).2 t ht
  rw [hmem.2] at h2
  constructor
  · omega
  · intro a _ _
    omega

theorem addStatesTailStep_ne_outOfFuel {W : Type}
    (recurse : StateId → AddStatesState W → Res (NewStateInfo × AddStatesState W))
    (tacc : Bool × List (List StateId) × AddStatesState W) (t : StateId)
    (hrec : ∀ st, recurse t st ≠ Res.outOfFuel) :
    addStatesTailStep recurse tacc t ≠ Res.outOfFuel := by
  unfold addStatesTailStep
  simp only [Res.bind_def, Res.pure_def]
  apply Res.bind_ne_outOfFuel (hrec _)
  intro a _ h
  cases h

theorem addStatesArcStep_ne_outOfFuel {W : Type}
    (recurse : StateId → AddStatesState W → Res (NewStateInfo × AddStatesState W))
    (acc : Bool × List (List (List StateId)) × AddStatesState W) (arc : Arc W)
    (hrec : ∀ t ∈ arc.tails_, ∀ st, recurse t st ≠ Res.outOfFuel) :
    addStatesArcStep recurse acc arc ≠ Res.outOfFuel := by
  unfold addStatesArcStep
  simp only [Res.bind_def, Res.pure_def]
  apply Res.bind_ne_outOfFuel
  · exact Res.foldlM_ne_outOfFuel _ _ _
      (fun b a ha => addStatesTailStep_ne_outOfFuel recurse b a (hrec a ha))
  · intro a _ h
    cases h

theorem addStatesRecurse_ne_outOfFuel {W : Type} [One W] (hg : IHypergraph W)
    (rank : StateId → Nat)
    (hrank : ∀ a ∈ hg.arcs_, rank a.head_ < hg.size ∧ ∀ t ∈ a.tails_, rank t < rank a.head_)
    (m : StateIdToSpan) (f : Span → List StateId) (opts : SubUnionOptions) (fuel : Nat) :
    ∀ (head : StateId) (parentSpan : Span) (st : AddStatesState W),
      1 ≤ fuel → (∀ a ∈ hg.arcs_, a.head_ = head → rank head + 2 ≤ fuel) →
      addStatesRecurse hg m f opts fuel head parentSpan st ≠ Res.outOfFuel := by
  induction fuel with
  | zero =>
    intro head parentSpan st h1
    omega
  | succ fuel ih =>
    intro head parentSpan st _ hs
    rw [addStatesRecurse]
    split
    · intro h
      cases h
    · simp only [Res.bind_def, Res.pure_def]
      apply Res.bind_ne_outOfFuel
      · apply Res.foldlM_ne_outOfFuel
        intro b arc harc
        apply addStatesArcStep_ne_outOfFuel
        intro t ht st'
        have hok := fuelOK_tail hrank hs harc ht
        exact ih t _ st' hok.1 hok.2
      · intro a _ h
        cases h

theorem addStates_ne_outOfFuel {W : Type} [One W] (hg : IHypergraph W) (hac : Acyclic hg)
    (m : StateIdToSpan) (result : IHypergraph W) (f : Span → List StateId)
    (opts : SubUnionOptions) : addStates hg m result f opts ≠ Res.outOfFuel := by
  obtain ⟨rank, hrank⟩ := hac
  unfold addStates
  simp only [Res.bind_def, Res.pure_def]
  apply Res.bind_ne_outOfFuel
  · apply addStatesRecurse_ne_outOfFuel hg rank hrank
    · omega
    · intro a ha hhead
      have := (hrank a ha).1
      rw [hhead] at this
      omega
  · intro a _ h
    obtain ⟨info, st⟩ := a
    cases h
/-! ## SubUnion: span inference ends within its budget -/

theorem getMaxValueIter_ne_outOfFuel (aMap : NatMap Nat) :
    getMaxValueIter aMap ≠ Res.outOfFuel := by
  unfold getMaxValueIter
  split <;> intro h <;> cases h

theorem bubbleUpFinish_ne_outOfFuel {W : Type} (hg : IHypergraph W) (s : StateId)
    (acc : NatMap Nat × NatMap Nat × StateIdToSpan) :
    bubbleUpFinish hg s acc ≠ Res.outOfFuel := by
  unfold bubbleUpFinish
  simp only [Res.bind_def, Res.pure_def]
  apply Res.bind_ne_outOfFuel (getMaxValueIter_ne_outOfFuel _)
  intro a _
  apply Res.bind_ne_outOfFuel (getMaxValueIter_ne_outOfFuel _)
  intro b _ h
  cases h

theorem bubbleUpTailStep_ne_outOfFuel
    (recurse : StateId → StateIdToSpan → Res (Span × StateIdToSpan))
    (st : Span × StateIdToSpan) (t : StateId)
    (hrec : ∀ m, recurse t m ≠ Res.outOfFuel) :
    bubbleUpTailStep recurse st t ≠ Res.outOfFuel := by
  unfold bubbleUpTailStep
  simp only [Res.bind_def, Res.pure_def]
  apply Res.bind_ne_outOfFuel (hrec _)
  intro a _ h
  cases h

theorem bubbleUpArcStep_ne_outOfFuel {W : Type}
    (recurse : StateId → StateIdToSpan → Res (Span × StateIdToSpan))
    (acc : NatMap Nat × NatMap Nat × StateIdToSpan) (arc : Arc W)
    (hrec : ∀ t ∈ arc.tails_, ∀ m, recurse t m ≠ Res.outOfFuel) :
    bubbleUpArcStep recurse acc arc ≠ Res.outOfFuel := by
  unfold bubbleUpArcStep
  simp only [Res.bind_def, Res.pure_def]
  apply Res.bind_ne_outOfFuel
  · exact Res.foldlM_ne_outOfFuel _ _ _
      (fun b a ha => bubbleUpTailStep_ne_outOfFuel recurse b a (hrec a ha))
  · intro a _ h
    cases h

theorem getSourceSpansBubbleUp_ne_outOfFuel {W : Type} (hg : IHypergraph W)
    (rank : StateId → Nat)
    (hrank : ∀ a ∈ hg.arcs_, rank a.head_ < hg.size ∧ ∀ t ∈ a.tails_, rank t < rank a.head_)
    (fuel : Nat) :
    ∀ (s : StateId) (m : StateIdToSpan),
      1 ≤ fuel → (∀ a ∈ hg.arcs_, a.head_ = s → rank s + 2 ≤ fuel) →
      getSourceSpansBubbleUp hg fuel s m ≠ Res.outOfFuel := by
  induction fuel with
  | zero =>
    intro s m h1
    omega
  | succ fuel ih =>
    intro s m _ hs
    rw [getSourceSpansBubbleUp]
    split
    · intro h
      cases h
    · split
      · intro h
        cases h
      · simp only [Res.bind_def]
        apply Res.bind_ne_outOfFuel
        · apply Res.foldlM_ne_outOfFuel
          intro b arc harc
          apply bubbleUpArcStep_ne_outOfFuel
          intro t ht m'
          have hok := fuelOK_tail hrank hs harc ht
          exact ih t m' hok.1 hok.2
        · intro a _
          exact bubbleUpFinish_ne_outOfFuel hg s a

theorem bubbleDownTailStep_ne_outOfFuel
    (recurse : StateId → Span → StateIdToSpan → Res StateIdToSpan)
    (sSpan : Span) (numTails : Nat) (m : StateIdToSpan) (it : Nat × StateId)
    (hrec : ∀ sp m', recurse it.2 sp m' ≠ Res.outOfFuel) :
    bubbleDownTailStep recurse sSpan numTails m it ≠ Res.outOfFuel := by
  unfold bubbleDownTailStep
  split
  · intro h
    cases h
  · exact hrec _ _

theorem bubbleDownArcStep_ne_outOfFuel {W : Type}
    (recurse : StateId → Span → StateIdToSpan → Res StateIdToSpan) (sSpan : Span)
    (m : StateIdToSpan) (arc : Arc W)
    (hrec : ∀ t ∈ arc.tails_, ∀ sp m', recurse t sp m' ≠ Res.outOfFuel) :
    bubbleDownArcStep recurse sSpan m arc ≠ Res.outOfFuel := by
  unfold bubbleDownArcStep
  apply Res.foldlM_ne_outOfFuel
  intro b it hit
  apply bubbleDownTailStep_ne_outOfFuel
  exact hrec it.2 (List.of_mem_zip hit).2

theorem getSourceSpansBubbleDown_ne_outOfFuel {W : Type} (hg : IHypergraph W)
    (rank : StateId → Nat)
    (hrank : ∀ a ∈ hg.arcs_, rank a.head_ < hg.size ∧ ∀ t ∈ a.tails_, rank t < rank a.head_)
    (fuel : Nat) :
    ∀ (s : StateId) (sSpan : Span) (m : StateIdToSpan),
      1 ≤ fuel → (∀ a ∈ hg.arcs_, a.head_ = s → rank s + 2 ≤ fuel) →
      getSourceSpansBubbleDown hg fuel s sSpan m ≠ Res.outOfFuel := by
  induction fuel with
  | zero =>
    intro s sSpan m h1
    omega
  | succ fuel ih =>
    intro s sSpan m _ hs
    rw [getSourceSpansBubbleDown]
    apply Res.foldlM_ne_outOfFuel
    intro b arc harc
    apply bubbleDownArcStep_ne_outOfFuel
    intro t ht sp m'
    have hok := fuelOK_tail hrank hs harc ht
    exact ih t sp m' hok.1 hok.2

theorem invalidArcSpansRemover_ne_outOfFuel {W : Type} (hg : IHypergraph W)
    (m : StateIdToSpan) (arc : Arc W) :
    invalidArcSpansRemover hg m arc ≠ Res.outOfFuel := by
  unfold invalidArcSpansRemover
  split
  · intro h
    cases h
  · apply Res.foldlM_ne_outOfFuel
    intro b t _
    split
    · intro h
      cases h
    · split
      · split <;> intro h <;> cases h
      · intro h
        cases h

theorem removeInvalidSpans_ne_outOfFuel {W : Type} (hg : IHypergraph W) (m : StateIdToSpan) :
    removeInvalidSpans hg m ≠ Res.outOfFuel := by
  unfold removeInvalidSpans
  simp only [Res.bind_def, Res.pure_def]
  apply Res.bind_ne_outOfFuel
  · exact Res.foldlM_ne_outOfFuel _ _ _
      (fun b a _ => invalidArcSpansRemover_ne_outOfFuel hg b a)
  · intro a _ h
    cases h

/-- On an acyclic hypergraph the span inference ends within its recursion
budget. -/
theorem getSourceSpans_ne_outOfFuel {W : Type} (hg : IHypergraph W) (hac : Acyclic hg) :
    getSourceSpans hg ≠ Res.outOfFuel := by
  obtain ⟨rank, hrank⟩ := hac
  have hfinal : ∀ a ∈ hg.arcs_, a.head_ = hg.final → rank hg.final + 2 ≤ hg.size + 1 := by
    intro a ha hhead
    have := (hrank a ha).1
    rw [hhead] at this
    omega
  unfold getSourceSpans
  simp only [Res.bind_def]
  apply Res.bind_ne_outOfFuel
  · exact getSourceSpansBubbleUp_ne_outOfFuel hg rank hrank _ _ _ (by omega) hfinal
  · intro a _
    obtain ⟨finalSpan, m1⟩ := a
    apply Res.bind_ne_outOfFuel
    · exact getSourceSpansBubbleDown_ne_outOfFuel hg rank hrank _ _ _ _ (by omega) hfinal
    · intro m2 _
      exact removeInvalidSpans_ne_outOfFuel hg m2

/-! ## SubUnion: coverage -/

/-- On acyclic hypergraphs `subUnion` ends within the recursion budget. -/
theorem subUnion_ne_outOfFuel {W : Type} [One W] (hg1 hg2 result : IHypergraph W)
    (opts : SubUnionOptions) (h1 : Acyclic hg1) (h2 : Acyclic hg2) :
    subUnion hg1 hg2 result opts ≠ Res.outOfFuel := by
  unfold subUnion
  simp only [Res.bind_def, Res.pure_def]
  apply Res.bind_ne_outOfFuel (getSourceSpans_ne_outOfFuel hg1 h1)
  intro m1 _
  apply Res.bind_ne_outOfFuel (getSourceSpans_ne_outOfFuel hg2 h2)
  intro m2 _
  apply Res.bind_ne_outOfFuel (addStates_ne_outOfFuel hg2 h2 _ _ _ _)
  intro r2 _ h
  cases h

/-- What a completed `subUnion` returns: the graft of the second graph onto the
copy of the first one, and the standard union on top when it is enabled. -/
theorem subUnion_ok {W : Type} [One W] {hg1 hg2 result : IHypergraph W}
    {opts : SubUnionOptions} {r : IHypergraph W}
    (h : subUnion hg1 hg2 result opts = Res.ok r) :
    ∃ r2, Grows (copyHypergraph hg1 result) r2 ∧
      r = if opts.addStandardUnion then hgUnion hg2 r2 else r2 := by
  unfold subUnion at h
  simp only [Res.bind_def, Res.pure_def] at h
  obtain ⟨m1, _, h⟩ := Res.bind_eq_ok h
  obtain ⟨m2, _, h⟩ := Res.bind_eq_ok h
  obtain ⟨r2, hr2, h⟩ := Res.bind_eq_ok h
  exact ⟨r2, addStates_grows _ _ _ _ _ _ hr2, (Res.ok.inj h).symm⟩

/-- The copy of a hypergraph has the derivations of the hypergraph. -/
theorem copyHypergraph_language {W : Type} (src dst : IHypergraph W) (y : List Sym)
    (h : Language src y) : Language (copyHypergraph src dst) y := by
  unfold Language at h ⊢
  have hext : Extends src (copyHypergraph src dst) :=
    ⟨rfl, fun _ ha => ha, ⟨[], by simp [copyHypergraph]⟩⟩
  exact YieldsAll.mono hext h

theorem Grows.language {W : Type} {g g' : IHypergraph W} (h : Grows g g') (y : List Sym)
    (hy : Language g y) : Language g' y := by
  unfold Language at hy ⊢
  rw [h.2]
  exact YieldsAll.mono h.1 hy

/-- With the standard union enabled, the result of `subUnion` has every
derivation of the first and of the second graph. -/
theorem subUnion_covers {W : Type} [One W] {hg1 hg2 result : IHypergraph W}
    {opts : SubUnionOptions} (hopt : opts.addStandardUnion = true) {r : IHypergraph W}
    (h : subUnion hg1 hg2 result opts = Res.ok r) (y : List Sym)
    (hy : Language hg1 y ∨ Language hg2 y) : Language r y := by
  obtain ⟨r2, hgrow, hr⟩ := subUnion_ok h
  rw [hopt] at hr
  simp only [if_true] at hr
  rw [hr]
  apply hgUnion_covers
  rcases hy with hy | hy
  · exact Or.inl (hgrow.language y (copyHypergraph_language hg1 result y hy))
  · exact Or.inr hy
/-! ## SubUnion: the language of the result -/

theorem YieldsAll.yield_nil_inv {W : Type} {hg : IHypergraph W} {y : List Sym}
    (h : YieldsAll hg [] y) : y = [] := by
  generalize hl : ([] : List StateId) = l at h
  cases h with
  | nil => rfl
  | leaf s ts y _ _ _ => exact absurd hl (by simp)
  | node a ts y1 y2 _ _ _ => exact absurd hl (by simp)

theorem YieldsAll.yield_cons_inv {W : Type} {hg : IHypergraph W} {s : StateId} {ts : List StateId}
    {y : List Sym} (h : YieldsAll hg (s :: ts) y) :
    (hg.isAxiom s = true ∧ ∃ y', YieldsAll hg ts y' ∧ y = leafYield hg s ++ y') ∨
    ∃ a y1 y2, a ∈ hg.arcs_ ∧ a.head_ = s ∧
      YieldsAll hg a.tails_ y1 ∧ YieldsAll hg ts y2 ∧ y = y1 ++ y2 := by
  generalize hl : s :: ts = l at h
  cases h with
  | nil => exact absurd hl (by simp)
  | leaf s' ts' y' _ hax hrest =>
    obtain ⟨rfl, rfl⟩ := List.cons.inj hl
    exact Or.inl ⟨hax, y', hrest, rfl⟩
  | node a ts' y1 y2 ha h1 h2 =>
    obtain ⟨h3, rfl⟩ := List.cons.inj hl
    exact Or.inr ⟨a, y1, y2, ha, h3.symm, h1, h2, rfl⟩

/-- The sentence `a c` is in the language of the tree `B`. -/
theorem treeB_language : Language treeB [Sym.terminal "a", Sym.terminal "c"] := by
  have h0 : YieldsAll treeB [0] [Sym.terminal "a"] :=
    YieldsAll.leaf 0 [] [] (by decide) (by decide) YieldsAll.nil
  have h1 : YieldsAll treeB [1] [Sym.terminal "c"] :=
    YieldsAll.leaf 1 [] [] (by decide) (by decide) YieldsAll.nil
  have h3 : YieldsAll treeB [3] [Sym.terminal "c"] :=
    YieldsAll.node ⟨3, [1], 1⟩ [] [Sym.terminal "c"] [] (by decide) h1 YieldsAll.nil
  have h23 : YieldsAll treeB [2, 3] [Sym.terminal "a", Sym.terminal "c"] :=
    YieldsAll.node ⟨2, [0], 1⟩ [3] [Sym.terminal "a"] [Sym.terminal "c"] (by decide) h0 h3
  exact YieldsAll.node ⟨4, [2, 3], 1⟩ [] [Sym.terminal "a", Sym.terminal "c"] []
    (by decide) h23 YieldsAll.nil

/-- Without the standard union the coverage can fail: grafting the tree `B` onto
the one-word tree `(0-1 a)` keeps the final state of the first tree, from which
the sentence `a c` of `B` is not derived. -/
theorem subUnion_without_standard_union :
    ∃ r, subUnion treeWord treeB (newMutableHypergraph ℚ kStoreInArcs) ⟨false, false⟩ =
        Res.ok r ∧
      Language treeB [Sym.terminal "a", Sym.terminal "c"] ∧
      ¬ Language r [Sym.terminal "a", Sym.terminal "c"] := by
  refine ⟨{ mutable_ := true, properties_ := 1,
            labels_ := [Sym.terminal "a", Sym.nonterminal "0-1", Sym.terminal "c",
              Sym.nonterminal "1-2", Sym.nonterminal "0-2"],
            arcs_ := [⟨1, [0], 1⟩, ⟨1, [0], 1⟩, ⟨3, [2], 1⟩, ⟨4, [1, 3], 1⟩],
            start_ := kNoState, final_ := 1 }, by decide, treeB_language, ?_⟩
  intro h
  unfold Language at h
  rcases YieldsAll.yield_cons_inv h with ⟨hax, _⟩ | ⟨a, y1, y2, ha, hhead, h1, h2, hy⟩
  · exact absurd hax (by decide)
  · have hy2 := YieldsAll.yield_nil_inv h2
    subst hy2
    have ha' : a = ⟨1, [0], 1⟩ := by
      simp only [List.mem_cons, List.mem_singleton, List.not_mem_nil, or_false] at ha
      rcases ha with rfl | rfl | rfl | rfl
      · rfl
      · rfl
      · exact absurd hhead (by decide)
      · exact absurd hhead (by decide)
    subst ha'
    rcases YieldsAll.yield_cons_inv h1 with ⟨_, y', hy', hyl⟩ | ⟨b, _, _, hb, hbhead, _⟩
    · have := YieldsAll.yield_nil_inv hy'
      subst this
      rw [hyl] at hy
      exact absurd hy (by decide)
    · simp only [List.mem_cons, List.mem_singleton, List.not_mem_nil, or_false] at hb
      rcases hb with rfl | rfl | rfl | rfl <;> exact absurd hbhead (by decide)

/-- For acyclic hypergraphs `hg1` and `hg2` and options with the standard
union enabled, as it is by default, `subUnion` ends within its recursion budget,
and when it completes with the result `r`, every sentence derived in `hg1` or in
`hg2` is derived in `r`: the language of `subUnion(hg1, hg2)` contains the
languages of both graphs. -/
theorem subUnion_language_covers {W : Type} [One W] (hg1 hg2 result : IHypergraph W)
    (opts : SubUnionOptions) (h1 : Acyclic hg1) (h2 : Acyclic hg2)
    (hopt : opts.addStandardUnion = true) :
    subUnion hg1 hg2 result opts ≠ Res.outOfFuel ∧
    ∀ r, subUnion hg1 hg2 result opts = Res.ok r →
      ∀ y, Language hg1 y ∨ Language hg2 y → Language r y :=
  ⟨subUnion_ne_outOfFuel hg1 hg2 result opts h1 h2,
    fun _ hr y hy => subUnion_covers hopt hr y hy⟩

/-- The trees `A` and `B` are acyclic, `subUnion` with the default options
completes on them, and its result has the sentence `a c` of the tree `B`. -/
theorem subUnion_language_covers_witness :
    Acyclic treeA ∧ Acyclic treeB ∧
    ∃ r, subUnion treeA treeB (newMutableHypergraph ℚ kStoreInArcs) {} = Res.ok r ∧
      Language r [Sym.terminal "a", Sym.terminal "c"] :=
  ⟨⟨fun s => s, by decide⟩, ⟨fun s => s, by decide⟩, _, rfl,
    (subUnion_language_covers treeA treeB (newMutableHypergraph ℚ kStoreInArcs) {}
      ⟨fun s => s, by decide⟩ ⟨fun s => s, by decide⟩ rfl).2 _ rfl _
      (Or.inr treeB_language)⟩
/-! ## SubUnion: the trees that share a span -/

/-- C10, as stated, fails for the call with the default options: the standard
union adds the second tree's own states after the graft, so that the result has
two states for the span `(0,1)`: state 2, shared by the graft, and state 8, the
copy of the state of `B`. -/
theorem subUnion_default_two_states_for_span :
    ∃ r, subUnion treeA treeB (newMutableHypergraph ℚ kStoreInArcs) {} = Res.ok r ∧
      statesForSpan r ⟨0, 1⟩ = [2, 8] ∧ (statesForSpan r ⟨0, 1⟩).length ≠ 1 :=
  ⟨_, rfl, by decide, by decide⟩

/-- C10, amended: with the standard union disabled, `subUnion` of the trees
`A = (0-2 (0-1 a)(1-2 b))` and `B = (0-2 (0-1 a)(1-2 c))` gives the tree `A` with
one more state, 5, for the word `c` and one more arc, `3 ← (5)`. The result
derives its final state by the tree `(0-2 (0-1 a)(1-2 b))` with the sentence
`a b` and by the tree `(0-2 (0-1 a)(1-2 c))` with the sentence `a c`; both use the
same arc `2 ← (0)` for `(0-1 a)`, and state 2 is the only state of the result for
the span `(0,1)`. -/
theorem subUnion_trees_share_state :
    ∃ r, subUnion treeA treeB (newMutableHypergraph ℚ kStoreInArcs) ⟨false, false⟩ =
        Res.ok r ∧
      r.labels_ = [Sym.terminal "a", Sym.terminal "b", Sym.nonterminal "0-1",
        Sym.nonterminal "1-2", Sym.nonterminal "0-2", Sym.terminal "c"] ∧
      r.final_ = 4 ∧
      Derives r r.final_ [⟨4, [2, 3], 1⟩, ⟨2, [0], 1⟩, ⟨3, [1], 1⟩] ∧
      Derives r r.final_ [⟨4, [2, 3], 1⟩, ⟨2, [0], 1⟩, ⟨3, [5], 1⟩] ∧
      Language r [Sym.terminal "a", Sym.terminal "b"] ∧
      Language r [Sym.terminal "a", Sym.terminal "c"] ∧
      statesForSpan r ⟨0, 1⟩ = [2] ∧ (statesForSpan r ⟨0, 1⟩).length = 1 := by
  refine ⟨{ mutable_ := true, properties_ := 1,
            labels_ := [Sym.terminal "a", Sym.terminal "b", Sym.nonterminal "0-1",
              Sym.nonterminal "1-2", Sym.nonterminal "0-2", Sym.terminal "c"],
            arcs_ := [⟨2, [0], 1⟩, ⟨3, [1], 1⟩, ⟨4, [2, 3], 1⟩, ⟨3, [5], 1⟩],
            start_ := kNoState, final_ := 4 },
    by decide, rfl, rfl, ?_, ?_, ?_, ?_, by decide, by decide⟩
  · exact DerivesAll.node ⟨4, [2, 3], 1⟩ [] [⟨2, [0], 1⟩, ⟨3, [1], 1⟩] [] (by decide)
      (DerivesAll.node ⟨2, [0], 1⟩ [3] [] [⟨3, [1], 1⟩] (by decide)
        (DerivesAll.leaf 0 [] [] (by decide) (by decide) DerivesAll.nil)
        (DerivesAll.node ⟨3, [1], 1⟩ [] [] [] (by decide)
          (DerivesAll.leaf 1 [] [] (by decide) (by decide) DerivesAll.nil) DerivesAll.nil))
      DerivesAll.nil
  · exact DerivesAll.node ⟨4, [2, 3], 1⟩ [] [⟨2, [0], 1⟩, ⟨3, [5], 1⟩] [] (by decide)
      (DerivesAll.node ⟨2, [0], 1⟩ [3] [] [⟨3, [5], 1⟩] (by decide)
        (DerivesAll.leaf 0 [] [] (by decide) (by decide) DerivesAll.nil)
        (DerivesAll.node ⟨3, [5], 1⟩ [] [] [] (by decide)
          (DerivesAll.leaf 5 [] [] (by decide) (by decide) DerivesAll.nil) DerivesAll.nil))
      DerivesAll.nil
  · exact YieldsAll.node ⟨4, [2, 3], 1⟩ [] [Sym.terminal "a", Sym.terminal "b"] [] (by decide)
      (YieldsAll.node ⟨2, [0], 1⟩ [3] [Sym.terminal "a"] [Sym.terminal "b"] (by decide)
        (YieldsAll.leaf 0 [] [] (by decide) (by decide) YieldsAll.nil)
        (YieldsAll.node ⟨3, [1], 1⟩ [] [Sym.terminal "b"] [] (by decide)
          (YieldsAll.leaf 1 [] [] (by decide) (by decide) YieldsAll.nil) YieldsAll.nil))
      YieldsAll.nil
  · exact YieldsAll.node ⟨4, [2, 3], 1⟩ [] [Sym.terminal "a", Sym.terminal "c"] [] (by decide)
      (YieldsAll.node ⟨2, [0], 1⟩ [3] [Sym.terminal "a"] [Sym.terminal "c"] (by decide)
        (YieldsAll.leaf 0 [] [] (by decide) (by decide) YieldsAll.nil)
        (YieldsAll.node ⟨3, [5], 1⟩ [] [Sym.terminal "c"] [] (by decide)
          (YieldsAll.leaf 5 [] [] (by decide) (by decide) YieldsAll.nil) YieldsAll.nil))
      YieldsAll.nil
/-! ## SubUnion: duplicate suppression -/

/-- C11 (failing input). On the trees `(0-1 a)` and `B = (0-2 (0-1 a)(1-2 c))`
with the default options, `subUnion` completes with a result whose first two
arcs are both `1 ← (0)`: the arc copied from the first tree, and the arc the
graft inserts for the matched states, with the identical tuple `(0, 1)`. The set
`resultArcs` that guards the insertion holds the tuples of the arcs of the second
tree, `(0, 2)`, `(1, 3)` and `(2, 3, 4)`, and none of the arcs of the result; the
arcs of the two input trees have pairwise distinct tuples. -/
theorem subUnion_inserts_duplicate_arc :
    ∃ r, subUnion treeWord treeB (newMutableHypergraph ℚ kStoreInArcs) {} = Res.ok r ∧
      r.arcs_.take 2 = [⟨1, [0], 1⟩, ⟨1, [0], 1⟩] ∧
      (treeWord.arcs_.map Arc.arcStates).Nodup ∧
      (treeB.arcs_.map Arc.arcStates).Nodup ∧
      ¬ (r.arcs_.map Arc.arcStates).Nodup :=
  ⟨_, rfl, by decide, by decide, by decide, by decide⟩
/-! ## The transform protocol: dispatch of `inplace` -/

/-- C12. `inplace(H, T)` has the return value `T.needs(H)`. When `T.needs(H)` is
false the call completes without an exception, `H` becomes
`H.forcePropertiesOnOff(T.outAddProps(), T.outSubProps())`, which differs from `H`
in its properties only, and the algorithms of `T` play no part: the outcome is
the same whatever `T.inplace` and `T.inout` are. -/
theorem inplace_returns_needs {W : Type} (m : IHypergraph W) (t : Transform W) :
    (inplace m t).2 = t.needs m ∧
    (t.needs m = false →
      (inplace m t).1.error = none ∧
      (inplace m t).1.hg = m.forcePropertiesOnOff t.outAddProps t.outSubProps ∧
      (inplace m t).1.hg = { m with properties_ := (inplace m t).1.hg.properties_ } ∧
      ∀ f g, inplace m { t with inplace := f, inout := g } = inplace m t) := by
  unfold inplace
  by_cases h : t.needs m = true
  · simp [h]
  · have h' : t.needs m = false := by simpa using h
    simp [h', IHypergraph.forcePropertiesOnOff]

/-- On the tree `A`, which has no start state, `IsolateStartState` is not needed:
`inplace` returns false and leaves the tree as it is but for its properties. -/
theorem inplace_returns_needs_witness :
    (inplace treeA (IsolateStartState ℚ)).1.error = none ∧
    (inplace treeA (IsolateStartState ℚ)).1.hg =
      treeA.forcePropertiesOnOff NoProperties NoProperties ∧
    (inplace treeA (IsolateStartState ℚ)).1.hg =
      { treeA with properties_ := (inplace treeA (IsolateStartState ℚ)).1.hg.properties_ } ∧
    ∀ f g, inplace treeA { IsolateStartState ℚ with inplace := f, inout := g } =
      inplace treeA (IsolateStartState ℚ) :=
  (inplace_returns_needs treeA (IsolateStartState ℚ)).2 (by decide)

/-- C13. For a transform declared `Inplace` and not `OptionalInplace` and a graph
`H` with `T.needs(H)` and `T.needsCopy(H)`, `inplace(H, T)` throws
`SelfModifyException` and leaves `H` as it was. For every other combination of
`Inplace`, `OptionalInplace` and `needsCopy`, `inplace_always` throws nothing
itself: an exception of the call is the exception of the algorithm of `T` that
it ran, `T.inplace` on `H` with the input properties forced or `T.inout` on the
temporary copy. -/
theorem inplace_selfModify {W : Type} (m : IHypergraph W) (t : Transform W) :
    (t.Inplace = true → t.OptionalInplace = false → t.needs m = true →
      t.needsCopy m = true →
      (inplace m t).1 = ⟨m, some Exception.SelfModifyException⟩) ∧
    (¬ (t.Inplace = true ∧ t.OptionalInplace = false ∧ t.needsCopy m = true) →
      (inplace_always m t).error =
        if t.Inplace && !t.needsCopy m then
          (t.inplace (m.forceProperties t.inAddProps)).error
        else
          (t.inout (copyHypergraph m (newMutableHypergraph W
            ((t.inAddProps ||| t.newOutAddProps) ^^^
              ((t.inAddProps ||| t.newOutAddProps) &&& t.outSubProps)))) m).error) := by
  constructor
  · intro h1 h2 h3 h4
    simp [inplace, inplace_always, h1, h2, h3, h4]
  · intro h
    unfold inplace_always
    cases h1 : t.Inplace <;> cases h2 : t.OptionalInplace <;> cases h3 : t.needsCopy m <;>
      simp [h1, h2, h3] at h ⊢ <;> split <;> simp_all

/-- With a `needsCopy` that always holds, `inplace` of `IsolateStartState` on a
graph whose start state has an in-arc throws `SelfModifyException` and leaves the
graph as it was. -/
theorem inplace_selfModify_witness :
    (inplace startIsFinalGraph isolateNeedsCopy).1 =
      ⟨startIsFinalGraph, some Exception.SelfModifyException⟩ :=
  (inplace_selfModify startIsFinalGraph isolateNeedsCopy).1 rfl rfl (by decide) rfl

/-! ## The transform protocol: output properties -/

theorem forced_has_addProps (p addProps subProps : Nat) (h : addProps &&& subProps = 0) :
    ((p ||| addProps) ^^^ ((p ||| addProps) &&& subProps)) &&& addProps = addProps := by
  apply Nat.eq_of_testBit_eq
  intro i
  have hi := congrArg (fun n => n.testBit i) h
  simp only [Nat.testBit_and, Nat.testBit_or, Nat.testBit_xor, Nat.zero_testBit] at hi ⊢
  cases hp : p.testBit i <;> cases ha : addProps.testBit i <;>
    cases hs : subProps.testBit i <;> simp_all

theorem forced_lacks_subProps (p addProps subProps : Nat) :
    ((p ||| addProps) ^^^ ((p ||| addProps) &&& subProps)) &&& subProps = 0 := by
  apply Nat.eq_of_testBit_eq
  intro i
  simp only [Nat.testBit_and, Nat.testBit_or, Nat.testBit_xor, Nat.zero_testBit]
  cases hp : p.testBit i <;> cases ha : addProps.testBit i <;>
    cases hs : subProps.testBit i <;> simp_all

/-- A hypergraph has the output properties of a transform: all of `outAddProps`
and none of `outSubProps`. -/
theorem forcePropertiesOnOff_props {W : Type} (hg : IHypergraph W) (t : Transform W)
    (h : t.outAddProps &&& t.outSubProps = 0) :
    (hg.forcePropertiesOnOff t.outAddProps t.outSubProps).properties_ &&& t.outAddProps =
      t.outAddProps ∧
    (hg.forcePropertiesOnOff t.outAddProps t.outSubProps).properties_ &&& t.outSubProps = 0 :=
  ⟨forced_has_addProps _ _ _ h, forced_lacks_subProps _ _ _⟩

theorem inplace_always_ok_forced {W : Type} (m : IHypergraph W) (t : Transform W)
    (h : (inplace_always m t).error = none) :
    ∃ g : IHypergraph W,
      (inplace_always m t).hg = g.forcePropertiesOnOff t.outAddProps t.outSubProps := by
  unfold inplace_always at h ⊢
  simp only at h ⊢
  by_cases c1 : (t.Inplace && t.needsCopy m && !t.OptionalInplace) = true
  · rw [if_pos c1] at h
    simp at h
  · rw [if_neg c1] at h ⊢
    by_cases c2 : (t.Inplace && !t.needsCopy m) = true
    · rw [if_pos c2] at h ⊢
      cases he : (t.inplace (m.forceProperties t.inAddProps)).error with
      | some e => simp [he] at h
      | none => exact ⟨_, rfl⟩
    · rw [if_neg c2] at h ⊢
      generalize t.inout _ m = r at h ⊢
      cases he : r.error with
      | some e => simp [he] at h
      | none => exact ⟨_, rfl⟩

theorem inout_impl_ok_forced {W : Type} (i o : IHypergraph W) (t : Transform W)
    (h : (inout_impl i o t).error = none) :
    ∃ g : IHypergraph W,
      (inout_impl i o t).hg = g.forcePropertiesOnOff t.outAddProps t.outSubProps := by
  unfold inout_impl at h ⊢
  simp only at h ⊢
  generalize t.inout _ _ = r at h ⊢
  cases he : r.error with
  | some e => simp [he] at h
  | none => exact ⟨_, rfl⟩

/-- C14. For a transform whose `outAddProps` and `outSubProps` are disjoint,
when `inplace(H, T)` returns, `H` has every property of `T.outAddProps()` and none
of `T.outSubProps()`, and when `inout(H_in, &H_out, T)` returns, so has `H_out`,
on each dispatch path: transform not needed, in place, or by a copy and the
input-to-output algorithm. -/
theorem dispatch_forces_output_properties {W : Type} (t : Transform W)
    (hdisj : t.outAddProps &&& t.outSubProps = 0) :
    (∀ m : IHypergraph W, (inplace m t).1.error = none →
      (inplace m t).1.hg.properties_ &&& t.outAddProps = t.outAddProps ∧
      (inplace m t).1.hg.properties_ &&& t.outSubProps = 0) ∧
    (∀ i o : IHypergraph W, (inout i o t).error = none →
      (inout i o t).hg.properties_ &&& t.outAddProps = t.outAddProps ∧
      (inout i o t).hg.properties_ &&& t.outSubProps = 0) := by
  constructor
  · intro m h
    unfold inplace at h ⊢
    by_cases hn : t.needs m = true
    · rw [if_pos hn] at h ⊢
      obtain ⟨g, hg⟩ := inplace_always_ok_forced m t h
      simp only [hg]
      exact forcePropertiesOnOff_props g t hdisj
    · rw [if_neg hn]
      exact forcePropertiesOnOff_props m t hdisj
  · intro i o h
    unfold inout at h ⊢
    by_cases hn : (!t.needs i) = true
    · rw [if_pos hn]
      exact ⟨forced_has_addProps _ _ _ hdisj, forced_lacks_subProps _ _ _⟩
    · rw [if_neg hn] at h ⊢
      unfold inoutNeeds at h ⊢
      by_cases hi : (t.Inplace && !t.OptionalInplace) = true
      · rw [if_pos hi] at h ⊢
        unfold inout_by_inplace at h ⊢
        obtain ⟨g, hg⟩ := inplace_always_ok_forced _ t h
        rw [hg]
        exact forcePropertiesOnOff_props g t hdisj
      · rw [if_neg hi] at h ⊢
        obtain ⟨g, hg⟩ := inout_impl_ok_forced i o t h
        rw [hg]
        exact forcePropertiesOnOff_props g t hdisj

/-- `IsolateStartState` declared to leave the first-tail out-arc index and to
drop the in-arc index: after `inplace` on a graph that needs it, the graph has
the first and not the second. -/
theorem dispatch_forces_output_properties_witness :
    (inplace startIsFinalGraph isolateReindexing).1.hg.properties_ &&&
        kStoreFirstTailOutArcs = kStoreFirstTailOutArcs ∧
    (inplace startIsFinalGraph isolateReindexing).1.hg.properties_ &&& kStoreInArcs = 0 :=
  (dispatch_forces_output_properties isolateReindexing (by decide)).1 startIsFinalGraph
    (by decide)
/-! ## The transform protocol: input to output through the in-place path -/

/-- C15, as stated, fails where `T.needs` does not hold on the copy. The
transform `addStateUnlessIndexed` is in-place only and needed while the in-arc
index is missing, and requires that index on its input. On a graph of two states
without the index, `inout` runs the algorithm on the copy, which gets a third
state; `inplace` on the copy, which has the index, finds the transform not
needed and leaves the two states. -/
theorem inout_by_inplace_skips_needs :
    addStateUnlessIndexed.Inplace = true ∧
    addStateUnlessIndexed.OptionalInplace = false ∧
    addStateUnlessIndexed.needs startIsFinalGraph = true ∧
    addStateUnlessIndexed.needsCopy startIsFinalGraph = false ∧
    (inout startIsFinalGraph (newMutableHypergraph ℚ 0) addStateUnlessIndexed).hg.size = 3 ∧
    (inplace (copyEnsuringProperties startIsFinalGraph (newMutableHypergraph ℚ 0)
      addStateUnlessIndexed.inAddProps 0) addStateUnlessIndexed).1.hg.size = 2 ∧
    inout startIsFinalGraph (newMutableHypergraph ℚ 0) addStateUnlessIndexed ≠
      (inplace (copyEnsuringProperties startIsFinalGraph (newMutableHypergraph ℚ 0)
        addStateUnlessIndexed.inAddProps 0) addStateUnlessIndexed).1 := by
  refine ⟨rfl, rfl, by decide, rfl, by decide, by decide, by decide⟩

/-- C15, amended. For a transform that is `Inplace` and not `OptionalInplace`
and an input `H_in` with `T.needs(H_in)`, `inout(H_in, &H_out, T)` makes `H_out`
the outcome of `inplace_always` on the copy of `H_in` with `T.inAddProps()`,
without a second test of `T.needs`; this is the outcome of `inplace` on the copy
whenever `T.needs` holds on the copy as well. The input is read only. -/
theorem inout_inplace_only {W : Type} (i o : IHypergraph W) (t : Transform W)
    (h1 : t.Inplace = true) (h2 : t.OptionalInplace = false) (h3 : t.needs i = true) :
    inout i o t = inplace_always (copyEnsuringProperties i o t.inAddProps 0) t ∧
    (t.needs (copyEnsuringProperties i o t.inAddProps 0) = true →
      inout i o t = (inplace (copyEnsuringProperties i o t.inAddProps 0) t).1) := by
  have e : inout i o t = inplace_always (copyEnsuringProperties i o t.inAddProps 0) t := by
    simp [inout, inoutNeeds, inout_by_inplace, h1, h2, h3]
  refine ⟨e, fun h4 => ?_⟩
  rw [e]
  simp [inplace, h4]

/-- For `IsolateStartState` and a graph whose start state has an in-arc, `inout`
gives the outcome of `inplace` on the copy. -/
theorem inout_inplace_only_witness :
    inout startIsFinalGraph (newMutableHypergraph ℚ 0) (IsolateStartState ℚ) =
      (inplace (copyEnsuringProperties startIsFinalGraph (newMutableHypergraph ℚ 0)
        (IsolateStartState ℚ).inAddProps 0) (IsolateStartState ℚ)).1 :=
  (inout_inplace_only startIsFinalGraph (newMutableHypergraph ℚ 0) (IsolateStartState ℚ)
    rfl rfl (by decide)).2 (by decide)

/-! ## The transform protocol: vocabulary of the output -/

/-- C16, as stated, fails on the path of a transform that is not needed and on
the path of an in-place only transform. `IsolateStartState` configured with the
vocabulary 7 is not needed on the tree `A` and is needed on the graph whose
start state has an in-arc; with the vocabulary 3 on the input, the output of
`inout` has the vocabulary 3 in both cases. -/
theorem inout_keeps_input_vocabulary :
    isolateWithVocab.pVoc = some 7 ∧
    isolateWithVocab.needs { treeA with vocab_ := some 3 } = false ∧
    (inout { treeA with vocab_ := some 3 } (newMutableHypergraph ℚ 0)
      isolateWithVocab).error = none ∧
    (inout { treeA with vocab_ := some 3 } (newMutableHypergraph ℚ 0)
      isolateWithVocab).hg.vocab_ = some 3 ∧
    isolateWithVocab.needs { startIsFinalGraph with vocab_ := some 3 } = true ∧
    (inout { startIsFinalGraph with vocab_ := some 3 } (newMutableHypergraph ℚ 0)
      isolateWithVocab).error = none ∧
    (inout { startIsFinalGraph with vocab_ := some 3 } (newMutableHypergraph ℚ 0)
      isolateWithVocab).hg.vocab_ = some 3 := by
  refine ⟨rfl, by decide, by decide, by decide, by decide, by decide, by decide⟩

theorem inplace_always_vocab {W : Type} (m : IHypergraph W) (t : Transform W)
    (hinplace : ∀ a, (t.inplace a).hg.vocab_ = a.vocab_)
    (hinout : ∀ a b, (t.inout a b).hg.vocab_ = b.vocab_) :
    (inplace_always m t).hg.vocab_ = m.vocab_ := by
  unfold inplace_always
  simp only
  split
  · rfl
  · split
    · split <;> simp [hinplace, IHypergraph.forcePropertiesOnOff, IHypergraph.forceProperties]
    · split <;> simp [hinout, IHypergraph.forcePropertiesOnOff]

theorem inout_impl_vocab {W : Type} (i o : IHypergraph W) (t : Transform W)
    (hinout : ∀ a b, (t.inout a b).hg.vocab_ = b.vocab_) :
    (inout_impl i o t).hg.vocab_ = t.getVocab i.vocab_ := by
  unfold inout_impl
  simp only
  split <;>
    simp [hinout, IHypergraph.forcePropertiesOnOff, IHypergraph.setVocabulary,
      IHypergraph.getVocabulary]

/-- C16, amended. For a transform whose algorithms leave the vocabulary of the
graph they write alone, after `inout(H_in, &H_out, T)` the vocabulary of `H_out`
is the vocabulary `T` is configured with, if one is set, and that of `H_in`
otherwise, when `T.needs(H_in)` holds and `T` is not in-place only; when
`T.needs(H_in)` is false and when `T` is in-place only it is the vocabulary of
`H_in`. -/
theorem inout_output_vocabulary {W : Type} (i o : IHypergraph W) (t : Transform W)
    (hinplace : ∀ a, (t.inplace a).hg.vocab_ = a.vocab_)
    (hinout : ∀ a b, (t.inout a b).hg.vocab_ = b.vocab_) :
    (inout i o t).hg.vocab_ =
      if t.needs i && !(t.Inplace && !t.OptionalInplace) then
        (match t.pVoc with
          | some voc => some voc
          | none => i.vocab_)
      else i.vocab_ := by
  by_cases hn : t.needs i = true
  · have e0 : inout i o t = inoutNeeds i o t := by
      unfold inout
      simp [hn]
    rw [e0]
    by_cases hi : (t.Inplace && !t.OptionalInplace) = true
    · have e : inoutNeeds i o t = inout_by_inplace i o t := by
        unfold inoutNeeds
        rw [if_pos hi]
      rw [e]
      unfold inout_by_inplace
      rw [inplace_always_vocab _ t hinplace hinout]
      simp [hi, copyEnsuringProperties]
    · have e : inoutNeeds i o t = inout_impl i o t := by
        unfold inoutNeeds
        rw [if_neg hi]
      have hi' : (t.Inplace && !t.OptionalInplace) = false := by simpa using hi
      rw [e, inout_impl_vocab i o t hinout]
      simp only [hn, hi', Bool.not_false, Bool.and_true, if_true]
      rfl
  · have hn' : t.needs i = false := by simpa using hn
    simp [inout, hn', copyEnsuringProperties]

theorem foldl_addArc_vocab {W : Type} (f : Arc W → Arc W) (l : List (Arc W))
    (g : IHypergraph W) :
    (l.foldl (fun g a => g.addArc (f a)) g).vocab_ = g.vocab_ := by
  induction l generalizing g with
  | nil => rfl
  | cons a l ih =>
    simp only [List.foldl_cons]
    rw [ih]
    rfl

theorem IsolateStartState.inplace_vocab {W : Type} (hg : IHypergraph W) :
    (IsolateStartState.inplace hg).hg.vocab_ = hg.vocab_ := by
  unfold IsolateStartState.inplace
  simp only [IHypergraph.addState, IHypergraph.setStart]
  rw [foldl_addArc_vocab]

/-- `IsolateStartState` configured with the vocabulary 7, on a graph with the
vocabulary 3 whose start state has an in-arc: the output of `inout` has the
vocabulary 3. -/
theorem inout_output_vocabulary_witness :
    (inout { startIsFinalGraph with vocab_ := some 3 } (newMutableHypergraph ℚ 0)
      isolateWithVocab).hg.vocab_ = some 3 :=
  inout_output_vocabulary { startIsFinalGraph with vocab_ := some 3 }
    (newMutableHypergraph ℚ 0) isolateWithVocab
    (fun a => IsolateStartState.inplace_vocab a) (fun _ _ => rfl)
/-! ## The transform protocol: handles -/

/-- On a hypergraph that is not mutable, `inplace` through a
`shared_ptr<IHypergraph<A>>` returns false whatever `t.needs` says. -/
theorem inplacePtr_of_not_mutable {W : Type} (pi : IHypergraph W) (t : Transform W)
    (h : pi.isMutable = false) : (inplacePtr pi t).2 = false := by
  simp [inplacePtr, h]

/-- On a mutable hypergraph, `inplace` through a `shared_ptr<IHypergraph<A>>`
returns `t.needs`. -/
theorem inplacePtr_of_mutable {W : Type} (pi : IHypergraph W) (t : Transform W)
    (h : pi.isMutable = true) : (inplacePtr pi t).2 = t.needs pi := by
  unfold inplacePtr inplaceMutablePtr inplace
  rw [if_pos h]
  by_cases hn : t.needs pi = true
  · simp [hn]
  · have hn' : t.needs pi = false := by simpa using hn
    simp [hn']

/-- C17 (failing input). On the graph whose start state has an in-arc, held as
a hypergraph that is not mutable, `IsolateStartState` is needed, and `inplace`
through a `shared_ptr<IHypergraph<A>>` runs it, the handle then points to a
graph with the new start state 2, and returns false; the overload for a handle
to a constant hypergraph, which does the work, returns true. -/
theorem inplacePtr_returns_false_when_needed :
    IHypergraph.isMutable { startIsFinalGraph with mutable_ := false } = false ∧
    (IsolateStartState ℚ).needs { startIsFinalGraph with mutable_ := false } = true ∧
    (inplacePtr { startIsFinalGraph with mutable_ := false } (IsolateStartState ℚ)).1.error =
      none ∧
    (inplacePtr { startIsFinalGraph with mutable_ := false }
      (IsolateStartState ℚ)).1.hg.start_ = 2 ∧
    (inplacePtr { startIsFinalGraph with mutable_ := false } (IsolateStartState ℚ)).2 =
      false ∧
    (inplaceConstPtr { startIsFinalGraph with mutable_ := false } (IsolateStartState ℚ)).2 =
      true := by
  refine ⟨rfl, by decide, by decide, by decide, by decide, by decide⟩

/-! ## The transform protocol: the input properties of the algorithm -/

/-- C18 (failing input). The transform `requiresInArcs` is in-place, needed, and
declares the in-arc index as an input property; its algorithm fails on a graph
without that index. On a mutable graph that does not store in-arcs, `inplace`
forces the index before it runs the algorithm, which completes, and
`transformedMaybeInplace` hands the graph to the algorithm as it is, which
fails. -/
theorem transformedMaybeInplace_skips_inAddProps :
    requiresInArcs.Inplace = true ∧
    requiresInArcs.inAddProps = kStoreInArcs ∧
    requiresInArcs.needs startIsFinalGraph = true ∧
    startIsFinalGraph.isMutable = true ∧
    startIsFinalGraph.storesInArcs = false ∧
    (inplace startIsFinalGraph requiresInArcs).1.error = none ∧
    (transformedMaybeInplace startIsFinalGraph requiresInArcs none).error =
      some Exception.InvalidInputException := by
  refine ⟨rfl, rfl, rfl, rfl, by decide, by decide, by decide⟩

/-- On the copy path of `inplace_always` the temporary copy is made with the
properties `(inAddProps | newOutAddProps) & ~outSubProps`: for the transform
`requiresInArcsInout`, which requires the in-arc index on its input and drops it
from its output, the copy lacks the index and the algorithm fails, while `inout`
hands the algorithm an input with the index. -/
theorem inplace_copy_path_masks_inAddProps :
    requiresInArcsInout.inAddProps &&& requiresInArcsInout.outSubProps = kStoreInArcs ∧
    (inplace startIsFinalGraph requiresInArcsInout).1.error =
      some Exception.InvalidInputException ∧
    (inout startIsFinalGraph (newMutableHypergraph ℚ 0) requiresInArcsInout).error = none := by
  refine ⟨by decide, by decide, by decide⟩

/-! ## The transform protocol: in-place calls on hypergraphs that are not mutable -/

/-- C19. On a hypergraph that is not mutable, `tryInplace` throws
`ImmutableHypergraphException` and `inplaceTransform` throws
`ProgrammerMistakeException`; the hypergraph stays as it was and the in-place
call plays no part. On a mutable hypergraph the outcome of each is the outcome of
the in-place call it makes, and neither throws an exception of its own. -/
theorem tryInplace_inplaceTransform_mutability {W : Type}
    (inplacePointer optInplace : IHypergraph W → Outcome W) (hg : IHypergraph W)
    (t : Transform W) :
    (hg.isMutable = false →
      tryInplace inplacePointer hg t =
        ⟨hg, some Exception.ImmutableHypergraphException⟩ ∧
      inplaceTransform optInplace hg = ⟨hg, some Exception.ProgrammerMistakeException⟩) ∧
    (hg.isMutable = true →
      tryInplace inplacePointer hg t = inplacePointer hg ∧
      inplaceTransform optInplace hg = optInplace hg) := by
  constructor
  · intro h
    simp [tryInplace, maybeInplace, inplaceTransform, h]
  · intro h
    refine ⟨?_, by simp [inplaceTransform, h]⟩
    simp only [tryInplace, maybeInplace, h, if_true]
    cases he : (inplacePointer hg).error with
    | some e =>
      simp only
      rw [← he]
    | none => simp

/-- On the graph whose start state has an in-arc, held as a hypergraph that is
not mutable, `tryInplace` and `inplaceTransform` with `IsolateStartState` throw
and leave the graph as it was. -/
theorem tryInplace_inplaceTransform_mutability_witness :
    tryInplace (fun h => (inplace h (IsolateStartState ℚ)).1)
        { startIsFinalGraph with mutable_ := false } (IsolateStartState ℚ) =
      ⟨{ startIsFinalGraph with mutable_ := false },
        some Exception.ImmutableHypergraphException⟩ ∧
    inplaceTransform (fun h => (inplace h (IsolateStartState ℚ)).1)
        { startIsFinalGraph with mutable_ := false } =
      ⟨{ startIsFinalGraph with mutable_ := false },
        some Exception.ProgrammerMistakeException⟩ :=
  (tryInplace_inplaceTransform_mutability (fun h => (inplace h (IsolateStartState ℚ)).1)
    (fun h => (inplace h (IsolateStartState ℚ)).1)
    { startIsFinalGraph with mutable_ := false } (IsolateStartState ℚ)).1 rfl

/-! ## PushCostsToStart: the precondition check -/

/-- C20, as stated, fails on a hypergraph that is pruned-empty: the constructor
returns before it checks its input. The canonical empty hypergraph has no start
state, and `PushCostsToStart` on it completes without an exception. -/
theorem pushCostsToStart_empty_no_exception :
    emptyHypergraph.start = kNoState ∧
    emptyHypergraph.prunedEmpty = true ∧
    PushCostsToStart emptyHypergraph = ⟨emptyHypergraph, none⟩ := by
  refine ⟨rfl, by decide, ?_⟩
  simp [PushCostsToStart, emptyHypergraph, IHypergraph.prunedEmpty]

/-- C20, amended. `PushCostsToStart` on a hypergraph that is not pruned-empty
and is not a single-tail graph, or has no start state, throws `ConfigException`
and leaves the hypergraph, and so every arc weight, as it was; on a pruned-empty
hypergraph it returns at once, without an exception and without a change. -/
theorem pushCostsToStart_checks_input (hg : IHypergraph SdlFloat) :
    (hg.prunedEmpty = false → hg.isGraph = false ∨ hg.start = kNoState →
      PushCostsToStart hg = ⟨hg, some Exception.ConfigException⟩) ∧
    (hg.prunedEmpty = true → PushCostsToStart hg = ⟨hg, none⟩) := by
  constructor
  · intro h1 h2
    unfold PushCostsToStart
    rcases h2 with h2 | h2
    · simp [h1, h2]
    · simp [h1, h2]
  · intro h
    simp [PushCostsToStart, h]

/-- The hypergraph with the arc `2 ← (0, 1)` has a final state and is not a
graph: `PushCostsToStart` throws `ConfigException` and leaves it as it was. -/
theorem pushCostsToStart_checks_input_witness :
    PushCostsToStart twoTailHypergraph =
      ⟨twoTailHypergraph, some Exception.ConfigException⟩ :=
  (pushCostsToStart_checks_input twoTailHypergraph).1 (by decide) (Or.inl (by decide))
/-! ## IsolateStartState: when it is needed and what it changes -/

/-- C24. `IsolateStartState::needs(hg)` is true exactly when `hg` has a start
state and some arc of `hg` has that start state as its head; the answer does not
depend on the properties of `hg`, and so not on whether the in-arc index is
stored. -/
theorem isolateStartState_needs_iff {W : Type} (hg : IHypergraph W) :
    (IsolateStartState.needs hg = true ↔
      hg.start ≠ kNoState ∧ ∃ a ∈ hg.arcs_, a.head_ = hg.start) ∧
    ∀ props : Properties,
      IsolateStartState.needs { hg with properties_ := props } = IsolateStartState.needs hg := by
  have key : ∀ g : IHypergraph W, IsolateStartState.needs g = true ↔
      g.start ≠ kNoState ∧ ∃ a ∈ g.arcs_, a.head_ = g.start := by
    intro g
    unfold IsolateStartState.needs
    by_cases hst : g.start = kNoState
    · simp [hst]
    · have hst' : (g.start == kNoState) = false := by simpa using hst
      rw [hst']
      simp only [Bool.false_eq_true, if_false]
      constructor
      · intro h
        refine ⟨hst, ?_⟩
        by_contra hne
        have hall : ∀ a ∈ g.arcs_, a.head_ ≠ g.start := by
          intro a ha he
          exact hne ⟨a, ha, he⟩
        rw [(hasInArcs_eq_false_iff g g.start).2 hall] at h
        exact Bool.false_ne_true h
      · rintro ⟨-, a, ha, he⟩
        by_contra hne
        have hf : hasInArcs g g.start = false := by simpa using hne
        exact (hasInArcs_eq_false_iff g g.start).1 hf a ha he
  refine ⟨key hg, fun props => ?_⟩
  have h1 := key { hg with properties_ := props }
  have h2 := key hg
  have h3 : (IsolateStartState.needs { hg with properties_ := props } = true ↔
      IsolateStartState.needs hg = true) := h1.trans h2.symm
  cases hb : IsolateStartState.needs hg <;>
    cases hc : IsolateStartState.needs { hg with properties_ := props } <;> simp_all

theorem forcePropertiesOnOff_none {W : Type} (hg : IHypergraph W) :
    hg.forcePropertiesOnOff NoProperties NoProperties = hg := by
  simp [IHypergraph.forcePropertiesOnOff, NoProperties]

theorem forceProperties_none {W : Type} (hg : IHypergraph W) :
    hg.forceProperties NoProperties = hg := by
  simp [IHypergraph.forceProperties, NoProperties]

/-- C25. When the start state of `hg` is the head of no arc, or `hg` has no
start state, `inplace(hg, IsolateStartState())` returns false and leaves `hg` as
it was. When the start state has an in-arc, the call completes, the states of
`hg` are followed by one new state, which is the new start state, the final
state and the properties are kept, and the arcs of `hg` are followed by one clone
of each arc that has the old start state among its tails, with the new start
state in its place. -/
theorem isolateStartState_frame {W : Type} (hg : IHypergraph W) :
    ((hg.start = kNoState ∨ ∀ a ∈ hg.arcs_, a.head_ ≠ hg.start) →
      inplace hg (IsolateStartState W) = (⟨hg, none⟩, false)) ∧
    (hg.start ≠ kNoState → (∃ a ∈ hg.arcs_, a.head_ = hg.start) →
      (inplace hg (IsolateStartState W)).1.error = none ∧
      (inplace hg (IsolateStartState W)).1.hg.labels_ = hg.labels_ ++ [Sym.noSymbol] ∧
      (inplace hg (IsolateStartState W)).1.hg.start_ = hg.size ∧
      (inplace hg (IsolateStartState W)).1.hg.final_ = hg.final_ ∧
      (inplace hg (IsolateStartState W)).1.hg.properties_ = hg.properties_ ∧
      (inplace hg (IsolateStartState W)).1.hg.arcs_ = hg.arcs_ ++
        (hg.arcs_.filter (fun a => a.tails_.contains hg.start)).map
          (fun a => a.cloneReplacing hg.start hg.size)) := by
  constructor
  · intro h
    have hn : IsolateStartState.needs hg = false := by
      by_contra hne
      have ht : IsolateStartState.needs hg = true := by simpa using hne
      obtain ⟨h1, a, ha, he⟩ := (isolateStartState_needs_iff hg).1.1 ht
      rcases h with h | h
      · exact h1 h
      · exact h a ha he
    rw [inplace_isolateStartState_of_not_needs hg hn, forcePropertiesOnOff_none]
  · intro h1 h2
    have hn : IsolateStartState.needs hg = true := (isolateStartState_needs_iff hg).1.2 ⟨h1, h2⟩
    rw [inplace_isolateStartState_of_needs hg hn, forceProperties_none]
    obtain ⟨e1, e2, e3, e4, e5⟩ := IsolateStartState.inplace_hg hg
    have hp : (IsolateStartState.inplace hg).hg.properties_ = hg.properties_ := by
      unfold IsolateStartState.inplace
      simp only [IHypergraph.addState, IHypergraph.setStart]
      exact (foldl_addArc_arcs _ _ _).2.2.2.2
    refine ⟨rfl, e5, e3, e4, ?_, e2⟩
    show ((IsolateStartState.inplace hg).hg.forcePropertiesOnOff NoProperties
      NoProperties).properties_ = _
    rw [forcePropertiesOnOff_none, hp]

/-- On the automaton `0 -5-> 1`, `2 -1-> 0`, `2 -2-> 1` with start state 0,
`inplace` with `IsolateStartState` adds the state 3 as the new start state and
the clone `3 -5-> 1` of the arc that leaves the old start state. -/
theorem isolateStartState_frame_witness :
    (inplace startInArcAutomaton (IsolateStartState SdlFloat)).1.error = none ∧
    (inplace startInArcAutomaton (IsolateStartState SdlFloat)).1.hg.labels_ =
      startInArcAutomaton.labels_ ++ [Sym.noSymbol] ∧
    (inplace startInArcAutomaton (IsolateStartState SdlFloat)).1.hg.start_ =
      startInArcAutomaton.size ∧
    (inplace startInArcAutomaton (IsolateStartState SdlFloat)).1.hg.final_ =
      startInArcAutomaton.final_ ∧
    (inplace startInArcAutomaton (IsolateStartState SdlFloat)).1.hg.properties_ =
      startInArcAutomaton.properties_ ∧
    (inplace startInArcAutomaton (IsolateStartState SdlFloat)).1.hg.arcs_ =
      startInArcAutomaton.arcs_ ++
        (startInArcAutomaton.arcs_.filter
          (fun a => a.tails_.contains startInArcAutomaton.start)).map
          (fun a => a.cloneReplacing startInArcAutomaton.start startInArcAutomaton.size) :=
  (isolateStartState_frame startInArcAutomaton).2 (by decide)
    ⟨⟨0, [2], SdlFloat.fin 1⟩, by simp [startInArcAutomaton], rfl⟩
/-! ## Validators of the configure library -/

/-- C27. Over a linearly ordered type of values, the validator
`bounded_range(begin, end)` throws `config_exception` on `v` exactly when
`v < begin` or not `v < end`, so that it accepts exactly the `v` with
`begin ≤ v < end`, and `bounded_range_inclusive(begin, end)` throws exactly when
`v < begin` or `end < v`, so that it accepts exactly the `v` with
`begin ≤ v ≤ end`. -/
theorem bounded_range_raises_iff {I : Type} [LinearOrder I] (to_string : I → String)
    (begin endv v : I) (desc : String) :
    (raises ((bounded_range begin endv desc).call to_string v) = true ↔
      v < begin ∨ ¬ v < endv) ∧
    ((bounded_range begin endv desc).call to_string v = Except.ok () ↔
      begin ≤ v ∧ v < endv) ∧
    (raises ((bounded_range_inclusive begin endv desc).call to_string v) = true ↔
      v < begin ∨ endv < v) ∧
    ((bounded_range_inclusive begin endv desc).call to_string v = Except.ok () ↔
      begin ≤ v ∧ v ≤ endv) := by
  refine ⟨?_, ?_, ?_, ?_⟩
  · unfold bounded_range_validate.call bounded_range
    by_cases h : v < begin ∨ ¬ v < endv
    · rw [if_pos h]
      exact ⟨fun _ => h, fun _ => rfl⟩
    · rw [if_neg h]
      exact ⟨fun h' => by simp [raises] at h', fun h' => absurd h' h⟩
  · unfold bounded_range_validate.call bounded_range
    by_cases h : v < begin ∨ ¬ v < endv
    · rw [if_pos h]
      constructor
      · intro h'
        cases h'
      · rintro ⟨h1, h2⟩
        rcases h with h | h
        · exact absurd h (not_lt.2 h1)
        · exact absurd h2 h
    · rw [if_neg h]
      simp only [true_iff]
      rw [not_or, not_not] at h
      exact ⟨not_lt.1 h.1, h.2⟩
  · unfold bounded_range_inclusive_validate.call bounded_range_inclusive
    by_cases h : v < begin ∨ endv < v
    · rw [if_pos h]
      exact ⟨fun _ => h, fun _ => rfl⟩
    · rw [if_neg h]
      exact ⟨fun h' => by simp [raises] at h', fun h' => absurd h' h⟩
  · unfold bounded_range_inclusive_validate.call bounded_range_inclusive
    by_cases h : v < begin ∨ endv < v
    · rw [if_pos h]
      constructor
      · intro h'
        cases h'
      · rintro ⟨h1, h2⟩
        rcases h with h | h
        · exact absurd h (not_lt.2 h1)
        · exact absurd h (not_lt.2 h2)
    · rw [if_neg h]
      simp only [true_iff]
      rw [not_or] at h
      exact ⟨not_lt.1 h.1, not_lt.1 h.2⟩
/-! ## MemoryInfo: the columns of a line -/

/-- C30 (failing inputs). On `"a b c"`, `getColumn` returns the columns `a`, `b`
and `c` for the numbers 0, 1 and 2; for the number 3, where the line has no
column, the search for the next blank fails, `npos + 1` wraps to 0 and the call
returns the column `a` again. On `"a  c"`, whose column 1 between the two blanks
is empty, the end of the column is searched from one character after its start,
and the call returns `" c"`. -/
theorem getColumn_wraps_and_skips :
    getColumn "a b c" 0 = some "a" ∧ getColumn "a b c" 1 = some "b" ∧
    getColumn "a b c" 2 = some "c" ∧
    (columns "a b c").get? 3 = none ∧ getColumn "a b c" 3 = some "a" ∧
    (columns "a  c").get? 1 = some "" ∧ getColumn "a  c" 1 = some " c" := by
  refine ⟨by decide, by decide, by decide, by decide, by decide, by decide, by decide⟩
/-! ## Weight pushing: where a configuration error is raised -/

/-- With the inside and outside passes run as relaxation rounds, which never
throw, the constructor itself does not reject a cycle: the automaton
`0 -1-> 1`, `1 -1-> 1`, `1 -1-> 2` has a loop at state `1`, so that it is not
acyclic, `PushCostsToStart` completes on it without an exception, and the arc
costs become `2`, `1` and `0`. -/
theorem pushCostsToStart_cyclic_no_exception :
    ¬ Acyclic cyclicAutomaton ∧ cyclicAutomaton.isGraph = true ∧
    (PushCostsToStart cyclicAutomaton).error = none ∧
    (PushCostsToStart cyclicAutomaton).hg.arcs_ =
      [⟨1, [0], SdlFloat.fin 2⟩, ⟨1, [1], SdlFloat.fin 1⟩, ⟨2, [1], SdlFloat.fin 0⟩] ∧
    (PushCostsToStart cyclicAutomaton).hg.arcs_ ≠ cyclicAutomaton.arcs_ := by
  have h1 : PushCostsToStart cyclicAutomaton =
      ⟨{ mutable_ := true, properties_ := 2,
         labels_ := [Sym.noSymbol, Sym.noSymbol, Sym.noSymbol],
         arcs_ := [⟨1, [0], SdlFloat.fin 2⟩, ⟨1, [1], SdlFloat.fin 1⟩,
           ⟨2, [1], SdlFloat.fin 0⟩],
         start_ := 0, final_ := 2 }, none⟩ := by
    simp [PushCostsToStart, IHypergraph.prunedEmpty, IHypergraph.isGraph, IHypergraph.start,
      IHypergraph.final, IHypergraph.isMutable, IHypergraph.sizeForHeads, kNoState,
      IHypergraph.forceFirstTailOutArcs, IHypergraph.forArcs, pushCostsArc, outside0,
      outsideCosts, outsideCostsAux, outsideStep, outArcs, insideCosts, insideCostsAux,
      insideStep, cyclicAutomaton, IHypergraph.inArcs, Arc.firstTail, SdlFloat.min,
      is_inf, kStoreFirstTailOutArcs, SdlFloat.add, SdlFloat.neg]
    norm_num
  refine ⟨?_, by decide, by rw [h1], by rw [h1], ?_⟩
  · rintro ⟨rank, hr⟩
    have := (hr ⟨1, [1], SdlFloat.fin 1⟩ (by simp [cyclicAutomaton])).2 1 (by simp)
    exact Nat.lt_irrefl _ this
  · rw [h1]
    simp [cyclicAutomaton]

/-- The throw sites of the two constructors. `PushCostsToStart` throws `ConfigException` exactly when the
hypergraph is not pruned-empty and is not a single-tail graph, or has no start
state, or is not mutable and has no states or an infinite inside cost at the
final state; `PushWeightsToFinal` throws `ConfigException` exactly when the
hypergraph is not mutable and the inside weight of the final state is zero. No
other exception is thrown, a call that throws leaves every arc as it was, and
whether the graph has a cycle is not tested. -/
theorem weight_pushing_error_sites {W : Type} [Semifield W] [DecidableEq W]
    (hg : IHypergraph SdlFloat) (hw : IHypergraph W) :
    (PushCostsToStart hg).error =
      (if hg.prunedEmpty = false ∧
          (hg.isGraph = false ∨ hg.start = kNoState ∨
            (hg.isMutable = false ∧
              (hg.sizeForHeads = 0 ∨
                SdlFloat.is_inf (insideCosts hg.forceFirstTailOutArcs hg.sizeForHeads hg.final) =
                  true)))
        then some Exception.ConfigException else none) ∧
    ((PushCostsToStart hg).error ≠ none → (PushCostsToStart hg).hg.arcs_ = hg.arcs_) ∧
    (PushWeightsToFinal hw).error =
      (if hw.isMutable = false ∧ insideAlgorithm hw hw.sizeForHeads hw.final = 0
        then some Exception.ConfigException else none) ∧
    ((PushWeightsToFinal hw).error ≠ none → (PushWeightsToFinal hw).hg.arcs_ = hw.arcs_) := by
  refine ⟨?_, ?_, ?_, ?_⟩
  · unfold PushCostsToStart
    cases h1 : hg.prunedEmpty <;> cases h2 : hg.isGraph <;> cases h4 : hg.isMutable <;>
      by_cases h3 : hg.start = kNoState <;>
      by_cases h5 : hg.sizeForHeads = 0 <;>
      cases h6 : SdlFloat.is_inf
        (insideCosts hg.forceFirstTailOutArcs hg.sizeForHeads hg.final) <;>
      simp [h1, h2, h3, h4, h5, h6]
  · unfold PushCostsToStart
    split
    · simp
    · split
      · simp
      · simp only
        split
        · split
          · simp
          · intro _
            rfl
        · simp
  · unfold PushWeightsToFinal
    cases h1 : hw.isMutable <;>
      by_cases h2 : insideAlgorithm hw hw.sizeForHeads hw.final = 0 <;>
      simp [h1, h2]
  · unfold PushWeightsToFinal
    cases h1 : hw.isMutable <;>
      by_cases h2 : insideAlgorithm hw hw.sizeForHeads hw.final = 0 <;>
      simp [h1, h2]

/-- Example: `PushCostsToStart` throws on the hypergraph with the arc
`2 ← (0, 1)`, which is not a graph, and its arcs are as they were. -/
theorem weight_pushing_error_sites_witness :
    (PushCostsToStart twoTailHypergraph).error ≠ none ∧
    (PushCostsToStart twoTailHypergraph).hg.arcs_ = twoTailHypergraph.arcs_ :=
  ⟨by decide,
   (weight_pushing_error_sites twoTailHypergraph deadEndHypergraph).2.1 (by decide)⟩
/-! ## Weight pushing: arcs on no path from start to final -/

theorem pushCostsToStart_startInArcAutomaton :
    PushCostsToStart startInArcAutomaton =
      ⟨{ mutable_ := true, properties_ := 2,
         labels_ := [Sym.noSymbol, Sym.noSymbol, Sym.noSymbol],
         arcs_ := [⟨1, [0], SdlFloat.fin 5⟩, ⟨0, [2], SdlFloat.fin 4⟩,
           ⟨1, [2], SdlFloat.fin 0⟩],
         start_ := 0, final_ := 1 }, none⟩ := by
  simp [PushCostsToStart, IHypergraph.prunedEmpty, IHypergraph.isGraph, IHypergraph.start,
    IHypergraph.final, IHypergraph.isMutable, IHypergraph.sizeForHeads, kNoState,
    IHypergraph.forceFirstTailOutArcs, IHypergraph.forArcs, pushCostsArc, outside0,
    outsideCosts, outsideCostsAux, outsideStep, outArcs, insideCosts, insideCostsAux,
    insideStep, startInArcAutomaton, IHypergraph.inArcs, Arc.firstTail, SdlFloat.min,
    is_inf, kStoreFirstTailOutArcs, SdlFloat.add, SdlFloat.neg]
  norm_num

/-- The only path from start to final of the automaton `0 -5-> 1`, `2 -1-> 0`,
`2 -2-> 1` is its first arc. -/
theorem startInArcAutomaton_paths (p : List (Arc SdlFloat))
    (hp : IsPath startInArcAutomaton startInArcAutomaton.start p startInArcAutomaton.final) :
    p = [⟨1, [0], SdlFloat.fin 5⟩] := by
  cases p with
  | nil =>
    have h01 : (0 : StateId) = 1 := hp
    exact absurd h01 (by decide)
  | cons a p =>
    obtain ⟨ha, ht, hrest⟩ := hp
    have ha' : a = ⟨1, [0], SdlFloat.fin 5⟩ := by
      simp only [startInArcAutomaton, List.mem_cons, List.mem_singleton, List.not_mem_nil,
        or_false] at ha
      rcases ha with rfl | rfl | rfl
      · rfl
      · exact absurd ht (by decide)
      · exact absurd ht (by decide)
    subst ha'
    have hp' : p = [] := by
      apply IsPath.eq_nil_of_no_outArcs hrest
      simp [outArcs, startInArcAutomaton, Arc.firstTail]
    rw [hp']

/-- The only derivation of the final state of `deadEndHypergraph` is its first
arc. -/
theorem deadEndHypergraph_derivations (used : List (Arc ℚ))
    (hd : Derives deadEndHypergraph deadEndHypergraph.final used) :
    used = [⟨1, [0], 1/2⟩] := by
  rcases DerivesAll.cons_inv hd with ⟨hax, _⟩ | ⟨a, us, vs, ha, hhead, hus, hvs, rfl⟩
  · exact absurd hax (by decide)
  · have hv := DerivesAll.nil_inv hvs
    subst hv
    have ha' : a = ⟨1, [0], 1/2⟩ := by
      simp only [deadEndHypergraph, List.mem_cons, List.mem_singleton, List.not_mem_nil,
        or_false] at ha
      rcases ha with rfl | rfl
      · rfl
      · exact absurd hhead (by decide)
    subst ha'
    rcases DerivesAll.cons_inv hus with ⟨_, hrest⟩ | ⟨b, _, _, hb, hbhead, _⟩
    · rw [DerivesAll.nil_inv hrest]
      rfl
    · simp only [deadEndHypergraph, List.mem_cons, List.mem_singleton, List.not_mem_nil,
        or_false] at hb
      rcases hb with rfl | rfl <;> exact absurd hbhead (by decide)

/-- C23 (failing inputs). On the automaton `0 -5-> 1`, `2 -1-> 0`, `2 -2-> 1`
with start `0` and final `1`, the arcs that leave state `2` lie on no path from
start to final, and after `PushCostsToStart` they have the costs `4` and `0`, not
`+inf`. On the hypergraph with the arcs `1 ← (0)` and `2 ← (0)`, start `0` and
final `1`, the arc into state `2` is in no derivation of the final state, and
after `PushWeightsToFinal` it has the weight `1`, not zero. -/
theorem push_keeps_arcs_off_paths :
    (∀ p, IsPath startInArcAutomaton startInArcAutomaton.start p startInArcAutomaton.final →
      (⟨0, [2], SdlFloat.fin 1⟩ : Arc SdlFloat) ∉ p ∧
      (⟨1, [2], SdlFloat.fin 2⟩ : Arc SdlFloat) ∉ p) ∧
    (PushCostsToStart startInArcAutomaton).error = none ∧
    (PushCostsToStart startInArcAutomaton).hg.arcs_ =
      [⟨1, [0], SdlFloat.fin 5⟩, ⟨0, [2], SdlFloat.fin 4⟩, ⟨1, [2], SdlFloat.fin 0⟩] ∧
    (∀ used, Derives deadEndHypergraph deadEndHypergraph.final used →
      (⟨2, [0], 1/3⟩ : Arc ℚ) ∉ used) ∧
    (PushWeightsToFinal deadEndHypergraph).error = none ∧
    (PushWeightsToFinal deadEndHypergraph).hg.arcs_ = [⟨1, [0], 1/2⟩, ⟨2, [0], 1⟩] := by
  have hin : insideAlgorithm deadEndHypergraph deadEndHypergraph.sizeForHeads
      deadEndHypergraph.final = 1/2 := by
    show insideAlgorithm deadEndHypergraph 3 1 = 1/2
    simp [insideAlgorithm, insideAlgorithmAux, insideWeightStep, IHypergraph.isAxiom,
      IHypergraph.hasLexicalLabel, IHypergraph.inputLabel, IHypergraph.inArcs,
      deadEndHypergraph]
  have hin2 : insideAlgorithm deadEndHypergraph 3 2 = 1/3 := by
    simp [insideAlgorithm, insideAlgorithmAux, insideWeightStep, IHypergraph.isAxiom,
      IHypergraph.hasLexicalLabel, IHypergraph.inputLabel, IHypergraph.inArcs,
      deadEndHypergraph]
  have hrun := PushWeightsToFinal_of_ne_zero deadEndHypergraph (by rw [hin]; norm_num)
  refine ⟨?_, by rw [pushCostsToStart_startInArcAutomaton],
    by rw [pushCostsToStart_startInArcAutomaton], ?_, by rw [hrun], ?_⟩
  · intro p hp
    rw [startInArcAutomaton_paths p hp]
    constructor <;> simp
  · intro used hd
    rw [deadEndHypergraph_derivations used hd]
    simp
  · rw [hrun]
    have hs : deadEndHypergraph.sizeForHeads = 3 := rfl
    show deadEndHypergraph.arcs_.map (finalPushedArc deadEndHypergraph) = _
    have e : deadEndHypergraph.arcs_ = [⟨1, [0], 1/2⟩, ⟨2, [0], 1/3⟩] := rfl
    rw [e]
    simp only [List.map, finalPushedArc, pushWeightsArc, hs, hin2]
    simp [deadEndHypergraph, IHypergraph.final, IHypergraph.isAxiom]
/-! ## SubUnion: the result extends the copy of the first graph -/

theorem AppendsTo.appends_refl {W : Type} (g : IHypergraph W) : AppendsTo g g :=
  ⟨⟨[], by simp⟩, ⟨[], by simp⟩, rfl, rfl⟩

theorem AppendsTo.appends_trans {W : Type} {g1 g2 g3 : IHypergraph W}
    (h12 : AppendsTo g1 g2) (h23 : AppendsTo g2 g3) : AppendsTo g1 g3 := by
  obtain ⟨l1, hl1⟩ := h12.labels_app
  obtain ⟨l2, hl2⟩ := h23.labels_app
  obtain ⟨a1, ha1⟩ := h12.arcs_app
  obtain ⟨a2, ha2⟩ := h23.arcs_app
  exact ⟨⟨l1 ++ l2, by rw [hl2, hl1, List.append_assoc]⟩,
    ⟨a1 ++ a2, by rw [ha2, ha1, List.append_assoc]⟩,
    by rw [h23.start_same, h12.start_same], by rw [h23.final_same, h12.final_same]⟩

theorem AppendsTo.of_addArc {W : Type} (g : IHypergraph W) (a : Arc W) :
    AppendsTo g (g.addArc a) :=
  ⟨⟨[], by simp [IHypergraph.addArc]⟩, ⟨[a], rfl⟩, rfl, rfl⟩

theorem AppendsTo.of_addState {W : Type} (g : IHypergraph W) (label : Sym) :
    AppendsTo g (g.addState label).1 :=
  ⟨⟨[label], rfl⟩, ⟨[], by simp [IHypergraph.addState]⟩, rfl, rfl⟩

theorem foldl_appends {W α : Type} (f : AddStatesState W → α → AddStatesState W)
    (l : List α) (h : ∀ st a, AppendsTo st.result (f st a).result) (st : AddStatesState W) :
    AppendsTo st.result (l.foldl f st).result := by
  induction l generalizing st with
  | nil => exact AppendsTo.appends_refl _
  | cons a l ih => exact (h st a).appends_trans (ih (f st a))

theorem addResultingArcs_appends {W : Type} [One W] (newStates : List StateId)
    (perArc : List (List (List StateId))) (st : AddStatesState W) :
    AppendsTo st.result (addResultingArcs newStates perArc st).result := by
  unfold addResultingArcs
  apply foldl_appends
  intro st newHead
  apply foldl_appends
  intro st newStatesForTails
  apply foldl_appends
  intro st tuple
  simp only
  split
  · exact AppendsTo.appends_refl _
  · exact AppendsTo.of_addArc _ _

theorem addStatesTailStep_appends {W : Type}
    (recurse : StateId → AddStatesState W → Res (NewStateInfo × AddStatesState W))
    (hrec : ∀ t st r, recurse t st = Res.ok r → AppendsTo st.result r.2.result)
    (tacc tacc' : Bool × List (List StateId) × AddStatesState W) (t : StateId)
    (h : addStatesTailStep recurse tacc t = Res.ok tacc') :
    AppendsTo tacc.2.2.result tacc'.2.2.result := by
  unfold addStatesTailStep at h
  simp only [Res.bind_def, Res.pure_def] at h
  obtain ⟨x, hx, hrest⟩ := Res.bind_eq_ok h
  obtain ⟨p, st'⟩ := x
  cases hrest
  exact hrec _ _ _ hx

theorem addStatesArcStep_appends {W : Type}
    (recurse : StateId → AddStatesState W → Res (NewStateInfo × AddStatesState W))
    (hrec : ∀ t st r, recurse t st = Res.ok r → AppendsTo st.result r.2.result)
    (acc acc' : Bool × List (List (List StateId)) × AddStatesState W) (arc : Arc W)
    (h : addStatesArcStep recurse acc arc = Res.ok acc') :
    AppendsTo acc.2.2.result acc'.2.2.result := by
  unfold addStatesArcStep at h
  simp only [Res.bind_def, Res.pure_def] at h
  obtain ⟨x, hx, hrest⟩ := Res.bind_eq_ok h
  have hinv := Res.foldlM_inv (fun tacc => AppendsTo acc.2.2.result tacc.2.2.result)
    (addStatesTailStep recurse) arc.tails_ (true, [], acc.2.2) (AppendsTo.appends_refl _)
    (fun b a b' _ hb hstep =>
      hb.appends_trans (addStatesTailStep_appends recurse hrec b b' a hstep))
    x hx
  obtain ⟨u, ns, st'⟩ := x
  cases hrest
  exact hinv

theorem addStatesFinish_appends {W : Type} [One W] (hg : IHypergraph W)
    (m : StateIdToSpan) (f : Span → List StateId) (opts : SubUnionOptions)
    (head : StateId) (parentSpan : Span)
    (acc : Bool × List (List (List StateId)) × AddStatesState W) :
    AppendsTo acc.2.2.result (addStatesFinish hg m f opts head parentSpan acc).2.result := by
  unfold addStatesFinish
  simp only
  split
  · refine AppendsTo.appends_trans ?_ (addResultingArcs_appends _ _ _)
    split
    · exact AppendsTo.of_addState _ _
    · exact AppendsTo.appends_refl _
  · exact AppendsTo.appends_refl _

theorem addStatesRecurse_appends {W : Type} [One W] (hg : IHypergraph W)
    (m : StateIdToSpan) (f : Span → List StateId) (opts : SubUnionOptions) (fuel : Nat) :
    ∀ (head : StateId) (parentSpan : Span) (st : AddStatesState W)
      (r : NewStateInfo × AddStatesState W),
      addStatesRecurse hg m f opts fuel head parentSpan st = Res.ok r →
      AppendsTo st.result r.2.result := by
  induction fuel with
  | zero =>
    intro head parentSpan st r h
    simp [addStatesRecurse] at h
  | succ fuel ih =>
    intro head parentSpan st r h
    rw [addStatesRecurse] at h
    split at h
    · cases h
      exact AppendsTo.appends_refl _
    · simp only [Res.bind_def, Res.pure_def] at h
      obtain ⟨x, hx, hrest⟩ := Res.bind_eq_ok h
      have hinv := Res.foldlM_inv (fun acc => AppendsTo st.result acc.2.2.result)
        _ (hg.inArcs head) (false, [], st) (AppendsTo.appends_refl _)
        (fun b a b' _ hb hstep => hb.appends_trans (addStatesArcStep_appends _
          (fun t st' r' hr => ih t _ st' r' hr) b b' a hstep))
        x hx
      cases hrest
      exact hinv.appends_trans (addStatesFinish_appends hg m f opts head parentSpan x)

theorem addStates_appends {W : Type} [One W] (hg : IHypergraph W) (m : StateIdToSpan)
    (result : IHypergraph W) (f : Span → List StateId) (opts : SubUnionOptions)
    (r : IHypergraph W) (h : addStates hg m result f opts = Res.ok r) : AppendsTo result r := by
  unfold addStates at h
  simp only [Res.bind_def, Res.pure_def] at h
  obtain ⟨x, hx, hrest⟩ := Res.bind_eq_ok h
  have := addStatesRecurse_appends hg m f opts _ _ _ _ _ hx
  obtain ⟨info, st⟩ := x
  cases hrest
  exact this

/-- C26. On acyclic hypergraphs `subUnion` ends within its recursion budget, and
when it completes, the hypergraph `r2` that the grafting of `hg2` leaves, before
the optional standard union, is the first graph followed by more states and
arcs: the labels of `hg1` followed by the labels of the new states, the arcs of
`hg1`, with their heads, tails and weights, followed by the new arcs, and the
start and final state of `hg1`. The result is `r2`, or the standard union of `hg2`
and `r2` when that option is set. -/
theorem subUnion_extends_first_graph {W : Type} [One W] (hg1 hg2 result : IHypergraph W)
    (opts : SubUnionOptions) (h1 : Acyclic hg1) (h2 : Acyclic hg2) :
    subUnion hg1 hg2 result opts ≠ Res.outOfFuel ∧
    ∀ r, subUnion hg1 hg2 result opts = Res.ok r →
      ∃ m1 m2 r2 newLabels newArcs,
        getSourceSpans hg1 = Res.ok m1 ∧ getSourceSpans hg2 = Res.ok m2 ∧
        addStates hg2 m2 (copyHypergraph hg1 result) (spanToStateIds m1) opts = Res.ok r2 ∧
        r2.labels_ = hg1.labels_ ++ newLabels ∧ r2.arcs_ = hg1.arcs_ ++ newArcs ∧
        r2.start_ = hg1.start_ ∧ r2.final_ = hg1.final_ ∧
        r = if opts.addStandardUnion then hgUnion hg2 r2 else r2 := by
  refine ⟨subUnion_ne_outOfFuel hg1 hg2 result opts h1 h2, fun r h => ?_⟩
  unfold subUnion at h
  simp only [Res.bind_def, Res.pure_def] at h
  obtain ⟨m1, hm1, h⟩ := Res.bind_eq_ok h
  obtain ⟨m2, hm2, h⟩ := Res.bind_eq_ok h
  obtain ⟨r2, hr2, h⟩ := Res.bind_eq_ok h
  have happ := addStates_appends _ _ _ _ _ _ hr2
  obtain ⟨ls, hls⟩ := happ.labels_app
  obtain ⟨as, has⟩ := happ.arcs_app
  exact ⟨m1, m2, r2, ls, as, hm1, hm2, hr2, hls, has, happ.start_same, happ.final_same,
    (Res.ok.inj h).symm⟩

/-- On the trees `A` and `B` with the standard union disabled, the result of
`subUnion` is the tree `A` followed by the state for the word `c` and the arc
`3 ← (5)`. -/
theorem subUnion_extends_first_graph_witness :
    ∃ r, subUnion treeA treeB (newMutableHypergraph ℚ kStoreInArcs) ⟨false, false⟩ =
        Res.ok r ∧
      r.labels_ = treeA.labels_ ++ [Sym.terminal "c"] ∧
      r.arcs_ = treeA.arcs_ ++ [⟨3, [5], 1⟩] ∧
      r.start_ = treeA.start_ ∧ r.final_ = treeA.final_ ∧
      ∃ m1 m2 r2 newLabels newArcs,
        getSourceSpans treeA = Res.ok m1 ∧ getSourceSpans treeB = Res.ok m2 ∧
        addStates treeB m2 (copyHypergraph treeA (newMutableHypergraph ℚ kStoreInArcs))
          (spanToStateIds m1) ⟨false, false⟩ = Res.ok r2 ∧
        r2.labels_ = treeA.labels_ ++ newLabels ∧ r2.arcs_ = treeA.arcs_ ++ newArcs ∧
        r2.start_ = treeA.start_ ∧ r2.final_ = treeA.final_ ∧
        r = if (⟨false, false⟩ : SubUnionOptions).addStandardUnion then hgUnion treeB r2
          else r2 :=
  ⟨_, rfl, by decide, by decide, by decide, by decide,
    (subUnion_extends_first_graph treeA treeB (newMutableHypergraph ℚ kStoreInArcs)
      ⟨false, false⟩ ⟨fun s => s, by decide⟩ ⟨fun s => s, by decide⟩).2 _ rfl⟩
/-! ## Vocabulary: adding and reading back words -/

namespace Vocabulary

theorem IndexedStrings.index_lt (s : IndexedStrings) (word : String) :
    (s.index word).1 < (s.index word).2.size := by
  unfold IndexedStrings.index IndexedStrings.size
  by_cases h : word ∈ s.strings
  · simp only [h, if_true]
    exact List.indexOf_lt_length.2 h
  · simp [h]

theorem IndexedStrings.get_index (s : IndexedStrings) (word : String) :
    (s.index word).2.get (s.index word).1 = word := by
  unfold IndexedStrings.index IndexedStrings.get
  by_cases h : word ∈ s.strings
  · simp only [h, if_true]
    have hlt := List.indexOf_lt_length.2 h
    rw [List.getD_eq_getElem _ _ hlt]
    exact List.getElem_indexOf hlt
  · simp [h]

theorem IndexedStrings.size_index_le (s : IndexedStrings) (word : String) :
    (s.index word).2.size ≤ s.size + 1 := by
  unfold IndexedStrings.index IndexedStrings.size
  by_cases h : word ∈ s.strings
  · simp [h]
  · simp [h]

theorem IndexedStrings.index_index (s : IndexedStrings) (word : String) :
    (s.index word).2.index word = ((s.index word).1, (s.index word).2) := by
  unfold IndexedStrings.index
  by_cases h : word ∈ s.strings
  · simp [h]
  · simp [h, List.indexOf_append_of_not_mem]

theorem IndexedStrings.index_of_mem (s : IndexedStrings) (word : String)
    (h : word ∈ s.strings) : (s.index word).2 = s := by
  simp [IndexedStrings.index, h]

theorem IndexedStrings.get_index_of_lt (s : IndexedStrings) (word : String) (i : Nat)
    (hi : i < s.size) : (s.index word).2.get i = s.get i := by
  unfold IndexedStrings.index IndexedStrings.get
  unfold IndexedStrings.size at hi
  by_cases h : word ∈ s.strings
  · simp [h]
  · simp only [h, if_false]
    rw [List.getD_eq_getElem _ _ hi, List.getD_eq_getElem _ _ (by simp; omega)]
    exact List.getElem_append_left hi

theorem symInt_arith (i off max : Nat) (hmax : max + off < 2 ^ 32) (hi : i < max) :
    i % 2 ^ 32 = i ∧ (i + off + 2 ^ 32 - off) % 2 ^ 32 = i := by
  have h32 : (2 : Nat) ^ 32 = 4294967296 := by norm_num
  rw [h32] at hmax ⊢
  omega

theorem symInt_index_lt (i sz sz0 max : Nat) (h1 : i < sz) (h2 : sz ≤ sz0 + 1)
    (h3 : sz0 + 1 ≤ max) : i < max := by omega

theorem BasicVocabularyImpl.init_maxLstSize (type offset : SymInt) (h : offset < 2 ^ 32) :
    (BasicVocabularyImpl.init type offset).maxLstSize_ +
      (BasicVocabularyImpl.init type offset).offset_ = 2 ^ 32 - 1 := by
  have key : ∀ o : Nat, o < 2 ^ 32 → (2 ^ 32 - 1 + 2 ^ 32 - o) % 2 ^ 32 + o = 2 ^ 32 - 1 := by
    intro o ho
    have h32 : (2 : Nat) ^ 32 = 4294967296 := by norm_num
    rw [h32] at ho ⊢
    omega
  exact key offset h

theorem BasicVocabularyImpl.add_fst (v : BasicVocabularyImpl)
    (hmax : v.maxLstSize_ + v.offset_ < 2 ^ 32) (w : String)
    (hroom : v.symbols_.size + 1 ≤ v.maxLstSize_) :
    (v.symbols_.index w).1 < v.maxLstSize_ ∧
    (v.add w).1 = v.symForIndex (v.symbols_.index w).1 := by
  have hi : (v.symbols_.index w).1 < v.maxLstSize_ :=
    symInt_index_lt _ _ _ _ (IndexedStrings.index_lt v.symbols_ w)
      (IndexedStrings.size_index_le v.symbols_ w) hroom
  refine ⟨hi, ?_⟩
  have hmod := (symInt_arith _ _ _ hmax hi).1
  unfold BasicVocabularyImpl.add
  simp only [hmod]

theorem BasicVocabularyImpl.str_symForIndex (symIndex : Sym → SymInt)
    (v v' : BasicVocabularyImpl)
    (hmax : v.maxLstSize_ + v.offset_ < 2 ^ 32)
    (hindex : ∀ i, i < v.maxLstSize_ → symIndex (v.symForIndex i) = i + v.offset_)
    (hoff : v'.offset_ = v.offset_) (i : SymInt) (hi : i < v.maxLstSize_) :
    v'.str symIndex (v.symForIndex i) = v'.symbols_.get i := by
  unfold BasicVocabularyImpl.str
  rw [hindex _ hi, hoff, (symInt_arith _ _ _ hmax hi).2]

theorem BasicVocabularyImpl.str_add_aux (symIndex : Sym → SymInt) (v : BasicVocabularyImpl)
    (hmax : v.maxLstSize_ + v.offset_ < 2 ^ 32)
    (hindex : ∀ i, i < v.maxLstSize_ → symIndex (v.symForIndex i) = i + v.offset_)
    (w : String) (hroom : v.symbols_.size + 1 ≤ v.maxLstSize_) :
    (v.add w).2.str symIndex (v.add w).1 = w := by
  obtain ⟨hi, e1⟩ := BasicVocabularyImpl.add_fst v hmax w hroom
  rw [e1, BasicVocabularyImpl.str_symForIndex symIndex v (v.add w).2 hmax hindex rfl _ hi]
  exact IndexedStrings.get_index v.symbols_ w

/-- C28. For a vocabulary whose offset and size limit are those that
`init(type, offset)` sets, with `Sym::index()` giving back the index and offset of
the symbols of the vocabulary, and with room for two more words below the size
limit that `add` asserts: `str(add(w))` is `w`; adding `w` again returns the same
symbol and leaves the vocabulary, and so `size()`, as it is; adding a word that
is present changes nothing; another word `w'` added next gets another symbol; and
two distinct words that are present have distinct symbols. -/
theorem vocabulary_add_str (symIndex : Sym → SymInt) (v : BasicVocabularyImpl)
    (hmax : v.maxLstSize_ + v.offset_ < 2 ^ 32)
    (hindex : ∀ i, i < v.maxLstSize_ → symIndex (v.symForIndex i) = i + v.offset_)
    (hroom : v.symbols_.size + 2 ≤ v.maxLstSize_) (w w' : String) :
    (v.add w).2.str symIndex (v.add w).1 = w ∧
    (v.add w).2.add w = ((v.add w).1, (v.add w).2) ∧
    ((v.add w).2.add w).2.size = (v.add w).2.size ∧
    (w ∈ v.symbols_.strings → (v.add w).2 = v) ∧
    (w ≠ w' → ((v.add w).2.add w').1 ≠ (v.add w).1) ∧
    (w ∈ v.symbols_.strings → w' ∈ v.symbols_.strings → w ≠ w' →
      (v.add w).1 ≠ (v.add w').1) := by
  have hroom1 : v.symbols_.size + 1 ≤ v.maxLstSize_ := Nat.le_of_succ_le hroom
  have h1 := BasicVocabularyImpl.str_add_aux symIndex v hmax hindex w hroom1
  have h2 : (v.add w).2.add w = ((v.add w).1, (v.add w).2) := by
    unfold BasicVocabularyImpl.add
    simp only [IndexedStrings.index_index]
    rfl
  have h5 : ∀ u : String, u ∈ v.symbols_.strings → (v.add u).2 = v := by
    intro u hmem
    unfold BasicVocabularyImpl.add
    simp only [IndexedStrings.index_of_mem _ _ hmem]
  refine ⟨h1, h2, by rw [h2], h5 w, ?_, ?_⟩
  · intro hne heq
    -- the vocabulary after the first call has room for one more word
    have hsz : (v.add w).2.symbols_.size + 1 ≤ (v.add w).2.maxLstSize_ :=
      Nat.le_trans (Nat.succ_le_succ (IndexedStrings.size_index_le v.symbols_ w)) hroom
    -- the word `w'` is read back from its symbol
    have h3 := BasicVocabularyImpl.str_add_aux symIndex (v.add w).2 hmax hindex w' hsz
    -- the word `w` is still read back after `w'` was added
    obtain ⟨hi, e1⟩ := BasicVocabularyImpl.add_fst v hmax w hroom1
    have h4 : ((v.add w).2.add w').2.str symIndex (v.add w).1 = w := by
      rw [e1, BasicVocabularyImpl.str_symForIndex symIndex v ((v.add w).2.add w').2 hmax
        hindex rfl _ hi]
      have e2 : ((v.add w).2.add w').2.symbols_ = ((v.symbols_.index w).2.index w').2 := rfl
      rw [e2, IndexedStrings.get_index_of_lt _ _ _ (IndexedStrings.index_lt v.symbols_ w)]
      exact IndexedStrings.get_index v.symbols_ w
    rw [heq] at h3
    exact hne (h4.symm.trans h3)
  · intro hw hw' hne heq
    have h6 := BasicVocabularyImpl.str_add_aux symIndex v hmax hindex w' hroom1
    rw [h5 w hw] at h1
    rw [h5 w' hw', ← heq] at h6
    exact hne (h1.symm.trans h6)

/-- The empty vocabulary of type 0 and offset 5, with the identifier of a symbol
as its index: the word `x` is read back from the symbol that `add` gives. -/
theorem vocabulary_add_str_witness :
    ((BasicVocabularyImpl.init 0 5).add "x").2.str (fun s => s.id_)
      ((BasicVocabularyImpl.init 0 5).add "x").1 = "x" :=
  (vocabulary_add_str (fun s => s.id_) (BasicVocabularyImpl.init 0 5)
    (by decide)
    (fun i hi => by
      have key : ∀ j : Nat, j < (2 ^ 32 - 1 + 2 ^ 32 - 5) % 2 ^ 32 →
          (j + (0 + 5) % 2 ^ 32) % 2 ^ 32 = j + 5 := by
        intro j hj
        have h32 : (2 : Nat) ^ 32 = 4294967296 := by norm_num
        rw [h32] at hj ⊢
        omega
      exact key i hi)
    (by decide) "x" "y").1

end Vocabulary
/-! ## Equality of sets of lines -/

theorem StringsSet.mem_insert (s : StringsSet) (x y : String) :
    y ∈ s.insert x ↔ y = x ∨ y ∈ s := by
  unfold StringsSet.insert
  by_cases h : x ∈ s
  · rw [if_pos h]
    constructor
    · exact Or.inr
    · rintro (rfl | h')
      · exact h
      · exact h'
  · rw [if_neg h]
    exact List.mem_orderedInsert _

theorem StringsSet.insert_sorted (s : StringsSet) (x : String)
    (hs : List.Sorted (fun a b => a ≤ b) s) (hn : s.Nodup) :
    List.Sorted (fun a b => a ≤ b) (s.insert x) ∧ (s.insert x).Nodup := by
  unfold StringsSet.insert
  by_cases h : x ∈ s
  · rw [if_pos h]
    exact ⟨hs, hn⟩
  · rw [if_neg h]
    refine ⟨hs.orderedInsert x s, ?_⟩
    exact (List.perm_orderedInsert _ x s).nodup_iff.2 (List.nodup_cons.2 ⟨h, hn⟩)

theorem normalizeLines_spec (chomp sortWordsLine : String → String) (sortWords : Bool)
    (lines : List String) :
    ∀ out : StringsSet, List.Sorted (fun a b => a ≤ b) out → out.Nodup →
      (List.Sorted (fun a b => a ≤ b) (normalizeLines chomp sortWordsLine lines out sortWords) ∧
       (normalizeLines chomp sortWordsLine lines out sortWords).Nodup) ∧
      ∀ y, y ∈ normalizeLines chomp sortWordsLine lines out sortWords ↔
        y ∈ out ∨ y ∈ lines.map (fun l => normalizeLine chomp sortWordsLine l sortWords) := by
  induction lines with
  | nil =>
    intro out hs hn
    exact ⟨⟨hs, hn⟩, fun y => by simp [normalizeLines]⟩
  | cons l ls ih =>
    intro out hs hn
    have h1 := StringsSet.insert_sorted out (normalizeLine chomp sortWordsLine l sortWords) hs hn
    obtain ⟨h2, h3⟩ := ih _ h1.1 h1.2
    refine ⟨h2, fun y => ?_⟩
    have h4 := h3 y
    unfold normalizeLines at h4 ⊢
    rw [List.foldl_cons, h4, StringsSet.mem_insert]
    simp only [List.map_cons, List.mem_cons]
    tauto

theorem stringsSet_ext (s t : StringsSet)
    (hs : List.Sorted (fun a b => a ≤ b) s) (hsn : s.Nodup)
    (ht : List.Sorted (fun a b => a ≤ b) t) (htn : t.Nodup) :
    s = t ↔ ∀ y, y ∈ s ↔ y ∈ t := by
  constructor
  · rintro rfl y
    exact Iff.rfl
  · intro h
    exact List.eq_of_perm_of_sorted ((List.perm_ext_iff_of_nodup hsn htn).2 h) hs ht

theorem stringsUnorderedEqual_iff_aux (chomp sortWordsLine : String → String)
    (lines1 lines2 : List String) :
    StringsUnorderedEqual chomp sortWordsLine lines1 lines2 false = true ↔
      ∀ x, x ∈ lines1.map chomp ↔ x ∈ lines2.map chomp := by
  obtain ⟨⟨a1, a2⟩, a3⟩ := normalizeLines_spec chomp sortWordsLine false lines1 []
    (List.sorted_nil) List.nodup_nil
  obtain ⟨⟨b1, b2⟩, b3⟩ := normalizeLines_spec chomp sortWordsLine false lines2 []
    (List.sorted_nil) List.nodup_nil
  unfold StringsUnorderedEqual
  simp only [beq_iff_eq]
  rw [stringsSet_ext _ _ a1 a2 b1 b2]
  have e : (fun l => normalizeLine chomp sortWordsLine l false) = chomp := by
    funext l
    simp [normalizeLine]
  simp only [a3, b3, e, List.not_mem_nil, false_or]

/-- C29. With `sortWords` false, `StringsUnorderedEqual(lines1, lines2)` is true
exactly when the chomped lines of `lines1` and those of `lines2` are the same
set; the result is the same for every reordering of either list, and is the
same with the two lists exchanged. -/
theorem stringsUnorderedEqual_iff_same_set (chomp sortWordsLine : String → String)
    (lines1 lines2 : List String) :
    (StringsUnorderedEqual chomp sortWordsLine lines1 lines2 false = true ↔
      ∀ x, x ∈ lines1.map chomp ↔ x ∈ lines2.map chomp) ∧
    (∀ p1 p2 : List String, p1.Perm lines1 → p2.Perm lines2 →
      StringsUnorderedEqual chomp sortWordsLine p1 p2 false =
        StringsUnorderedEqual chomp sortWordsLine lines1 lines2 false) ∧
    StringsUnorderedEqual chomp sortWordsLine lines2 lines1 false =
      StringsUnorderedEqual chomp sortWordsLine lines1 lines2 false := by
  refine ⟨stringsUnorderedEqual_iff_aux chomp sortWordsLine lines1 lines2, ?_, ?_⟩
  · intro p1 p2 h1 h2
    rw [Bool.eq_iff_iff, stringsUnorderedEqual_iff_aux, stringsUnorderedEqual_iff_aux]
    have e1 : ∀ x, x ∈ p1.map chomp ↔ x ∈ lines1.map chomp := fun x => (h1.map chomp).mem_iff
    have e2 : ∀ x, x ∈ p2.map chomp ↔ x ∈ lines2.map chomp := fun x => (h2.map chomp).mem_iff
    simp only [e1, e2]
  · rw [Bool.eq_iff_iff, stringsUnorderedEqual_iff_aux, stringsUnorderedEqual_iff_aux]
    exact ⟨fun h x => (h x).symm, fun h x => (h x).symm⟩

/-- The lines `b`, `a` are a reordering of `a`, `b`: against any second list they
give the result of `a`, `b`. -/
theorem stringsUnorderedEqual_iff_same_set_witness :
    StringsUnorderedEqual id id ["b", "a"] ["a", "b", "a"] false =
      StringsUnorderedEqual id id ["a", "b"] ["a", "b", "a"] false :=
  (stringsUnorderedEqual_iff_same_set id id ["a", "b"] ["a", "b", "a"]).2.1
    ["b", "a"] ["a", "b", "a"] (List.Perm.swap _ _ _) (List.Perm.refl _)

/-! ## Local normalization of `PushCostsToStart` -/

namespace SdlFloat

theorem le_of_le_min {r a b : SdlFloat} (h : le r (min a b) = true) (ha : Valid a)
    (hb : Valid b) : le r a = true ∧ le r b = true := by
  rcases ha.cases with ⟨x, rfl⟩ | rfl <;> rcases hb.cases with ⟨y, rfl⟩ | rfl
  · by_cases hyx : y < x
    · have e : min (fin x) (fin y) = fin y := by simp [SdlFloat.min, hyx]
      rw [e] at h
      rcases r with r | _ | _ | _ <;> simp_all [SdlFloat.le]
      exact le_trans h (le_of_lt hyx)
    · have e : min (fin x) (fin y) = fin x := by simp [SdlFloat.min, hyx]
      rw [e] at h
      rcases r with r | _ | _ | _ <;> simp_all [SdlFloat.le]
      exact le_trans h hyx
  · have e : min (fin x) posInf = fin x := by simp [SdlFloat.min]
    rw [e] at h
    rcases r with r | _ | _ | _ <;> simp_all [SdlFloat.le]
  · have e : min posInf (fin y) = fin y := by simp [SdlFloat.min]
    rw [e] at h
    rcases r with r | _ | _ | _ <;> simp_all [SdlFloat.le]
  · have e : min posInf posInf = posInf := by simp [SdlFloat.min]
    rw [e] at h
    exact ⟨h, h⟩

theorem le_refl_valid {a : SdlFloat} (ha : Valid a) : le a a = true := by
  rcases a with a | _ | _ | _ <;> simp_all [Valid, SdlFloat.le]

/-- The least of a list of costs is below its start value and each candidate. -/
theorem foldl_min_le (cs : List SdlFloat) (init : SdlFloat) (hi : Valid init)
    (hcs : ∀ c ∈ cs, Valid c) :
    le (cs.foldl min init) init = true ∧ ∀ c ∈ cs, le (cs.foldl min init) c = true := by
  induction cs generalizing init with
  | nil => exact ⟨le_refl_valid hi, by simp⟩
  | cons c cs ih =>
    simp only [List.foldl_cons]
    have hc := hcs c (by simp)
    obtain ⟨h1, h2⟩ := ih (min init c) (hi.min hc.2) (fun c' hc' => hcs c' (by simp [hc']))
    obtain ⟨h3, h4⟩ := le_of_le_min h1 hi hc
    refine ⟨h3, ?_⟩
    intro c' hc'
    rcases List.mem_cons.1 hc' with rfl | hc'
    · exact h4
    · exact h2 c' hc'

theorem le_fin_imp {r : SdlFloat} {x : ℚ} (h : le r (fin x) = true) (hr : Valid r) :
    ∃ q, r = fin q ∧ q ≤ x := by
  rcases r with r | _ | _ | _ <;> simp_all [Valid, SdlFloat.le]

end SdlFloat

theorem NonNegCosts.validCosts {hg : IHypergraph SdlFloat} (h : NonNegCosts hg) :
    ValidCosts hg := by
  intro a ha
  obtain ⟨q, hq, -⟩ := h a ha
  rw [hq]
  simp

theorem pathSum_cons (a : Arc SdlFloat) (p : List (Arc SdlFloat)) :
    pathSum (a :: p) = finVal a.weight_ + pathSum p := by
  simp [pathSum]

theorem pathSum_append_singleton (p : List (Arc SdlFloat)) (a : Arc SdlFloat) :
    pathSum (p ++ [a]) = pathSum p + finVal a.weight_ := by
  simp [pathSum]

theorem pathSum_nonneg {hg : IHypergraph SdlFloat} (hnn : NonNegCosts hg)
    {p : List (Arc SdlFloat)} (hp : ∀ a ∈ p, a ∈ hg.arcs_) : 0 ≤ pathSum p := by
  unfold pathSum
  apply List.sum_nonneg
  intro x hx
  obtain ⟨a, ha, rfl⟩ := List.mem_map.1 hx
  obtain ⟨q, hq, hq0⟩ := hnn a (hp a ha)
  rw [hq]
  exact hq0

theorem IsPath.snoc_inv {W : Type} {hg : IHypergraph W} {s t : StateId} {p : List (Arc W)}
    {a : Arc W} (hp : IsPath hg s (p ++ [a]) t) :
    IsPath hg s p a.firstTail ∧ a ∈ hg.arcs_ ∧ a.head_ = t := by
  induction p generalizing s with
  | nil =>
    obtain ⟨h1, h2, h3⟩ := hp
    exact ⟨h2.symm, h1, h3⟩
  | cons b p ih =>
    obtain ⟨h1, h2, h3⟩ := hp
    obtain ⟨i1, i2, i3⟩ := ih h3
    exact ⟨⟨h1, h2, i1⟩, i2, i3⟩

/-- The outside cost after `k` rounds is at most the cost of each path to the
final state of at most `k` arcs. -/
theorem outsideCostsAux_le_path (hg : IHypergraph SdlFloat) (hnn : NonNegCosts hg)
    (p : List (Arc SdlFloat)) (s : StateId) (k : Nat) (hp : IsPath hg s p hg.final_)
    (hk : p.length ≤ k) : ∃ q, outsideCostsAux hg k s = fin q ∧ q ≤ pathSum p := by
  induction p generalizing s k with
  | nil =>
    have : s = hg.final_ := hp
    rw [this, outsideCostsAux_final]
    exact ⟨0, rfl, by simp [pathSum]⟩
  | cons a p ih =>
    by_cases hs : s = hg.final_
    · rw [hs, outsideCostsAux_final]
      exact ⟨0, rfl, pathSum_nonneg hnn (by rw [hs] at hp; exact hp.mem_arcs)⟩
    · obtain ⟨ha, hat, hp'⟩ := hp
      cases k with
      | zero => simp at hk
      | succ k =>
        obtain ⟨q', hq', hle⟩ := ih a.head_ k hp' (by simpa using hk)
        obtain ⟨x, hx, -⟩ := hnn a ha
        have e : outsideCostsAux hg (k + 1) s = outsideStep hg (outsideCostsAux hg k) s := rfl
        rw [e, outsideStep_eq _ _ _ hs]
        have hval : ∀ c ∈ (outArcs hg s).map (fun a => a.weight_ + outsideCostsAux hg k a.head_),
            Valid c := by
          intro c hc
          obtain ⟨b, hb, rfl⟩ := List.mem_map.1 hc
          obtain ⟨y, hy, -⟩ := hnn b (mem_outArcs.1 hb).1
          rw [hy]
          exact (valid_fin y).add (outsideCostsAux_valid hg hnn.validCosts _ _)
        have hmem : fin (x + q') ∈
            (outArcs hg s).map (fun a => a.weight_ + outsideCostsAux hg k a.head_) := by
          refine List.mem_map.2 ⟨a, mem_outArcs.2 ⟨ha, hat⟩, ?_⟩
          rw [hx, hq']
          rfl
        obtain ⟨q, hq, hqle⟩ := le_fin_imp ((foldl_min_le _ _ valid_posInf hval).2 _ hmem)
          (foldl_min_valid _ _ valid_posInf (fun c hc => (hval c hc).2))
        refine ⟨q, hq, ?_⟩
        rw [pathSum_cons, hx, finVal_fin]
        linarith

/-- A finite outside cost is the cost of a path to the final state. -/
theorem outsideCostsAux_attained (hg : IHypergraph SdlFloat) (hnn : NonNegCosts hg) (k : Nat)
    (s : StateId) (q : ℚ) (h : outsideCostsAux hg k s = fin q) :
    ∃ p, IsPath hg s p hg.final_ ∧ pathSum p = q := by
  induction k generalizing s q with
  | zero =>
    by_cases hs : s = hg.final_
    · rw [hs, outsideCostsAux_final] at h
      exact ⟨[], hs, by simpa [pathSum] using h⟩
    · simp [outsideCostsAux, hs] at h
  | succ k ih =>
    by_cases hs : s = hg.final_
    · rw [hs, outsideCostsAux_final] at h
      exact ⟨[], hs, by simpa [pathSum] using h⟩
    · have e : outsideCostsAux hg (k + 1) s = outsideStep hg (outsideCostsAux hg k) s := rfl
      rw [e, outsideStep_eq _ _ _ hs] at h
      rcases foldl_min_mem ((outArcs hg s).map
          (fun a => a.weight_ + outsideCostsAux hg k a.head_)) posInf with hm | hm
      · rw [hm] at h
        exact absurd h (by simp)
      · rw [h] at hm
        obtain ⟨a, ha, hae⟩ := List.mem_map.1 hm
        obtain ⟨ha1, ha2⟩ := mem_outArcs.1 ha
        obtain ⟨x, hx, -⟩ := hnn a ha1
        rcases (outsideCostsAux_valid hg hnn.validCosts k a.head_).cases with ⟨y, hy⟩ | hy
        · rw [hx, hy] at hae
          have hxy : x + y = q := by simpa using hae
          obtain ⟨p, hp, hps⟩ := ih _ _ hy
          refine ⟨a :: p, ⟨ha1, ha2, hp⟩, ?_⟩
          rw [pathSum_cons, hx, finVal_fin, hps, hxy]
        · rw [hx, hy] at hae
          simp [SdlFloat.add] at hae

/-- The inside cost after `k` rounds is at most the cost of each path from the
start state of at most `k` arcs. -/
theorem insideCostsAux_le_path (hg : IHypergraph SdlFloat) (hnn : NonNegCosts hg) (k : Nat)
    (p : List (Arc SdlFloat)) (s : StateId) (hp : IsPath hg hg.start_ p s)
    (hk : p.length ≤ k) : ∃ q, insideCostsAux hg k s = fin q ∧ q ≤ pathSum p := by
  induction k generalizing p s with
  | zero =>
    have hnil : p = [] := List.length_eq_zero.1 (Nat.le_zero.1 hk)
    subst hnil
    have : hg.start_ = s := hp
    rw [← this, insideCostsAux_start]
    exact ⟨0, rfl, by simp [pathSum]⟩
  | succ k ih =>
    by_cases hs : s = hg.start_
    · rw [hs, insideCostsAux_start]
      exact ⟨0, rfl, pathSum_nonneg hnn hp.mem_arcs⟩
    · rcases List.eq_nil_or_concat p with hnil | ⟨L, b, hL⟩
      · subst hnil
        exact absurd (Eq.symm hp) hs
      · rw [List.concat_eq_append] at hL
        subst hL
        obtain ⟨hpL, hb, hbt⟩ := hp.snoc_inv
        obtain ⟨q', hq', hle⟩ := ih L b.firstTail hpL (by simpa using hk)
        obtain ⟨x, hx, -⟩ := hnn b hb
        have e : insideCostsAux hg (k + 1) s = insideStep hg (insideCostsAux hg k) s := rfl
        rw [e, insideStep_eq _ _ _ hs]
        have hval : ∀ c ∈ (hg.inArcs s).map
            (fun a => a.weight_ + insideCostsAux hg k a.firstTail), Valid c := by
          intro c hc
          obtain ⟨d, hd, rfl⟩ := List.mem_map.1 hc
          obtain ⟨y, hy, -⟩ := hnn d (mem_inArcs.1 hd).1
          rw [hy]
          exact (valid_fin y).add (insideCostsAux_valid hg hnn.validCosts _ _)
        have hmem : fin (x + q') ∈
            (hg.inArcs s).map (fun a => a.weight_ + insideCostsAux hg k a.firstTail) := by
          refine List.mem_map.2 ⟨b, mem_inArcs.2 ⟨hb, hbt⟩, ?_⟩
          rw [hx, hq']
          rfl
        obtain ⟨q, hq, hqle⟩ := le_fin_imp ((foldl_min_le _ _ valid_posInf hval).2 _ hmem)
          (foldl_min_valid _ _ valid_posInf (fun c hc => (hval c hc).2))
        refine ⟨q, hq, ?_⟩
        rw [pathSum_append_singleton, hx, finVal_fin]
        linarith

/-- A finite inside cost is the cost of a path from the start state. -/
theorem insideCostsAux_attained (hg : IHypergraph SdlFloat) (hnn : NonNegCosts hg) (k : Nat)
    (s : StateId) (q : ℚ) (h : insideCostsAux hg k s = fin q) :
    ∃ p, IsPath hg hg.start_ p s ∧ pathSum p = q := by
  induction k generalizing s q with
  | zero =>
    by_cases hs : s = hg.start_
    · rw [hs, insideCostsAux_start] at h
      exact ⟨[], hs.symm, by simpa [pathSum] using h⟩
    · simp [insideCostsAux, hs] at h
  | succ k ih =>
    by_cases hs : s = hg.start_
    · rw [hs, insideCostsAux_start] at h
      exact ⟨[], hs.symm, by simpa [pathSum] using h⟩
    · have e : insideCostsAux hg (k + 1) s = insideStep hg (insideCostsAux hg k) s := rfl
      rw [e, insideStep_eq _ _ _ hs] at h
      rcases foldl_min_mem ((hg.inArcs s).map
          (fun a => a.weight_ + insideCostsAux hg k a.firstTail)) posInf with hm | hm
      · rw [hm] at h
        exact absurd h (by simp)
      · rw [h] at hm
        obtain ⟨a, ha, hae⟩ := List.mem_map.1 hm
        obtain ⟨ha1, ha2⟩ := mem_inArcs.1 ha
        obtain ⟨x, hx, -⟩ := hnn a ha1
        rcases (insideCostsAux_valid hg hnn.validCosts k a.firstTail).cases with ⟨y, hy⟩ | hy
        · rw [hx, hy] at hae
          have hxy : x + y = q := by simpa using hae
          obtain ⟨p, hp, hps⟩ := ih _ _ hy
          refine ⟨p ++ [a], ?_, ?_⟩
          · rw [← ha2]
            exact hp.snoc a ha1 rfl
          · rw [pathSum_append_singleton, hx, finVal_fin, hps, ← hxy]
            ring
        · rw [hx, hy] at hae
          simp [SdlFloat.add] at hae

theorem IsPath.length_le_size {W : Type} {hg : IHypergraph W} (hgr : hg.isGraph = true)
    (rank : StateId → Nat)
    (hr : ∀ a ∈ hg.arcs_, rank a.head_ < hg.size ∧ ∀ t ∈ a.tails_, rank t < rank a.head_)
    {s t : StateId} {p : List (Arc W)} (hp : IsPath hg s p t) : p.length ≤ hg.size := by
  obtain ⟨h1, -, h3⟩ := hp.rank_le hgr rank hr
  cases p with
  | nil => simp
  | cons a p =>
    have := h3 (by simp)
    omega

/-- On an acyclic graph with non-negative costs the best cost from start to
final is the same computed forwards and backwards. -/
theorem outside_start_eq_inside_final (hg : IHypergraph SdlFloat) (hgr : hg.isGraph = true)
    (rank : StateId → Nat)
    (hr : ∀ a ∈ hg.arcs_, rank a.head_ < hg.size ∧ ∀ t ∈ a.tails_, rank t < rank a.head_)
    (hnn : NonNegCosts hg) (q : ℚ) (h : insideCostsAux hg hg.size hg.final_ = fin q) :
    outsideCostsAux hg hg.size hg.start_ = fin q := by
  obtain ⟨p, hp, hps⟩ := insideCostsAux_attained hg hnn _ _ _ h
  obtain ⟨q1, hq1, hle1⟩ := outsideCostsAux_le_path hg hnn p _ hg.size hp
    (hp.length_le_size hgr rank hr)
  obtain ⟨p1, hp1, hps1⟩ := outsideCostsAux_attained hg hnn _ _ _ hq1
  obtain ⟨q2, hq2, hle2⟩ := insideCostsAux_le_path hg hnn hg.size p1 _ hp1
    (hp1.length_le_size hgr rank hr)
  rw [h] at hq2
  have e : q = q2 := by simpa using hq2
  rw [hq1]
  congr 1
  linarith

namespace SdlFloat

theorem push_start_arith (x : ℚ) (o : SdlFloat) (ho : Valid o) :
    add (fin x) (add o (neg (fin 0))) = add (fin x) o := by
  rcases ho.cases with ⟨y, rfl⟩ | rfl <;> simp [SdlFloat.add, SdlFloat.neg]

theorem push_other_eq (x d : ℚ) (o : SdlFloat) (h : add (fin x) o = fin d) :
    add (fin x) (add o (neg (fin d))) = fin 0 := by
  rcases o with y | _ | _ | _ <;> simp_all [SdlFloat.add, SdlFloat.neg]
  rw [← h]
  ring

theorem push_other_le (x d : ℚ) (o : SdlFloat) (ho : Valid o)
    (h : le (fin d) (add (fin x) o) = true) :
    le (fin 0) (add (fin x) (add o (neg (fin d)))) = true := by
  rcases ho.cases with ⟨y, rfl⟩ | rfl
  · simp only [SdlFloat.add, SdlFloat.neg, SdlFloat.le, decide_eq_true_eq] at h ⊢
    linarith
  · simp [SdlFloat.add, SdlFloat.neg, SdlFloat.le]

theorem le_zero_add (x : ℚ) (o : SdlFloat) (hx : 0 ≤ x) (ho : Valid o)
    (hy : ∀ y, o = fin y → 0 ≤ y) : le (fin 0) (add (fin x) o) = true := by
  rcases ho.cases with ⟨y, rfl⟩ | rfl
  · have := hy y rfl
    simp only [SdlFloat.add, SdlFloat.le, decide_eq_true_eq]
    linarith
  · simp [SdlFloat.add, SdlFloat.le]

end SdlFloat

theorem outsideCostsAux_nonneg (hg : IHypergraph SdlFloat) (hnn : NonNegCosts hg) (k : Nat)
    (s : StateId) (y : ℚ) (h : outsideCostsAux hg k s = fin y) : 0 ≤ y := by
  obtain ⟨p, hp, hps⟩ := outsideCostsAux_attained hg hnn k s y h
  rw [← hps]
  exact pathSum_nonneg hnn hp.mem_arcs

/-- At a state other than the final state with a finite outside cost, the
candidates `cost + outside[head]` of the out-arcs are at least the outside
cost, and one of them is the outside cost. -/
theorem outsideCostsAux_candidates (hg : IHypergraph SdlFloat) (hgr : hg.isGraph = true)
    (rank : StateId → Nat)
    (hr : ∀ a ∈ hg.arcs_, rank a.head_ < hg.size ∧ ∀ t ∈ a.tails_, rank t < rank a.head_)
    (hnn : NonNegCosts hg) (s : StateId) (hs : s ≠ hg.final_) (d : ℚ)
    (h : outsideCostsAux hg hg.size s = fin d) :
    (∃ a ∈ outArcs hg s, add a.weight_ (outsideCostsAux hg hg.size a.head_) = fin d) ∧
    ∀ a ∈ outArcs hg s,
      le (fin d) (add a.weight_ (outsideCostsAux hg hg.size a.head_)) = true := by
  have hfix := outsideCostsAux_fixpoint hg hgr rank hr s
  rw [outsideStep_eq _ _ _ hs, h] at hfix
  have hval : ∀ c ∈ (outArcs hg s).map
      (fun a => a.weight_ + outsideCostsAux hg hg.size a.head_), Valid c := by
    intro c hc
    obtain ⟨b, hb, rfl⟩ := List.mem_map.1 hc
    obtain ⟨y, hy, -⟩ := hnn b (mem_outArcs.1 hb).1
    rw [hy]
    exact (valid_fin y).add (outsideCostsAux_valid hg hnn.validCosts _ _)
  constructor
  · rcases foldl_min_mem ((outArcs hg s).map
        (fun a => a.weight_ + outsideCostsAux hg hg.size a.head_)) posInf with hm | hm
    · rw [hm] at hfix
      exact absurd hfix (by simp)
    · rw [← hfix] at hm
      obtain ⟨a, ha, hae⟩ := List.mem_map.1 hm
      exact ⟨a, ha, hae⟩
  · intro a ha
    have := (foldl_min_le _ _ valid_posInf hval).2 _
      (List.mem_map_of_mem (fun a => a.weight_ + outsideCostsAux hg hg.size a.head_) ha)
    rw [← hfix] at this
    exact this

theorem head_ne_start_of_reachable {W : Type} {hg : IHypergraph W} (hgr : hg.isGraph = true)
    (rank : StateId → Nat)
    (hr : ∀ a ∈ hg.arcs_, rank a.head_ < hg.size ∧ ∀ t ∈ a.tails_, rank t < rank a.head_)
    {s : StateId} {p : List (Arc W)} (hp : IsPath hg hg.start_ p s) {a : Arc W}
    (ha : a ∈ outArcs hg s) : a.head_ ≠ hg.start_ := by
  intro h
  have h1 := (hp.rank_le hgr rank hr).1
  have h2 := (rank_lt_of_mem_outArcs hgr rank hr ha).1
  rw [h] at h2
  omega

/-- In exact arithmetic, on an acyclic single-tail graph with a start and a final
state that differ, with arc costs that are numbers and not negative, and a
finite `inside[final]`, `PushCostsToStart` completes and reweights every arc;
every arc on a start→final path gets a cost that is not negative; at every
state other than start and final on such a path the new costs of the out-arcs
are not negative and one of them is `0`; and the new costs of the arcs leaving
the start state are at least `inside[final]`, one of them being
`inside[final]`. -/
theorem pushCostsToStart_locally_normalized (hg : IHypergraph SdlFloat)
    (hstart : hg.start ≠ kNoState) (hfinal : hg.final ≠ kNoState)
    (hgr : hg.isGraph = true) (hac : Acyclic hg) (hnn : NonNegCosts hg)
    (hsf : hg.start ≠ hg.final)
    (hbest : isFinite (insideCosts hg hg.sizeForHeads hg.final) = true) :
    (PushCostsToStart hg).error = none ∧
    (PushCostsToStart hg).hg.arcs_ = hg.arcs_.map (pushedArc hg) ∧
    (∀ a, ArcOnStartFinalPath hg a → SdlFloat.le 0 (pushedArc hg a).weight_ = true) ∧
    (∀ s, s ≠ hg.start → s ≠ hg.final → OnStartFinalPath hg s →
      (∃ a ∈ outArcs hg s, (pushedArc hg a).weight_ = 0) ∧
      ∀ a ∈ outArcs hg s, SdlFloat.le 0 (pushedArc hg a).weight_ = true) ∧
    (∃ a ∈ outArcs hg hg.start,
      (pushedArc hg a).weight_ = insideCosts hg hg.sizeForHeads hg.final) ∧
    ∀ a ∈ outArcs hg hg.start,
      SdlFloat.le (insideCosts hg hg.sizeForHeads hg.final) (pushedArc hg a).weight_ = true := by
  obtain ⟨rank, hr⟩ := hac
  have hbest' : isFinite (insideCostsAux hg hg.size hg.final_) = true := hbest
  have hsf' : hg.start_ ≠ hg.final_ := hsf
  obtain ⟨D, hD⟩ := (isFinite_iff _).1 hbest'
  have hD' : insideCosts hg hg.sizeForHeads hg.final = fin D := hD
  have houtS := outside_start_eq_inside_final hg hgr rank hr hnn D hD
  obtain ⟨p0, hp0, -⟩ := insideCostsAux_attained hg hnn _ _ _ hD
  have hN : hg.size ≠ 0 := by
    cases p0 with
    | nil => exact absurd hp0 hsf'
    | cons a p =>
      have := (hr a hp0.1).1
      omega
  have hrun := PushCostsToStart_of_finite hfinal hgr hstart hN hbest'
  have hvalid := outsideCostsAux_valid hg hnn.validCosts hg.size
  -- the states on a start→final path other than start and final
  have hB : ∀ s, s ≠ hg.start_ → s ≠ hg.final_ → OnStartFinalPath hg s →
      (∃ a ∈ outArcs hg s, (pushedArc hg a).weight_ = fin 0) ∧
      ∀ a ∈ outArcs hg s, SdlFloat.le (fin 0) (pushedArc hg a).weight_ = true := by
    intro s hs1 hs2 hon
    obtain ⟨p1, p2, hp1, hp2⟩ := hon
    have hfin2 : ∀ a ∈ p2, isFinite a.weight_ = true := by
      intro a ha
      obtain ⟨x, hx, -⟩ := hnn a (hp2.mem_arcs a ha)
      rw [hx]
      rfl
    obtain ⟨d, hd⟩ := (isFinite_iff _).1 (outsideCostsAux_finite hg hnn.validCosts p2 s hg.size
      hp2 hfin2 (hp2.length_le_size hgr rank hr))
    obtain ⟨⟨a, ha, hae⟩, hall⟩ := outsideCostsAux_candidates hg hgr rank hr hnn s hs2 d hd
    have hw : ∀ b ∈ outArcs hg s, ∃ x, b.weight_ = fin x ∧ (pushedArc hg b).weight_ =
        add (fin x) (add (outsideCostsAux hg hg.size b.head_) (neg (fin d))) := by
      intro b hb
      obtain ⟨x, hx, -⟩ := hnn b (mem_outArcs.1 hb).1
      refine ⟨x, hx, ?_⟩
      rw [pushedArc_weight hg b (head_ne_start_of_reachable hgr rank hr hp1 hb),
        (mem_outArcs.1 hb).2, if_neg hs1, hd, hx]
    constructor
    · obtain ⟨x, hx, hpw⟩ := hw a ha
      refine ⟨a, ha, ?_⟩
      rw [hpw]
      rw [hx] at hae
      exact push_other_eq x d _ hae
    · intro b hb
      obtain ⟨x, hx, hpw⟩ := hw b hb
      rw [hpw]
      have := hall b hb
      rw [hx] at this
      exact push_other_le x d _ (hvalid _) this
  -- the arcs leaving the start state
  have hwS : ∀ b ∈ outArcs hg hg.start_, ∃ x, 0 ≤ x ∧ b.weight_ = fin x ∧
      (pushedArc hg b).weight_ = add (fin x) (outsideCostsAux hg hg.size b.head_) := by
    intro b hb
    obtain ⟨x, hx, hx0⟩ := hnn b (mem_outArcs.1 hb).1
    refine ⟨x, hx0, hx, ?_⟩
    have hnil : IsPath hg hg.start_ [] hg.start_ := rfl
    rw [pushedArc_weight hg b (head_ne_start_of_reachable hgr rank hr hnil hb),
      (mem_outArcs.1 hb).2, if_pos rfl, hx]
    exact push_start_arith x _ (hvalid _)
  obtain ⟨⟨aS, haS, haSe⟩, hallS⟩ :=
    outsideCostsAux_candidates hg hgr rank hr hnn hg.start_ hsf' D houtS
  refine ⟨by rw [hrun], by rw [hrun]; rfl, ?_, hB, ?_, ?_⟩
  · rintro a ⟨ha, p1, p2, hp1, hp2⟩
    have haout : a ∈ outArcs hg a.firstTail := mem_outArcs.2 ⟨ha, rfl⟩
    by_cases ht : a.firstTail = hg.start_
    · rw [ht] at haout
      obtain ⟨x, hx0, hx, hpw⟩ := hwS a haout
      rw [hpw]
      exact le_zero_add x _ hx0 (hvalid _) (outsideCostsAux_nonneg hg hnn _ _)
    · have hpt : IsPath hg a.firstTail (a :: p2) hg.final_ := ⟨ha, rfl, hp2⟩
      have htf : a.firstTail ≠ hg.final_ := by
        intro h
        have := (hpt.rank_le hgr rank hr).1
        rw [h] at this
        simp only [List.length_cons] at this
        omega
      exact (hB a.firstTail ht htf ⟨p1, a :: p2, hp1, hpt⟩).2 a haout
  · obtain ⟨x, -, hx, hpw⟩ := hwS aS haS
    refine ⟨aS, haS, ?_⟩
    rw [hpw, hD', ← hx]
    exact haSe
  · intro b hb
    obtain ⟨x, -, hx, hpw⟩ := hwS b hb
    rw [hpw, hD', ← hx]
    exact hallS b hb

theorem exampleAutomaton_nonNegCosts : NonNegCosts exampleAutomaton := by
  intro a ha
  simp only [exampleAutomaton, List.mem_cons, List.mem_singleton, List.not_mem_nil,
    or_false] at ha
  rcases ha with rfl | rfl | rfl
  · exact ⟨7/10, rfl, by norm_num⟩
  · exact ⟨4/10, rfl, by norm_num⟩
  · exact ⟨9/10, rfl, by norm_num⟩

theorem exampleAutomaton_inside_final :
    insideCosts exampleAutomaton exampleAutomaton.sizeForHeads exampleAutomaton.final =
      fin (9/10) := by
  simp [insideCosts, insideCostsAux, insideStep, exampleAutomaton, IHypergraph.inArcs,
    IHypergraph.sizeForHeads, IHypergraph.final, Arc.firstTail, SdlFloat.min]
  norm_num

/-- The exact run on the example automaton `start -0.7-> s1 -0.4-> final`,
`start -0.9-> final`: the reweighting completes, and an arc leaving the start
state gets the cost `inside[final]`. -/
theorem pushCostsToStart_locally_normalized_witness :
    (PushCostsToStart exampleAutomaton).error = none ∧
    ∃ a ∈ outArcs exampleAutomaton exampleAutomaton.start,
      (pushedArc exampleAutomaton a).weight_ =
        insideCosts exampleAutomaton exampleAutomaton.sizeForHeads exampleAutomaton.final :=
  ⟨(pushCostsToStart_locally_normalized exampleAutomaton (by decide) (by decide) (by decide)
      exampleAutomaton_acyclic exampleAutomaton_nonNegCosts (by decide)
      (by rw [exampleAutomaton_inside_final]; rfl)).1,
   (pushCostsToStart_locally_normalized exampleAutomaton (by decide) (by decide) (by decide)
      exampleAutomaton_acyclic exampleAutomaton_nonNegCosts (by decide)
      (by rw [exampleAutomaton_inside_final]; rfl)).2.2.2.2.1⟩

theorem pushCostsToStart_startFinalAutomaton :
    PushCostsToStart startFinalAutomaton =
      ⟨{ mutable_ := true, properties_ := 2,
         labels_ := [Sym.noSymbol, Sym.noSymbol],
         arcs_ := [⟨1, [0], SdlFloat.posInf⟩],
         start_ := 0, final_ := 0 }, none⟩ := by
  simp [PushCostsToStart, IHypergraph.prunedEmpty, IHypergraph.isGraph, IHypergraph.start,
    IHypergraph.final, IHypergraph.isMutable, IHypergraph.sizeForHeads, kNoState,
    IHypergraph.forceFirstTailOutArcs, IHypergraph.forArcs, pushCostsArc, outside0,
    outsideCosts, outsideCostsAux, outsideStep, outArcs, insideCosts, insideCostsAux,
    insideStep, startFinalAutomaton, IHypergraph.inArcs, Arc.firstTail, SdlFloat.min,
    is_inf, kStoreFirstTailOutArcs, SdlFloat.add, SdlFloat.neg]

/-- In exact arithmetic, the automaton with the states `0` and `1`,
`start = final = 0` and the one arc `0 -1-> 1` is an acyclic single-tail graph
with a non-negative cost, and its best path, the empty one, has the finite cost
`inside[final] = 0`. `PushCostsToStart` completes on it and gives the only arc
that leaves the start state the cost `+inf`, which is not `inside[final]`. -/
theorem pushCostsToStart_start_is_final :
    startFinalAutomaton.isGraph = true ∧ Acyclic startFinalAutomaton ∧
    NonNegCosts startFinalAutomaton ∧
    IsPath startFinalAutomaton startFinalAutomaton.start [] startFinalAutomaton.final ∧
    insideCosts startFinalAutomaton startFinalAutomaton.sizeForHeads
      startFinalAutomaton.final = SdlFloat.fin 0 ∧
    (PushCostsToStart startFinalAutomaton).error = none ∧
    (PushCostsToStart startFinalAutomaton).hg.arcs_ = [⟨1, [0], SdlFloat.posInf⟩] ∧
    outArcs (PushCostsToStart startFinalAutomaton).hg startFinalAutomaton.start =
      [⟨1, [0], SdlFloat.posInf⟩] ∧
    ¬ ∃ a ∈ outArcs (PushCostsToStart startFinalAutomaton).hg startFinalAutomaton.start,
      a.weight_ = insideCosts startFinalAutomaton startFinalAutomaton.sizeForHeads
        startFinalAutomaton.final := by
  have hin : insideCosts startFinalAutomaton startFinalAutomaton.sizeForHeads
      startFinalAutomaton.final = SdlFloat.fin 0 := by
    simp [insideCosts, insideCostsAux, insideStep, startFinalAutomaton,
      IHypergraph.sizeForHeads, IHypergraph.final]
  have hout : outArcs (PushCostsToStart startFinalAutomaton).hg startFinalAutomaton.start =
      [⟨1, [0], SdlFloat.posInf⟩] := by
    rw [pushCostsToStart_startFinalAutomaton]
    simp [outArcs, Arc.firstTail, startFinalAutomaton, IHypergraph.start]
  refine ⟨by decide, ⟨fun s => s, by simp [startFinalAutomaton, IHypergraph.size]⟩, ?_, rfl,
    hin, by rw [pushCostsToStart_startFinalAutomaton],
    by rw [pushCostsToStart_startFinalAutomaton], hout, ?_⟩
  · intro a ha
    simp only [startFinalAutomaton, List.mem_singleton] at ha
    subst ha
    exact ⟨1, rfl, by norm_num⟩
  · rw [hout, hin]
    simp
/-! ## NfcOptions: which normal form the members ask for -/

/-- C31 (failing input). With `nfkc` set, `validate()` sets `nfc`, and
`normalize(in, out)` calls the normalizer with its `nfkc` argument true; but
`normalize(in)` in place and `maybeNormalize(in, out)` call the five-parameter
`maybeNormalizeToNfc` with four arguments, so that `nfkc` is taken as
`warnFalsePositiveOk` and the `nfkc` parameter has its default value false. On
the text made of the ligature U+FB01, with a normalizer that replaces the
ligature by `fi` for NFKC only, `normalize(in, out)` gives `fi` while the in-place
`normalize(in)` leaves the ligature and `maybeNormalize` reports nothing to
do. -/
theorem nfkc_dropped_by_inplace_normalize :
    (∀ (U : NfcNormalizer) (nfc warnIfNotNfc warnIfResultNotNfc : Bool) (inp out : String),
      (NfcOptions.validate ⟨nfc, true, warnIfNotNfc, warnIfResultNotNfc⟩).nfc = true ∧
      (NfcOptions.validate ⟨nfc, true, warnIfNotNfc, warnIfResultNotNfc⟩).nfkc = true ∧
      (NfcOptions.validate ⟨nfc, true, warnIfNotNfc, warnIfResultNotNfc⟩).normalizeTo U inp out =
        U.normalizeToNfc inp out warnIfNotNfc true ∧
      (NfcOptions.validate ⟨nfc, true, warnIfNotNfc, warnIfResultNotNfc⟩).maybeNormalize U inp
          out = U.maybeNormalizeToNfc inp out warnIfNotNfc true false ∧
      (NfcOptions.validate ⟨nfc, true, warnIfNotNfc, warnIfResultNotNfc⟩).normalize U inp =
        if (U.maybeNormalizeToNfc inp "" warnIfNotNfc true false).1
        then (U.maybeNormalizeToNfc inp "" warnIfNotNfc true false).2 else inp) ∧
    (NfcOptions.validate { nfkc := true }).normalizeTo ligatureNormalizer
      (String.mk [Char.ofNat 64257]) "" = "fi" ∧
    (NfcOptions.validate { nfkc := true }).normalize ligatureNormalizer
      (String.mk [Char.ofNat 64257]) = String.mk [Char.ofNat 64257] ∧
    (NfcOptions.validate { nfkc := true }).maybeNormalize ligatureNormalizer
      (String.mk [Char.ofNat 64257]) "" = (false, "") := by
  refine ⟨?_, by decide, by decide, by decide⟩
  intro U nfc w wr inp out
  cases w <;> simp [NfcOptions.validate, NfcOptions.normalizeTo, NfcOptions.maybeNormalize,
    NfcOptions.normalize, normalizeToNfcInplace, NfcStringRef, maybeNormalizeToNfc]
/-! ## PushWeightsToFinal: the new weight of an arc -/

theorem prod_axiom_or_inside {W : Type} [Semifield W] (hg : IHypergraph W)
    (inside : StateId → W) (tails : List StateId) :
    (tails.map (fun t => if hg.isAxiom t then 1 else inside t)).prod =
      ((tails.filter (fun t => !hg.isAxiom t)).map inside).prod := by
  induction tails with
  | nil => rfl
  | cons t ts ih =>
    by_cases h : hg.isAxiom t = true
    · simp [h, ih]
    · have h' : hg.isAxiom t = false := by simpa using h
      simp [h', ih]

/-- C32. When the inside weight of the final state is not zero,
`PushWeightsToFinal` completes and visits every arc of the hypergraph. For a
visited arc whose head `h` is a state: if `h` is not final and `inside[h]` is
zero the new weight is zero; otherwise the new weight is the old weight times
the product of `inside[t]` over the tails `t` that are not axioms, divided by
`inside[h]` when `h` is not final and not divided when `h` is final. Head and
tails are kept. -/
theorem pushWeightsToFinal_arc_weight {W : Type} [Semifield W] [DecidableEq W]
    (hg : IHypergraph W) (hfin : insideAlgorithm hg hg.sizeForHeads hg.final ≠ 0)
    (a : Arc W) (hh : a.head_ < hg.sizeForHeads) :
    (PushWeightsToFinal hg).error = none ∧
    (PushWeightsToFinal hg).hg.arcs_ = hg.arcs_.map (finalPushedArc hg) ∧
    (finalPushedArc hg a).head_ = a.head_ ∧ (finalPushedArc hg a).tails_ = a.tails_ ∧
    (a.head_ ≠ hg.final ∧ insideAlgorithm hg hg.sizeForHeads a.head_ = 0 →
      (finalPushedArc hg a).weight_ = 0) ∧
    (¬ (a.head_ ≠ hg.final ∧ insideAlgorithm hg hg.sizeForHeads a.head_ = 0) →
      (finalPushedArc hg a).weight_ =
        if a.head_ ≠ hg.final then
          a.weight_ * ((a.tails_.filter (fun t => !hg.isAxiom t)).map
            (insideAlgorithm hg hg.sizeForHeads)).prod /
            insideAlgorithm hg hg.sizeForHeads a.head_
        else
          a.weight_ * ((a.tails_.filter (fun t => !hg.isAxiom t)).map
            (insideAlgorithm hg hg.sizeForHeads)).prod) := by
  have hrun := PushWeightsToFinal_of_ne_zero hg hfin
  refine ⟨by rw [hrun], by rw [hrun]; rfl, ?_, ?_, ?_, ?_⟩
  · unfold finalPushedArc pushWeightsArc
    rw [if_pos hh]
    split <;> rfl
  · unfold finalPushedArc pushWeightsArc
    rw [if_pos hh]
    split <;> rfl
  · intro hz
    unfold finalPushedArc pushWeightsArc
    rw [if_pos hh, if_pos hz]
  · intro hz
    unfold finalPushedArc pushWeightsArc
    rw [if_pos hh, if_neg hz]
    simp only [foldl_tails_eq, prod_axiom_or_inside]
    by_cases hf : a.head_ = hg.final
    · simp [hf]
    · simp only [ne_eq, hf, not_false_eq_true, if_true]
      rw [div_mul_eq_mul_div]

/-- On the hypergraph with the arcs `1 ← (0)` of weight `1/2` and `2 ← (0)` of
weight `1/3`, start `0` and final `1`, the arc into the final state is among the
arcs visited and keeps head and tails. -/
theorem pushWeightsToFinal_arc_weight_witness :
    (PushWeightsToFinal deadEndHypergraph).error = none ∧
    (finalPushedArc deadEndHypergraph ⟨1, [0], 1/2⟩).head_ = 1 :=
  ⟨(pushWeightsToFinal_arc_weight deadEndHypergraph
      (by
        have hin : insideAlgorithm deadEndHypergraph deadEndHypergraph.sizeForHeads
            deadEndHypergraph.final = 1/2 := by
          show insideAlgorithm deadEndHypergraph 3 1 = 1/2
          simp [insideAlgorithm, insideAlgorithmAux, insideWeightStep, IHypergraph.isAxiom,
            IHypergraph.hasLexicalLabel, IHypergraph.inputLabel, IHypergraph.inArcs,
            deadEndHypergraph]
        rw [hin]
        norm_num)
      ⟨1, [0], 1/2⟩ (by decide)).1,
   (pushWeightsToFinal_arc_weight deadEndHypergraph
      (by
        have hin : insideAlgorithm deadEndHypergraph deadEndHypergraph.sizeForHeads
            deadEndHypergraph.final = 1/2 := by
          show insideAlgorithm deadEndHypergraph 3 1 = 1/2
          simp [insideAlgorithm, insideAlgorithmAux, insideWeightStep, IHypergraph.isAxiom,
            IHypergraph.hasLexicalLabel, IHypergraph.inputLabel, IHypergraph.inArcs,
            deadEndHypergraph]
        rw [hin]
        norm_num)
      ⟨1, [0], 1/2⟩ (by decide)).2.2.1⟩
/-! ## Ordered maps and vote counting -/

theorem NatMap.find_insert {α : Type} (m : NatMap α) (k : Nat) (v : α) (j : Nat) :
    (m.insert k v).find j = if j = k then some v else m.find j := by
  induction m with
  | nil =>
    by_cases h : j = k
    · simp [NatMap.insert, NatMap.find, h]
    · have h' : ¬ k = j := fun e => h e.symm
      simp [NatMap.insert, NatMap.find, h, h']
  | cons e rest ih =>
    obtain ⟨k', v'⟩ := e
    unfold NatMap.insert
    by_cases h1 : k < k'
    · rw [if_pos h1]
      by_cases h : j = k
      · simp [NatMap.find, h]
      · have h' : ¬ k = j := fun e => h e.symm
        rw [if_neg h]
        conv_lhs => unfold NatMap.find
        rw [if_neg h']
    · rw [if_neg h1]
      by_cases h2 : k' = k
      · rw [if_pos h2]
        by_cases h : j = k
        · simp [NatMap.find, h]
        · have h' : ¬ k = j := fun e => h e.symm
          have h'' : ¬ k' = j := fun e => h (e.symm.trans h2)
          rw [if_neg h]
          conv_lhs => unfold NatMap.find
          conv_rhs => unfold NatMap.find
          rw [if_neg h', if_neg h'']
      · rw [if_neg h2]
        conv_lhs => unfold NatMap.find
        conv_rhs => unfold NatMap.find
        by_cases h3 : k' = j
        · have h : ¬ j = k := fun e => h2 (h3.trans e)
          simp [h3, h]
        · simp only [h3, if_false]
          exact ih

theorem NatMap.insert_keys {α : Type} (m : NatMap α) (k : Nat) (v : α) :
    ∀ j, j ∈ (m.insert k v).map (fun e => e.1) ↔ j = k ∨ j ∈ m.map (fun e => e.1) := by
  induction m with
  | nil => intro j; simp [NatMap.insert]
  | cons e rest ih =>
    obtain ⟨k', v'⟩ := e
    intro j
    unfold NatMap.insert
    by_cases h1 : k < k'
    · simp [h1]
    · rw [if_neg h1]
      by_cases h2 : k' = k
      · simp [h2]
      · rw [if_neg h2]
        simp only [List.map_cons, List.mem_cons, ih j]
        tauto

theorem NatMap.insert_ordered {α : Type} (m : NatMap α) (k : Nat) (v : α)
    (h : NatMap.Ordered m) : NatMap.Ordered (m.insert k v) := by
  induction m with
  | nil => simp [NatMap.insert, NatMap.Ordered]
  | cons e rest ih =>
    obtain ⟨k', v'⟩ := e
    unfold NatMap.Ordered at h ih ⊢
    rw [List.pairwise_cons] at h
    unfold NatMap.insert
    by_cases h1 : k < k'
    · rw [if_pos h1, List.pairwise_cons]
      refine ⟨?_, List.pairwise_cons.2 h⟩
      intro a ha
      rcases List.mem_cons.1 ha with rfl | ha
      · exact h1
      · exact Nat.lt_trans h1 (h.1 a ha)
    · rw [if_neg h1]
      by_cases h2 : k' = k
      · rw [if_pos h2, List.pairwise_cons]
        refine ⟨?_, h.2⟩
        intro a ha
        rw [← h2]
        exact h.1 a ha
      · rw [if_neg h2, List.pairwise_cons]
        refine ⟨?_, ih h.2⟩
        intro a ha
        have hk : a.1 ∈ (NatMap.insert rest k v).map (fun e => e.1) := List.mem_map_of_mem _ ha
        rcases (NatMap.insert_keys rest k v a.1).1 hk with hak | hak
        · rw [hak]
          exact Nat.lt_of_le_of_ne (Nat.le_of_not_lt h1) h2
        · obtain ⟨b, hb, hba⟩ := List.mem_map.1 hak
          have := h.1 b hb
          rw [hba] at this
          exact this

theorem NatMap.mem_of_find {α : Type} (m : NatMap α) (k : Nat) (v : α)
    (h : m.find k = some v) : (k, v) ∈ m := by
  induction m with
  | nil => simp [NatMap.find] at h
  | cons e rest ih =>
    obtain ⟨k', v'⟩ := e
    unfold NatMap.find at h
    by_cases h1 : k' = k
    · rw [if_pos h1] at h
      have : v' = v := Option.some.inj h
      rw [h1, this]
      exact List.mem_cons_self _ _
    · rw [if_neg h1] at h
      exact List.mem_cons_of_mem _ (ih h)

theorem NatMap.find_of_mem {α : Type} (m : NatMap α) (k : Nat) (v : α)
    (hord : NatMap.Ordered m) (h : (k, v) ∈ m) : m.find k = some v := by
  induction m with
  | nil => simp at h
  | cons e rest ih =>
    obtain ⟨k', v'⟩ := e
    unfold NatMap.Ordered at hord ih
    rw [List.pairwise_cons] at hord
    unfold NatMap.find
    rcases List.mem_cons.1 h with heq | hmem
    · have h1 : k' = k := (Prod.mk.inj heq).1.symm
      have h2 : v' = v := (Prod.mk.inj heq).2.symm
      rw [if_pos h1, h2]
    · have hlt := hord.1 (k, v) hmem
      have h1 : ¬ k' = k := Nat.ne_of_lt hlt
      rw [if_neg h1]
      exact ih hord.2 hmem

/-- Counting votes: after the votes `bs` the map holds, for each bound, the
count it held before plus the number of votes for it. -/
theorem foldl_incrementVote (bs : List Nat) (v : NatMap Nat) (hord : NatMap.Ordered v) :
    NatMap.Ordered (bs.foldl incrementVote v) ∧
    ∀ k, (bs.foldl incrementVote v).find k =
      if (v.find k).isSome ∨ k ∈ bs then some ((v.find k).getD 0 + bs.count k) else none := by
  induction bs generalizing v with
  | nil =>
    refine ⟨hord, fun k => ?_⟩
    cases h : v.find k <;> simp [h]
  | cons b bs ih =>
    have hord1 : NatMap.Ordered (incrementVote v b) := NatMap.insert_ordered _ _ _ hord
    obtain ⟨h1, h2⟩ := ih (incrementVote v b) hord1
    refine ⟨h1, fun k => ?_⟩
    rw [List.foldl_cons, h2 k]
    unfold incrementVote
    rw [NatMap.find_insert]
    by_cases hk : k = b
    · subst hk
      simp only [if_true, Option.isSome_some, true_or, Option.getD_some, List.mem_cons,
        or_true, List.count_cons_self]
      congr 1
      omega
    · have hk' : ¬ b = k := fun e => hk e.symm
      simp only [hk, if_false, List.mem_cons, false_or, List.count_cons, hk', beq_iff_eq,
        Nat.add_zero]

/-- The vote map of a list of votes: a bound has an entry exactly when it was
voted for, and the entry is the number of its votes. -/
theorem votes_entries (bs : List Nat) :
    NatMap.Ordered (bs.foldl incrementVote []) ∧
    ∀ k c, (k, c) ∈ bs.foldl incrementVote [] ↔ k ∈ bs ∧ c = bs.count k := by
  have hnil : NatMap.Ordered ([] : NatMap Nat) := List.Pairwise.nil
  obtain ⟨h1, h2⟩ := foldl_incrementVote bs [] hnil
  refine ⟨h1, fun k c => ?_⟩
  have hk := h2 k
  simp only [NatMap.find, Option.isSome_none, Bool.false_eq_true, false_or, Option.getD_none,
    Nat.zero_add] at hk
  constructor
  · intro hmem
    have hf := NatMap.find_of_mem _ k c h1 hmem
    rw [hk] at hf
    by_cases hkb : k ∈ bs
    · rw [if_pos hkb] at hf
      exact ⟨hkb, (Option.some.inj hf).symm⟩
    · rw [if_neg hkb] at hf
      cases hf
  · rintro ⟨hkb, rfl⟩
    apply NatMap.mem_of_find
    rw [hk, if_pos hkb]

/-- The loop of `getMaxValueIter` on entries in increasing key order: the
result is an entry of the greatest count, and the first one of that count. -/
theorem getMaxValueLoop_spec (rest : List (Nat × Nat)) :
    ∀ best : Nat × Nat, (∀ e ∈ rest, best.1 < e.1) →
      List.Pairwise (fun a b : Nat × Nat => a.1 < b.1) rest →
      (getMaxValueLoop best rest = best ∨ getMaxValueLoop best rest ∈ rest) ∧
      best.2 ≤ (getMaxValueLoop best rest).2 ∧
      (∀ e ∈ rest, e.2 ≤ (getMaxValueLoop best rest).2) ∧
      ((getMaxValueLoop best rest).2 = best.2 → getMaxValueLoop best rest = best) ∧
      (∀ e ∈ rest, e.2 = (getMaxValueLoop best rest).2 →
        (getMaxValueLoop best rest).1 ≤ e.1) := by
  induction rest with
  | nil =>
    intro best _ _
    simp [getMaxValueLoop]
  | cons e rest ih =>
    intro best hlt hpw
    rw [List.pairwise_cons] at hpw
    have hlt' : ∀ e' ∈ rest, (if best.2 < e.2 then e else best).1 < e'.1 := by
      intro e' he'
      split
      · exact hpw.1 e' he'
      · exact hlt e' (List.mem_cons_of_mem _ he')
    obtain ⟨i1, i2, i3, i4, i5⟩ := ih (if best.2 < e.2 then e else best) hlt' hpw.2
    show (getMaxValueLoop (if best.2 < e.2 then e else best) rest = best ∨
        getMaxValueLoop (if best.2 < e.2 then e else best) rest ∈ e :: rest) ∧
      best.2 ≤ (getMaxValueLoop (if best.2 < e.2 then e else best) rest).2 ∧
      (∀ e' ∈ e :: rest, e'.2 ≤ (getMaxValueLoop (if best.2 < e.2 then e else best) rest).2) ∧
      ((getMaxValueLoop (if best.2 < e.2 then e else best) rest).2 = best.2 →
        getMaxValueLoop (if best.2 < e.2 then e else best) rest = best) ∧
      (∀ e' ∈ e :: rest,
        e'.2 = (getMaxValueLoop (if best.2 < e.2 then e else best) rest).2 →
        (getMaxValueLoop (if best.2 < e.2 then e else best) rest).1 ≤ e'.1)
    by_cases hbe : best.2 < e.2
    · simp only [hbe, if_true] at i1 i2 i3 i4 i5 ⊢
      refine ⟨?_, by omega, ?_, ?_, ?_⟩
      · rcases i1 with h | h
        · exact Or.inr (by rw [h]; exact List.mem_cons_self _ _)
        · exact Or.inr (List.mem_cons_of_mem _ h)
      · intro e' he'
        rcases List.mem_cons.1 he' with rfl | he'
        · exact i2
        · exact i3 e' he'
      · intro h
        omega
      · intro e' he' heq
        rcases List.mem_cons.1 he' with rfl | he'
        · rw [i4 heq.symm]
        · exact i5 e' he' heq
    · simp only [hbe, if_false] at i1 i2 i3 i4 i5 ⊢
      refine ⟨?_, i2, ?_, i4, ?_⟩
      · rcases i1 with h | h
        · exact Or.inl h
        · exact Or.inr (List.mem_cons_of_mem _ h)
      · intro e' he'
        rcases List.mem_cons.1 he' with rfl | he'
        · omega
        · exact i3 e' he'
      · intro e' he' heq
        rcases List.mem_cons.1 he' with rfl | he'
        · have : (getMaxValueLoop best rest).2 = best.2 := by omega
          rw [i4 this]
          exact Nat.le_of_lt (hlt e' (List.mem_cons_self _ _))
        · exact i5 e' he' heq

theorem getMaxValueIter_spec (aMap : NatMap Nat) (hne : aMap ≠ [])
    (hord : NatMap.Ordered aMap) :
    ∃ e, getMaxValueIter aMap = Res.ok e ∧ e ∈ aMap ∧ (∀ e' ∈ aMap, e'.2 ≤ e.2) ∧
      ∀ e' ∈ aMap, e'.2 = e.2 → e.1 ≤ e'.1 := by
  cases aMap with
  | nil => exact absurd rfl hne
  | cons e rest =>
    unfold NatMap.Ordered at hord
    rw [List.pairwise_cons] at hord
    obtain ⟨i1, i2, i3, i4, i5⟩ := getMaxValueLoop_spec rest e hord.1 hord.2
    refine ⟨getMaxValueLoop e rest, rfl, ?_, ?_, ?_⟩
    · rcases i1 with h | h
      · rw [h]
        exact List.mem_cons_self _ _
      · exact List.mem_cons_of_mem _ h
    · intro e' he'
      rcases List.mem_cons.1 he' with rfl | he'
      · exact i2
      · exact i3 e' he'
    · intro e' he' heq
      rcases List.mem_cons.1 he' with rfl | he'
      · rw [i4 heq.symm]
      · exact i5 e' he' heq

/-- C36. On a vote map that is not empty, with its entries in key order as
`std::map` keeps them, `getMaxValueIter` returns an entry of the map whose
count is the greatest of all counts, and whose key is the smallest among the
entries of that count. -/
theorem getMaxValueIter_max_count_smallest_key (aMap : NatMap Nat) (hne : aMap ≠ [])
    (hord : NatMap.Ordered aMap) :
    ∃ e, getMaxValueIter aMap = Res.ok e ∧ e ∈ aMap ∧ (∀ e' ∈ aMap, e'.2 ≤ e.2) ∧
      ∀ e' ∈ aMap, e'.2 = e.2 → e.1 ≤ e'.1 := by
  cases aMap with
  | nil => exact absurd rfl hne
  | cons e rest =>
    unfold NatMap.Ordered at hord
    rw [List.pairwise_cons] at hord
    obtain ⟨i1, i2, i3, i4, i5⟩ := getMaxValueLoop_spec rest e hord.1 hord.2
    refine ⟨getMaxValueLoop e rest, rfl, ?_, ?_, ?_⟩
    · rcases i1 with h | h
      · rw [h]
        exact List.mem_cons_self _ _
      · exact List.mem_cons_of_mem _ h
    · intro e' he'
      rcases List.mem_cons.1 he' with rfl | he'
      · exact i2
      · exact i3 e' he'
    · intro e' he' heq
      rcases List.mem_cons.1 he' with rfl | he'
      · rw [i4 heq.symm]
      · exact i5 e' he' heq

/-- The votes 3, 5, 3, 5, 7 counted: the bounds 3 and 5 have two votes each, and
the entry returned is that of the bound 3. -/
theorem getMaxValueIter_max_count_smallest_key_witness :
    ∃ e, getMaxValueIter [(3, 2), (5, 2), (7, 1)] = Res.ok e ∧
      e ∈ [(3, 2), (5, 2), (7, 1)] ∧
      (∀ e' ∈ [(3, 2), (5, 2), (7, 1)], e'.2 ≤ e.2) ∧
      ∀ e' ∈ [(3, 2), (5, 2), (7, 1)], e'.2 = e.2 → e.1 ≤ e'.1 :=
  getMaxValueIter_max_count_smallest_key [(3, 2), (5, 2), (7, 1)] (by decide)
    (by unfold NatMap.Ordered; decide)
/-! ## SubUnion: the votes of the bubble-up pass -/

theorem votes_length (bs : List Nat) :
    (bs.foldl incrementVote []).length = bs.dedup.length := by
  obtain ⟨hord, hmem⟩ := votes_entries bs
  have hnd : ((bs.foldl incrementVote []).map (fun e => e.1)).Nodup := by
    unfold NatMap.Ordered at hord
    have h1 : List.Pairwise (fun a b : Nat => a < b)
        ((bs.foldl incrementVote []).map (fun e => e.1)) := List.pairwise_map.2 hord
    exact h1.imp (fun h => Nat.ne_of_lt h)
  have hperm : ((bs.foldl incrementVote []).map (fun e => e.1)).Perm bs.dedup := by
    rw [List.perm_ext_iff_of_nodup hnd (List.nodup_dedup bs)]
    intro k
    rw [List.mem_dedup, List.mem_map]
    constructor
    · rintro ⟨⟨k', c⟩, he, rfl⟩
      exact ((hmem k' c).1 he).1
    · intro hk
      exact ⟨(k, bs.count k), (hmem k _).2 ⟨hk, rfl⟩, rfl⟩
  rw [← hperm.length_eq, List.length_map]

/-- The entry that `getMaxValueIter` returns on the vote map of a list of votes
is a most voted bound, the smallest one. -/
theorem getMaxValueIter_votes (bs : List Nat) (hne : bs ≠ []) :
    ∃ e, getMaxValueIter (bs.foldl incrementVote []) = Res.ok e ∧ MostVoted bs e.1 := by
  obtain ⟨hord, hmem⟩ := votes_entries bs
  have hne' : bs.foldl incrementVote [] ≠ [] := by
    intro h
    cases bs with
    | nil => exact hne rfl
    | cons b bs =>
      have := (hmem b ((b :: bs).count b)).2 ⟨List.mem_cons_self _ _, rfl⟩
      rw [h] at this
      simp at this
  obtain ⟨e, he, hin, hmax, htie⟩ := getMaxValueIter_spec _ hne' hord
  refine ⟨e, he, ?_⟩
  obtain ⟨h1, h2⟩ := (hmem e.1 e.2).1 hin
  refine ⟨h1, fun k hk => ?_⟩
  have hk' := (hmem k (bs.count k)).2 ⟨hk, rfl⟩
  constructor
  · rw [← h2]
    exact hmax _ hk'
  · intro heq
    exact htie _ hk' (by rw [h2]; exact heq)

theorem foldl_incrementVote_filter (covers : List Span) (f : Span → Nat) (v : NatMap Nat) :
    covers.foldl (fun v c => if defined (f c) then incrementVote v (f c) else v) v =
      ((covers.map f).filter defined).foldl incrementVote v := by
  induction covers generalizing v with
  | nil => rfl
  | cons c cs ih =>
    simp only [List.foldl_cons, List.map_cons]
    by_cases h : defined (f c) = true
    · rw [List.filter_cons_of_pos h, List.foldl_cons, if_pos h]
      exact ih _
    · rw [List.filter_cons_of_neg h, if_neg h]
      exact ih _

/-- The first loop of `getSourceSpansBubbleUp` counts, for each bound, the
in-arcs whose covering span has that bound defined. -/
theorem bubbleUp_arcs_votes {W : Type}
    (recurse : StateId → StateIdToSpan → Res (Span × StateIdToSpan)) (arcs : List (Arc W)) :
    ∀ (vl vr : NatMap Nat) (m : StateIdToSpan) (r : NatMap Nat × NatMap Nat × StateIdToSpan),
      arcs.foldlM (bubbleUpArcStep recurse) (vl, vr, m) = Res.ok r →
      ∃ covers, bubbleUpCovers recurse arcs m = Res.ok (covers, r.2.2) ∧
        r.1 = (definedLefts covers).foldl incrementVote vl ∧
        r.2.1 = (definedRights covers).foldl incrementVote vr := by
  induction arcs with
  | nil =>
    intro vl vr m r h
    simp only [List.foldlM_nil, Res.pure_def] at h
    cases h
    exact ⟨[], rfl, rfl, rfl⟩
  | cons arc arcs ih =>
    intro vl vr m r h
    rw [List.foldlM_cons, Res.bind_def] at h
    obtain ⟨acc1, hacc1, hrest⟩ := Res.bind_eq_ok h
    unfold bubbleUpArcStep at hacc1
    simp only [Res.bind_def, Res.pure_def] at hacc1
    obtain ⟨x, hx, hx2⟩ := Res.bind_eq_ok hacc1
    obtain ⟨cover, m1⟩ := x
    cases hx2
    obtain ⟨covers, hc, hl, hr⟩ := ih _ _ _ r hrest
    refine ⟨cover :: covers, ?_, ?_, ?_⟩
    · unfold bubbleUpCovers
      rw [hx]
      simp only [Res.bind, hc]
    · rw [hl]
      unfold definedLefts
      simp only [List.map_cons]
      by_cases hd : defined cover.left = true
      · rw [List.filter_cons_of_pos hd, List.foldl_cons, if_pos hd]
      · rw [List.filter_cons_of_neg hd, if_neg hd]
    · rw [hr]
      unfold definedRights
      simp only [List.map_cons]
      by_cases hd : defined cover.right = true
      · rw [List.filter_cons_of_pos hd, List.foldl_cons, if_pos hd]
      · rw [List.filter_cons_of_neg hd, if_neg hd]

theorem leftVotes_ne_nil (covers : List Span) (label : Span) : leftVotes covers label ≠ [] := by
  unfold leftVotes
  by_cases h : reliableCovers covers = true
  · rw [if_pos h]
    intro hnil
    unfold reliableCovers at h
    rw [hnil] at h
    simp at h
  · rw [if_neg h]
    simp

theorem rightVotes_ne_nil (covers : List Span) (label : Span) :
    rightVotes covers label ≠ [] := by
  unfold rightVotes
  by_cases h : reliableCovers covers = true
  · rw [if_pos h]
    intro hnil
    unfold reliableCovers at h
    rw [hnil] at h
    simp at h
  · rw [if_neg h]
    simp

/-- The end of `getSourceSpansBubbleUp` on the vote maps of the covering spans:
the span stored has a most voted left and a most voted right bound. -/
theorem bubbleUpFinish_votes {W : Type} (hg : IHypergraph W) (s : StateId)
    (covers : List Span) (m : StateIdToSpan) :
    ∃ sp, bubbleUpFinish hg s ((definedLefts covers).foldl incrementVote [],
        (definedRights covers).foldl incrementVote [], m) = Res.ok (sp, m.insert s sp) ∧
      MostVoted (leftVotes covers (inferSpanFromLabel (hg.inputLabel s))) sp.left ∧
      MostVoted (rightVotes covers (inferSpanFromLabel (hg.inputLabel s))) sp.right := by
  obtain ⟨el, hel, hml⟩ := getMaxValueIter_votes _
    (leftVotes_ne_nil covers (inferSpanFromLabel (hg.inputLabel s)))
  obtain ⟨er, her, hmr⟩ := getMaxValueIter_votes _
    (rightVotes_ne_nil covers (inferSpanFromLabel (hg.inputLabel s)))
  refine ⟨⟨el.1, er.1⟩, ?_, hml, hmr⟩
  have hunrel : ((((definedLefts covers).foldl incrementVote []).length != 1) ||
      (((definedRights covers).foldl incrementVote []).length != 1)) =
      !reliableCovers covers := by
    rw [votes_length, votes_length]
    unfold reliableCovers
    by_cases h1 : (definedLefts covers).dedup.length = 1 <;>
      by_cases h2 : (definedRights covers).dedup.length = 1 <;> simp [h1, h2]
  have hL : (if (!reliableCovers covers) = true then
        incrementVote ((definedLefts covers).foldl incrementVote [])
          (inferSpanFromLabel (hg.inputLabel s)).left
      else (definedLefts covers).foldl incrementVote []) =
      (leftVotes covers (inferSpanFromLabel (hg.inputLabel s))).foldl incrementVote [] := by
    unfold leftVotes
    cases reliableCovers covers <;> simp [List.foldl_append]
  have hR : (if (!reliableCovers covers) = true then
        incrementVote ((definedRights covers).foldl incrementVote [])
          (inferSpanFromLabel (hg.inputLabel s)).right
      else (definedRights covers).foldl incrementVote []) =
      (rightVotes covers (inferSpanFromLabel (hg.inputLabel s))).foldl incrementVote [] := by
    unfold rightVotes
    cases reliableCovers covers <;> simp [List.foldl_append]
  unfold bubbleUpFinish
  simp only [Res.bind_def, Res.pure_def, hunrel, hL, hR, hel, her, Res.ok_bind]

theorem Res.bind_ok_or_outOfFuel {α β : Type} {x : Res α} {f : α → Res β}
    (hx : (∃ r, x = Res.ok r) ∨ x = Res.outOfFuel)
    (hf : ∀ a, x = Res.ok a → (∃ r, f a = Res.ok r) ∨ f a = Res.outOfFuel) :
    (∃ r, x.bind f = Res.ok r) ∨ x.bind f = Res.outOfFuel := by
  rcases hx with ⟨a, ha⟩ | ha
  · rw [ha]
    exact hf a ha
  · rw [ha]
    exact Or.inr rfl

/-- A loop whose steps complete or exhaust the budget completes or exhausts the
budget. -/
theorem Res.foldlM_ok_or_outOfFuel {α β : Type} (f : β → α → Res β) (l : List α) (init : β)
    (h : ∀ b a, a ∈ l → (∃ r, f b a = Res.ok r) ∨ f b a = Res.outOfFuel) :
    (∃ r, l.foldlM f init = Res.ok r) ∨ l.foldlM f init = Res.outOfFuel := by
  induction l generalizing init with
  | nil => exact Or.inl ⟨init, rfl⟩
  | cons a l ih =>
    rw [List.foldlM_cons, Res.bind_def]
    apply Res.bind_ok_or_outOfFuel (h init a (by simp))
    intro b _
    exact ih b (fun b' a' ha' => h b' a' (by simp [ha']))

theorem bubbleUpArcStep_ok_or_outOfFuel {W : Type}
    (recurse : StateId → StateIdToSpan → Res (Span × StateIdToSpan))
    (hrec : ∀ t m, (∃ r, recurse t m = Res.ok r) ∨ recurse t m = Res.outOfFuel)
    (acc : NatMap Nat × NatMap Nat × StateIdToSpan) (arc : Arc W) :
    (∃ r, bubbleUpArcStep recurse acc arc = Res.ok r) ∨
      bubbleUpArcStep recurse acc arc = Res.outOfFuel := by
  unfold bubbleUpArcStep
  simp only [Res.bind_def, Res.pure_def]
  apply Res.bind_ok_or_outOfFuel
  · apply Res.foldlM_ok_or_outOfFuel
    intro b t _
    unfold bubbleUpTailStep
    simp only [Res.bind_def, Res.pure_def]
    apply Res.bind_ok_or_outOfFuel (hrec _ _)
    intro a _
    exact Or.inl ⟨_, rfl⟩
  · intro a _
    exact Or.inl ⟨_, rfl⟩

/-- The bubble-up pass throws no exception and reads no missing entry: it
completes unless the recursion budget is exhausted. -/
theorem getSourceSpansBubbleUp_ok_or_outOfFuel {W : Type} (hg : IHypergraph W) (fuel : Nat) :
    ∀ (s : StateId) (m : StateIdToSpan),
      (∃ r, getSourceSpansBubbleUp hg fuel s m = Res.ok r) ∨
        getSourceSpansBubbleUp hg fuel s m = Res.outOfFuel := by
  induction fuel with
  | zero =>
    intro s m
    exact Or.inr rfl
  | succ fuel ih =>
    intro s m
    rw [getSourceSpansBubbleUp]
    split
    · exact Or.inl ⟨_, rfl⟩
    · split
      · exact Or.inl ⟨_, rfl⟩
      · simp only [Res.bind_def]
        apply Res.bind_ok_or_outOfFuel
        · apply Res.foldlM_ok_or_outOfFuel
          intro b arc _
          exact bubbleUpArcStep_ok_or_outOfFuel _ (fun t m' => ih t m') b arc
        · intro acc hacc
          obtain ⟨covers, -, hl, hr⟩ := bubbleUp_arcs_votes _ _ _ _ _ _ hacc
          obtain ⟨sp, hsp, -⟩ := bubbleUpFinish_votes hg s covers acc.2.2
          rw [← hl, ← hr] at hsp
          exact Or.inl ⟨_, hsp⟩

theorem dedup_length_of_all_eq (l : List Nat) (a : Nat) (hne : l ≠ [])
    (h : ∀ x ∈ l, x = a) : l.dedup.length = 1 := by
  have hnd := List.nodup_dedup l
  have hall : ∀ x ∈ l.dedup, x = a := fun x hx => h x (List.mem_dedup.1 hx)
  match hd : l.dedup with
  | [] => exact absurd (List.dedup_eq_nil l |>.1 hd) hne
  | [x] => rfl
  | x :: y :: rest =>
    rw [hd] at hnd hall
    have hx := hall x (by simp)
    have hy := hall y (by simp)
    rw [List.nodup_cons] at hnd
    exact absurd (by simp [hx, hy]) hnd.1

/-- C35. On an acyclic hypergraph, for a state `s` without a stored span:
when `s` is lexical, `getSourceSpansBubbleUp` stores and returns `kNullSpan`.
When `s` is not lexical, the call completes; with `covers` the covering spans of
the in-arcs of `s`, the left (right) bound stored for `s` is the most frequent
one, the smallest of the most frequent ones, among the defined left (right)
bounds of `covers` together with the left (right) bound of the span of the
label of `s`, which votes exactly when `covers` does not yield exactly one
distinct left bound and exactly one distinct right bound. So when the covering
spans are all the same span with both bounds defined, that span is stored, and
when no covering span has a defined bound, the span of the label is stored. -/
theorem bubbleUp_assigns_most_voted_bounds {W : Type} (hg : IHypergraph W)
    (hac : Acyclic hg) (s : StateId) (m : StateIdToSpan) (hm : m.find s = none) :
    (hg.hasLexicalLabel s = true →
      getSourceSpansBubbleUp hg (hg.size + 1) s m = Res.ok (kNullSpan, m.insert s kNullSpan)) ∧
    (hg.hasLexicalLabel s = false →
      ∃ covers m1 sp,
        bubbleUpCovers (fun t m' => getSourceSpansBubbleUp hg hg.size t m') (hg.inArcs s) m =
          Res.ok (covers, m1) ∧
        getSourceSpansBubbleUp hg (hg.size + 1) s m = Res.ok (sp, m1.insert s sp) ∧
        MostVoted (leftVotes covers (inferSpanFromLabel (hg.inputLabel s))) sp.left ∧
        MostVoted (rightVotes covers (inferSpanFromLabel (hg.inputLabel s))) sp.right ∧
        (∀ c : Span, covers ≠ [] → (∀ c' ∈ covers, c' = c) → defined c.left = true →
          defined c.right = true → sp = c) ∧
        ((∀ c' ∈ covers, defined c'.left = false ∧ defined c'.right = false) →
          sp = inferSpanFromLabel (hg.inputLabel s))) := by
  constructor
  · intro hlex
    rw [getSourceSpansBubbleUp]
    simp only [hm, hlex, if_true]
  · intro hlex
    obtain ⟨rank, hrank⟩ := hac
    have hfuel : getSourceSpansBubbleUp hg (hg.size + 1) s m ≠ Res.outOfFuel := by
      apply getSourceSpansBubbleUp_ne_outOfFuel hg rank hrank (hg.size + 1) s m (by omega)
      intro a ha hs
      have := (hrank a ha).1
      rw [hs] at this
      omega
    rcases getSourceSpansBubbleUp_ok_or_outOfFuel hg (hg.size + 1) s m with ⟨r, hr⟩ | hr
    swap
    · exact absurd hr hfuel
    have hr' := hr
    rw [getSourceSpansBubbleUp] at hr'
    simp only [hm, hlex, Bool.false_eq_true, if_false, Res.bind_def] at hr'
    obtain ⟨acc, hacc, hfin⟩ := Res.bind_eq_ok hr'
    obtain ⟨covers, hcov, hl, hrr⟩ := bubbleUp_arcs_votes _ _ _ _ _ _ hacc
    obtain ⟨sp, hsp, hml, hmr⟩ := bubbleUpFinish_votes hg s covers acc.2.2
    rw [← hl, ← hrr] at hsp
    have hreq : r = (sp, acc.2.2.insert s sp) := by
      have : bubbleUpFinish hg s acc = bubbleUpFinish hg s (acc.1, acc.2.1, acc.2.2) := rfl
      rw [this, hsp] at hfin
      exact (Res.ok.inj hfin).symm
    refine ⟨covers, acc.2.2, sp, hcov, by rw [hr, hreq], hml, hmr, ?_, ?_⟩
    · intro c hne hall hdl hdr
      have hL : ∀ x ∈ definedLefts covers, x = c.left := by
        intro x hx
        unfold definedLefts at hx
        obtain ⟨c', hc', rfl⟩ := List.mem_map.1 (List.mem_filter.1 hx).1
        rw [hall c' hc']
      have hR : ∀ x ∈ definedRights covers, x = c.right := by
        intro x hx
        unfold definedRights at hx
        obtain ⟨c', hc', rfl⟩ := List.mem_map.1 (List.mem_filter.1 hx).1
        rw [hall c' hc']
      obtain ⟨c0, hc0⟩ := List.exists_mem_of_ne_nil covers hne
      have hLne : definedLefts covers ≠ [] := by
        apply List.ne_nil_of_mem (a := c.left)
        unfold definedLefts
        exact List.mem_filter.2 ⟨List.mem_map.2 ⟨c0, hc0, by rw [hall c0 hc0]⟩, hdl⟩
      have hRne : definedRights covers ≠ [] := by
        apply List.ne_nil_of_mem (a := c.right)
        unfold definedRights
        exact List.mem_filter.2 ⟨List.mem_map.2 ⟨c0, hc0, by rw [hall c0 hc0]⟩, hdr⟩
      have hrel : reliableCovers covers = true := by
        unfold reliableCovers
        rw [dedup_length_of_all_eq _ _ hLne hL, dedup_length_of_all_eq _ _ hRne hR]
        simp
      have h1 := hml.1
      have h2 := hmr.1
      unfold leftVotes at h1
      unfold rightVotes at h2
      rw [if_pos hrel] at h1 h2
      have e1 := hL _ h1
      have e2 := hR _ h2
      cases sp
      cases c
      simp only at e1 e2
      rw [e1, e2]
    · intro hnone
      have hL : definedLefts covers = [] := by
        unfold definedLefts
        apply List.filter_eq_nil_iff.2
        intro x hx
        obtain ⟨c', hc', rfl⟩ := List.mem_map.1 hx
        rw [(hnone c' hc').1]
        simp
      have hR : definedRights covers = [] := by
        unfold definedRights
        apply List.filter_eq_nil_iff.2
        intro x hx
        obtain ⟨c', hc', rfl⟩ := List.mem_map.1 hx
        rw [(hnone c' hc').2]
        simp
      have hrel : reliableCovers covers = false := by
        unfold reliableCovers
        rw [hL]
        simp
      have h1 := hml.1
      have h2 := hmr.1
      unfold leftVotes at h1
      unfold rightVotes at h2
      rw [hrel, hL] at h1
      rw [hrel, hR] at h2
      simp only [Bool.false_eq_true, if_false, List.nil_append, List.mem_singleton] at h1 h2
      cases sp
      simp only at h1 h2
      rw [h1, h2]

/-- On the tree `A`, whose final state 4 is not lexical, the call completes and
the left bound stored for the final state is a most voted one. -/
theorem bubbleUp_assigns_most_voted_bounds_witness :
    ∃ (covers : List Span) (sp : Span) (m1 : StateIdToSpan),
      getSourceSpansBubbleUp treeA (treeA.size + 1) 4 [] = Res.ok (sp, m1.insert 4 sp) ∧
      MostVoted (leftVotes covers (inferSpanFromLabel (treeA.inputLabel 4))) sp.left := by
  obtain ⟨covers, m1, sp, -, h2, h3, -⟩ :=
    (bubbleUp_assigns_most_voted_bounds treeA ⟨fun s => s, by decide⟩ 4 [] rfl).2 (by decide)
  exact ⟨covers, sp, m1, h2, h3⟩
/-! ## SubUnion: the bubble-down pass only fills in undefined bounds -/

theorem NatMap.ordered_iff_keys {α : Type} (m : NatMap α) :
    NatMap.Ordered m ↔ List.Pairwise (fun a b : Nat => a < b) (m.map (fun e => e.1)) := by
  unfold NatMap.Ordered
  rw [List.pairwise_map]

theorem NatMap.find_isSome_iff {α : Type} (m : NatMap α) (k : Nat) :
    (∃ v, m.find k = some v) ↔ k ∈ m.map (fun e => e.1) := by
  induction m with
  | nil => simp [NatMap.find]
  | cons e rest ih =>
    obtain ⟨k', v'⟩ := e
    unfold NatMap.find
    by_cases h : k' = k
    · simp [h]
    · have h' : ¬ k = k' := fun e => h e.symm
      simp only [h, if_false, List.map_cons, List.mem_cons, h', false_or]
      exact ih

theorem NatMap.insert_keys_of_find {α : Type} (m : NatMap α) (k : Nat) (v v0 : α)
    (hord : NatMap.Ordered m) (hf : m.find k = some v0) :
    (m.insert k v).map (fun e => e.1) = m.map (fun e => e.1) := by
  induction m with
  | nil => simp [NatMap.find] at hf
  | cons e rest ih =>
    obtain ⟨k', v'⟩ := e
    unfold NatMap.Ordered at hord ih
    rw [List.pairwise_cons] at hord
    unfold NatMap.find at hf
    unfold NatMap.insert
    by_cases h : k' = k
    · have h1 : ¬ k < k' := by omega
      rw [if_neg h1, if_pos h]
      simp [h]
    · rw [if_neg h] at hf
      obtain ⟨b, hb, hbk⟩ := List.mem_map.1 ((NatMap.find_isSome_iff rest k).1 ⟨v0, hf⟩)
      have hlt := hord.1 b hb
      rw [hbk] at hlt
      have h1 : ¬ k < k' := by
        have hlt' : k' < k := hlt
        omega
      rw [if_neg h1, if_neg h]
      simp only [List.map_cons]
      rw [ih hord.2 hf]

theorem VisitedFrom.visited_trans {W : Type} {hg : IHypergraph W} {s t h : StateId}
    (hst : VisitedFrom hg s t) (hth : VisitedFrom hg t h) : VisitedFrom hg s h := by
  induction hth with
  | root => exact hst
  | tail h' arc t' _ harc ht ih => exact VisitedFrom.tail h' arc t' ih harc ht

theorem BoundKept.kept_of_visited {W : Type} {hg : IHypergraph W} {s t : StateId}
    (hst : VisitedFrom hg s t) {m' : StateIdToSpan} {side : Span → Nat}
    {pos : List StateId → Option StateId} {k : StateId} {old new : Nat}
    (h : BoundKept hg t m' side pos k old new) : BoundKept hg s m' side pos k old new := by
  rcases h with h | ⟨h1, h2, hd, arc, sph, h3, h4, h5, h6, h7⟩
  · exact Or.inl h
  · exact Or.inr ⟨h1, h2, hd, arc, sph, hst.visited_trans h3, h4, h5, h6, h7⟩

theorem BubbledDown.down_of_visited {W : Type} {hg : IHypergraph W} {s t : StateId}
    (hst : VisitedFrom hg s t) {m m' : StateIdToSpan} (h : BubbledDown hg t m m') :
    BubbledDown hg s m m' := by
  refine ⟨h.keys, fun k sp hk => ?_⟩
  obtain ⟨sp', h1, h2, h3⟩ := h.bounds k sp hk
  exact ⟨sp', h1, h2.kept_of_visited hst, h3.kept_of_visited hst⟩

theorem BubbledDown.down_refl {W : Type} (hg : IHypergraph W) (s : StateId)
    (m : StateIdToSpan) : BubbledDown hg s m m :=
  ⟨rfl, fun _ sp hk => ⟨sp, hk, Or.inl rfl, Or.inl rfl⟩⟩

theorem BoundKept.kept_trans {W : Type} {hg : IHypergraph W} {s : StateId}
    {m2 m3 : StateIdToSpan} {side : Span → Nat} {pos : List StateId → Option StateId}
    {k : StateId} {b1 b2 b3 : Nat}
    (hside : ∀ h sph, m2.find h = some sph → ∃ sph', m3.find h = some sph' ∧
      (side sph' = side sph ∨ defined (side sph) = false))
    (h12 : BoundKept hg s m2 side pos k b1 b2) (h23 : BoundKept hg s m3 side pos k b2 b3) :
    BoundKept hg s m3 side pos k b1 b3 := by
  rcases h12 with h12 | ⟨u1, d2, hd, arc, sph, v1, v2, v3, v4, v5⟩
  · rw [h12] at h23
    exact h23
  · rcases h23 with h23 | ⟨u2, -⟩
    · right
      obtain ⟨sph', hf, hs⟩ := hside hd sph v4
      refine ⟨u1, by rw [h23]; exact d2, hd, arc, sph', v1, v2, v3, hf, ?_⟩
      rcases hs with hs | hs
      · rw [hs, v5, h23]
      · rw [v5, d2] at hs
        cases hs
    · rw [d2] at u2
      cases u2

theorem BoundKept.side_cases {W : Type} {hg : IHypergraph W} {s : StateId}
    {m' : StateIdToSpan} {side : Span → Nat} {pos : List StateId → Option StateId}
    {k : StateId} {old new : Nat} (h : BoundKept hg s m' side pos k old new) :
    new = old ∨ defined old = false := by
  rcases h with h | ⟨h, -⟩
  · exact Or.inl h
  · exact Or.inr h

theorem BubbledDown.down_trans {W : Type} {hg : IHypergraph W} {s : StateId}
    {m1 m2 m3 : StateIdToSpan} (h12 : BubbledDown hg s m1 m2) (h23 : BubbledDown hg s m2 m3) :
    BubbledDown hg s m1 m3 := by
  refine ⟨by rw [h23.keys, h12.keys], fun k sp hk => ?_⟩
  obtain ⟨sp2, f2, l2, r2⟩ := h12.bounds k sp hk
  obtain ⟨sp3, f3, l3, r3⟩ := h23.bounds k sp2 f2
  refine ⟨sp3, f3, ?_, ?_⟩
  · apply BoundKept.kept_trans _ l2 l3
    intro h sph hh
    obtain ⟨sph', g1, g2, -⟩ := h23.bounds h sph hh
    exact ⟨sph', g1, g2.side_cases⟩
  · apply BoundKept.kept_trans _ r2 r3
    intro h sph hh
    obtain ⟨sph', g1, -, g3⟩ := h23.bounds h sph hh
    exact ⟨sph', g1, g3.side_cases⟩

theorem BubbledDown.ordered {W : Type} {hg : IHypergraph W} {s : StateId}
    {m m' : StateIdToSpan} (h : BubbledDown hg s m m') (hord : NatMap.Ordered m) :
    NatMap.Ordered m' := by
  rw [NatMap.ordered_iff_keys] at hord ⊢
  rw [h.keys]
  exact hord

theorem setUnlessDefined_cases (x v : Nat) :
    setUnlessDefined x v = x ∨ (defined x = false ∧ defined v = true ∧ setUnlessDefined x v = v) := by
  unfold setUnlessDefined
  by_cases hx : defined x = true
  · left
    rw [if_pos hx]
  · rw [if_neg hx]
    by_cases hv : defined v = true
    · right
      exact ⟨by simpa using hx, hv, rfl⟩
    · left
      have hx' : x = kNullPosition := by simpa [defined] using hx
      have hv' : v = kNullPosition := by simpa [defined] using hv
      rw [hx', hv']

theorem mem_zip_range {α : Type} (l : List α) (n : Nat) (i : Nat) (t : α)
    (h : (i, t) ∈ (List.range n).zip l) : l[i]? = some t := by
  obtain ⟨j, hj⟩ := List.mem_iff_getElem?.1 h
  rw [List.getElem?_zip_eq_some] at hj
  obtain ⟨h1, h2⟩ := hj
  have hij : j = i := by
    rw [List.getElem?_range] at h1
    · exact Option.some.inj h1
    · by_contra hlt
      rw [List.getElem?_eq_none (by simpa using hlt)] at h1
      cases h1
  rw [← hij]
  exact h2

theorem BubbledDown.root_entry {W : Type} {hg : IHypergraph W} {s : StateId}
    {m b : StateIdToSpan} {sSpan : Span} (h : BubbledDown hg s m b)
    (hs : m.find s = some sSpan) :
    ∃ sph, b.find s = some sph ∧ (defined sSpan.left = true → sph.left = sSpan.left) ∧
      (defined sSpan.right = true → sph.right = sSpan.right) := by
  obtain ⟨sp', h1, h2, h3⟩ := h.bounds s sSpan hs
  refine ⟨sp', h1, fun hd => ?_, fun hd => ?_⟩
  · rcases h2.side_cases with h | h
    · exact h
    · rw [hd] at h
      cases h
  · rcases h3.side_cases with h | h
    · exact h
    · rw [hd] at h
      cases h

theorem bubbleDownTailStep_eq
    (recurse : StateId → Span → StateIdToSpan → Res StateIdToSpan) (sSpan : Span) (n : Nat)
    (m : StateIdToSpan) (it : Nat × StateId) (found : Span) (hfind : m.find it.2 = some found) :
    ∃ found2, bubbleDownTailStep recurse sSpan n m it =
        recurse it.2 found2 (m.insert it.2 found2) ∧
      found2.left =
        (if (it.1 == 0) = true then setUnlessDefined found.left sSpan.left else found.left) ∧
      found2.right =
        (if (it.1 == n - 1) = true then setUnlessDefined found.right sSpan.right
          else found.right) := by
  unfold bubbleDownTailStep
  rw [hfind]
  refine ⟨_, rfl, ?_, ?_⟩
  · generalize (it.1 == 0) = b0
    generalize (it.1 == n - 1) = bl
    cases b0 <;> cases bl <;> rfl
  · generalize (it.1 == 0) = b0
    generalize (it.1 == n - 1) = bl
    cases b0 <;> cases bl <;> rfl

/-- One tail of one in-arc of `s`: the entry of the tail gets the bounds of `s`
where its own are undefined, and the pass goes on below the tail. -/
theorem bubbleDownTailStep_down {W : Type} (hg : IHypergraph W) (s : StateId) (sSpan : Span)
    (arc : Arc W) (harc : arc ∈ hg.inArcs s)
    (recurse : StateId → Span → StateIdToSpan → Res StateIdToSpan)
    (hrec : ∀ t sp m m', NatMap.Ordered m → m.find t = some sp → recurse t sp m = Res.ok m' →
      BubbledDown hg t m m')
    (m m' : StateIdToSpan) (it : Nat × StateId)
    (hit : it ∈ (List.range arc.tails_.length).zip arc.tails_) (hord : NatMap.Ordered m)
    (hsm : ∃ sph, m.find s = some sph ∧ (defined sSpan.left = true → sph.left = sSpan.left) ∧
      (defined sSpan.right = true → sph.right = sSpan.right))
    (h : bubbleDownTailStep recurse sSpan arc.tails_.length m it = Res.ok m') :
    BubbledDown hg s m m' := by
  obtain ⟨sph, hsph, hsl, hsr⟩ := hsm
  have hget := mem_zip_range _ _ _ _ hit
  have htail : it.2 ∈ arc.tails_ := (List.of_mem_zip hit).2
  cases hfind : m.find it.2 with
  | none =>
    unfold bubbleDownTailStep at h
    rw [hfind] at h
    cases h
  | some found =>
    obtain ⟨found2, heq, hfl, hfr⟩ :=
      bubbleDownTailStep_eq recurse sSpan arc.tails_.length m it found hfind
    rw [heq] at h
    have hleft : found2.left = found.left ∨
        (it.1 = 0 ∧ defined found.left = false ∧ defined sSpan.left = true ∧
          found2.left = sSpan.left) := by
      by_cases h0 : it.1 = 0
      · have hb : (it.1 == 0) = true := by simpa using h0
        rw [if_pos hb] at hfl
        rcases setUnlessDefined_cases found.left sSpan.left with hc | ⟨c1, c2, c3⟩
        · exact Or.inl (hfl.trans hc)
        · exact Or.inr ⟨h0, c1, c2, hfl.trans c3⟩
      · have hb : ¬ (it.1 == 0) = true := by simpa using h0
        rw [if_neg hb] at hfl
        exact Or.inl hfl
    have hright : found2.right = found.right ∨
        (it.1 = arc.tails_.length - 1 ∧ defined found.right = false ∧
          defined sSpan.right = true ∧ found2.right = sSpan.right) := by
      by_cases h0 : it.1 = arc.tails_.length - 1
      · have hb : (it.1 == arc.tails_.length - 1) = true := by simpa using h0
        rw [if_pos hb] at hfr
        rcases setUnlessDefined_cases found.right sSpan.right with hc | ⟨c1, c2, c3⟩
        · exact Or.inl (hfr.trans hc)
        · exact Or.inr ⟨h0, c1, c2, hfr.trans c3⟩
      · have hb : ¬ (it.1 == arc.tails_.length - 1) = true := by simpa using h0
        rw [if_neg hb] at hfr
        exact Or.inl hfr
    have hstep : BubbledDown hg s m (m.insert it.2 found2) := by
      refine ⟨NatMap.insert_keys_of_find m it.2 found2 found hord hfind, fun k sp hk => ?_⟩
      rw [NatMap.find_insert]
      by_cases hkt : k = it.2
      · rw [if_pos hkt]
        rw [hkt, hfind] at hk
        have hsp : found = sp := Option.some.inj hk
        subst hsp
        refine ⟨found2, rfl, ?_, ?_⟩
        · rcases hleft with hl | ⟨h0, c1, c2, c3⟩
          · exact Or.inl hl
          · right
            have hne : ¬ s = it.2 := by
              intro hs
              rw [hs, hfind] at hsph
              have h1 := hsl c2
              rw [← Option.some.inj hsph] at h1
              rw [h1, c2] at c1
              cases c1
            refine ⟨c1, by rw [c3]; exact c2, s, arc, sph, VisitedFrom.root, harc, ?_, ?_,
              (hsl c2).trans c3.symm⟩
            · unfold firstOf
              rw [← h0, hkt]
              exact hget
            · rw [NatMap.find_insert, if_neg hne]
              exact hsph
        · rcases hright with hl | ⟨h0, c1, c2, c3⟩
          · exact Or.inl hl
          · right
            have hne : ¬ s = it.2 := by
              intro hs
              rw [hs, hfind] at hsph
              have h1 := hsr c2
              rw [← Option.some.inj hsph] at h1
              rw [h1, c2] at c1
              cases c1
            refine ⟨c1, by rw [c3]; exact c2, s, arc, sph, VisitedFrom.root, harc, ?_, ?_,
              (hsr c2).trans c3.symm⟩
            · unfold lastOf
              rw [← h0, hkt]
              exact hget
            · rw [NatMap.find_insert, if_neg hne]
              exact hsph
      · rw [if_neg hkt]
        exact ⟨sp, hk, Or.inl rfl, Or.inl rfl⟩
    have hsub := hrec it.2 found2 (m.insert it.2 found2) m'
      (NatMap.insert_ordered _ _ _ hord) (by rw [NatMap.find_insert, if_pos rfl]) h
    exact hstep.down_trans
      (hsub.down_of_visited (VisitedFrom.tail s arc it.2 VisitedFrom.root harc htail))

/-- The bubble-down pass from `s`, when it completes, keeps the keys of the map
and every defined bound, and fills an undefined bound only from a visited
head. -/
theorem getSourceSpansBubbleDown_down {W : Type} (hg : IHypergraph W) (fuel : Nat) :
    ∀ (s : StateId) (sSpan : Span) (m m' : StateIdToSpan),
      NatMap.Ordered m → m.find s = some sSpan →
      getSourceSpansBubbleDown hg fuel s sSpan m = Res.ok m' → BubbledDown hg s m m' := by
  induction fuel with
  | zero =>
    intro s sSpan m m' _ _ h
    simp [getSourceSpansBubbleDown] at h
  | succ fuel ih =>
    intro s sSpan m m' hord hs h
    rw [getSourceSpansBubbleDown] at h
    refine Res.foldlM_inv (fun b => BubbledDown hg s m b) _ (hg.inArcs s) m
      (BubbledDown.down_refl hg s m) ?_ m' h
    intro b arc b' harc hb hstep
    unfold bubbleDownArcStep at hstep
    refine hb.down_trans ?_
    refine Res.foldlM_inv (fun c => BubbledDown hg s b c) _ _ b
      (BubbledDown.down_refl hg s b) ?_ b' hstep
    intro c it c' hit hc hcstep
    refine hc.down_trans ?_
    have hbc := hb.down_trans hc
    exact bubbleDownTailStep_down hg s sSpan arc harc _
      (fun t sp m1 m2 ho hf hr => ih t sp m1 m2 ho hf hr) c c' it hit
      (hbc.ordered hord) (hbc.root_entry hs) hcstep

/-- C37. On an acyclic hypergraph, started at a state `s` with its stored span
on a map in key order, `getSourceSpansBubbleDown` ends within its recursion
budget, and when it completes the map has the keys it had before, every bound
that was defined is unchanged, and every bound is either the bound before the
pass or, the bound before being undefined, the left (right) bound that the map
has for a visited state with an in-arc of which the state is the first (last)
tail. -/
theorem bubbleDown_fills_undefined_bounds_only {W : Type} (hg : IHypergraph W)
    (hac : Acyclic hg) (s : StateId) (sSpan : Span) (m : StateIdToSpan)
    (hord : NatMap.Ordered m) (hs : m.find s = some sSpan) :
    getSourceSpansBubbleDown hg (hg.size + 1) s sSpan m ≠ Res.outOfFuel ∧
    ∀ m', getSourceSpansBubbleDown hg (hg.size + 1) s sSpan m = Res.ok m' →
      m'.map (fun e => e.1) = m.map (fun e => e.1) ∧
      ∀ k sp, m.find k = some sp → ∃ sp', m'.find k = some sp' ∧
        (defined sp.left = true → sp'.left = sp.left) ∧
        (defined sp.right = true → sp'.right = sp.right) ∧
        BoundKept hg s m' (fun x => x.left) firstOf k sp.left sp'.left ∧
        BoundKept hg s m' (fun x => x.right) lastOf k sp.right sp'.right := by
  obtain ⟨rank, hrank⟩ := hac
  constructor
  · apply getSourceSpansBubbleDown_ne_outOfFuel hg rank hrank (hg.size + 1) s sSpan m (by omega)
    intro a ha hs'
    have := (hrank a ha).1
    rw [hs'] at this
    omega
  · intro m' h
    have hdown := getSourceSpansBubbleDown_down hg (hg.size + 1) s sSpan m m' hord hs h
    refine ⟨hdown.keys, fun k sp hk => ?_⟩
    obtain ⟨sp', h1, h2, h3⟩ := hdown.bounds k sp hk
    refine ⟨sp', h1, fun hd => ?_, fun hd => ?_, h2, h3⟩
    · rcases h2.side_cases with h | h
      · exact h
      · rw [hd] at h
        cases h
    · rcases h3.side_cases with h | h
      · exact h
      · rw [hd] at h
        cases h

/-- On the tree `A` with the spans that the bubble-up pass stores, the pass from
the final state 4 completes; the words 0 and 1, which had the null span, get the
spans of the states above them, and the keys are the same. -/
theorem bubbleDown_fills_undefined_bounds_only_witness :
    getSourceSpansBubbleDown treeA (treeA.size + 1) 4 ⟨0, 2⟩
      [(0, kNullSpan), (1, kNullSpan), (2, ⟨0, 1⟩), (3, ⟨1, 2⟩), (4, ⟨0, 2⟩)] =
      Res.ok [(0, ⟨0, 1⟩), (1, ⟨1, 2⟩), (2, ⟨0, 1⟩), (3, ⟨1, 2⟩), (4, ⟨0, 2⟩)] ∧
    ([(0, ⟨0, 1⟩), (1, ⟨1, 2⟩), (2, ⟨0, 1⟩), (3, ⟨1, 2⟩), (4, ⟨0, 2⟩)] :
        StateIdToSpan).map (fun e => e.1) =
      ([(0, kNullSpan), (1, kNullSpan), (2, ⟨0, 1⟩), (3, ⟨1, 2⟩), (4, ⟨0, 2⟩)] :
        StateIdToSpan).map (fun e => e.1) :=
  ⟨by decide,
   ((bubbleDown_fills_undefined_bounds_only treeA ⟨fun s => s, by decide⟩ 4 ⟨0, 2⟩
      [(0, kNullSpan), (1, kNullSpan), (2, ⟨0, 1⟩), (3, ⟨1, 2⟩), (4, ⟨0, 2⟩)]
      (by unfold NatMap.Ordered; decide) (by decide)).2 _ (by decide)).1⟩
/-! ## SubUnion: which states match, and which arcs are synthesized -/

theorem hasLexicalLabel_of_inputLabel_eq {W : Type} (hg result : IHypergraph W)
    (head s : StateId) (hl : result.inputLabel s = hg.inputLabel head) :
    hg.hasLexicalLabel head = result.hasLexicalLabel s := by
  unfold IHypergraph.hasLexicalLabel
  rw [hl]

theorem correspondingStates_foldl {W : Type} (hg result : IHypergraph W) (head : StateId)
    (statesVec : List StateId) :
    ∀ acc : Bool × List StateId,
      (statesVec.foldl (fun (acc : Bool × List StateId) s =>
        if result.hasLexicalLabel s then
          (if result.inputLabel s = hg.inputLabel head then (true, acc.2 ++ [s]) else acc)
        else if !hg.hasLexicalLabel head then (acc.1, acc.2 ++ [s])
        else acc) acc).2 = acc.2 ++ statesVec.filter (statesMatch hg result head) := by
  induction statesVec with
  | nil =>
    intro acc
    simp
  | cons s rest ih =>
    intro acc
    rw [List.foldl_cons, ih]
    by_cases hs : result.hasLexicalLabel s = true
    · by_cases hl : result.inputLabel s = hg.inputLabel head
      · have hh : hg.hasLexicalLabel head = true := by
          rw [hasLexicalLabel_of_inputLabel_eq hg result head s hl]
          exact hs
        have hm : statesMatch hg result head s = true := by
          simp [statesMatch, hs, hh, hl]
        rw [List.filter_cons_of_pos hm]
        simp [hs, hl]
      · have hm : ¬ statesMatch hg result head s = true := by
          simp [statesMatch, hs, hl]
        rw [List.filter_cons_of_neg hm]
        simp [hs, hl]
    · have hs' : result.hasLexicalLabel s = false := by simpa using hs
      by_cases hh : hg.hasLexicalLabel head = true
      · have hm : ¬ statesMatch hg result head s = true := by
          simp [statesMatch, hs', hh]
        rw [List.filter_cons_of_neg hm]
        simp [hs', hh]
      · have hh' : hg.hasLexicalLabel head = false := by simpa using hh
        have hm : statesMatch hg result head s = true := by
          simp [statesMatch, hs', hh']
        rw [List.filter_cons_of_pos hm]
        simp [hs', hh']

/-- C33. The states that the matching loop of `addStatesRecurse` collects for
`head` are, in their order, the states indexed under the span that match `head`:
a state `s` indexed under the span is collected exactly when `s` and `head` are
both not lexical, or both lexical with the same input label, and no other state
is collected. For a `head` with a valid span, `addStatesRecurse` ends with
these states as the states of `head`, unless there is none, or path overlap is
required and not found, in which case it ends with one new state. -/
theorem matching_collects_equivalent_states {W : Type} [One W] (hg : IHypergraph W)
    (hgStateIdToSpan : StateIdToSpan) (resultSpanToStateIds : Span → List StateId)
    (opts : SubUnionOptions) (head : StateId) (parentSpan : Span)
    (acc : Bool × List (List (List StateId)) × AddStatesState W)
    (hfound : (hgStateIdToSpan.find head).isSome = true)
    (hvalid : headSpanOf hg hgStateIdToSpan head parentSpan ≠ kNullSpan) :
    (correspondingStates hg acc.2.2.result head
        (resultSpanToStateIds ((hgStateIdToSpan.find head).getD kNullSpan)) acc.1).2 =
      (resultSpanToStateIds ((hgStateIdToSpan.find head).getD kNullSpan)).filter
        (statesMatch hg acc.2.2.result head) ∧
    (∀ s, s ∈ (correspondingStates hg acc.2.2.result head
        (resultSpanToStateIds ((hgStateIdToSpan.find head).getD kNullSpan)) acc.1).2 ↔
      s ∈ resultSpanToStateIds ((hgStateIdToSpan.find head).getD kNullSpan) ∧
        ((acc.2.2.result.hasLexicalLabel s = false ∧ hg.hasLexicalLabel head = false) ∨
          (acc.2.2.result.hasLexicalLabel s = true ∧ hg.hasLexicalLabel head = true ∧
            acc.2.2.result.inputLabel s = hg.inputLabel head))) ∧
    (addStatesFinish hg hgStateIdToSpan resultSpanToStateIds opts head parentSpan acc).1.2 =
      if ((resultSpanToStateIds ((hgStateIdToSpan.find head).getD kNullSpan)).filter
            (statesMatch hg acc.2.2.result head)).isEmpty ||
          (opts.requirePathOverlap &&
            !(correspondingStates hg acc.2.2.result head
              (resultSpanToStateIds ((hgStateIdToSpan.find head).getD kNullSpan)) acc.1).1)
      then [acc.2.2.result.size]
      else (resultSpanToStateIds ((hgStateIdToSpan.find head).getD kNullSpan)).filter
        (statesMatch hg acc.2.2.result head) := by
  have h1 : (correspondingStates hg acc.2.2.result head
        (resultSpanToStateIds ((hgStateIdToSpan.find head).getD kNullSpan)) acc.1).2 =
      (resultSpanToStateIds ((hgStateIdToSpan.find head).getD kNullSpan)).filter
        (statesMatch hg acc.2.2.result head) := by
    unfold correspondingStates
    rw [correspondingStates_foldl]
    simp
  refine ⟨h1, fun s => ?_, ?_⟩
  · rw [h1, List.mem_filter]
    unfold statesMatch
    cases acc.2.2.result.hasLexicalLabel s <;> cases hg.hasLexicalLabel head <;> simp
  · have hv : (headSpanOf hg hgStateIdToSpan head parentSpan != kNullSpan) = true := by
      simpa using hvalid
    unfold addStatesFinish
    simp only [hfound, hv, Bool.and_self, if_true, h1]
    split <;> rfl

/-- On the trees `A` and `B`: the final state 4 of `B` has the span `0-2`, under
which the state 4 of `A` is indexed, and both are not lexical: the matching loop
collects the states indexed under the span that match. -/
theorem matching_collects_equivalent_states_witness :
    (correspondingStates treeB treeA 4
        (spanToStateIds [(0, ⟨0, 1⟩), (1, ⟨1, 2⟩), (2, ⟨0, 1⟩), (3, ⟨1, 2⟩), (4, ⟨0, 2⟩)]
          ((NatMap.find [(0, ⟨0, 1⟩), (1, ⟨1, 2⟩), (2, ⟨0, 1⟩), (3, ⟨1, 2⟩), (4, ⟨0, 2⟩)]
            4).getD kNullSpan)) false).2 =
      (spanToStateIds [(0, ⟨0, 1⟩), (1, ⟨1, 2⟩), (2, ⟨0, 1⟩), (3, ⟨1, 2⟩), (4, ⟨0, 2⟩)]
          ((NatMap.find [(0, ⟨0, 1⟩), (1, ⟨1, 2⟩), (2, ⟨0, 1⟩), (3, ⟨1, 2⟩), (4, ⟨0, 2⟩)]
            4).getD kNullSpan)).filter (statesMatch treeB treeA 4) :=
  (matching_collects_equivalent_states treeB
    [(0, ⟨0, 1⟩), (1, ⟨1, 2⟩), (2, ⟨0, 1⟩), (3, ⟨1, 2⟩), (4, ⟨0, 2⟩)]
    (spanToStateIds [(0, ⟨0, 1⟩), (1, ⟨1, 2⟩), (2, ⟨0, 1⟩), (3, ⟨1, 2⟩), (4, ⟨0, 2⟩)])
    {} 4 kNullSpan (false, [], ⟨treeA, [], []⟩) (by decide) (by decide)).1

theorem cartesianProduct_of_nil_mem (lists : List (List StateId)) (h : [] ∈ lists) :
    cartesianProduct lists = [] := by
  induction lists with
  | nil => simp at h
  | cons l ls ih =>
    unfold cartesianProduct
    rcases List.mem_cons.1 h with hl | hl
    · rw [← hl]
      rfl
    · rw [ih hl]
      simp

theorem addResultingArcs_eq {W : Type} [One W] (newStates : List StateId)
    (newStatesForTailsPerArc : List (List (List StateId))) (st : AddStatesState W) :
    addResultingArcs newStates newStatesForTailsPerArc st =
      newStates.foldl (fun st newHead =>
        newStatesForTailsPerArc.foldl (fun st newStatesForTails =>
          addArcsForTuples newHead (cartesianProduct newStatesForTails) st) st) st := rfl

theorem addArcsForTuples_cons {W : Type} [One W] (newHead : StateId) (tuple : List StateId)
    (rest : List (List StateId)) (st : AddStatesState W) :
    addArcsForTuples newHead (tuple :: rest) st =
      addArcsForTuples newHead rest
        (if st.resultArcs.contains (tuple ++ [newHead]) then st
          else { st with
            result := st.result.addArc ⟨newHead, tuple, 1⟩,
            resultArcs := (tuple ++ [newHead]) :: st.resultArcs }) := rfl

theorem addArcsForTuples_sublist {W : Type} [One W] (newHead : StateId)
    (cartProd : List (List StateId)) :
    ∀ st : AddStatesState W, ∃ added : List (Arc W),
      (addArcsForTuples newHead cartProd st).result.arcs_ = st.result.arcs_ ++ added ∧
      (addArcsForTuples newHead cartProd st).result.labels_ = st.result.labels_ ∧
      List.Sublist added (cartProd.map (fun tuple => (⟨newHead, tuple, 1⟩ : Arc W))) := by
  induction cartProd with
  | nil =>
    intro st
    exact ⟨[], by simp [addArcsForTuples], rfl, List.Sublist.slnil⟩
  | cons tuple rest ih =>
    intro st
    rw [addArcsForTuples_cons]
    by_cases hc : st.resultArcs.contains (tuple ++ [newHead]) = true
    · rw [if_pos hc]
      obtain ⟨added, h1, h2, h3⟩ := ih st
      exact ⟨added, h1, h2, List.Sublist.cons _ h3⟩
    · rw [if_neg hc]
      obtain ⟨added, h1, h2, h3⟩ := ih
        ({ st with
          result := st.result.addArc ⟨newHead, tuple, 1⟩,
          resultArcs := (tuple ++ [newHead]) :: st.resultArcs } : AddStatesState W)
      refine ⟨⟨newHead, tuple, 1⟩ :: added, ?_, ?_, List.Sublist.cons₂ _ h3⟩
      · rw [h1]
        simp [IHypergraph.addArc]
      · rw [h2]
        rfl

/-- C34. The last loop of `addStatesRecurse` runs, for every new head and every
in-arc of the state of the second graph, over the cartesian product of the lists
of new states of the tails of the arc. When the list of one of the tails is
empty, the product is empty and the result is left as it is. Otherwise the arcs
added for the arc and the new head, in their order, are among the arcs
`newHead ← tuple` of default weight for the tuples of the product, at most one
for each tuple; the states are left as they are. -/
theorem synthesized_arcs_per_tuple {W : Type} [One W] (newStates : List StateId)
    (newStatesForTailsPerArc : List (List (List StateId))) (newHead : StateId)
    (newStatesForTails : List (List StateId)) (st : AddStatesState W) :
    addResultingArcs newStates newStatesForTailsPerArc st =
      newStates.foldl (fun st newHead =>
        newStatesForTailsPerArc.foldl (fun st newStatesForTails =>
          addArcsForTuples newHead (cartesianProduct newStatesForTails) st) st) st ∧
    ([] ∈ newStatesForTails →
      addArcsForTuples newHead (cartesianProduct newStatesForTails) st = st) ∧
    ((∀ l ∈ newStatesForTailsPerArc, [] ∈ l) →
      addResultingArcs newStates newStatesForTailsPerArc st = st) ∧
    ∃ added : List (Arc W),
      (addArcsForTuples newHead (cartesianProduct newStatesForTails) st).result.arcs_ =
        st.result.arcs_ ++ added ∧
      (addArcsForTuples newHead (cartesianProduct newStatesForTails) st).result.labels_ =
        st.result.labels_ ∧
      List.Sublist added ((cartesianProduct newStatesForTails).map
        (fun tuple => (⟨newHead, tuple, 1⟩ : Arc W))) ∧
      added.length ≤ (cartesianProduct newStatesForTails).length := by
  refine ⟨rfl, ?_, ?_, ?_⟩
  · intro h
    rw [cartesianProduct_of_nil_mem _ h]
    rfl
  · intro h
    rw [addResultingArcs_eq]
    have hinner : ∀ (hd : StateId) (l : List (List (List StateId))) (s : AddStatesState W),
        (∀ x ∈ l, [] ∈ x) →
        l.foldl (fun st newStatesForTails =>
          addArcsForTuples hd (cartesianProduct newStatesForTails) st) s = s := by
      intro hd l
      induction l with
      | nil =>
        intro s _
        rfl
      | cons x xs ih =>
        intro s hx
        rw [List.foldl_cons, cartesianProduct_of_nil_mem _ (hx x (by simp))]
        exact ih s (fun y hy => hx y (by simp [hy]))
    induction newStates generalizing st with
    | nil => rfl
    | cons hd tl ih =>
      rw [List.foldl_cons, hinner hd _ st h]
      exact ih st
  · obtain ⟨added, h1, h2, h3⟩ :=
      addArcsForTuples_sublist newHead (cartesianProduct newStatesForTails) st
    refine ⟨added, h1, h2, h3, ?_⟩
    have := h3.length_le
    simpa using this

/-- An in-arc with the tails `2` and `3`, of which the second has no new state:
no arc is added for it. -/
theorem synthesized_arcs_per_tuple_witness :
    addArcsForTuples 7 (cartesianProduct [[5], []]) (⟨treeA, [], []⟩ : AddStatesState ℚ) =
      ⟨treeA, [], []⟩ :=
  (synthesized_arcs_per_tuple [7] [[[5], []]] 7 [[5], []] ⟨treeA, [], []⟩).2.1 (by simp)
/-! ## PushWeightsToFinal: local normalization toward the heads -/

theorem finalPushedArc_head {W : Type} [Semifield W] [DecidableEq W] (hg : IHypergraph W)
    (a : Arc W) : (finalPushedArc hg a).head_ = a.head_ := by
  unfold finalPushedArc pushWeightsArc
  by_cases h1 : a.head_ < hg.sizeForHeads
  · rw [if_pos h1]
    split <;> rfl
  · rw [if_neg h1]

theorem inArcs_forArcs {W : Type} (hg : IHypergraph W) (f : Arc W → Arc W)
    (hf : ∀ a, (f a).head_ = a.head_) (h : StateId) :
    (hg.forArcs f).inArcs h = (hg.inArcs h).map f := by
  unfold IHypergraph.inArcs IHypergraph.forArcs
  simp only [List.filter_map]
  congr 1
  apply List.filter_congr
  intro a _
  simp [hf a]

theorem map_axiom_or_inside {W : Type} [Semifield W] (hg : IHypergraph W) (n : Nat)
    (tails : List StateId) :
    tails.map (fun t => if hg.isAxiom t then 1 else insideAlgorithm hg n t) =
      tails.map (insideAlgorithm hg n) := by
  apply List.map_congr_left
  intro t _
  by_cases h : hg.isAxiom t = true
  · rw [if_pos h, insideAlgorithm_isAxiom_eq_one hg n t h]
  · rw [if_neg h]

/-- The inside weight of a state that is not an axiom is the sum over its
in-arcs of the arc weight times the inside weights of the tails. -/
theorem insideAlgorithm_eq_sum {W : Type} [Semifield W] (hg : IHypergraph W)
    (rank : StateId → Nat)
    (hr : ∀ a ∈ hg.arcs_, rank a.head_ < hg.size ∧ ∀ t ∈ a.tails_, rank t < rank a.head_)
    (h : StateId) (hax : hg.isAxiom h = false) :
    insideAlgorithm hg hg.sizeForHeads h =
      ((hg.inArcs h).map (fun a => a.weight_ *
        (a.tails_.map (insideAlgorithm hg hg.sizeForHeads)).prod)).sum := by
  have hfix := insideAlgorithmAux_fixpoint hg rank hr h
  unfold insideWeightStep at hfix
  rw [hax] at hfix
  simp only [Bool.false_eq_true, if_false] at hfix
  exact hfix

/-- C38 (amended). On a well-formed acyclic hypergraph whose final state has a
non-zero inside weight, `PushWeightsToFinal` completes, and afterwards, for
every state `h` that is not final and not an axiom and has a non-zero
`inside[h]`, the new weights of the in-arcs of `h` sum to one; when the final
state is not an axiom, the new weights of its in-arcs sum to `inside[final]`. -/
theorem pushWeightsToFinal_locally_normalized {W : Type} [Semifield W] [DecidableEq W]
    (hg : IHypergraph W) (hwf : WellFormed hg) (hac : Acyclic hg)
    (hfin : insideAlgorithm hg hg.sizeForHeads hg.final ≠ 0) :
    (PushWeightsToFinal hg).error = none ∧
    (∀ h, h ≠ hg.final → hg.isAxiom h = false →
      insideAlgorithm hg hg.sizeForHeads h ≠ 0 →
      (((PushWeightsToFinal hg).hg.inArcs h).map (fun a => a.weight_)).sum = 1) ∧
    (hg.isAxiom hg.final = false →
      (((PushWeightsToFinal hg).hg.inArcs hg.final).map (fun a => a.weight_)).sum =
        insideAlgorithm hg hg.sizeForHeads hg.final) := by
  obtain ⟨rank, hr⟩ := hac
  have hrun := PushWeightsToFinal_of_ne_zero hg hfin
  have hin : ∀ h, ((PushWeightsToFinal hg).hg.inArcs h).map (fun a => a.weight_) =
      (hg.inArcs h).map (fun a => (finalPushedArc hg a).weight_) := by
    intro h
    rw [hrun]
    show ((hg.forArcs (finalPushedArc hg)).inArcs h).map (fun a => a.weight_) = _
    rw [inArcs_forArcs hg _ (finalPushedArc_head hg) h, List.map_map]
    rfl
  refine ⟨by rw [hrun], ?_, ?_⟩
  · intro h hne hax hI
    rw [hin h]
    have hw : ∀ a ∈ hg.inArcs h, (finalPushedArc hg a).weight_ =
        a.weight_ * (a.tails_.map (insideAlgorithm hg hg.sizeForHeads)).prod *
          (insideAlgorithm hg hg.sizeForHeads h)⁻¹ := by
      intro a ha
      obtain ⟨ha1, ha2⟩ := mem_inArcs.1 ha
      have hlt : a.head_ < hg.sizeForHeads := hwf.heads_ok a ha1
      unfold finalPushedArc pushWeightsArc
      have hz : ¬ (a.head_ ≠ hg.final ∧ insideAlgorithm hg hg.sizeForHeads a.head_ = 0) := by
        rw [ha2]
        exact fun hc => hI hc.2
      rw [if_pos hlt, if_neg hz]
      simp only [foldl_tails_eq, map_axiom_or_inside]
      rw [ha2, if_pos hne, div_eq_mul_inv]
      ring
    rw [List.map_congr_left hw, List.sum_map_mul_right, ← insideAlgorithm_eq_sum hg rank hr h hax]
    exact mul_inv_cancel₀ hI
  · intro hax
    rw [hin hg.final]
    have hw : ∀ a ∈ hg.inArcs hg.final, (finalPushedArc hg a).weight_ =
        a.weight_ * (a.tails_.map (insideAlgorithm hg hg.sizeForHeads)).prod := by
      intro a ha
      obtain ⟨ha1, ha2⟩ := mem_inArcs.1 ha
      have hlt : a.head_ < hg.sizeForHeads := hwf.heads_ok a ha1
      unfold finalPushedArc pushWeightsArc
      have hz : ¬ (a.head_ ≠ hg.final ∧ insideAlgorithm hg hg.sizeForHeads a.head_ = 0) := by
        intro hc
        exact hc.1 ha2
      have hf : ¬ a.head_ ≠ hg.final := fun hc => hc ha2
      rw [if_pos hlt, if_neg hz]
      simp only [foldl_tails_eq, map_axiom_or_inside]
      rw [if_neg hf]
    rw [List.map_congr_left hw, ← insideAlgorithm_eq_sum hg rank hr hg.final hax]

theorem deadEndHypergraph_inside :
    insideAlgorithm deadEndHypergraph deadEndHypergraph.sizeForHeads 0 = 1 ∧
    insideAlgorithm deadEndHypergraph deadEndHypergraph.sizeForHeads 1 = 1/2 ∧
    insideAlgorithm deadEndHypergraph deadEndHypergraph.sizeForHeads 2 = 1/3 := by
  refine ⟨?_, ?_, ?_⟩ <;>
    simp [insideAlgorithm, insideAlgorithmAux, insideWeightStep, IHypergraph.isAxiom,
      IHypergraph.hasLexicalLabel, IHypergraph.inputLabel, IHypergraph.inArcs,
      IHypergraph.sizeForHeads, deadEndHypergraph]

theorem deadEndHypergraph_wellFormed : WellFormed deadEndHypergraph := by
  refine ⟨by decide, by decide, by decide, ?_, ?_⟩ <;>
    simp [deadEndHypergraph, IHypergraph.size]

/-- On the hypergraph with the arcs `1 ← (0)` of weight `1/2` and `2 ← (0)` of
weight `1/3`, start `0` and final `1`: the state `2` is not final and not an
axiom, its inside weight is `1/3`, and the new weights of its in-arcs sum to
one. -/
theorem pushWeightsToFinal_locally_normalized_witness :
    (PushWeightsToFinal deadEndHypergraph).error = none ∧
    (((PushWeightsToFinal deadEndHypergraph).hg.inArcs 2).map (fun a => a.weight_)).sum = 1 :=
  ⟨(pushWeightsToFinal_locally_normalized deadEndHypergraph deadEndHypergraph_wellFormed
      ⟨fun s => s, by simp [deadEndHypergraph, IHypergraph.size]⟩
      (by
        have h := deadEndHypergraph_inside.2.1
        have e : deadEndHypergraph.final = 1 := rfl
        rw [e, h]
        norm_num)).1,
   (pushWeightsToFinal_locally_normalized deadEndHypergraph deadEndHypergraph_wellFormed
      ⟨fun s => s, by simp [deadEndHypergraph, IHypergraph.size]⟩
      (by
        have h := deadEndHypergraph_inside.2.1
        have e : deadEndHypergraph.final = 1 := rfl
        rw [e, h]
        norm_num)).2.1 2 (by decide) (by decide)
      (by
        rw [deadEndHypergraph_inside.2.2]
        norm_num)⟩

/-- C38 (counterexample). The hypergraph with the arcs `1 ← (0)` of weight `1/2`
and `2 ← (0)` of weight `1/3`, start `0` and final `1`, is acyclic and the inside
weight of its final state is `1/2`. Its start state `0` is not final and has
the inside weight one, which is not zero; it has no in-arcs, before and after
`PushWeightsToFinal`, so that the new weights of its in-arcs sum to zero, not to
one. -/
theorem pushWeightsToFinal_axiom_sum_not_one :
    Acyclic deadEndHypergraph ∧
    insideAlgorithm deadEndHypergraph deadEndHypergraph.sizeForHeads
      deadEndHypergraph.final = 1/2 ∧
    (0 : StateId) ≠ deadEndHypergraph.final ∧
    insideAlgorithm deadEndHypergraph deadEndHypergraph.sizeForHeads 0 = 1 ∧
    (PushWeightsToFinal deadEndHypergraph).error = none ∧
    (PushWeightsToFinal deadEndHypergraph).hg.inArcs 0 = [] ∧
    (((PushWeightsToFinal deadEndHypergraph).hg.inArcs 0).map (fun a => a.weight_)).sum = 0 ∧
    (((PushWeightsToFinal deadEndHypergraph).hg.inArcs 0).map (fun a => a.weight_)).sum ≠ 1 := by
  have hrun := PushWeightsToFinal_of_ne_zero deadEndHypergraph
    (by
      have h := deadEndHypergraph_inside.2.1
      have e : deadEndHypergraph.final = 1 := rfl
      rw [e, h]
      norm_num)
  have hin : (PushWeightsToFinal deadEndHypergraph).hg.inArcs 0 = [] := by
    rw [hrun]
    show (deadEndHypergraph.forArcs (finalPushedArc deadEndHypergraph)).inArcs 0 = []
    rw [inArcs_forArcs _ _ (finalPushedArc_head deadEndHypergraph)]
    simp [IHypergraph.inArcs, deadEndHypergraph]
  refine ⟨⟨fun s => s, by simp [deadEndHypergraph, IHypergraph.size]⟩,
    deadEndHypergraph_inside.2.1, by decide, deadEndHypergraph_inside.1, by rw [hrun], hin,
    by rw [hin]; rfl, by rw [hin]; simp⟩
/-! ## SubUnion: removing invalid spans reads an erased entry -/

/-- C40 (failing inputs). On the tree with the arcs `1 ← (0)` and `2 ← (1 1)`,
whose states 1 and 2 both get the span `0-1`, bubble-up and bubble-down from the
final state complete and store a span for every state. `InvalidArcSpansRemover`
then visits the arc `2 ← (1 1)`: at the first tail it erases the entry of state
1, whose span is that of the head, and at the second tail it looks state 1 up
again and reads through the `end()` iterator. The same happens on the forest
with the arcs `2 ← (1)` and `3 ← (1)`: the first arc erases the entry of state 1
and the second arc reads it. -/
theorem removeInvalidSpans_reads_erased_entry :
    getSourceSpansBubbleUp twiceTailTree (twiceTailTree.size + 1) twiceTailTree.final [] =
      Res.ok (⟨0, 1⟩, [(0, kNullSpan), (1, ⟨0, 1⟩), (2, ⟨0, 1⟩)]) ∧
    getSourceSpansBubbleDown twiceTailTree (twiceTailTree.size + 1) twiceTailTree.final ⟨0, 1⟩
        [(0, kNullSpan), (1, ⟨0, 1⟩), (2, ⟨0, 1⟩)] =
      Res.ok [(0, ⟨0, 1⟩), (1, ⟨0, 1⟩), (2, ⟨0, 1⟩)] ∧
    invalidArcSpansRemover twiceTailTree [(0, ⟨0, 1⟩), (1, ⟨0, 1⟩), (2, ⟨0, 1⟩)]
      ⟨1, [0], 1⟩ = Res.ok [(0, ⟨0, 1⟩), (1, ⟨0, 1⟩), (2, ⟨0, 1⟩)] ∧
    invalidArcSpansRemover twiceTailTree [(0, ⟨0, 1⟩), (1, ⟨0, 1⟩), (2, ⟨0, 1⟩)]
      ⟨2, [1, 1], 1⟩ = Res.undefined ∧
    getSourceSpans twiceTailTree = Res.undefined ∧
    getSourceSpansBubbleUp sharedTailForest (sharedTailForest.size + 1)
        sharedTailForest.final [] =
      Res.ok (⟨0, 1⟩,
        [(0, kNullSpan), (1, ⟨0, 1⟩), (2, ⟨0, 1⟩), (3, ⟨0, 1⟩), (4, ⟨0, 1⟩)]) ∧
    getSourceSpansBubbleDown sharedTailForest (sharedTailForest.size + 1)
        sharedTailForest.final ⟨0, 1⟩
        [(0, kNullSpan), (1, ⟨0, 1⟩), (2, ⟨0, 1⟩), (3, ⟨0, 1⟩), (4, ⟨0, 1⟩)] =
      Res.ok [(0, ⟨0, 1⟩), (1, ⟨0, 1⟩), (2, ⟨0, 1⟩), (3, ⟨0, 1⟩), (4, ⟨0, 1⟩)] ∧
    invalidArcSpansRemover sharedTailForest
        [(0, ⟨0, 1⟩), (1, ⟨0, 1⟩), (2, ⟨0, 1⟩), (3, ⟨0, 1⟩), (4, ⟨0, 1⟩)] ⟨2, [1], 1⟩ =
      Res.ok [(0, ⟨0, 1⟩), (2, ⟨0, 1⟩), (3, ⟨0, 1⟩), (4, ⟨0, 1⟩)] ∧
    invalidArcSpansRemover sharedTailForest
        [(0, ⟨0, 1⟩), (2, ⟨0, 1⟩), (3, ⟨0, 1⟩), (4, ⟨0, 1⟩)] ⟨3, [1], 1⟩ = Res.undefined ∧
    getSourceSpans sharedTailForest = Res.undefined := by
  refine ⟨by decide, by decide, by decide, by decide, by decide, by decide,
    by decide, by decide, by decide, by decide⟩
/-! ## SubUnion: the weights of the second graph are not read -/

theorem Res.foldlM_congr_rel {α β : Type} (R : α → α → Prop) (f g : β → α → Res β)
    (l l' : List α) (hl : List.Forall₂ R l l') (hfg : ∀ b a a', R a a' → g b a' = f b a) :
    ∀ init, l'.foldlM g init = l.foldlM f init := by
  induction hl with
  | nil =>
    intro init
    rfl
  | cons hr _ ih =>
    intro init
    rw [List.foldlM_cons, List.foldlM_cons, hfg _ _ _ hr]
    cases f init _ with
    | ok b => exact ih b
    | throw e => rfl
    | undefined => rfl
    | outOfFuel => rfl

theorem filter_rel {α : Type} (R : α → α → Prop) (p : α → Bool) (l l' : List α)
    (hl : List.Forall₂ R l l') (hp : ∀ a a', R a a' → p a' = p a) :
    List.Forall₂ R (l.filter p) (l'.filter p) := by
  induction hl with
  | nil => exact List.Forall₂.nil
  | cons hr _ ih =>
    rename_i a a' l l' _
    by_cases h : p a = true
    · rw [List.filter_cons_of_pos h, List.filter_cons_of_pos (by rw [hp _ _ hr]; exact h)]
      exact List.Forall₂.cons hr ih
    · rw [List.filter_cons_of_neg h, List.filter_cons_of_neg (by rw [hp _ _ hr]; exact h)]
      exact ih

theorem map_eq_of_rel {α β : Type} (R : α → α → Prop) (f : α → β) (l l' : List α)
    (hl : List.Forall₂ R l l') (hf : ∀ a a', R a a' → f a' = f a) : l'.map f = l.map f := by
  induction hl with
  | nil => rfl
  | cons hr _ ih => rw [List.map_cons, List.map_cons, hf _ _ hr, ih]

theorem DifferOnlyInWeights.weights_inputLabel_eq {W : Type} {g g' : IHypergraph W}
    (h : DifferOnlyInWeights g g') (s : StateId) : g'.inputLabel s = g.inputLabel s := by
  unfold IHypergraph.inputLabel
  rw [h.labels_eq]

theorem DifferOnlyInWeights.weights_hasLexicalLabel_eq {W : Type} {g g' : IHypergraph W}
    (h : DifferOnlyInWeights g g') (s : StateId) :
    g'.hasLexicalLabel s = g.hasLexicalLabel s := by
  unfold IHypergraph.hasLexicalLabel
  rw [h.weights_inputLabel_eq]

theorem DifferOnlyInWeights.weights_size_eq {W : Type} {g g' : IHypergraph W}
    (h : DifferOnlyInWeights g g') : g'.size = g.size := by
  unfold IHypergraph.size
  rw [h.labels_eq]

theorem DifferOnlyInWeights.inArcs_rel {W : Type} {g g' : IHypergraph W}
    (h : DifferOnlyInWeights g g') (s : StateId) :
    List.Forall₂ (fun a a' : Arc W => a'.head_ = a.head_ ∧ a'.tails_ = a.tails_)
      (g.inArcs s) (g'.inArcs s) := by
  unfold IHypergraph.inArcs
  apply filter_rel _ _ _ _ h.arcs_eq
  intro a a' haa
  rw [haa.1]

theorem bubbleUpArcStep_tails {W : Type}
    (recurse : StateId → StateIdToSpan → Res (Span × StateIdToSpan))
    (acc : NatMap Nat × NatMap Nat × StateIdToSpan) (arc arc' : Arc W)
    (h : arc'.tails_ = arc.tails_) :
    bubbleUpArcStep recurse acc arc' = bubbleUpArcStep recurse acc arc := by
  unfold bubbleUpArcStep
  rw [h]

theorem getSourceSpansBubbleUp_weights {W : Type} {g g' : IHypergraph W}
    (h : DifferOnlyInWeights g g') (fuel : Nat) :
    ∀ s m, getSourceSpansBubbleUp g' fuel s m = getSourceSpansBubbleUp g fuel s m := by
  induction fuel with
  | zero =>
    intro s m
    rfl
  | succ fuel ih =>
    intro s m
    rw [getSourceSpansBubbleUp, getSourceSpansBubbleUp, h.weights_hasLexicalLabel_eq]
    have hrec : (fun t m' => getSourceSpansBubbleUp g' fuel t m') =
        (fun t m' => getSourceSpansBubbleUp g fuel t m') := by
      funext t m'
      exact ih t m'
    have hfold : ∀ init, (g'.inArcs s).foldlM
        (bubbleUpArcStep (fun t m' => getSourceSpansBubbleUp g' fuel t m')) init =
        (g.inArcs s).foldlM
          (bubbleUpArcStep (fun t m' => getSourceSpansBubbleUp g fuel t m')) init := by
      rw [hrec]
      apply Res.foldlM_congr_rel _ _ _ _ _ (h.inArcs_rel s)
      intro b a a' haa
      exact bubbleUpArcStep_tails _ _ _ _ haa.2
    have hfin : ∀ acc, bubbleUpFinish g' s acc = bubbleUpFinish g s acc := by
      intro acc
      unfold bubbleUpFinish
      rw [h.weights_inputLabel_eq]
    simp only [hfold, hfin]

theorem bubbleDownArcStep_tails {W : Type}
    (recurse : StateId → Span → StateIdToSpan → Res StateIdToSpan) (sSpan : Span)
    (m : StateIdToSpan) (arc arc' : Arc W) (h : arc'.tails_ = arc.tails_) :
    bubbleDownArcStep recurse sSpan m arc' = bubbleDownArcStep recurse sSpan m arc := by
  unfold bubbleDownArcStep
  rw [h]

theorem getSourceSpansBubbleDown_weights {W : Type} {g g' : IHypergraph W}
    (h : DifferOnlyInWeights g g') (fuel : Nat) :
    ∀ s sp m, getSourceSpansBubbleDown g' fuel s sp m = getSourceSpansBubbleDown g fuel s sp m := by
  induction fuel with
  | zero =>
    intro s sp m
    rfl
  | succ fuel ih =>
    intro s sp m
    rw [getSourceSpansBubbleDown, getSourceSpansBubbleDown]
    have hrec : (fun t sp m' => getSourceSpansBubbleDown g' fuel t sp m') =
        (fun t sp m' => getSourceSpansBubbleDown g fuel t sp m') := by
      funext t sp m'
      exact ih t sp m'
    rw [hrec]
    apply Res.foldlM_congr_rel _ _ _ _ _ (h.inArcs_rel s)
    intro b a a' haa
    exact bubbleDownArcStep_tails _ _ _ _ _ haa.2

theorem removeInvalidSpans_weights {W : Type} {g g' : IHypergraph W}
    (h : DifferOnlyInWeights g g') (m : StateIdToSpan) :
    removeInvalidSpans g' m = removeInvalidSpans g m := by
  unfold removeInvalidSpans
  have hfold : g'.arcs_.foldlM (invalidArcSpansRemover g') m =
      g.arcs_.foldlM (invalidArcSpansRemover g) m := by
    apply Res.foldlM_congr_rel _ _ _ _ _ h.arcs_eq
    intro b a a' haa
    unfold invalidArcSpansRemover
    rw [haa.1, haa.2]
    have hl : g'.hasLexicalLabel = g.hasLexicalLabel := funext h.weights_hasLexicalLabel_eq
    rw [hl]
  rw [hfold, h.weights_size_eq]

theorem getSourceSpans_weights {W : Type} {g g' : IHypergraph W}
    (h : DifferOnlyInWeights g g') : getSourceSpans g' = getSourceSpans g := by
  unfold getSourceSpans
  have hf : g'.final = g.final := h.final_eq
  have hu : ∀ fuel s m, getSourceSpansBubbleUp g' fuel s m = getSourceSpansBubbleUp g fuel s m :=
    getSourceSpansBubbleUp_weights h
  have hd : ∀ fuel s sp m, getSourceSpansBubbleDown g' fuel s sp m =
      getSourceSpansBubbleDown g fuel s sp m := getSourceSpansBubbleDown_weights h
  have hr : ∀ m, removeInvalidSpans g' m = removeInvalidSpans g m :=
    removeInvalidSpans_weights h
  simp only [h.weights_size_eq, hf, hu, hd, hr]

theorem addStatesArcStep_tails {W : Type}
    (recurse : StateId → AddStatesState W → Res (NewStateInfo × AddStatesState W))
    (acc : Bool × List (List (List StateId)) × AddStatesState W) (arc arc' : Arc W)
    (h : arc'.tails_ = arc.tails_) :
    addStatesArcStep recurse acc arc' = addStatesArcStep recurse acc arc := by
  unfold addStatesArcStep
  rw [h]

theorem headSpanOf_weights {W : Type} {g g' : IHypergraph W} (h : DifferOnlyInWeights g g')
    (m : StateIdToSpan) (head : StateId) (parentSpan : Span) :
    headSpanOf g' m head parentSpan = headSpanOf g m head parentSpan := by
  unfold headSpanOf
  rw [h.weights_hasLexicalLabel_eq]

theorem addStatesFinish_weights {W : Type} [One W] {g g' : IHypergraph W}
    (h : DifferOnlyInWeights g g') (m : StateIdToSpan) (f : Span → List StateId)
    (opts : SubUnionOptions) (head : StateId) (parentSpan : Span)
    (acc : Bool × List (List (List StateId)) × AddStatesState W) :
    addStatesFinish g' m f opts head parentSpan acc =
      addStatesFinish g m f opts head parentSpan acc := by
  unfold addStatesFinish correspondingStates
  simp only [headSpanOf_weights h, h.weights_hasLexicalLabel_eq, h.weights_inputLabel_eq]

theorem addStatesRecurse_weights {W : Type} [One W] {g g' : IHypergraph W}
    (h : DifferOnlyInWeights g g') (m : StateIdToSpan) (f : Span → List StateId)
    (opts : SubUnionOptions) (fuel : Nat) :
    ∀ head parentSpan st, addStatesRecurse g' m f opts fuel head parentSpan st =
      addStatesRecurse g m f opts fuel head parentSpan st := by
  induction fuel with
  | zero =>
    intro head parentSpan st
    rfl
  | succ fuel ih =>
    intro head parentSpan st
    rw [addStatesRecurse, addStatesRecurse]
    have hrec : (fun tailId st' => addStatesRecurse g' m f opts fuel tailId
          (headSpanOf g' m head parentSpan) st') =
        (fun tailId st' => addStatesRecurse g m f opts fuel tailId
          (headSpanOf g m head parentSpan) st') := by
      funext t st'
      rw [headSpanOf_weights h]
      exact ih t _ st'
    have hfold : ∀ init, (g'.inArcs head).foldlM
        (addStatesArcStep (fun tailId st' => addStatesRecurse g' m f opts fuel tailId
          (headSpanOf g' m head parentSpan) st')) init =
        (g.inArcs head).foldlM
          (addStatesArcStep (fun tailId st' => addStatesRecurse g m f opts fuel tailId
            (headSpanOf g m head parentSpan) st')) init := by
      rw [hrec]
      apply Res.foldlM_congr_rel _ _ _ _ _ (h.inArcs_rel head)
      intro b a a' haa
      exact addStatesArcStep_tails _ _ _ _ haa.2
    simp only [hfold, addStatesFinish_weights h]

theorem addStates_weights {W : Type} [One W] {g g' : IHypergraph W}
    (h : DifferOnlyInWeights g g') (m : StateIdToSpan) (result : IHypergraph W)
    (f : Span → List StateId) (opts : SubUnionOptions) :
    addStates g' m result f opts = addStates g m result f opts := by
  unfold addStates
  have hf : g'.final = g.final := h.final_eq
  have hids : g'.getStateIds = g.getStateIds := by
    unfold IHypergraph.getStateIds
    rw [h.weights_size_eq]
  have harcs : ∀ s, (g'.inArcs s).map (fun arc => arc.tails_ ++ [arc.head_]) =
      (g.inArcs s).map (fun arc => arc.tails_ ++ [arc.head_]) := by
    intro s
    apply map_eq_of_rel _ _ _ _ (h.inArcs_rel s)
    intro a a' haa
    rw [haa.1, haa.2]
  simp only [hids, harcs, h.weights_size_eq, hf, addStatesRecurse_weights h]

theorem AddedDefaultWeights.defaultWeights_addArc {W : Type} [One W] {base : List (Arc W)}
    {g : IHypergraph W} (h : AddedDefaultWeights base g) (head : StateId)
    (tails : List StateId) : AddedDefaultWeights base (g.addArc ⟨head, tails, 1⟩) := by
  obtain ⟨added, h1, h2⟩ := h
  refine ⟨added ++ [⟨head, tails, 1⟩], ?_, ?_⟩
  · simp [IHypergraph.addArc, h1]
  · intro a ha
    rcases List.mem_append.1 ha with ha | ha
    · exact h2 a ha
    · rw [List.mem_singleton.1 ha]

theorem foldl_pred {α β : Type} (P : β → Prop) (f : β → α → β) (l : List α)
    (h : ∀ b a, P b → P (f b a)) (init : β) (hinit : P init) : P (l.foldl f init) := by
  induction l generalizing init with
  | nil => exact hinit
  | cons a l ih => exact ih _ (h init a hinit)

theorem addResultingArcs_defaultWeights {W : Type} [One W] (base : List (Arc W))
    (newStates : List StateId) (perArc : List (List (List StateId)))
    (st : AddStatesState W) (h : AddedDefaultWeights base st.result) :
    AddedDefaultWeights base (addResultingArcs newStates perArc st).result := by
  unfold addResultingArcs
  apply foldl_pred (fun st : AddStatesState W => AddedDefaultWeights base st.result) _ _ _ _ h
  intro st newHead hst
  apply foldl_pred (fun st : AddStatesState W => AddedDefaultWeights base st.result) _ _ _ _ hst
  intro st nsft hst
  apply foldl_pred (fun st : AddStatesState W => AddedDefaultWeights base st.result) _ _ _ _ hst
  intro st tuple hst
  simp only
  split
  · exact hst
  · exact hst.defaultWeights_addArc _ _

theorem addStatesFinish_defaultWeights {W : Type} [One W] (base : List (Arc W))
    (hg : IHypergraph W) (m : StateIdToSpan) (f : Span → List StateId)
    (opts : SubUnionOptions) (head : StateId) (parentSpan : Span)
    (acc : Bool × List (List (List StateId)) × AddStatesState W)
    (h : AddedDefaultWeights base acc.2.2.result) :
    AddedDefaultWeights base (addStatesFinish hg m f opts head parentSpan acc).2.result := by
  unfold addStatesFinish
  simp only
  split
  · apply addResultingArcs_defaultWeights
    split
    · exact h
    · exact h
  · exact h

theorem addStatesRecurse_defaultWeights {W : Type} [One W] (base : List (Arc W))
    (hg : IHypergraph W) (m : StateIdToSpan) (f : Span → List StateId)
    (opts : SubUnionOptions) (fuel : Nat) :
    ∀ (head : StateId) (parentSpan : Span) (st : AddStatesState W)
      (r : NewStateInfo × AddStatesState W),
      addStatesRecurse hg m f opts fuel head parentSpan st = Res.ok r →
      AddedDefaultWeights base st.result → AddedDefaultWeights base r.2.result := by
  induction fuel with
  | zero =>
    intro head parentSpan st r h
    simp [addStatesRecurse] at h
  | succ fuel ih =>
    intro head parentSpan st r h hst
    rw [addStatesRecurse] at h
    split at h
    · cases h
      exact hst
    · simp only [Res.bind_def, Res.pure_def] at h
      obtain ⟨x, hx, hrest⟩ := Res.bind_eq_ok h
      have hinv := Res.foldlM_inv
        (fun acc : Bool × List (List (List StateId)) × AddStatesState W =>
          AddedDefaultWeights base acc.2.2.result)
        _ (hg.inArcs head) (false, [], st) hst
        (fun b a b' _ hb hstep => by
          unfold addStatesArcStep at hstep
          simp only [Res.bind_def, Res.pure_def] at hstep
          obtain ⟨y, hy, hrest'⟩ := Res.bind_eq_ok hstep
          have hinv' := Res.foldlM_inv
            (fun tacc : Bool × List (List StateId) × AddStatesState W =>
              AddedDefaultWeights base tacc.2.2.result)
            _ a.tails_ (true, [], b.2.2) hb
            (fun c t c' _ hc hcstep => by
              unfold addStatesTailStep at hcstep
              simp only [Res.bind_def, Res.pure_def] at hcstep
              obtain ⟨z, hz, hrest''⟩ := Res.bind_eq_ok hcstep
              obtain ⟨p, st'⟩ := z
              cases hrest''
              exact ih t _ c.2.2 _ hz hc)
            y hy
          obtain ⟨u, ns, st'⟩ := y
          cases hrest'
          exact hinv')
        x hx
      cases hrest
      exact addStatesFinish_defaultWeights base hg m f opts head parentSpan x hinv

/-- C39. The span inference and the grafting read the heads, the tails and the
labels of the second graph and not the weights of its arcs: for two second
graphs that differ only in arc weights the inferred spans are the same, the
grafting gives the same result, and so does `subUnion` when the standard union
is not added. Every arc that the grafting adds to the copy of the first graph
has the default weight. -/
theorem subUnion_grafts_ignore_weights {W : Type} [One W] (hg1 hg2 hg2' result : IHypergraph W)
    (opts : SubUnionOptions) (h : DifferOnlyInWeights hg2 hg2') :
    getSourceSpans hg2' = getSourceSpans hg2 ∧
    (∀ (m : StateIdToSpan) (r0 : IHypergraph W) (f : Span → List StateId),
      addStates hg2' m r0 f opts = addStates hg2 m r0 f opts) ∧
    (∀ (m : StateIdToSpan) (r0 r : IHypergraph W) (f : Span → List StateId),
      addStates hg2 m r0 f opts = Res.ok r →
      ∃ added, r.arcs_ = r0.arcs_ ++ added ∧ ∀ a ∈ added, a.weight_ = 1) ∧
    (opts.addStandardUnion = false →
      subUnion hg1 hg2' result opts = subUnion hg1 hg2 result opts) := by
  refine ⟨getSourceSpans_weights h, fun m r0 f => addStates_weights h m r0 f opts, ?_, ?_⟩
  · intro m r0 r f hr
    unfold addStates at hr
    simp only [Res.bind_def, Res.pure_def] at hr
    obtain ⟨x, hx, hrest⟩ := Res.bind_eq_ok hr
    have hbase : AddedDefaultWeights r0.arcs_ r0 := ⟨[], by simp, by simp⟩
    have := addStatesRecurse_defaultWeights r0.arcs_ hg2 m f opts _ _ _ _ _ hx hbase
    obtain ⟨info, st⟩ := x
    cases hrest
    exact this
  · intro hopt
    unfold subUnion
    simp only [getSourceSpans_weights h, addStates_weights h, hopt, Bool.false_eq_true,
      if_false]

/-- The tree `B` with the weights of its arcs doubled differs from `B` in arc
weights only: grafting either onto the tree `A` gives the same result. -/
theorem subUnion_grafts_ignore_weights_witness :
    subUnion treeA { treeB with arcs_ := [⟨2, [0], 2⟩, ⟨3, [1], 2⟩, ⟨4, [2, 3], 2⟩] }
        (newMutableHypergraph ℚ kStoreInArcs) ⟨false, false⟩ =
      subUnion treeA treeB (newMutableHypergraph ℚ kStoreInArcs) ⟨false, false⟩ :=
  (subUnion_grafts_ignore_weights treeA treeB
    { treeB with arcs_ := [⟨2, [0], 2⟩, ⟨3, [1], 2⟩, ⟨4, [2, 3], 2⟩] }
    (newMutableHypergraph ℚ kStoreInArcs) ⟨false, false⟩
    ⟨rfl, rfl, rfl, by
      simp [treeB]⟩).2.2.2 rfl
/-! ## SubUnion on inputs whose span inference reads an erased entry -/

/-- The sentence `a` is in the language of the forest in which two arcs share a
tail. -/
theorem sharedTailForest_language : Language sharedTailForest [Sym.terminal "a"] := by
  have h0 : YieldsAll sharedTailForest [0] [Sym.terminal "a"] :=
    YieldsAll.leaf 0 [] [] (by decide) (by decide) YieldsAll.nil
  have h1 : YieldsAll sharedTailForest [1] [Sym.terminal "a"] :=
    YieldsAll.node ⟨1, [0], 1⟩ [] [Sym.terminal "a"] [] (by decide) h0 YieldsAll.nil
  have h2 : YieldsAll sharedTailForest [2] [Sym.terminal "a"] :=
    YieldsAll.node ⟨2, [1], 1⟩ [] [Sym.terminal "a"] [] (by decide) h1 YieldsAll.nil
  exact YieldsAll.node ⟨4, [2], 1⟩ [] [Sym.terminal "a"] [] (by decide) h2 YieldsAll.nil

/-- C9 (failing inputs): `subUnion` does not cover the languages of all
span-annotated inputs, because it does not complete on all of them. The forest
with the arcs `1 ← (0)`, `2 ← (1)`, `3 ← (1)`, `4 ← (2)`, `4 ← (3)` over the word
`a` is acyclic and has the sentence `a`, the tree `B` is acyclic and has the
sentence `a c`; with the default options, the standard union included,
`subUnion` of the two, in either order, ends in the read of an erased span entry
during span inference and returns no graph. The same holds of the tree with the
arcs `1 ← (0)` and `2 ← (1 1)`. -/
theorem subUnion_undefined_on_shared_tail :
    Acyclic sharedTailForest ∧ Acyclic twiceTailTree ∧ Acyclic treeB ∧
    Language sharedTailForest [Sym.terminal "a"] ∧
    Language treeB [Sym.terminal "a", Sym.terminal "c"] ∧
    ({} : SubUnionOptions).addStandardUnion = true ∧
    subUnion sharedTailForest treeB (newMutableHypergraph ℚ kStoreInArcs) {} = Res.undefined ∧
    subUnion treeB sharedTailForest (newMutableHypergraph ℚ kStoreInArcs) {} = Res.undefined ∧
    subUnion twiceTailTree treeB (newMutableHypergraph ℚ kStoreInArcs) {} = Res.undefined ∧
    subUnion treeB twiceTailTree (newMutableHypergraph ℚ kStoreInArcs) {} = Res.undefined :=
  ⟨⟨fun s => s, by decide⟩, ⟨fun s => s, by decide⟩, ⟨fun s => s, by decide⟩,
    sharedTailForest_language, treeB_language, rfl, by decide, by decide, by decide, by decide⟩

/-! ## Weight pushing towards the final state with a lexical leaf -/

/-- The graph `lexDisconnected` has no path from its start state. -/
theorem lexDisconnected_no_path (m : Bool) (p : List (Arc NNRat)) :
    ¬ IsPath { lexDisconnected with mutable_ := m } 0 p 1 := by
  intro hp
  have := hp.eq_nil_of_no_outArcs (by cases m <;> decide)
  subst this
  exact absurd (show (0 : StateId) = 1 from hp) (by decide)

/-- C4 (counterexample). The mutable single-tail graph with the arc `1 ← (2)`,
start `0`, final `1` and the word `a` at state 2 has no path from start to
final. The lexical leaf is an axiom of the inside algorithm, so the inside
weight of the final state is `1`, not zero: `PushWeightsToFinal` completes
without `setEmpty`, the graph keeps its arc and is not pruned-empty. -/
theorem pushWeightsToFinal_lexical_leaf_not_emptied :
    lexDisconnected.isMutable = true ∧ lexDisconnected.isGraph = true ∧
    lexDisconnected.start = 0 ∧ lexDisconnected.final = 1 ∧
    (∀ p, ¬ IsPath lexDisconnected lexDisconnected.start p lexDisconnected.final) ∧
    insideAlgorithm lexDisconnected lexDisconnected.sizeForHeads lexDisconnected.final = 1 ∧
    (PushWeightsToFinal lexDisconnected).error = none ∧
    (PushWeightsToFinal lexDisconnected).hg.arcs_ = [⟨1, [2], 1⟩] ∧
    (PushWeightsToFinal lexDisconnected).hg.prunedEmpty = false :=
  ⟨rfl, by decide, rfl, rfl, fun p => lexDisconnected_no_path true p, by decide!, by decide!,
    by decide!, by decide!⟩

/-- C5 (counterexample). The non-mutable single-tail graph with the arc
`1 ← (2)`, start `0`, final `1` and the word `a` at state 2 is not pruned-empty
and has no path from start to final. The inside weight of the final state is
`1`, so `PushWeightsToFinal` raises no exception and reweights the arc (to the
weight it had). -/
theorem pushWeightsToFinal_lexical_leaf_no_exception :
    ({ lexDisconnected with mutable_ := false } : IHypergraph NNRat).isMutable = false ∧
    ({ lexDisconnected with mutable_ := false } : IHypergraph NNRat).isGraph = true ∧
    ({ lexDisconnected with mutable_ := false } : IHypergraph NNRat).prunedEmpty = false ∧
    (∀ p, ¬ IsPath ({ lexDisconnected with mutable_ := false } : IHypergraph NNRat)
      ({ lexDisconnected with mutable_ := false } : IHypergraph NNRat).start p
      ({ lexDisconnected with mutable_ := false } : IHypergraph NNRat).final) ∧
    insideAlgorithm ({ lexDisconnected with mutable_ := false } : IHypergraph NNRat) 3 1 = 1 ∧
    (PushWeightsToFinal ({ lexDisconnected with mutable_ := false } : IHypergraph NNRat)).error =
      none ∧
    (PushWeightsToFinal ({ lexDisconnected with mutable_ := false } : IHypergraph NNRat)).hg.arcs_ =
      [⟨1, [2], 1⟩] :=
  ⟨rfl, by decide, by decide, fun p => lexDisconnected_no_path false p, by decide!, by decide!,
    by decide!⟩

/-! ## Rounded arithmetic that is exact on the values of a run -/

theorem OnGrid.grid_mono {u : ℚ} {B B' : Nat} {x : SdlFloat} (h : OnGrid u B x)
    (hB : B ≤ B') : OnGrid u B' x := by
  intro q hq
  obtain ⟨m, hm, hmq⟩ := h q hq
  exact ⟨m, le_trans hm hB, hmq⟩

theorem onGrid_zero (u : ℚ) (B : Nat) : OnGrid u B 0 := by
  intro q hq
  refine ⟨0, by simp, ?_⟩
  have : q = 0 := (SdlFloat.fin.inj hq).symm
  simp [this]

theorem onGrid_posInf (u : ℚ) (B : Nat) : OnGrid u B posInf := by
  intro q hq
  exact absurd hq (by simp)

theorem OnGrid.grid_add {u : ℚ} {B1 B2 : Nat} {x y : SdlFloat} (hx : OnGrid u B1 x)
    (hy : OnGrid u B2 y) : OnGrid u (B1 + B2) (SdlFloat.add x y) := by
  intro q hq
  cases x <;> cases y <;> simp [SdlFloat.add] at hq
  rename_i a b
  obtain ⟨m1, hm1, h1⟩ := hx a rfl
  obtain ⟨m2, hm2, h2⟩ := hy b rfl
  refine ⟨m1 + m2, le_trans (Int.natAbs_add_le m1 m2) (Nat.add_le_add hm1 hm2), ?_⟩
  rw [← hq, h1, h2]
  push_cast
  ring

theorem OnGrid.grid_neg {u : ℚ} {B : Nat} {x : SdlFloat} (hx : OnGrid u B x) :
    OnGrid u B (SdlFloat.neg x) := by
  intro q hq
  cases x <;> simp [SdlFloat.neg] at hq
  rename_i a
  obtain ⟨m, hm, h⟩ := hx a rfl
  refine ⟨-m, by simpa using hm, ?_⟩
  rw [← hq, h]
  push_cast
  ring

theorem OnGrid.grid_min {u : ℚ} {B : Nat} {x y : SdlFloat} (hx : OnGrid u B x)
    (hy : OnGrid u B y) : OnGrid u B (SdlFloat.min x y) := by
  unfold SdlFloat.min
  split
  · exact hy
  · exact hx

theorem ExactOn.exact_mono {rnd : SdlFloat → SdlFloat} {u : ℚ} {B B' : Nat}
    (h : ExactOn rnd u B) (hB : B' ≤ B) : ExactOn rnd u B' :=
  fun x hx => h x (hx.grid_mono hB)

/-- A fold of `min` over rounded candidates that lie on the grid is the fold
over the exact candidates, and its value lies on the grid. -/
theorem foldl_min_rounded {rnd : SdlFloat → SdlFloat} {u : ℚ} {B : Nat}
    (hrnd : ExactOn rnd u B) (g : Arc SdlFloat → SdlFloat) (l : List (Arc SdlFloat))
    (hl : ∀ a ∈ l, OnGrid u B (g a)) (init : SdlFloat) (hinit : OnGrid u B init) :
    l.foldl (fun acc a => SdlFloat.min acc (rnd (g a))) init =
        l.foldl (fun acc a => SdlFloat.min acc (g a)) init ∧
      OnGrid u B (l.foldl (fun acc a => SdlFloat.min acc (g a)) init) := by
  induction l generalizing init with
  | nil => exact ⟨rfl, hinit⟩
  | cons a l ih =>
    simp only [List.foldl_cons]
    rw [hrnd (g a) (hl a (List.mem_cons_self _ _))]
    exact ih (fun b hb => hl b (List.mem_cons_of_mem _ hb)) _
      (hinit.grid_min (hl a (List.mem_cons_self _ _)))

theorem succ_mul_bound (k M : Nat) : M + k * M ≤ (k + 1) * M := by
  rw [Nat.succ_mul]; omega

/-- The rounded inside costs are the exact ones as long as the rounding is exact
on the multiples of the unit that `k` arcs can add up to. -/
theorem insideCostsAuxRounded_eq {rnd : SdlFloat → SdlFloat} {u : ℚ} {M B : Nat}
    (hg : IHypergraph SdlFloat) (hgrid : GridCosts hg u M) (hrnd : ExactOn rnd u B) (k : Nat)
    (hk : k * M ≤ B) :
    insideCostsAuxRounded rnd hg k = insideCostsAux hg k ∧
      ∀ s, OnGrid u (k * M) (insideCostsAux hg k s) := by
  induction k with
  | zero =>
    refine ⟨rfl, fun s => ?_⟩
    show OnGrid u (0 * M) (if s = hg.start_ then 0 else SdlFloat.HUGE_VAL)
    split
    · exact onGrid_zero _ _
    · exact onGrid_posInf _ _
  | succ k ih =>
    have hk' : k * M ≤ B := le_trans (Nat.mul_le_mul_right M (Nat.le_succ k)) hk
    obtain ⟨ihe, ihg⟩ := ih hk'
    have hstep : ∀ s, insideStepRounded rnd hg (insideCostsAux hg k) s =
        insideStep hg (insideCostsAux hg k) s ∧
        OnGrid u ((k + 1) * M) (insideStep hg (insideCostsAux hg k) s) := by
      intro s
      unfold insideStepRounded insideStep
      split
      · exact ⟨rfl, onGrid_zero _ _⟩
      · exact foldl_min_rounded (hrnd.exact_mono hk)
          (fun a => a.weight_ + insideCostsAux hg k a.firstTail) _
          (fun a ha => ((hgrid a (mem_inArcs.1 ha).1).grid_add (ihg a.firstTail)).grid_mono
            (succ_mul_bound k M)) _ (onGrid_posInf _ _)
    refine ⟨?_, fun s => (hstep s).2⟩
    funext s
    show insideStepRounded rnd hg (insideCostsAuxRounded rnd hg k) s = _
    rw [ihe]
    exact (hstep s).1

/-- The rounded outside costs are the exact ones as long as the rounding is
exact on the multiples of the unit that `k` arcs can add up to. -/
theorem outsideCostsAuxRounded_eq {rnd : SdlFloat → SdlFloat} {u : ℚ} {M B : Nat}
    (hg : IHypergraph SdlFloat) (hgrid : GridCosts hg u M) (hrnd : ExactOn rnd u B) (k : Nat)
    (hk : k * M ≤ B) :
    outsideCostsAuxRounded rnd hg k = outsideCostsAux hg k ∧
      ∀ s, OnGrid u (k * M) (outsideCostsAux hg k s) := by
  induction k with
  | zero =>
    refine ⟨rfl, fun s => ?_⟩
    show OnGrid u (0 * M) (if s = hg.final_ then 0 else SdlFloat.HUGE_VAL)
    split
    · exact onGrid_zero _ _
    · exact onGrid_posInf _ _
  | succ k ih =>
    have hk' : k * M ≤ B := le_trans (Nat.mul_le_mul_right M (Nat.le_succ k)) hk
    obtain ⟨ihe, ihg⟩ := ih hk'
    have hstep : ∀ s, outsideStepRounded rnd hg (outsideCostsAux hg k) s =
        outsideStep hg (outsideCostsAux hg k) s ∧
        OnGrid u ((k + 1) * M) (outsideStep hg (outsideCostsAux hg k) s) := by
      intro s
      unfold outsideStepRounded outsideStep
      split
      · exact ⟨rfl, onGrid_zero _ _⟩
      · exact foldl_min_rounded (hrnd.exact_mono hk)
          (fun a => a.weight_ + outsideCostsAux hg k a.head_) _
          (fun a ha => ((hgrid a (mem_outArcs.1 ha).1).grid_add (ihg a.head_)).grid_mono
            (succ_mul_bound k M)) _ (onGrid_posInf _ _)
    refine ⟨?_, fun s => (hstep s).2⟩
    funext s
    show outsideStepRounded rnd hg (outsideCostsAuxRounded rnd hg k) s = _
    rw [ihe]
    exact (hstep s).1

theorem push_bound (N M : Nat) : N * M + N * M + M ≤ (2 * N + 1) * M := by
  have : (2 * N + 1) * M = N * M + N * M + M := by ring
  omega

/-- With costs on a grid of unit `u`, at most `M` units each, and a rounding that
is exact up to `(2 N + 1) M` units, `N` the number of states, the rounded run of
`PushCostsToStart` is the exact run, it leaves costs of at most `(2 N + 1) M` units, and the
rounded reweighting of each arc is the exact one. -/
theorem PushCostsToStartRounded_eq {rnd : SdlFloat → SdlFloat} {u : ℚ} {M : Nat}
    (hg : IHypergraph SdlFloat) (hgrid : GridCosts hg u M)
    (hrnd : ExactOn rnd u ((2 * hg.sizeForHeads + 1) * M)) :
    PushCostsToStartRounded rnd hg = PushCostsToStart hg ∧
      GridCosts (PushCostsToStart hg).hg u ((2 * hg.sizeForHeads + 1) * M) ∧
      ∀ a ∈ hg.arcs_, pushedArcRounded rnd hg a = pushedArc hg a := by
  have hNB : hg.sizeForHeads * M ≤ (2 * hg.sizeForHeads + 1) * M :=
    le_trans (by omega) (push_bound hg.sizeForHeads M)
  have hMB : M ≤ (2 * hg.sizeForHeads + 1) * M :=
    le_trans (by omega) (push_bound hg.sizeForHeads M)
  have hgrid1 : GridCosts hg.forceFirstTailOutArcs u M := hgrid
  obtain ⟨hie, hig⟩ := insideCostsAuxRounded_eq hg.forceFirstTailOutArcs hgrid1 hrnd
    hg.sizeForHeads hNB
  obtain ⟨hoe, hog⟩ := outsideCostsAuxRounded_eq hg.forceFirstTailOutArcs hgrid1 hrnd
    hg.sizeForHeads hNB
  have hout : outside0Rounded rnd hg.forceFirstTailOutArcs = outside0 hg.forceFirstTailOutArcs := by
    funext s
    show (if s = hg.forceFirstTailOutArcs.start_ then
        insideCostsAuxRounded rnd hg.forceFirstTailOutArcs hg.sizeForHeads _
      else outsideCostsAuxRounded rnd hg.forceFirstTailOutArcs hg.sizeForHeads s) = _
    rw [hie, hoe]
    rfl
  have hout_grid : ∀ s, OnGrid u (hg.sizeForHeads * M) (outside0 hg.forceFirstTailOutArcs s) := by
    intro s
    show OnGrid u _ (if s = hg.forceFirstTailOutArcs.start_ then
        insideCostsAux hg.forceFirstTailOutArcs hg.sizeForHeads _
      else outsideCostsAux hg.forceFirstTailOutArcs hg.sizeForHeads s)
    split
    · exact hig _
    · exact hog _
  have harc : ∀ a ∈ hg.arcs_,
      pushCostsArcRounded rnd hg.start (outside0 hg.forceFirstTailOutArcs) a =
        pushCostsArc hg.start (outside0 hg.forceFirstTailOutArcs) a ∧
      OnGrid u ((2 * hg.sizeForHeads + 1) * M)
        (pushCostsArc hg.start (outside0 hg.forceFirstTailOutArcs) a).weight_ := by
    intro a ha
    have hsub : OnGrid u (hg.sizeForHeads * M)
        (if a.firstTail ≠ hg.start then outside0 hg.forceFirstTailOutArcs a.firstTail
          else 0) := by
      split
      · exact hout_grid _
      · exact onGrid_zero _ _
    have hd : OnGrid u (hg.sizeForHeads * M + hg.sizeForHeads * M)
        (outside0 hg.forceFirstTailOutArcs a.head_ -
          (if a.firstTail ≠ hg.start then outside0 hg.forceFirstTailOutArcs a.firstTail
            else 0)) := (hout_grid a.head_).grid_add hsub.grid_neg
    have hw : OnGrid u ((2 * hg.sizeForHeads + 1) * M)
        (a.weight_ + (outside0 hg.forceFirstTailOutArcs a.head_ -
          (if a.firstTail ≠ hg.start then outside0 hg.forceFirstTailOutArcs a.firstTail
            else 0))) :=
      ((hgrid a ha).grid_add hd).grid_mono
        (le_trans (by omega) (push_bound hg.sizeForHeads M))
    refine ⟨?_, hw⟩
    unfold pushCostsArcRounded pushCostsArc
    rw [hrnd _ (hd.grid_mono (le_trans (by omega) (push_bound hg.sizeForHeads M))), hrnd _ hw]
  have hmap : hg.forceFirstTailOutArcs.forArcs
      (pushCostsArcRounded rnd hg.start (outside0 hg.forceFirstTailOutArcs)) =
      hg.forceFirstTailOutArcs.forArcs
        (pushCostsArc hg.start (outside0 hg.forceFirstTailOutArcs)) := by
    unfold IHypergraph.forArcs
    congr 1
    exact List.map_congr_left (fun a ha => (harc a ha).1)
  have hrun : PushCostsToStartRounded rnd hg = PushCostsToStart hg := by
    unfold PushCostsToStartRounded PushCostsToStart
    simp only [insideCostsRounded, insideCosts, hie, hout, hmap]
  refine ⟨hrun, ?_, ?_⟩
  swap
  · intro a ha
    unfold pushedArcRounded
    rw [hout]
    exact (harc a ha).1
  unfold PushCostsToStart
  split
  · exact fun a ha => (hgrid a ha).grid_mono hMB
  · split
    · exact fun a ha => (hgrid a ha).grid_mono hMB
    · simp only
      split
      · split
        · intro a ha
          exact absurd ha (List.not_mem_nil _)
        · exact fun a ha => (hgrid a ha).grid_mono hMB
      · intro b hb
        obtain ⟨a, ha, rfl⟩ := List.mem_map.1 hb
        exact (harc a ha).2

/-- The rounding that rounds nothing gives the exact run. -/
theorem PushCostsToStartRounded_id (hg : IHypergraph SdlFloat) :
    PushCostsToStartRounded id hg = PushCostsToStart hg := by
  have hi : ∀ k, insideCostsAuxRounded id hg.forceFirstTailOutArcs k =
      insideCostsAux hg.forceFirstTailOutArcs k := by
    intro k
    induction k with
    | zero => rfl
    | succ k ih =>
      show insideStepRounded id _ (insideCostsAuxRounded id _ k) = _
      rw [ih]; rfl
  have ho : ∀ k, outsideCostsAuxRounded id hg.forceFirstTailOutArcs k =
      outsideCostsAux hg.forceFirstTailOutArcs k := by
    intro k
    induction k with
    | zero => rfl
    | succ k ih =>
      show outsideStepRounded id _ (outsideCostsAuxRounded id _ k) = _
      rw [ih]; rfl
  have hout : outside0Rounded id hg.forceFirstTailOutArcs = outside0 hg.forceFirstTailOutArcs := by
    funext s
    show (if s = hg.forceFirstTailOutArcs.start_ then
        insideCostsAuxRounded id hg.forceFirstTailOutArcs hg.sizeForHeads _
      else outsideCostsAuxRounded id hg.forceFirstTailOutArcs hg.sizeForHeads s) = _
    rw [hi, ho]
    rfl
  unfold PushCostsToStartRounded PushCostsToStart
  simp only [insideCostsRounded, insideCosts, hi, hout]
  rfl

/-! ## PushCostsToStart in binary floating-point arithmetic -/

/-- A chain is a well-formed acyclic single-tail graph whose start state has no
in-arcs, and its three arcs are a path from start to final. -/
theorem roundedChain_structure (f : FloatFormat) (a b c : ℚ) :
    WellFormed (roundedChain f a b c) ∧ (roundedChain f a b c).isGraph = true ∧
    Acyclic (roundedChain f a b c) ∧
    (roundedChain f a b c).inArcs (roundedChain f a b c).start = [] ∧
    (roundedChain f a b c).start ≠ (roundedChain f a b c).final ∧
    IsPath (roundedChain f a b c) (roundedChain f a b c).start (roundedChain f a b c).arcs_
      (roundedChain f a b c).final := by
  refine ⟨⟨?_, ?_, ?_, ?_, ?_⟩, rfl, ⟨fun s => s, ?_⟩, rfl, ?_, ?_⟩
  · simp [roundedChain, IHypergraph.size, kNoState]
  · simp [roundedChain, IHypergraph.size, kNoState]
  · simp [roundedChain, IHypergraph.size, kNoState]
  · simp [roundedChain, IHypergraph.size]
  · simp [roundedChain, IHypergraph.size]
  · simp [roundedChain, IHypergraph.size]
  · simp [roundedChain, IHypergraph.start, IHypergraph.final]
  · simp [IsPath, roundedChain, Arc.firstTail, IHypergraph.start, IHypergraph.final]

/-- C1 (counterexample). The chain `0 -> 1 -> 2 -> 3` with the costs `0.1`,
`0.1` and `0.5` of binary32 is acyclic and single-tail, and its path has the
finite cost `46976205 / 2^26`. `PushCostsToStart` in binary32 arithmetic
completes and gives the arcs the costs `2936013 / 2^22`, `-3 / 2^27` and `0`,
whose sum is `93952413 / 2^27`: the cost of the path has changed, also when both
sums are themselves formed in binary32. With the costs and the arithmetic of
binary64 the cost of the path changes from `12610078956637389 / 2^54` to
`25220157913274777 / 2^55`. -/
theorem pushCostsToStart_rounding_changes_path_cost :
    ((roundedChain binary32 (1/10) (1/10) (1/2)).arcs_ =
        [⟨1, [0], fin (13421773/134217728)⟩, ⟨2, [1], fin (13421773/134217728)⟩,
          ⟨3, [2], fin (1/2)⟩] ∧
      Acyclic (roundedChain binary32 (1/10) (1/10) (1/2)) ∧
      (roundedChain binary32 (1/10) (1/10) (1/2)).isGraph = true ∧
      IsPath (roundedChain binary32 (1/10) (1/10) (1/2))
        (roundedChain binary32 (1/10) (1/10) (1/2)).start
        (roundedChain binary32 (1/10) (1/10) (1/2)).arcs_
        (roundedChain binary32 (1/10) (1/10) (1/2)).final ∧
      pathCost (roundedChain binary32 (1/10) (1/10) (1/2)).arcs_ = fin (46976205/67108864) ∧
      (PushCostsToStartRounded binary32.round
        (roundedChain binary32 (1/10) (1/10) (1/2))).error = none ∧
      (PushCostsToStartRounded binary32.round
        (roundedChain binary32 (1/10) (1/10) (1/2))).hg.arcs_ =
        [⟨1, [0], fin (2936013/4194304)⟩, ⟨2, [1], fin (-3/134217728)⟩, ⟨3, [2], fin 0⟩] ∧
      pathCost (PushCostsToStartRounded binary32.round
        (roundedChain binary32 (1/10) (1/10) (1/2))).hg.arcs_ = fin (93952413/134217728) ∧
      pathCostRounded binary32.round (roundedChain binary32 (1/10) (1/10) (1/2)).arcs_ =
        fin (11744051/16777216) ∧
      pathCostRounded binary32.round (PushCostsToStartRounded binary32.round
        (roundedChain binary32 (1/10) (1/10) (1/2))).hg.arcs_ = fin (2936013/4194304)) ∧
    ((roundedChain binary64 (1/10) (1/10) (1/2)).arcs_ =
        [⟨1, [0], fin (3602879701896397/36028797018963968)⟩,
          ⟨2, [1], fin (3602879701896397/36028797018963968)⟩, ⟨3, [2], fin (1/2)⟩] ∧
      pathCost (roundedChain binary64 (1/10) (1/10) (1/2)).arcs_ =
        fin (12610078956637389/18014398509481984) ∧
      (PushCostsToStartRounded binary64.round
        (roundedChain binary64 (1/10) (1/10) (1/2))).error = none ∧
      (PushCostsToStartRounded binary64.round
        (roundedChain binary64 (1/10) (1/10) (1/2))).hg.arcs_ =
        [⟨1, [0], fin (3152519739159347/4503599627370496)⟩,
          ⟨2, [1], fin (1/36028797018963968)⟩, ⟨3, [2], fin 0⟩] ∧
      pathCost (PushCostsToStartRounded binary64.round
        (roundedChain binary64 (1/10) (1/10) (1/2))).hg.arcs_ =
        fin (25220157913274777/36028797018963968)) :=
  ⟨⟨by decide!, (roundedChain_structure _ _ _ _).2.2.1, rfl,
      (roundedChain_structure _ _ _ _).2.2.2.2.2, by decide!, by decide!, by decide!,
      by decide!, by decide!, by decide!⟩,
    ⟨by decide!, by decide!, by decide!, by decide!, by decide!⟩⟩

/-- C3 (counterexample). The chain `0 -> 1 -> 2 -> 3` with the costs `0.5`,
`0.1` and `0.2` of binary32 is acyclic and single-tail, its start state has no
in-arcs and its path has a finite cost. In binary32 arithmetic the first
`PushCostsToStart` gives the arc `1 -> 2` the cost `-1 / 2^27` and the second
one the cost `0`. In binary64 the two costs are `-1 / 2^55` and `0`. -/
theorem pushCostsToStart_rounding_not_idempotent :
    ((roundedChain binary32 (1/2) (1/10) (1/5)).arcs_ =
        [⟨1, [0], fin (1/2)⟩, ⟨2, [1], fin (13421773/134217728)⟩,
          ⟨3, [2], fin (13421773/67108864)⟩] ∧
      Acyclic (roundedChain binary32 (1/2) (1/10) (1/5)) ∧
      (roundedChain binary32 (1/2) (1/10) (1/5)).isGraph = true ∧
      (roundedChain binary32 (1/2) (1/10) (1/5)).inArcs
        (roundedChain binary32 (1/2) (1/10) (1/5)).start = [] ∧
      IsPath (roundedChain binary32 (1/2) (1/10) (1/5))
        (roundedChain binary32 (1/2) (1/10) (1/5)).start
        (roundedChain binary32 (1/2) (1/10) (1/5)).arcs_
        (roundedChain binary32 (1/2) (1/10) (1/5)).final ∧
      pathCost (roundedChain binary32 (1/2) (1/10) (1/5)).arcs_ =
        fin (107374183/134217728) ∧
      (PushCostsToStartRounded binary32.round
        (roundedChain binary32 (1/2) (1/10) (1/5))).error = none ∧
      (PushCostsToStartRounded binary32.round
        (roundedChain binary32 (1/2) (1/10) (1/5))).hg.arcs_ =
        [⟨1, [0], fin (13421773/16777216)⟩, ⟨2, [1], fin (-1/134217728)⟩, ⟨3, [2], fin 0⟩] ∧
      (PushCostsToStartRounded binary32.round (PushCostsToStartRounded binary32.round
        (roundedChain binary32 (1/2) (1/10) (1/5))).hg).error = none ∧
      (PushCostsToStartRounded binary32.round (PushCostsToStartRounded binary32.round
        (roundedChain binary32 (1/2) (1/10) (1/5))).hg).hg.arcs_ =
        [⟨1, [0], fin (13421773/16777216)⟩, ⟨2, [1], fin 0⟩, ⟨3, [2], fin 0⟩] ∧
      (PushCostsToStartRounded binary32.round (PushCostsToStartRounded binary32.round
        (roundedChain binary32 (1/2) (1/10) (1/5))).hg).hg.arcs_ ≠
        (PushCostsToStartRounded binary32.round
          (roundedChain binary32 (1/2) (1/10) (1/5))).hg.arcs_) ∧
    ((roundedChain binary64 (1/2) (1/10) (1/5)).arcs_ =
        [⟨1, [0], fin (1/2)⟩, ⟨2, [1], fin (3602879701896397/36028797018963968)⟩,
          ⟨3, [2], fin (3602879701896397/18014398509481984)⟩] ∧
      (PushCostsToStartRounded binary64.round
        (roundedChain binary64 (1/2) (1/10) (1/5))).hg.arcs_ =
        [⟨1, [0], fin (3602879701896397/4503599627370496)⟩,
          ⟨2, [1], fin (-1/36028797018963968)⟩, ⟨3, [2], fin 0⟩] ∧
      (PushCostsToStartRounded binary64.round (PushCostsToStartRounded binary64.round
        (roundedChain binary64 (1/2) (1/10) (1/5))).hg).hg.arcs_ =
        [⟨1, [0], fin (3602879701896397/4503599627370496)⟩, ⟨2, [1], fin 0⟩,
          ⟨3, [2], fin 0⟩]) :=
  ⟨⟨by decide!, (roundedChain_structure _ _ _ _).2.2.1, rfl, rfl,
      (roundedChain_structure _ _ _ _).2.2.2.2.2, by decide!, by decide!, by decide!,
      by decide!, by decide!, by decide!⟩,
    ⟨by decide!, by decide!, by decide!⟩⟩

theorem roundedChain_fifths_arcs :
    (roundedChain binary32 (1/2) (1/10) (1/5)).arcs_ =
      [⟨1, [0], fin (1/2)⟩, ⟨2, [1], fin (13421773/134217728)⟩,
        ⟨3, [2], fin (13421773/67108864)⟩] := by decide!

theorem roundedChain_fifths_nonNegCosts :
    NonNegCosts (roundedChain binary32 (1/2) (1/10) (1/5)) := by
  intro a ha
  rw [roundedChain_fifths_arcs] at ha
  simp only [List.mem_cons, List.mem_singleton, List.not_mem_nil, or_false] at ha
  rcases ha with rfl | rfl | rfl
  · exact ⟨1/2, rfl, by norm_num⟩
  · exact ⟨13421773/134217728, rfl, by norm_num⟩
  · exact ⟨13421773/67108864, rfl, by norm_num⟩

/-- C22 (counterexample). The chain `0 -> 1 -> 2 -> 3` with the costs `0.5`,
`0.1` and `0.2` of binary32 is acyclic and single-tail with non-negative costs,
start and final differ and `inside[final]` is finite. In binary32 arithmetic
`PushCostsToStart` gives the arc `1 -> 2`, which lies on the start→final path,
the negative cost `-1 / 2^27`; it is the only arc leaving state 1, so no arc
leaving that state has the cost `0`. Apart from rounding, on the automaton with
`start = final = 0` and the arc `0 -1-> 1` the best path is the empty one with
`inside[final] = 0`, and the only arc leaving the start state gets the cost
`+inf`. -/
theorem pushCostsToStart_rounding_negative_cost :
    (Acyclic (roundedChain binary32 (1/2) (1/10) (1/5)) ∧
      (roundedChain binary32 (1/2) (1/10) (1/5)).isGraph = true ∧
      NonNegCosts (roundedChain binary32 (1/2) (1/10) (1/5)) ∧
      (roundedChain binary32 (1/2) (1/10) (1/5)).start ≠
        (roundedChain binary32 (1/2) (1/10) (1/5)).final ∧
      insideCostsRounded binary32.round (roundedChain binary32 (1/2) (1/10) (1/5)) 4 3 =
        fin (13421773/16777216) ∧
      ArcOnStartFinalPath (roundedChain binary32 (1/2) (1/10) (1/5))
        ⟨2, [1], fin (13421773/134217728)⟩ ∧
      OnStartFinalPath (roundedChain binary32 (1/2) (1/10) (1/5)) 1 ∧
      (PushCostsToStartRounded binary32.round
        (roundedChain binary32 (1/2) (1/10) (1/5))).error = none ∧
      (PushCostsToStartRounded binary32.round
        (roundedChain binary32 (1/2) (1/10) (1/5))).hg.arcs_ =
        [⟨1, [0], fin (13421773/16777216)⟩, ⟨2, [1], fin (-1/134217728)⟩, ⟨3, [2], fin 0⟩] ∧
      SdlFloat.le 0 (fin (-1/134217728)) = false ∧
      outArcs (PushCostsToStartRounded binary32.round
        (roundedChain binary32 (1/2) (1/10) (1/5))).hg 1 =
        [⟨2, [1], fin (-1/134217728)⟩]) ∧
    (startFinalAutomaton.isGraph = true ∧ Acyclic startFinalAutomaton ∧
      NonNegCosts startFinalAutomaton ∧
      startFinalAutomaton.start = startFinalAutomaton.final ∧
      insideCostsRounded binary32.round startFinalAutomaton 2 0 = fin 0 ∧
      (PushCostsToStartRounded binary32.round startFinalAutomaton).error = none ∧
      (PushCostsToStartRounded binary32.round startFinalAutomaton).hg.arcs_ =
        [⟨1, [0], SdlFloat.posInf⟩]) := by
  refine ⟨⟨(roundedChain_structure _ _ _ _).2.2.1, rfl, roundedChain_fifths_nonNegCosts,
      (roundedChain_structure _ _ _ _).2.2.2.2.1, by decide!, ?_, ?_, by decide!, by decide!,
      by decide!, by decide!⟩,
    ⟨by decide, ⟨fun s => s, by simp [startFinalAutomaton, IHypergraph.size]⟩, ?_, rfl,
      by decide!, by decide!, by decide!⟩⟩
  · refine ⟨by rw [roundedChain_fifths_arcs]; simp, [⟨1, [0], fin (1/2)⟩],
      [⟨3, [2], fin (13421773/67108864)⟩], ?_, ?_⟩
    · refine ⟨by rw [roundedChain_fifths_arcs]; simp, rfl, rfl⟩
    · refine ⟨by rw [roundedChain_fifths_arcs]; simp, rfl, rfl⟩
  · refine ⟨[⟨1, [0], fin (1/2)⟩],
      [⟨2, [1], fin (13421773/134217728)⟩, ⟨3, [2], fin (13421773/67108864)⟩], ?_, ?_⟩
    · refine ⟨by rw [roundedChain_fifths_arcs]; simp, rfl, rfl⟩
    · refine ⟨by rw [roundedChain_fifths_arcs]; simp, rfl,
        by rw [roundedChain_fifths_arcs]; simp, rfl, rfl⟩
  · intro a ha
    simp only [startFinalAutomaton, List.mem_singleton] at ha
    subst ha
    exact ⟨1, rfl, by norm_num⟩

/-! ## PushCostsToStart when no operation rounds -/

/-- Rounding to binary32 leaves the multiples of `1/4` up to `196 / 4` as they
are. -/
theorem binary32_exact_quarters : ExactOn binary32.round (1/4) 196 := by
  intro x hx
  cases x with
  | fin q =>
    obtain ⟨m, hm, rfl⟩ := hx q rfl
    have h1 : -196 ≤ m := by omega
    have h2 : m ≤ 196 := by omega
    interval_cases m <;> decide!
  | posInf => rfl
  | negInf => rfl
  | nan => rfl

theorem quartersAutomaton_wellFormed : WellFormed quartersAutomaton := by
  refine ⟨by decide, by decide, by decide, ?_, ?_⟩ <;>
    simp [quartersAutomaton, IHypergraph.size]

theorem quartersAutomaton_acyclic : Acyclic quartersAutomaton :=
  ⟨fun s => s, by simp [quartersAutomaton, IHypergraph.size]⟩

theorem quartersAutomaton_validCosts : ValidCosts quartersAutomaton := by
  simp [ValidCosts, quartersAutomaton]

theorem quartersAutomaton_nonNegCosts : NonNegCosts quartersAutomaton := by
  intro a ha
  simp only [quartersAutomaton, List.mem_cons, List.mem_singleton, List.not_mem_nil,
    or_false] at ha
  rcases ha with rfl | rfl | rfl
  · exact ⟨1/2, rfl, by norm_num⟩
  · exact ⟨1/4, rfl, by norm_num⟩
  · exact ⟨1, rfl, by norm_num⟩

theorem quartersAutomaton_gridCosts : GridCosts quartersAutomaton (1/4) 4 := by
  intro a ha
  simp only [quartersAutomaton, List.mem_cons, List.mem_singleton, List.not_mem_nil,
    or_false] at ha
  rcases ha with rfl | rfl | rfl
  · intro q hq
    exact ⟨2, by decide, by rw [← SdlFloat.fin.inj hq]; norm_num⟩
  · intro q hq
    exact ⟨1, by decide, by rw [← SdlFloat.fin.inj hq]; norm_num⟩
  · intro q hq
    exact ⟨4, by decide, by rw [← SdlFloat.fin.inj hq]; norm_num⟩

theorem quartersAutomaton_isPath :
    IsPath quartersAutomaton quartersAutomaton.start
      [⟨1, [0], SdlFloat.fin (1/2)⟩, ⟨2, [1], SdlFloat.fin (1/4)⟩] quartersAutomaton.final := by
  simp [IsPath, quartersAutomaton, Arc.firstTail, IHypergraph.start, IHypergraph.final]

/-- C1 (amended). Let every finite arc cost of an acyclic single-tail graph with
`N` states and without `-inf` costs be a multiple of a unit `u` of at most `M`
units, and let the rounding of the arithmetic leave the special values and the
multiples of `u` of at most `(2 N + 1) M` units as they are, so that no
operation of the pass rounds. Then for every start→final path of finite cost
`q`, `PushCostsToStart` completes, reweights every arc by
`cost += outside0[head] - (tail == start ? 0 : outside0[tail])`, and the costs
of the reweighted arcs along the same path again sum to `q`. -/
theorem pushCostsToStart_exact_preserves_path_cost (rnd : SdlFloat → SdlFloat) (u : ℚ)
    (M : Nat) (hg : IHypergraph SdlFloat) (hwf : WellFormed hg) (hgr : hg.isGraph = true)
    (hac : Acyclic hg) (hv : ValidCosts hg) (hgrid : GridCosts hg u M)
    (hrnd : ExactOn rnd u ((2 * hg.sizeForHeads + 1) * M))
    (hs : hg.start ≠ kNoState) (p : List (Arc SdlFloat))
    (hp : IsPath hg hg.start p hg.final) (q : ℚ) (hq : pathCost p = SdlFloat.fin q) :
    (PushCostsToStartRounded rnd hg).error = none ∧
    (PushCostsToStartRounded rnd hg).hg.arcs_ = hg.arcs_.map (pushedArcRounded rnd hg) ∧
    pathCost (p.map (pushedArcRounded rnd hg)) = SdlFloat.fin q := by
  obtain ⟨hrun, -, harc⟩ := PushCostsToStartRounded_eq hg hgrid hrnd
  obtain ⟨h1, h2, h3⟩ := pushCostsToStart_preserves_path_cost hg hwf hgr hac hv hs p hp q hq
  rw [hrun, List.map_congr_left harc,
    List.map_congr_left (fun a ha => harc a (hp.mem_arcs a ha))]
  exact ⟨h1, h2, h3⟩

/-- Witness of C1 (amended): the automaton `0 -1/2-> 1 -1/4-> 2`, `0 -1-> 2` in
binary32 arithmetic, which is exact on the quarters that occur; the path
`0 → 1 → 2` costs `3/4` before and after. -/
theorem pushCostsToStart_exact_preserves_path_cost_witness :
    (PushCostsToStartRounded binary32.round quartersAutomaton).error = none ∧
    (PushCostsToStartRounded binary32.round quartersAutomaton).hg.arcs_ =
      quartersAutomaton.arcs_.map (pushedArcRounded binary32.round quartersAutomaton) ∧
    pathCost ([⟨1, [0], SdlFloat.fin (1/2)⟩, ⟨2, [1], SdlFloat.fin (1/4)⟩].map
      (pushedArcRounded binary32.round quartersAutomaton)) = SdlFloat.fin (3/4) :=
  pushCostsToStart_exact_preserves_path_cost binary32.round (1/4) 4 quartersAutomaton
    quartersAutomaton_wellFormed (by decide) quartersAutomaton_acyclic
    quartersAutomaton_validCosts quartersAutomaton_gridCosts
    (binary32_exact_quarters.exact_mono (by decide)) (by decide)
    [⟨1, [0], SdlFloat.fin (1/2)⟩, ⟨2, [1], SdlFloat.fin (1/4)⟩] quartersAutomaton_isPath
    (3/4) (by simp [pathCost]; norm_num)

/-- C3 (amended). Let every finite arc cost of an acyclic single-tail graph with
`N` states and without `-inf` costs be a multiple of a unit `u` of at most `M`
units, and let the rounding of the arithmetic leave the special values and the
multiples of `u` of at most `(2 N + 1) (2 N + 1) M` units as they are, so that
no operation of two passes rounds. If the graph has a start→final path of
finite cost and its start state has no in-arcs, a second `PushCostsToStart`
completes and leaves every arc with the cost the first application gave it. -/
theorem pushCostsToStart_exact_idempotent (rnd : SdlFloat → SdlFloat) (u : ℚ) (M : Nat)
    (hg : IHypergraph SdlFloat) (hwf : WellFormed hg) (hgr : hg.isGraph = true)
    (hac : Acyclic hg) (hv : ValidCosts hg) (hgrid : GridCosts hg u M)
    (hrnd : ExactOn rnd u
      ((2 * hg.sizeForHeads + 1) * ((2 * hg.sizeForHeads + 1) * M)))
    (hs : hg.start ≠ kNoState) (hin : hg.inArcs hg.start = [])
    (p : List (Arc SdlFloat)) (hp : IsPath hg hg.start p hg.final) (q : ℚ)
    (hq : pathCost p = SdlFloat.fin q) :
    (PushCostsToStartRounded rnd hg).error = none ∧
    (PushCostsToStartRounded rnd (PushCostsToStartRounded rnd hg).hg).error = none ∧
    (PushCostsToStartRounded rnd (PushCostsToStartRounded rnd hg).hg).hg.arcs_ =
      (PushCostsToStartRounded rnd hg).hg.arcs_ := by
  have hB : (2 * hg.sizeForHeads + 1) * M ≤
      (2 * hg.sizeForHeads + 1) * ((2 * hg.sizeForHeads + 1) * M) :=
    Nat.le_mul_of_pos_left _ (by omega)
  obtain ⟨hrun1, hgrid1, -⟩ := PushCostsToStartRounded_eq hg hgrid (hrnd.exact_mono hB)
  obtain ⟨hrun, -, -⟩ := pushCosts_path_facts hg hwf hgr hac hv hs p hp (pathCost_finite hq)
  have hsz : (PushCostsToStart hg).hg.sizeForHeads = hg.sizeForHeads := by rw [hrun]; rfl
  obtain ⟨hrun2, -, -⟩ := PushCostsToStartRounded_eq (PushCostsToStart hg).hg hgrid1
    (by rw [hsz]; exact hrnd)
  rw [hrun1, hrun2]
  exact pushCostsToStart_idempotent hg hwf hgr hac hv hs hin p hp q hq

/-- Witness of C3 (amended): the automaton `0 -1/2-> 1 -1/4-> 2`, `0 -1-> 2` in
binary32 arithmetic, which is exact on the quarters that occur. -/
theorem pushCostsToStart_exact_idempotent_witness :
    (PushCostsToStartRounded binary32.round quartersAutomaton).error = none ∧
    (PushCostsToStartRounded binary32.round
      (PushCostsToStartRounded binary32.round quartersAutomaton).hg).error = none ∧
    (PushCostsToStartRounded binary32.round
      (PushCostsToStartRounded binary32.round quartersAutomaton).hg).hg.arcs_ =
      (PushCostsToStartRounded binary32.round quartersAutomaton).hg.arcs_ :=
  pushCostsToStart_exact_idempotent binary32.round (1/4) 4 quartersAutomaton
    quartersAutomaton_wellFormed (by decide) quartersAutomaton_acyclic
    quartersAutomaton_validCosts quartersAutomaton_gridCosts
    (binary32_exact_quarters.exact_mono (by decide)) (by decide) (by decide)
    [⟨1, [0], SdlFloat.fin (1/2)⟩, ⟨2, [1], SdlFloat.fin (1/4)⟩] quartersAutomaton_isPath
    (3/4) (by simp [pathCost]; norm_num)

/-- C22 (amended). Let an acyclic single-tail graph with `N` states have a start
and a final state that differ, arc costs that are numbers and not negative, each
a multiple of a unit `u` of at most `M` units, and a finite `inside[final]`, and
let the rounding of the arithmetic leave the special values and the multiples of
`u` of at most `(2 N + 1) M` units as they are, so that no operation of the pass
rounds. Then `PushCostsToStart` completes and reweights every arc; every arc on
a start→final path gets a cost that is not negative; at every state other than
start and final on such a path the new costs of the out-arcs are not negative
and one of them is `0`; and the new costs of the arcs leaving the start state
are at least `inside[final]`, one of them being `inside[final]`. -/
theorem pushCostsToStart_exact_locally_normalized (rnd : SdlFloat → SdlFloat) (u : ℚ)
    (M : Nat) (hg : IHypergraph SdlFloat)
    (hstart : hg.start ≠ kNoState) (hfinal : hg.final ≠ kNoState)
    (hgr : hg.isGraph = true) (hac : Acyclic hg) (hnn : NonNegCosts hg)
    (hsf : hg.start ≠ hg.final) (hgrid : GridCosts hg u M)
    (hrnd : ExactOn rnd u ((2 * hg.sizeForHeads + 1) * M))
    (hbest : isFinite (insideCostsRounded rnd hg hg.sizeForHeads hg.final) = true) :
    (PushCostsToStartRounded rnd hg).error = none ∧
    (PushCostsToStartRounded rnd hg).hg.arcs_ = hg.arcs_.map (pushedArcRounded rnd hg) ∧
    (∀ a, ArcOnStartFinalPath hg a →
      SdlFloat.le 0 (pushedArcRounded rnd hg a).weight_ = true) ∧
    (∀ s, s ≠ hg.start → s ≠ hg.final → OnStartFinalPath hg s →
      (∃ a ∈ outArcs hg s, (pushedArcRounded rnd hg a).weight_ = 0) ∧
      ∀ a ∈ outArcs hg s, SdlFloat.le 0 (pushedArcRounded rnd hg a).weight_ = true) ∧
    (∃ a ∈ outArcs hg hg.start, (pushedArcRounded rnd hg a).weight_ =
      insideCostsRounded rnd hg hg.sizeForHeads hg.final) ∧
    ∀ a ∈ outArcs hg hg.start,
      SdlFloat.le (insideCostsRounded rnd hg hg.sizeForHeads hg.final)
        (pushedArcRounded rnd hg a).weight_ = true := by
  obtain ⟨hrun, -, harc⟩ := PushCostsToStartRounded_eq hg hgrid hrnd
  have hin : insideCostsRounded rnd hg hg.sizeForHeads = insideCosts hg hg.sizeForHeads :=
    (insideCostsAuxRounded_eq hg hgrid hrnd hg.sizeForHeads
      (le_trans (by omega) (push_bound hg.sizeForHeads M))).1
  rw [hin] at hbest ⊢
  obtain ⟨h1, h2, h3, h4, h5, h6⟩ :=
    pushCostsToStart_locally_normalized hg hstart hfinal hgr hac hnn hsf hbest
  have hout : ∀ s, ∀ a ∈ outArcs hg s, pushedArcRounded rnd hg a = pushedArc hg a :=
    fun s a ha => harc a (mem_outArcs.1 ha).1
  rw [hrun, List.map_congr_left harc]
  refine ⟨h1, h2, ?_, ?_, ?_, ?_⟩
  · intro a ha
    rw [harc a ha.1]
    exact h3 a ha
  · intro s hs1 hs2 hs3
    obtain ⟨⟨a, ha, hw⟩, hall⟩ := h4 s hs1 hs2 hs3
    refine ⟨⟨a, ha, by rw [hout s a ha]; exact hw⟩, fun b hb => ?_⟩
    rw [hout s b hb]
    exact hall b hb
  · obtain ⟨a, ha, hw⟩ := h5
    exact ⟨a, ha, by rw [hout _ a ha]; exact hw⟩
  · intro a ha
    rw [hout _ a ha]
    exact h6 a ha

/-- Witness of C22 (amended): the automaton `0 -1/2-> 1 -1/4-> 2`, `0 -1-> 2` in
binary32 arithmetic: the reweighting completes, and an arc leaving the start
state gets the cost `inside[final] = 3/4`. -/
theorem pushCostsToStart_exact_locally_normalized_witness :
    insideCostsRounded binary32.round quartersAutomaton quartersAutomaton.sizeForHeads
      quartersAutomaton.final = SdlFloat.fin (3/4) ∧
    (PushCostsToStartRounded binary32.round quartersAutomaton).error = none ∧
    ∃ a ∈ outArcs quartersAutomaton quartersAutomaton.start,
      (pushedArcRounded binary32.round quartersAutomaton a).weight_ =
        insideCostsRounded binary32.round quartersAutomaton quartersAutomaton.sizeForHeads
          quartersAutomaton.final :=
  ⟨by decide!,
   (pushCostsToStart_exact_locally_normalized binary32.round (1/4) 4 quartersAutomaton
      (by decide) (by decide) (by decide) quartersAutomaton_acyclic
      quartersAutomaton_nonNegCosts (by decide) quartersAutomaton_gridCosts
      (binary32_exact_quarters.exact_mono (by decide)) (by decide!)).1,
   (pushCostsToStart_exact_locally_normalized binary32.round (1/4) 4 quartersAutomaton
      (by decide) (by decide) (by decide) quartersAutomaton_acyclic
      quartersAutomaton_nonNegCosts (by decide) quartersAutomaton_gridCosts
      (binary32_exact_quarters.exact_mono (by decide)) (by decide!)).2.2.2.2.1⟩

end Hyp
